import Mathlib

/-!
# Bit buffer and bit parser of the `ilo` library

A shallow embedding of `ilo::CBitParser` (src/include/ilo/bitparser.h,
src/src/bitparser.cpp) and `ilo::CBitBuffer` (src/include/ilo/bitbuffer.h,
src/src/bitbuffer.cpp), followed by theorems about them.

Conventions of the embedding:

* a byte is a natural number below 256, a byte region is a `List Nat`;
* `uint32_t`, `uint16_t` and `uint8_t` arithmetic is arithmetic on `Nat` reduced
  modulo `2^32`, `2^16`, `2^8` at the places where the C++ code computes in that type;
  `int32_t` arithmetic is arithmetic on `Int` reduced to the two's-complement range;
* `size_t` products (`m_extBufferSizeBytes * 8u`) are computed without reduction;
* a shift count written `8 - x` or `16 - x` is computed with truncated subtraction; the
  counts are below the operand width in all states in which the sub-byte offset is in its
  range (at most 8 in the reader, at most 7 in the writer);
* a member function takes the object as its first argument and returns a pair: the value
  returned or the exception thrown (`Except Exc _`), and the object as the call leaves it,
  also when the call throws;
* reading or writing a byte outside the byte region (undefined behaviour in C++) is
  reported as `Exc.OutOfBounds`;
* a template `read<T>`, `write<T>` is a function of the bit width `W` of `T`, with one
  function for unsigned and one for signed result types.
-/

namespace ilo

/-! ## Shared definitions (bittool_utils.h) -/

/-- Position type of `seek` (`enum class EPosType`). -/
inductive EPosType where
  | begin
  | end_
  | cur
  deriving DecidableEq, Repr

/-- Exception kinds of bittool_utils.h, `RuntimeError` for the plain `ILO_ASSERT`
(`std::runtime_error`), and `OutOfBounds` for a byte access outside the byte region. -/
inductive Exc where
  | ReadException
  | WriteException
  | AppendException
  | InsertException
  | SeekException
  | EraseException
  | ReserveException
  | RuntimeError
  | OutOfBounds
  deriving DecidableEq, Repr

/-- Reduction to `uint32_t`. -/
def u32 (x : Nat) : Nat := x % 4294967296

/-- Reduction to `uint16_t`. -/
def u16 (x : Nat) : Nat := x % 65536

/-- Reduction to `uint8_t`. -/
def u8 (x : Nat) : Nat := x % 256

/-- Subtraction `a - b` in `uint32_t` (operands below `2^32`). -/
def sub32 (a b : Nat) : Nat := (a + 4294967296 - b) % 4294967296

/-- Conversion `static_cast<int32_t>(x)` of a `uint32_t` value (two's complement). -/
def toInt32 (x : Nat) : Int :=
  if x % 4294967296 < 2147483648 then ((x % 4294967296 : Nat) : Int)
  else ((x % 4294967296 : Nat) : Int) - 4294967296

/-- Reduction of an integer to the `int32_t` range (two's complement wrap-around). -/
def wrapInt32 (z : Int) : Int := (z + 2147483648) % 4294967296 - 2147483648

/-- Byte `buf[i]`; an index outside the region is reported as `OutOfBounds`. -/
def getByte (buf : List Nat) (i : Nat) : Except Exc Nat :=
  if i < buf.length then .ok (buf.getD i 0) else .error Exc.OutOfBounds

/-- Assignment `buf[i] = v`; an index outside the region is reported as `OutOfBounds`. -/
def setByte (buf : List Nat) (i v : Nat) : Except Exc (List Nat) :=
  if i < buf.length then .ok (buf.set i v) else .error Exc.OutOfBounds

/-- The call `std::vector<uint8_t>::resize(n)`: truncates, or appends zero bytes. -/
def vecResize (buf : List Nat) (n : Nat) : List Nat :=
  buf.take n ++ List.replicate (n - buf.length) 0

/-! ## CBitParser -/

/-- Data members of `CBitParser`; `m_buffer` is the byte region behind the pointer. -/
structure CBitParser where
  m_buffer : List Nat
  m_readIter : Nat
  m_localReadBits : Nat
  m_nofValidBits : Nat
  deriving DecidableEq, Repr

namespace CBitParser

/-- Constructor `CBitParser(uint8_t* buffer, uint32_t nofValidBits)`. -/
def mk_ptr (buffer : List Nat) (nofValidBits : Nat) : CBitParser :=
  { m_buffer := buffer, m_readIter := 0, m_localReadBits := 0, m_nofValidBits := nofValidBits }

/-- Member `nofBits()`. -/
def nofBits (p : CBitParser) : Nat := p.m_nofValidBits

/-- Member `nofReadBits()`: `(m_readIter << 3) + m_localReadBits`. -/
def nofReadBits (p : CBitParser) : Nat := u32 (u32 (p.m_readIter <<< 3) + p.m_localReadBits)

/-- Member `tell()`. -/
def tell (p : CBitParser) : Nat := p.nofReadBits

/-- Member `nofBitsLeft()`: `nofBits() - nofReadBits()`. -/
def nofBitsLeft (p : CBitParser) : Nat := sub32 p.nofBits p.nofReadBits

/-- Member `readUint8(nnofBits)`. -/
def readUint8 (p : CBitParser) (nnofBits : Nat) : Except Exc Nat × CBitParser :=
  if ¬ (nnofBits ≤ 8 ∧ nnofBits > 0) then (.error Exc.ReadException, p)
  else if ¬ (p.m_nofValidBits ≥ u32 (u32 (u32 (p.m_readIter <<< 3) + p.m_localReadBits) + nnofBits)) then
    (.error Exc.ReadException, p)
  else
    let result : Except Exc Nat :=
      if u32 (p.m_localReadBits + nnofBits) ≤ 8 then do
        let mask := u8 (0xFF >>> p.m_localReadBits)
        let b ← getByte p.m_buffer p.m_readIter
        let result := u8 (b &&& mask)
        pure (u8 (result >>> (8 - (nnofBits + p.m_localReadBits))))
      else do
        let mask := u16 (0xFFFF >>> p.m_localReadBits)
        let b0 ← getByte p.m_buffer p.m_readIter
        let b1 ← getByte p.m_buffer (p.m_readIter + 1)
        let shiftBuffer := u16 ((u16 b0 <<< 8) ||| b1)
        let shiftBuffer := shiftBuffer &&& mask
        let shiftBuffer := shiftBuffer >>> (16 - (nnofBits + p.m_localReadBits))
        pure (u8 shiftBuffer)
    match result with
    | .error e => (.error e, p)
    | .ok result =>
      let l := u32 (p.m_localReadBits + nnofBits)
      if l > 8 then
        (.ok result, { p with m_localReadBits := sub32 l 8, m_readIter := u32 (p.m_readIter + 1) })
      else
        (.ok result, { p with m_localReadBits := l })

/-- The instance `read<uint8_t>(nnofBits)`: bounds check, zero-width case, then
`unsigned_read<uint8_t>`, which is `readUint8`. -/
def read_uint8 (p : CBitParser) (nnofBits : Nat) : Except Exc Nat × CBitParser :=
  if ¬ (nnofBits ≤ p.nofBitsLeft) then (.error Exc.ReadException, p)
  else if nnofBits = 0 then (.ok 0, p)
  else p.readUint8 nnofBits

/-- The loop `while (bitCounter >= 8)` of `unsigned_read<T>`, for `T` of `W` bits. -/
def unsigned_read_loop (W : Nat) : Nat → Nat → CBitParser → Except Exc Nat × CBitParser
  | bitCounter + 8, result, p =>
    match p.read_uint8 8 with
    | (.error e, p1) => (.error e, p1)
    | (.ok b, p1) => unsigned_read_loop W bitCounter (((result <<< 8) ||| b) % 2 ^ W) p1
  | _, result, p => (.ok result, p)

/-- Member `unsigned_read<T>(nnofBits)` for an unsigned `T` of `W` bits (`W = 8` is `uint8_t`). -/
def unsigned_read (W : Nat) (p : CBitParser) (nnofBits : Nat) : Except Exc Nat × CBitParser :=
  if W = 8 then p.readUint8 nnofBits
  else if ¬ (nnofBits ≤ W) then (.error Exc.ReadException, p)
  else
    let nonAlignedBits := nnofBits % 8
    match p.read_uint8 nonAlignedBits with
    | (.error e, p1) => (.error e, p1)
    | (.ok result, p1) => unsigned_read_loop W (nnofBits - nonAlignedBits) result p1

/-- Member `read<T>(nnofBits)` for an unsigned `T` of `W` bits. -/
def read_unsigned (W : Nat) (p : CBitParser) (nnofBits : Nat) : Except Exc Nat × CBitParser :=
  if ¬ (nnofBits ≤ p.nofBitsLeft) then (.error Exc.ReadException, p)
  else if nnofBits = 0 then (.ok 0, p)
  else p.unsigned_read W nnofBits

/-- Value of the `W`-bit two's-complement pattern `x` as a signed integer. -/
def toSigned (W : Nat) (x : Nat) : Int :=
  if x % 2 ^ W < 2 ^ (W - 1) then ((x % 2 ^ W : Nat) : Int) else ((x % 2 ^ W : Nat) : Int) - 2 ^ W

/-- Member `signed_read<T>(nnofBits)` for a signed `T` of `W` bits; the result is the
bit pattern of `tmpRead`, which `read_signed` turns into the signed value. For
`nnofBits - 1 ≥ 64` the shift that builds `mask` is undefined in C++ and `mask` gets the
value of the shift reduced to 64 bits; the read that follows then throws and `mask` is not
used. -/
def signed_read (W : Nat) (p : CBitParser) (nnofBits : Nat) : Except Exc Nat × CBitParser :=
  if nnofBits = 0 then (.ok 0, p)
  else
    let mask := ((0xFFFFFFFFFFFFFFFF <<< u32 (nnofBits - 1)) % 2 ^ 64) % 2 ^ W
    match p.read_unsigned W nnofBits with
    | (.error e, p1) => (.error e, p1)
    | (.ok tmpRead, p1) =>
      if (tmpRead &&& mask) ≠ 0 then (.ok ((tmpRead ||| mask) % 2 ^ W), p1)
      else (.ok tmpRead, p1)

/-- Member `read<T>(nnofBits)` for a signed `T` of `W` bits. -/
def read_signed (W : Nat) (p : CBitParser) (nnofBits : Nat) : Except Exc Int × CBitParser :=
  if ¬ (nnofBits ≤ p.nofBitsLeft) then (.error Exc.ReadException, p)
  else if nnofBits = 0 then (.ok 0, p)
  else
    match p.signed_read W nnofBits with
    | (.error e, p1) => (.error e, p1)
    | (.ok r, p1) => (.ok (toSigned W r), p1)

/-- Member `seek(bitposition, fromPosition)`; `bitposition` is an `int32_t` value. -/
def seek (p : CBitParser) (bitposition : Int) (fromPosition : EPosType) :
    Except Exc Unit × CBitParser :=
  let bitOffset : Int :=
    match fromPosition with
    | EPosType.begin => bitposition
    | EPosType.cur =>
      wrapInt32 (wrapInt32 (toInt32 p.m_localReadBits + bitposition) + toInt32 (u32 (p.m_readIter <<< 3)))
    | EPosType.end_ => wrapInt32 (toInt32 p.m_nofValidBits + bitposition)
  if ¬ (bitOffset ≥ 0) then (.error Exc.SeekException, p)
  else
    let absoluteBitPosition := bitOffset.toNat
    if ¬ (absoluteBitPosition ≤ p.m_nofValidBits) then (.error Exc.SeekException, p)
    else (.ok (), { p with m_readIter := absoluteBitPosition >>> 3,
                           m_localReadBits := absoluteBitPosition &&& 0x07 })

end CBitParser

/-! ## CBitBuffer -/

/-- Data members of `CBitBuffer`. `m_buffer` is the byte region behind the pointer
`m_buffer`: the caller's region in external mode and the vector `m_internalBuffer`
(to whose data the constructors and every `m_internalBuffer.resize` set the pointer) in
self-owned mode, where `m_internalBuffer.size()` is the length of the list. The copy
constructor, which copies the pointer of its argument, and the member `reserve`, after which
the pointer can designate released storage, are not part of the embedding. -/
structure CBitBuffer where
  m_useExtBuffer : Bool
  m_buffer : List Nat
  m_extBufferSizeBytes : Nat
  m_writeIterBytes : Nat
  m_localWriteBits : Nat
  m_nofvalidBits : Nat
  deriving DecidableEq, Repr

namespace CBitBuffer

/-- Constructor `CBitBuffer(uint32_t initLengthInBytes)`: self-owned storage. -/
def mk_internal (initLengthInBytes : Nat) : CBitBuffer :=
  { m_useExtBuffer := false, m_buffer := List.replicate initLengthInBytes 0,
    m_extBufferSizeBytes := 0, m_writeIterBytes := 0, m_localWriteBits := 0, m_nofvalidBits := 0 }

/-- Constructor `CBitBuffer(uint8_t* buffer, size_t sizeBytes, uint32_t nofValidBits)`,
also `CBitBuffer(ByteBuffer& externalBuffer, uint32_t nofValidBits)` with
`sizeBytes = externalBuffer.size()`. -/
def mk_external (buffer : List Nat) (sizeBytes : Nat) (nofValidBits : Nat) : CBitBuffer :=
  { m_useExtBuffer := true, m_buffer := buffer,
    m_extBufferSizeBytes := sizeBytes, m_writeIterBytes := 0, m_localWriteBits := 0,
    m_nofvalidBits := nofValidBits }

/-- Member `nofBits()`. -/
def nofBits (s : CBitBuffer) : Nat := s.m_nofvalidBits

/-- Member `tell()`: `m_writeIterBytes * 8 + m_localWriteBits`. -/
def tell (s : CBitBuffer) : Nat := u32 (u32 (s.m_writeIterBytes * 8) + s.m_localWriteBits)

/-- Member `writeIntern(toWrite, nnofBits)`. After an access outside the byte region the
state is not meaningful; the state before the byte assignments is returned. -/
def writeIntern (s : CBitBuffer) (toWrite nnofBits : Nat) : Except Exc Unit × CBitBuffer :=
  if ¬ (nnofBits ≤ 8) then (.error Exc.WriteException, s)
  else if nnofBits = 0 then (.ok (), s)
  else
    let neededMemoryBits := u32 (s.tell + nnofBits)
    if s.m_useExtBuffer ∧ ¬ (s.m_extBufferSizeBytes * 8 ≥ neededMemoryBits) then
      (.error Exc.WriteException, s)
    else
      let buf :=
        if ¬ s.m_useExtBuffer ∧ s.m_buffer.length * 8 < neededMemoryBits then
          vecResize s.m_buffer (u32 (neededMemoryBits + 7) / 8)
        else s.m_buffer
      let shiftvalue := sub32 (sub32 16 s.m_localWriteBits) nnofBits
      let mask := u16 (0xFF >>> (8 - nnofBits))
      let mask := u16 (mask <<< shiftvalue)
      let mask := 0xFFFF ^^^ mask
      let shiftBuffer := u16 (u32 ((toWrite &&& (0xFF >>> (8 - nnofBits))) <<< shiftvalue))
      let l := u32 (s.m_localWriteBits + nnofBits)
      let bytes : Except Exc (List Nat) := do
        let b ← getByte buf s.m_writeIterBytes
        let buf ← setByte buf s.m_writeIterBytes (u8 (b &&& (mask >>> 8)))
        let b ← getByte buf s.m_writeIterBytes
        let buf ← setByte buf s.m_writeIterBytes (u8 (b ||| (shiftBuffer >>> 8)))
        if ((0xFFFF ^^^ mask) &&& 0xFF) ≠ 0 then do
          let b ← getByte buf (s.m_writeIterBytes + 1)
          let buf ← setByte buf (s.m_writeIterBytes + 1) (u8 (b &&& (mask &&& 0xFF)))
          let b ← getByte buf (s.m_writeIterBytes + 1)
          setByte buf (s.m_writeIterBytes + 1) (u8 (b ||| (shiftBuffer &&& 0xFF)))
        else pure buf
      match bytes with
      | .error e => (.error e, { s with m_buffer := buf })
      | .ok buf1 =>
        let s1 : CBitBuffer :=
          { s with m_buffer := buf1, m_writeIterBytes := u32 (s.m_writeIterBytes + l / 8),
                   m_localWriteBits := l % 8 }
        (.ok (), { s1 with m_nofvalidBits := max s1.tell s1.m_nofvalidBits })

/-- The loop `while (bitCounter >= 8u)` of `write<T>`. -/
def write_loop (toWrite : Nat) : Nat → CBitBuffer → Except Exc Unit × CBitBuffer
  | bitCounter + 8, s =>
    match s.writeIntern (u8 (0xFF &&& (toWrite >>> bitCounter))) 8 with
    | (.error e, s1) => (.error e, s1)
    | (.ok _, s1) => write_loop toWrite bitCounter s1
  | _, s => (.ok (), s)

/-- Member `write<T>(toWrite, nnofBits)` for an unsigned `T` of `W` bits. -/
def write (W : Nat) (s : CBitBuffer) (toWrite nnofBits : Nat) : Except Exc Unit × CBitBuffer :=
  if s.m_useExtBuffer ∧ ¬ (s.m_extBufferSizeBytes * 8 ≥ u32 (s.tell + nnofBits)) then
    (.error Exc.WriteException, s)
  else if ¬ (W ≥ nnofBits) then (.error Exc.WriteException, s)
  else
    let nonAlignedBits := nnofBits &&& 0x07
    let writer := if nnofBits = W then 0 else u8 (toWrite >>> (nnofBits - nonAlignedBits))
    match s.writeIntern writer nonAlignedBits with
    | (.error e, s1) => (.error e, s1)
    | (.ok _, s1) => write_loop toWrite (nnofBits - nonAlignedBits) s1

/-- Member `seek(bitposition, fromPosition)`; `bitposition` is an `int32_t` value. -/
def seek (s : CBitBuffer) (bitposition : Int) (fromPosition : EPosType) :
    Except Exc Unit × CBitBuffer :=
  let bitOffset : Int :=
    match fromPosition with
    | EPosType.begin => bitposition
    | EPosType.cur =>
      wrapInt32 (wrapInt32 (toInt32 s.m_localWriteBits + bitposition) +
        toInt32 (u32 (s.m_writeIterBytes <<< 3)))
    | EPosType.end_ => wrapInt32 (toInt32 s.nofBits + bitposition)
  if ¬ (bitOffset ≥ 0) then (.error Exc.SeekException, s)
  else
    let absoluteBitPosition := bitOffset.toNat
    if ¬ (absoluteBitPosition ≤ s.nofBits) then (.error Exc.SeekException, s)
    else (.ok (), { s with m_writeIterBytes := absoluteBitPosition >>> 3,
                           m_localWriteBits := absoluteBitPosition &&& 0x07 })

end CBitBuffer

end ilo

namespace ilo

/-! ## CBitBuffer: resize, append, insert, erase -/

/-- The loop `for (size_t i = newIter; i < m_extBufferSizeBytes; i++) m_buffer[i] = 0;` of
`resize`: the bytes `newIter .. extSize - 1` become 0. -/
def zeroBytes (buf : List Nat) (newIter extSize : Nat) : Except Exc (List Nat) :=
  if newIter < extSize then
    if extSize ≤ buf.length then
      .ok (buf.take newIter ++ List.replicate (extSize - newIter) 0 ++ buf.drop extSize)
    else .error Exc.OutOfBounds
  else .ok buf

/-- The loop shared by `insert` and `erase` (four occurrences):
`while (toReadBits > 0) { chunk = std::min(8u, toReadBits); reader = parser.read<uint8_t>(chunk);
writer.write(reader, chunk); toReadBits -= chunk; }`. A count of at least 8 takes a chunk of
8 bits and continues with 8 less; a count from 1 to 7 takes one chunk of that size and
ends the loop. The result carries the parser and the writer as the loop leaves them. -/
def copy_loop : Nat → CBitParser → CBitBuffer → Except Exc Unit × CBitParser × CBitBuffer
  | toReadBits + 8, parser, writer =>
    match parser.read_unsigned 8 8 with
    | (.error e, parser1) => (.error e, parser1, writer)
    | (.ok reader, parser1) =>
      match writer.write 8 reader 8 with
      | (.error e, writer1) => (.error e, parser1, writer1)
      | (.ok _, writer1) => copy_loop toReadBits parser1 writer1
  | toReadBits, parser, writer =>
    if toReadBits > 0 then
      match parser.read_unsigned 8 (min 8 toReadBits) with
      | (.error e, parser1) => (.error e, parser1, writer)
      | (.ok reader, parser1) =>
        match writer.write 8 reader (min 8 toReadBits) with
        | (.error e, writer1) => (.error e, parser1, writer1)
        | (.ok _, writer1) => (.ok (), parser1, writer1)
    else (.ok (), parser, writer)

namespace CBitBuffer

/-- Member `bufferPtr()`: the byte region (the internal vector or the external region). -/
def bufferPtr (s : CBitBuffer) : List Nat := s.m_buffer

/-- Member `nofBytes()`: `(m_nofvalidBits + 7u) >> 3u`. -/
def nofBytes (s : CBitBuffer) : Nat := u32 (s.m_nofvalidBits + 7) >>> 3

/-- The loop `while (nnofBitsToAdd > 0)` of `resize`, which writes zero bits in chunks of
at most 8: a count of at least 8 writes 8 bits and continues with 8 less, a count from 1
to 7 writes that many bits and ends the loop. -/
def resize_loop : Nat → CBitBuffer → Except Exc Unit × CBitBuffer
  | nnofBitsToAdd + 8, s =>
    match s.write 8 0 8 with
    | (.error e, s1) => (.error e, s1)
    | (.ok _, s1) => resize_loop nnofBitsToAdd s1
  | nnofBitsToAdd, s =>
    if nnofBitsToAdd > 0 then s.write 8 0 (min 8 nnofBitsToAdd) else (.ok (), s)

/-- The last two statements of `resize`: `m_nofvalidBits = newSizeInBits;` and
`seek(static_cast<int32_t>(std::min(writeIterPos, m_nofvalidBits)), EPosType::begin);`. -/
def resize_finish (s : CBitBuffer) (writeIterPos newSizeInBits : Nat) :
    Except Exc Unit × CBitBuffer :=
  let s1 : CBitBuffer := { s with m_nofvalidBits := newSizeInBits }
  s1.seek (toInt32 (min writeIterPos s1.m_nofvalidBits)) EPosType.begin

/-- Member `resize(newSizeInBits)`. -/
def resize (s : CBitBuffer) (newSizeInBits : Nat) : Except Exc Unit × CBitBuffer :=
  let writeIterPos := s.tell
  if newSizeInBits > s.nofBits then
    match s.seek 0 EPosType.end_ with
    | (.error e, s1) => (.error e, s1)
    | (.ok _, s1) =>
      if s1.m_useExtBuffer ∧ ¬ (s1.m_extBufferSizeBytes * 8 ≥ newSizeInBits) then
        (.error Exc.RuntimeError, s1)
      else
        let s2 : CBitBuffer :=
          if s1.m_useExtBuffer then s1
          else { s1 with m_buffer := vecResize s1.m_buffer (u32 (newSizeInBits + 7) / 8) }
        let nnofBitsToAdd := sub32 newSizeInBits s2.nofBits
        match resize_loop nnofBitsToAdd s2 with
        | (.error e, s3) => (.error e, s3)
        | (.ok _, s3) => resize_finish s3 writeIterPos newSizeInBits
  else if newSizeInBits < s.nofBits then
    let newIter := newSizeInBits >>> 3
    let newSizeInBytes := u32 (newSizeInBits + 7) >>> 3
    let masked : Except Exc (List Nat × Nat) :=
      if newSizeInBits % 8 ≠ 0 then do
        let overhead := 8 - newSizeInBits % 8
        let mask := u8 (0xFF <<< overhead)
        let b ← getByte s.m_buffer newIter
        let buf ← setByte s.m_buffer newIter (b &&& mask)
        pure (buf, u32 (newIter + 1))
      else pure (s.m_buffer, newIter)
    match masked with
    | .error e => (.error e, s)
    | .ok (buf, newIter) =>
      if s.m_useExtBuffer then
        match zeroBytes buf newIter s.m_extBufferSizeBytes with
        | .error e => (.error e, { s with m_buffer := buf })
        | .ok buf1 => resize_finish { s with m_buffer := buf1 } writeIterPos newSizeInBits
      else if buf.length ≠ newSizeInBytes then
        resize_finish { s with m_buffer := vecResize buf newSizeInBytes } writeIterPos newSizeInBits
      else resize_finish { s with m_buffer := buf } writeIterPos newSizeInBits
  else resize_finish s writeIterPos newSizeInBits

/-- The loop `for (const uint8_t& toWrite : toAppend) write(toWrite, 8u);` of `append`. -/
def append_loop : List Nat → CBitBuffer → Except Exc Unit × CBitBuffer
  | [], s => (.ok (), s)
  | toWrite :: rest, s =>
    match s.write 8 toWrite 8 with
    | (.error e, s1) => (.error e, s1)
    | (.ok _, s1) => append_loop rest s1

/-- Member `append(toAppend)`. -/
def append (s : CBitBuffer) (toAppend : List Nat) : Except Exc Unit × CBitBuffer :=
  if s.m_useExtBuffer ∧ ¬ (s.m_extBufferSizeBytes * 8 ≥ s.nofBits + toAppend.length * 8) then
    (.error Exc.AppendException, s)
  else
    let writePosBeforeBits := s.tell
    let writePosBeforeBits :=
      if writePosBeforeBits = s.nofBits then u32 (writePosBeforeBits + u8 toAppend.length * 8)
      else writePosBeforeBits
    match s.seek 0 EPosType.end_ with
    | (.error e, s1) => (.error e, s1)
    | (.ok _, s1) =>
      match append_loop toAppend s1 with
      | (.error e, s2) => (.error e, s2)
      | (.ok _, s2) => s2.seek (toInt32 writePosBeforeBits) EPosType.begin

/-- Member `insert<T>(toInsert, before, nnofBits)` for an unsigned `T` of `W` bits. The
local objects `parser`, `tmpBuffer` and `tmpParser` read the storage of the writer before the
writer is changed, or the storage of `tmpBuffer`. -/
def insert (W : Nat) (s : CBitBuffer) (toInsert before nnofBits : Nat) :
    Except Exc Unit × CBitBuffer :=
  if ¬ (before ≤ s.nofBits) then (.error Exc.InsertException, s)
  else if s.m_useExtBuffer ∧ ¬ (s.m_extBufferSizeBytes * 8 ≥ u32 (s.nofBits + nnofBits)) then
    (.error Exc.InsertException, s)
  else
    let writePosBefore := s.tell
    let toReadBits := sub32 s.nofBits before
    let parser := CBitParser.mk_ptr (s.m_buffer.drop (before >>> 3)) (u32 (toReadBits + before % 8))
    match parser.seek (toInt32 (before % 8)) EPosType.begin with
    | (.error e, _) => (.error e, s)
    | (.ok _, parser) =>
      match copy_loop toReadBits parser (mk_internal 0) with
      | (.error e, _, _) => (.error e, s)
      | (.ok _, _, tmpBuffer) =>
        match s.resize before with
        | (.error e, s1) => (.error e, s1)
        | (.ok _, s1) =>
          match s1.seek 0 EPosType.end_ with
          | (.error e, s2) => (.error e, s2)
          | (.ok _, s2) =>
            match s2.write W toInsert nnofBits with
            | (.error e, s3) => (.error e, s3)
            | (.ok _, s3) =>
              let tmpParser := CBitParser.mk_ptr tmpBuffer.bufferPtr tmpBuffer.nofBits
              let writtenBits := tmpBuffer.nofBits
              match copy_loop writtenBits tmpParser s3 with
              | (.error e, _, s4) => (.error e, s4)
              | (.ok _, _, s4) =>
                if writePosBefore < before then
                  s4.seek (toInt32 writePosBefore) EPosType.begin
                else if writePosBefore ≥ before then
                  s4.seek (toInt32 (u32 (writePosBefore + nnofBits))) EPosType.begin
                else (.ok (), s4)

/-- Member `erase(firstBit, nnofBits)`. -/
def erase (s : CBitBuffer) (firstBit nnofBits : Nat) : Except Exc Unit × CBitBuffer :=
  let writePosBeforeBit := s.tell
  let lastBit := u32 (firstBit + nnofBits)
  if ¬ (lastBit ≤ s.nofBits) then (.error Exc.EraseException, s)
  else
    let parser := CBitParser.mk_ptr s.m_buffer s.nofBits
    match parser.seek (toInt32 lastBit) EPosType.begin with
    | (.error e, _) => (.error e, s)
    | (.ok _, parser) =>
      let toReadBits := sub32 s.nofBits lastBit
      match copy_loop toReadBits parser (mk_internal 0) with
      | (.error e, _, _) => (.error e, s)
      | (.ok _, _, tmpBuffer) =>
        match s.resize firstBit with
        | (.error e, s1) => (.error e, s1)
        | (.ok _, s1) =>
          match s1.seek 0 EPosType.end_ with
          | (.error e, s2) => (.error e, s2)
          | (.ok _, s2) =>
            let tmpParser := CBitParser.mk_ptr tmpBuffer.bufferPtr tmpBuffer.nofBits
            let toReadBits := tmpBuffer.tell
            match copy_loop toReadBits tmpParser s2 with
            | (.error e, _, s3) => (.error e, s3)
            | (.ok _, _, s3) =>
              if writePosBeforeBit < firstBit then
                s3.seek (toInt32 writePosBeforeBit) EPosType.begin
              else if writePosBeforeBit ≥ lastBit then
                s3.seek (toInt32 (sub32 writePosBeforeBit nnofBits)) EPosType.begin
              else s3.seek (toInt32 firstBit) EPosType.begin

end CBitBuffer

end ilo

namespace ilo

/-! ## CBitParser: sized constructors and accessors -/

namespace CBitParser

/-- Constructor `CBitParser(const ByteBuffer& externalBuffer, uint32_t nofValidBits)`, also
`CBitParser(begin, size, nofValidBits)` and `CBitParser(begin, end, nofValidBits)` with
`externalBuffer` the bytes from `begin` on and `size = end - begin` its length: for
`nofValidBits == 0` the number of valid bits is `static_cast<uint32_t>(size) * 8`. -/
def mk_buffer (externalBuffer : List Nat) (nofValidBits : Nat) : CBitParser :=
  { m_buffer := externalBuffer, m_readIter := 0, m_localReadBits := 0,
    m_nofValidBits :=
      if nofValidBits = 0 then u32 (u32 externalBuffer.length * 8) else nofValidBits }

/-- Member `nofBytes()`: `(m_nofValidBits + 7) >> 3`. -/
def nofBytes (p : CBitParser) : Nat := u32 (p.m_nofValidBits + 7) >>> 3

/-- Member `eof()`: `nofReadBits() >= m_nofValidBits`. -/
def eof (p : CBitParser) : Bool := decide (p.nofReadBits ≥ p.m_nofValidBits)

end CBitParser

/-! ## CBitBuffer: byteAlign -/

namespace CBitBuffer

/-- Member `byteAlign()`: for a sub-byte offset other than 0, `8 - m_localWriteBits` zero
bits are written with `write<uint8_t>`. -/
def byteAlign (s : CBitBuffer) : Except Exc Unit × CBitBuffer :=
  if s.m_localWriteBits % 8 ≠ 0 then s.write 8 0x00 (sub32 8 s.m_localWriteBits)
  else (.ok (), s)

end CBitBuffer

/-! ## Byte buffer tools (bytebuffertools.cpp) -/

/-- The exception `std::out_of_range` thrown by the byte buffer tools. -/
inductive StdExc where
  | out_of_range
  deriving DecidableEq, Repr

/-- The byte `*(position + k)` of a byte buffer; `position` is the offset of the iterator
from `buffer.begin()`. The functions below use it after their bounds check. -/
def byteAtPos (buffer : List Nat) (position : Int) (k : Nat) : Nat :=
  buffer.getD (position + k).toNat 0

/-- The assignment `*(position + k) = v` in a byte buffer. -/
def setAtPos (buffer : List Nat) (position : Int) (k : Nat) (v : Nat) : List Nat :=
  buffer.set (position + k).toNat v

/-- Function `readUint8(buffer, position)`: the value read and the position afterwards. -/
def readUint8 (buffer : List Nat) (position : Int) : Except StdExc Nat × Int :=
  if 0 > position ∨ (buffer.length : Int) - position < 1 then
    (.error StdExc.out_of_range, position)
  else (.ok (byteAtPos buffer position 0), position + 1)

/-- Function `readUint16(buffer, position)`. -/
def readUint16 (buffer : List Nat) (position : Int) : Except StdExc Nat × Int :=
  if 0 > position ∨ (buffer.length : Int) - position < 2 then
    (.error StdExc.out_of_range, position)
  else
    (.ok (u16 ((byteAtPos buffer position 0 <<< 8) ||| byteAtPos buffer position 1)),
      position + 2)

/-- Function `readUint24(buffer, position)`. -/
def readUint24 (buffer : List Nat) (position : Int) : Except StdExc Nat × Int :=
  if 0 > position ∨ (buffer.length : Int) - position < 3 then
    (.error StdExc.out_of_range, position)
  else
    (.ok (u32 ((byteAtPos buffer position 0 <<< 16) ||| (byteAtPos buffer position 1 <<< 8)
        ||| byteAtPos buffer position 2)),
      position + 3)

/-- Function `readUint32(buffer, position)`; the `int` value of the shifted bytes is
converted to `uint32_t`. -/
def readUint32 (buffer : List Nat) (position : Int) : Except StdExc Nat × Int :=
  if 0 > position ∨ (buffer.length : Int) - position < 4 then
    (.error StdExc.out_of_range, position)
  else
    (.ok (u32 ((byteAtPos buffer position 0 <<< 24) ||| (byteAtPos buffer position 1 <<< 16)
        ||| (byteAtPos buffer position 2 <<< 8) ||| byteAtPos buffer position 3)),
      position + 4)

/-- Function `readUint64(buffer, position)`: two calls of `readUint32`. -/
def readUint64 (buffer : List Nat) (position : Int) : Except StdExc Nat × Int :=
  match readUint32 buffer position with
  | (.error e, position1) => (.error e, position1)
  | (.ok highValue, position1) =>
    match readUint32 buffer position1 with
    | (.error e, position2) => (.error e, position2)
    | (.ok lowValue, position2) => (.ok ((highValue <<< 32) ||| lowValue), position2)

/-- Function `writeUint8(buffer, position, valueToWrite)`: the buffer and the position
afterwards. -/
def writeUint8 (buffer : List Nat) (position : Int) (valueToWrite : Nat) :
    Except StdExc Unit × List Nat × Int :=
  if 0 > position ∨ (buffer.length : Int) - position < 1 then
    (.error StdExc.out_of_range, buffer, position)
  else (.ok (), setAtPos buffer position 0 valueToWrite, position + 1)

/-- Function `writeUint16(buffer, position, valueToWrite)`. -/
def writeUint16 (buffer : List Nat) (position : Int) (valueToWrite : Nat) :
    Except StdExc Unit × List Nat × Int :=
  if 0 > position ∨ (buffer.length : Int) - position < 2 then
    (.error StdExc.out_of_range, buffer, position)
  else
    let buffer := setAtPos buffer position 0 (u8 (valueToWrite >>> 8))
    let buffer := setAtPos buffer position 1 (u8 valueToWrite)
    (.ok (), buffer, position + 2)

/-- Function `writeUint24(buffer, position, valueToWrite)`, `valueToWrite` a `uint32_t`. -/
def writeUint24 (buffer : List Nat) (position : Int) (valueToWrite : Nat) :
    Except StdExc Unit × List Nat × Int :=
  if 0 > position ∨ (buffer.length : Int) - position < 3 then
    (.error StdExc.out_of_range, buffer, position)
  else
    let buffer := setAtPos buffer position 0 (u8 (valueToWrite >>> 16))
    let buffer := setAtPos buffer position 1 (u8 ((valueToWrite >>> 8) &&& 0xFF))
    let buffer := setAtPos buffer position 2 (u8 (valueToWrite &&& 0xFF))
    (.ok (), buffer, position + 3)

/-- Function `writeUint32(buffer, position, valueToWrite)`. -/
def writeUint32 (buffer : List Nat) (position : Int) (valueToWrite : Nat) :
    Except StdExc Unit × List Nat × Int :=
  if 0 > position ∨ (buffer.length : Int) - position < 4 then
    (.error StdExc.out_of_range, buffer, position)
  else
    let buffer := setAtPos buffer position 0 (u8 (valueToWrite >>> 24))
    let buffer := setAtPos buffer position 1 (u8 ((valueToWrite >>> 16) &&& 0xFF))
    let buffer := setAtPos buffer position 2 (u8 ((valueToWrite >>> 8) &&& 0xFF))
    let buffer := setAtPos buffer position 3 (u8 (valueToWrite &&& 0xFF))
    (.ok (), buffer, position + 4)

/-- Function `writeUint64(buffer, position, valueToWrite)`: the bounds check, then two
calls of `writeUint32`. -/
def writeUint64 (buffer : List Nat) (position : Int) (valueToWrite : Nat) :
    Except StdExc Unit × List Nat × Int :=
  if 0 > position ∨ (buffer.length : Int) - position < 8 then
    (.error StdExc.out_of_range, buffer, position)
  else
    let high := u32 ((valueToWrite &&& 0xFFFFFFFF00000000) >>> 32)
    let low := u32 (valueToWrite &&& 0xFFFFFFFF)
    match writeUint32 buffer position high with
    | (.error e, buffer1, position1) => (.error e, buffer1, position1)
    | (.ok _, buffer1, position1) => writeUint32 buffer1 position1 low

end ilo

namespace ilo

/-! ## CBitBuffer: write(bool), bytebuffer(), stream output -/

namespace CBitBuffer

/-- Member `write(bool toWrite)`: `uint8_t value = toWrite; write(value, 1);`. -/
def write_bool (s : CBitBuffer) (toWrite : Bool) : Except Exc Unit × CBitBuffer :=
  let value := if toWrite then 1 else 0
  s.write 8 value 1

/-- The loop `for (i = 0; i < bitbuffer.nofBits(); i++) s << parser.read<uint16_t>(1u)` of
`operator<<(std::ostream&, CBitBuffer)`; `out` is the text written so far. -/
def print_loop : Nat → CBitParser → List Char → Except Exc Unit × List Char
  | 0, _, out => (.ok (), out)
  | n + 1, parser, out =>
    match parser.read_unsigned 16 1 with
    | (.error e, _) => (.error e, out)
    | (.ok r, parser1) => print_loop n parser1 (out ++ Nat.toDigits 10 r)

/-- Function `operator<<(std::ostream& s, CBitBuffer bitbuffer)`: the text appended to the
stream. The argument is passed by value; the copy constructor asserts self-owned
storage. -/
def operator_shl (s : List Char) (bitbuffer : CBitBuffer) : Except Exc Unit × List Char :=
  if ¬ (¬ (bitbuffer.m_useExtBuffer = true)) then (.error Exc.RuntimeError, s)
  else
    let parser := CBitParser.mk_ptr bitbuffer.bufferPtr bitbuffer.nofBits
    print_loop bitbuffer.nofBits parser s

end CBitBuffer

/-! ## CBitParser: stream output -/

namespace CBitParser

/-- The loop `while ((reader = bitparser.read<uint32_t>(1)) != 0) s << reader;` of
`operator<<(std::ostream&, CBitParser)`; `out` is the text written so far. Every iteration
reads one bit, so the loop ends after at most `nofBitsLeft() + 1` reads; the first argument
bounds the number of reads, and `none` is returned when the bound is used up. -/
def dump_loop : Nat → CBitParser → List Char → Option (Except Exc Unit × List Char × CBitParser)
  | 0, _, _ => none
  | fuel + 1, bitparser, out =>
    match bitparser.read_unsigned 32 1 with
    | (.error e, bitparser1) => some (.error e, out, bitparser1)
    | (.ok reader, bitparser1) =>
      if reader ≠ 0 then dump_loop fuel bitparser1 (out ++ Nat.toDigits 10 reader)
      else some (.ok (), out, bitparser1)

/-- Function `operator<<(std::ostream& s, CBitParser bitparser)`: the text appended to the
stream. The argument is passed by value, so the reader of the caller is not changed. -/
def operator_shl (fuel : Nat) (s : List Char) (bitparser : CBitParser) :
    Option (Except Exc Unit × List Char) :=
  let old_pos := bitparser.tell
  match bitparser.seek 0 EPosType.begin with
  | (.error e, _) => some (.error e, s)
  | (.ok _, bitparser1) =>
    match dump_loop fuel bitparser1 s with
    | none => none
    | some (.error e, out, _) => some (.error e, out)
    | some (.ok _, out, bitparser2) =>
      match bitparser2.seek (toInt32 old_pos) EPosType.begin with
      | (.error e, _) => some (.error e, out)
      | (.ok _, _) => some (.ok (), out)

end CBitParser

/-! ## Byte buffer tools: writeUint32_64, the begin/end overloads, strings -/

/-- Function `writeUint32_64(buffer, position, valueToWrite)`, `valueToWrite` a
`uint64_t`. -/
def writeUint32_64 (buffer : List Nat) (position : Int) (valueToWrite : Nat) :
    Except StdExc Unit × List Nat × Int :=
  if 0 > position ∨ (buffer.length : Int) - position < 4 then
    (.error StdExc.out_of_range, buffer, position)
  else if valueToWrite > 4294967295 then (.error StdExc.out_of_range, buffer, position)
  else
    let low := u32 (valueToWrite &&& 0xFFFFFFFF)
    let buffer := setAtPos buffer position 0 (u8 (low >>> 24))
    let buffer := setAtPos buffer position 1 (u8 ((low >>> 16) &&& 0xFF))
    let buffer := setAtPos buffer position 2 (u8 ((low >>> 8) &&& 0xFF))
    let buffer := setAtPos buffer position 3 (u8 (low &&& 0xFF))
    (.ok (), buffer, position + 4)

/-- Function `writeUint32(begin, end, valueToWrite)`: `begin` and `end` are offsets of the
iterators in the byte buffer they point into; the buffer and `begin` afterwards. -/
def writeUint32_range (buffer : List Nat) (begin end_ : Int) (valueToWrite : Nat) :
    Except StdExc Unit × List Nat × Int :=
  if ¬ (end_ - begin ≥ 4) then (.error StdExc.out_of_range, buffer, begin)
  else
    let buffer := setAtPos buffer begin 0 (u8 (valueToWrite >>> 24))
    let buffer := setAtPos buffer begin 1 (u8 ((valueToWrite >>> 16) &&& 0xFF))
    let buffer := setAtPos buffer begin 2 (u8 ((valueToWrite >>> 8) &&& 0xFF))
    let buffer := setAtPos buffer begin 3 (u8 (valueToWrite &&& 0xFF))
    (.ok (), buffer, begin + 4)

/-- Function `writeUint32_64(begin, end, valueToWrite)`. -/
def writeUint32_64_range (buffer : List Nat) (begin end_ : Int) (valueToWrite : Nat) :
    Except StdExc Unit × List Nat × Int :=
  if ¬ (end_ - begin ≥ 4) then (.error StdExc.out_of_range, buffer, begin)
  else if valueToWrite > 4294967295 then (.error StdExc.out_of_range, buffer, begin)
  else
    let low := u32 (valueToWrite &&& 0xFFFFFFFF)
    let buffer := setAtPos buffer begin 0 (u8 (low >>> 24))
    let buffer := setAtPos buffer begin 1 (u8 ((low >>> 16) &&& 0xFF))
    let buffer := setAtPos buffer begin 2 (u8 ((low >>> 8) &&& 0xFF))
    let buffer := setAtPos buffer begin 3 (u8 (low &&& 0xFF))
    (.ok (), buffer, begin + 4)

/-- The call `std::copy(first, last, position)` for a byte sequence: the buffer and the
position behind the last byte written. -/
def copyBytes : List Nat → List Nat → Int → List Nat × Int
  | [], buffer, position => (buffer, position)
  | c :: rest, buffer, position => copyBytes rest (setAtPos buffer position 0 c) (position + 1)

/-- Function `writeString(buffer, position, valueToWrite)`; a string is the sequence of
its characters as bytes. -/
def writeString (buffer : List Nat) (position : Int) (valueToWrite : List Nat) :
    Except StdExc Unit × List Nat × Int :=
  if 0 > position ∨ (buffer.length : Int) < position ∨
      ((buffer.length : Int) - position).toNat ≤ valueToWrite.length then
    (.error StdExc.out_of_range, buffer, position)
  else
    match copyBytes valueToWrite buffer position with
    | (buffer1, position1) => (.ok (), setAtPos buffer1 position1 0 0, position1 + 1)

/-- The loop of `readString`. Every iteration advances `position` and the loop is left
when `position` reaches `buffer.end()`; the first argument bounds the number of tests of
the loop condition, and `none` is returned when the bound is used up. -/
def readString_loop (buffer : List Nat) (begin : Int) (maxLength : Nat) :
    Nat → Int → Option (Except StdExc (List Nat) × Int)
  | 0, _ => none
  | fuel + 1, position =>
    if byteAtPos buffer position 0 ≠ 0 ∧
        ((position - begin).toNat % 18446744073709551616 ≤ maxLength ∨ maxLength = 0) then
      if position + 1 = (buffer.length : Int) then
        some (.error StdExc.out_of_range, position + 1)
      else readString_loop buffer begin maxLength fuel (position + 1)
    else
      some (.ok ((buffer.drop begin.toNat).take (position - begin).toNat), position + 1)

/-- Function `readString(buffer, position, maxLength)`: the string read and the position
afterwards. The loop condition is tested at most `buffer.size()` times. -/
def readString (buffer : List Nat) (position : Int) (maxLength : Nat) :
    Option (Except StdExc (List Nat) × Int) :=
  if ¬ (0 ≤ position ∧ (buffer.length : Int) > position) then
    some (.error StdExc.out_of_range, position)
  else readString_loop buffer position maxLength buffer.length position

end ilo

namespace ilo

/-! ## Specification vocabulary -/

/-- Bit `i` of a byte region: bit 0 is the most significant bit of byte 0. -/
def bitAt (buf : List Nat) (i : Nat) : Bool := (buf.getD (i / 8) 0).testBit (7 - i % 8)

/-- The `n` bits starting at bit `c`, read most significant bit first. -/
def bitsVal (buf : List Nat) (c : Nat) : Nat → Nat
  | 0 => 0
  | n + 1 => 2 * bitsVal buf c n + (bitAt buf (c + n)).toNat

/-- Bit `i` of a byte region as a number: `(byte[i / 8] >> (7 - i mod 8)) & 1`. -/
def bit (buf : List Nat) (i : Nat) : Nat := (buf.getD (i / 8) 0 >>> (7 - i % 8)) &&& 1

/-- The `n` bits starting at bit `c` interpreted most significant bit first:
the sum over `k < n` of `bit (c + k) * 2 ^ (n - 1 - k)`. -/
def msbValue (buf : List Nat) (c n : Nat) : Nat :=
  ∑ k ∈ Finset.range n, bit buf (c + k) * 2 ^ (n - 1 - k)

/-- Representation invariant of writer states: the sub-byte offset is at most 7, the cursor
does not exceed the number of valid bits, the valid bits lie inside the storage, the
counters are `uint32_t` values, the storage holds bytes, and in external mode the region
has the size given at construction. -/
structure CBitBuffer.wf (s : CBitBuffer) : Prop where
  local_le : s.m_localWriteBits ≤ 7
  cursor_le : s.m_writeIterBytes * 8 + s.m_localWriteBits ≤ s.m_nofvalidBits
  valid_le : s.m_nofvalidBits ≤ 8 * s.m_buffer.length
  valid_lt : s.m_nofvalidBits < 4294967296
  bytes : ∀ b ∈ s.m_buffer, b < 256
  ext_size : s.m_useExtBuffer = true → s.m_buffer.length = s.m_extBufferSizeBytes

/-- Representation invariant of reader states. -/
structure CBitParser.wf (p : CBitParser) : Prop where
  local_le : p.m_localReadBits ≤ 8
  cursor_le : p.m_readIter * 8 + p.m_localReadBits ≤ p.m_nofValidBits
  valid_le : p.m_nofValidBits ≤ 8 * p.m_buffer.length
  valid_lt : p.m_nofValidBits < 4294967296
  bytes : ∀ b ∈ p.m_buffer, b < 256


/-- Values of type `int32_t`. -/
def inInt32 (z : Int) : Prop := -2147483648 ≤ z ∧ z < 2147483648

/-- Target position of `seek(offset, origin)` for a cursor at `tell` and `nofBits` valid bits:
`offset` from the beginning, `tell + offset` from the current position, `nofBits + offset`
from the end. -/
def seekTarget (tell nofBits : Nat) (offset : Int) : EPosType → Int
  | EPosType.begin => offset
  | EPosType.cur => (tell : Int) + offset
  | EPosType.end_ => (nofBits : Int) + offset

/-- The integer result types of `read<T>`: 8, 16, 32 or 64 bits wide. -/
def isWidth (W : Nat) : Prop := W = 8 ∨ W = 16 ∨ W = 32 ∨ W = 64

instance (W : Nat) : Decidable (isWidth W) := by unfold isWidth; infer_instance

/-- The valid bit sequence of a writer: bits `0` to `nofBits() - 1` of its storage. -/
def CBitBuffer.validBits (s : CBitBuffer) : List Bool :=
  (List.range s.nofBits).map (bitAt s.m_buffer)

/-- The low `n` bits of `v`, most significant first. -/
def lowBits (v n : Nat) : List Bool := (List.range n).map (fun k => v.testBit (n - 1 - k))

/-- The bits of a byte sequence, most significant bit of the first byte first. -/
def bytesBits (bytes : List Nat) : List Bool :=
  (List.range (8 * bytes.length)).map (bitAt bytes)

namespace CBitParser

/-- Reader states reachable from a constructor by reads and seeks. A constructor leaves
the cursor at 0 over a region of bytes with `nofValidBits` valid bits, not more than the
region holds; a call that throws leaves the state as the model returns it. -/
inductive Reachable : CBitParser → Prop where
  | init (buffer : List Nat) (nofValidBits : Nat) (hb : ∀ b ∈ buffer, b < 256)
      (hk : nofValidBits ≤ 8 * buffer.length) (hlt : nofValidBits < 4294967296) :
      Reachable (mk_ptr buffer nofValidBits)
  | read_unsigned {p : CBitParser} (W n : Nat) (hW : isWidth W) (h : Reachable p) :
      Reachable (p.read_unsigned W n).2
  | read_signed {p : CBitParser} (W n : Nat) (hW : isWidth W) (h : Reachable p) :
      Reachable (p.read_signed W n).2
  | seek {p : CBitParser} (bitposition : Int) (fromPosition : EPosType)
      (hlo : -2147483648 ≤ bitposition) (hhi : bitposition < 2147483648) (h : Reachable p) :
      Reachable (p.seek bitposition fromPosition).2

end CBitParser

namespace CBitParser

/-- Value returned by `read<T>` for a signed `T` when the `n` bits at the cursor have the
unsigned value `u`: two's-complement sign extension. -/
def signExtend (n u : Nat) : Int := if u < 2 ^ (n - 1) then (u : Int) else (u : Int) - 2 ^ n

end CBitParser

end ilo

namespace ilo

/-! ## Specification vocabulary: writer states reachable from a constructor -/

namespace CBitBuffer

/-- The states in which a constructor leaves a writer: self-owned storage of
`initLengthInBytes` zero bytes, or an external region of bytes with `nofValidBits`, a
`uint32_t` value, not above 8 times the size of the region. -/
def Constructed (s : CBitBuffer) : Prop :=
  (∃ initLengthInBytes : Nat, s = mk_internal initLengthInBytes) ∨
  (∃ (buffer : List Nat) (nofValidBits : Nat),
    (∀ b ∈ buffer, b < 256) ∧ nofValidBits ≤ 8 * buffer.length ∧
    nofValidBits < 4294967296 ∧ s = mk_external buffer buffer.length nofValidBits)

/-- Writer states reachable from the state `s0` by calls of `write`, `append`, `insert`,
`erase`, `resize`, `seek` and `byteAlign`; a call that throws leaves the state as
the model returns it. The positions involved in a call are in the range in which the
32-bit computations of the code do not wrap: bit positions passed to `seek` inside a
member are `int32_t` values, others `uint32_t` values. -/
inductive ReachableFrom (s0 : CBitBuffer) : CBitBuffer → Prop where
  | init : ReachableFrom s0 s0
  | write {s : CBitBuffer} (W toWrite nnofBits : Nat) (hW : isWidth W)
      (hrange : nnofBits ≤ W → s.tell + nnofBits + 7 < 4294967296)
      (h : ReachableFrom s0 s) : ReachableFrom s0 (s.write W toWrite nnofBits).2
  | append {s : CBitBuffer} (toAppend : List Nat)
      (hrange : s.nofBits + 8 * toAppend.length < 2147483648)
      (h : ReachableFrom s0 s) : ReachableFrom s0 (s.append toAppend).2
  | insert {s : CBitBuffer} (W toInsert before nnofBits : Nat) (hW : isWidth W)
      (hrange : s.nofBits + nnofBits < 2147483648)
      (h : ReachableFrom s0 s) : ReachableFrom s0 (insert W s toInsert before nnofBits).2
  | erase {s : CBitBuffer} (firstBit nnofBits : Nat)
      (hrange : s.nofBits < 2147483648) (hsum : firstBit + nnofBits < 4294967296)
      (h : ReachableFrom s0 s) : ReachableFrom s0 (s.erase firstBit nnofBits).2
  | resize {s : CBitBuffer} (newSizeInBits : Nat)
      (hrange : s.nofBits < 2147483648) (hsize : newSizeInBits + 7 < 4294967296)
      (h : ReachableFrom s0 s) : ReachableFrom s0 (s.resize newSizeInBits).2
  | seek {s : CBitBuffer} (bitposition : Int) (fromPosition : EPosType)
      (h : ReachableFrom s0 s) : ReachableFrom s0 (s.seek bitposition fromPosition).2
  | byteAlign {s : CBitBuffer} (hrange : s.tell + 15 < 4294967296)
      (h : ReachableFrom s0 s) : ReachableFrom s0 s.byteAlign.2

end CBitBuffer

/-! ## Specification vocabulary: byte buffer tools -/

/-- The unsigned integer widths of the byte buffer tools. -/
inductive UintKind where
  | bits8
  | bits16
  | bits24
  | bits32
  | bits64
  deriving DecidableEq, Repr

/-- Number of bytes of a value of the given width. -/
def UintKind.bytes : UintKind → Nat
  | .bits8 => 1
  | .bits16 => 2
  | .bits24 => 3
  | .bits32 => 4
  | .bits64 => 8

/-- The function `readUint8`, `readUint16`, `readUint24`, `readUint32` or `readUint64`. -/
def readUintN : UintKind → List Nat → Int → Except StdExc Nat × Int
  | .bits8 => readUint8
  | .bits16 => readUint16
  | .bits24 => readUint24
  | .bits32 => readUint32
  | .bits64 => readUint64

/-- The function `writeUint8`, `writeUint16`, `writeUint24`, `writeUint32` or
`writeUint64`. -/
def writeUintN : UintKind → List Nat → Int → Nat → Except StdExc Unit × List Nat × Int
  | .bits8 => writeUint8
  | .bits16 => writeUint16
  | .bits24 => writeUint24
  | .bits32 => writeUint32
  | .bits64 => writeUint64

/-- Byte `j` of the `k`-byte big-endian representation of `v`: byte 0 is the most
significant one. -/
def beByte (v k j : Nat) : Nat := v / 256 ^ (k - 1 - j) % 256

end ilo

namespace ilo

/-! ## Specification vocabulary: bitwise writes, self-owned storage, bounds -/

namespace CBitBuffer

/-- The `n` successive calls `write(bool)` with the bits `n - 1`, `n - 2`, ..., `0` of `v`. -/
def writeBitwise (v : Nat) : Nat → CBitBuffer → Except Exc Unit × CBitBuffer
  | 0, s => (.ok (), s)
  | n + 1, s =>
    match s.write_bool (v.testBit n) with
    | (.error e, s1) => (.error e, s1)
    | (.ok _, s1) => writeBitwise v n s1

/-- Self-owned writer states whose byte vector has exactly the bytes of the valid bits and
zero padding: the representation invariant holds, the storage is self-owned, the vector has
`nofBits()` divided by 8 and rounded up bytes, the sum `nofBits() + 7` is a `uint32_t` value,
and every bit from index `nofBits()` on is 0. -/
structure tight (s : CBitBuffer) : Prop where
  wf : s.wf
  owned : s.m_useExtBuffer = false
  length_eq : s.m_buffer.length = (s.nofBits + 7) / 8
  size_lt : s.nofBits + 7 < 4294967296
  padding : ∀ i, s.nofBits ≤ i → bitAt s.m_buffer i = false

end CBitBuffer

/-- The outcome of a call that accessed no byte outside the byte region: the model reports
such an access as `Exc.OutOfBounds`. -/
def inBounds {α : Type} (r : Except Exc α) : Prop :=
  match r with
  | .error Exc.OutOfBounds => False
  | _ => True

end ilo

namespace ilo

/-! ## Bit-level lemmas -/

theorem testBit_255 (i : Nat) : Nat.testBit 255 i = decide (i < 8) :=
  Nat.testBit_two_pow_sub_one 8 i

theorem testBit_65535 (i : Nat) : Nat.testBit 65535 i = decide (i < 16) :=
  Nat.testBit_two_pow_sub_one 16 i

theorem testBit_u8 (x i : Nat) : (u8 x).testBit i = (decide (i < 8) && x.testBit i) :=
  Nat.testBit_mod_two_pow x 8 i

theorem testBit_u16 (x i : Nat) : (u16 x).testBit i = (decide (i < 16) && x.testBit i) :=
  Nat.testBit_mod_two_pow x 16 i

theorem testBit_u32 (x i : Nat) : (u32 x).testBit i = (decide (i < 32) && x.testBit i) :=
  Nat.testBit_mod_two_pow x 32 i

theorem testBit_byte {b : Nat} (hb : b < 256) {i : Nat} (hi : 8 ≤ i) : b.testBit i = false := by
  apply Nat.testBit_lt_two_pow
  calc b < 2 ^ 8 := hb
    _ ≤ 2 ^ i := Nat.pow_le_pow_right (by norm_num) hi

theorem bitsVal_lt (buf : List Nat) (c n : Nat) : bitsVal buf c n < 2 ^ n := by
  induction n with
  | zero => simp [bitsVal]
  | succ n ih =>
    have h : (bitAt buf (c + n)).toNat ≤ 1 := Bool.toNat_le _
    simp only [bitsVal, pow_succ]
    omega

theorem bitsVal_testBit (buf : List Nat) (c n j : Nat) :
    (bitsVal buf c n).testBit j = (decide (j < n) && bitAt buf (c + (n - 1 - j))) := by
  induction n generalizing j with
  | zero => simp [bitsVal]
  | succ n ih =>
    simp only [bitsVal]
    cases j with
    | zero =>
      simp [Nat.testBit_zero]
      cases bitAt buf (c + n) with
      | false => simp
      | true => simp; omega
    | succ j =>
      rw [Nat.testBit_succ]
      have h : (2 * bitsVal buf c n + (bitAt buf (c + n)).toNat) / 2 = bitsVal buf c n := by
        have := Bool.toNat_le (bitAt buf (c + n))
        omega
      rw [h, ih]
      have e : n - (j + 1) = n - 1 - j := by omega
      simp [e]

theorem read_branch1 (b l n j : Nat) (h : l + n ≤ 8) :
    (u8 (u8 (b &&& u8 (255 >>> l)) >>> (8 - (n + l)))).testBit j
      = (decide (j < n) && b.testBit (8 - l - n + j)) := by
  simp only [testBit_u8, Nat.testBit_shiftRight, Nat.testBit_and, testBit_255]
  have e : 8 - (n + l) + j = 8 - l - n + j := by omega
  rw [e]
  by_cases hj : j < n
  · have h1 : j < 8 := by omega
    have h2 : 8 - l - n + j < 8 := by omega
    have h3 : l + (8 - l - n + j) < 8 := by omega
    simp [hj, h1, h2, h3]
  · have h3 : ¬ (l + (8 - l - n + j) < 8) := by omega
    simp [hj, h3]

theorem read_branch2 (b0 b1 l n j : Nat) (h : 8 < l + n) (hl : l ≤ 8) (hn : n ≤ 8)
    (hb1 : b1 < 256) :
    (u8 ((u16 ((u16 b0 <<< 8) ||| b1) &&& u16 (65535 >>> l)) >>> (16 - (n + l)))).testBit j
      = (decide (j < n) &&
          (if 16 - l - n + j < 8 then b1.testBit (16 - l - n + j)
           else b0.testBit (16 - l - n + j - 8))) := by
  simp only [testBit_u8, testBit_u16, Nat.testBit_shiftRight, Nat.testBit_and, testBit_65535,
    Nat.testBit_or, Nat.testBit_shiftLeft]
  have e : 16 - (n + l) + j = 16 - l - n + j := by omega
  rw [e]
  by_cases hj : j < n
  · have h1 : j < 8 := by omega
    have h3 : l + (16 - l - n + j) < 16 := by omega
    have h4 : 16 - l - n + j < 16 := by omega
    by_cases h5 : 16 - l - n + j < 8
    · have h6 : ¬ (16 - l - n + j ≥ 8) := by omega
      simp [hj, h1, h3, h4, h5, h6]
    · have h6 : 16 - l - n + j ≥ 8 := by omega
      have h9 : b1.testBit (16 - l - n + j) = false := testBit_byte hb1 h6
      have h8 : 16 - l - n + j - 8 < 16 := by omega
      simp [hj, h1, h3, h4, h5, h6, h8, h9]
  · have h3 : ¬ (l + (16 - l - n + j) < 16) := by omega
    simp [hj, h3]

end ilo

namespace ilo

theorem testBit_ones64 (i : Nat) : Nat.testBit 18446744073709551615 i = decide (i < 64) :=
  Nat.testBit_two_pow_sub_one 64 i

/-- Bits of the sign mask built by `signed_read`. -/
theorem signMask_testBit {W n : Nat} (hW64 : W ≤ 64) (j : Nat) :
    (((0xFFFFFFFFFFFFFFFF <<< u32 (n - 1)) % 2 ^ 64) % 2 ^ W).testBit j
      = decide (u32 (n - 1) ≤ j ∧ j < W) := by
  simp only [Nat.testBit_mod_two_pow, Nat.testBit_shiftLeft, testBit_ones64]
  by_cases h1 : j < W
  · by_cases h2 : u32 (n - 1) ≤ j
    · have h3 : j < 64 := by omega
      have h4 : j - u32 (n - 1) < 64 := by omega
      simp [h1, h2, h3, h4]
    · simp [h1, h2]
  · simp [h1]

theorem testBit_top {u n : Nat} (hn : 1 ≤ n) (hu : u < 2 ^ n) (hge : 2 ^ (n - 1) ≤ u) :
    u.testBit (n - 1) = true := by
  rw [Nat.testBit_to_div_mod]
  have h2 : 2 ^ n = 2 * 2 ^ (n - 1) := by
    conv_lhs => rw [show n = (n - 1) + 1 by omega]
    rw [pow_succ]; ring
  have hpos : 0 < 2 ^ (n - 1) := Nat.two_pow_pos _
  have hd : u / 2 ^ (n - 1) = 1 := by
    apply Nat.div_eq_of_lt_le
    · omega
    · omega
  simp [hd]

theorem signExt_cond {W n u : Nat} (hn : 1 ≤ n) (hW : n ≤ W) (hW64 : W ≤ 64) (hu : u < 2 ^ n) :
    (u &&& (((0xFFFFFFFFFFFFFFFF <<< u32 (n - 1)) % 2 ^ 64) % 2 ^ W)) ≠ 0 ↔ 2 ^ (n - 1) ≤ u := by
  have hu32 : u32 (n - 1) = n - 1 := by simp only [u32]; omega
  constructor
  · intro h
    by_contra hlt
    apply h
    apply Nat.eq_of_testBit_eq
    intro j
    rw [Nat.testBit_and, signMask_testBit hW64, hu32, Nat.zero_testBit]
    by_cases hj : n - 1 ≤ j
    · have : u.testBit j = false := by
        apply Nat.testBit_lt_two_pow
        calc u < 2 ^ (n - 1) := by omega
          _ ≤ 2 ^ j := Nat.pow_le_pow_right (by norm_num) hj
      simp [this]
    · simp [hj]
  · intro hge h
    have hb := testBit_top hn hu hge
    have : (u &&& (((0xFFFFFFFFFFFFFFFF <<< u32 (n - 1)) % 2 ^ 64) % 2 ^ W)).testBit (n - 1)
        = true := by
      rw [Nat.testBit_and, signMask_testBit hW64, hu32, hb]
      simp
      omega
    rw [h] at this
    simp at this

theorem signExt_val {W n u : Nat} (hn : 1 ≤ n) (hW : n ≤ W) (hW64 : W ≤ 64) (hu : u < 2 ^ n)
    (hge : 2 ^ (n - 1) ≤ u) :
    (u ||| (((0xFFFFFFFFFFFFFFFF <<< u32 (n - 1)) % 2 ^ 64) % 2 ^ W)) % 2 ^ W
      = u + 2 ^ W - 2 ^ n := by
  have hu32 : u32 (n - 1) = n - 1 := by simp only [u32]; omega
  have hmod : u % 2 ^ (n - 1) < 2 ^ (n - 1) := Nat.mod_lt _ (Nat.two_pow_pos _)
  have key : (u ||| (((0xFFFFFFFFFFFFFFFF <<< u32 (n - 1)) % 2 ^ 64) % 2 ^ W)) % 2 ^ W
      = 2 ^ (n - 1) * (2 ^ (W - (n - 1)) - 1) + u % 2 ^ (n - 1) := by
    apply Nat.eq_of_testBit_eq
    intro j
    rw [Nat.testBit_mul_pow_two_add _ hmod, Nat.testBit_mod_two_pow, Nat.testBit_or,
      signMask_testBit hW64, hu32, Nat.testBit_mod_two_pow, Nat.testBit_two_pow_sub_one]
    by_cases hj : j < n - 1
    · have h1 : j < W := by omega
      have h2 : ¬ (n - 1 ≤ j ∧ j < W) := by omega
      have h4 : ¬ (n ≤ j + 1) := by omega
      simp [hj, h1, h2, h4]
    · rw [if_neg hj]
      by_cases h1 : j < W
      · have h2 : n - 1 ≤ j ∧ j < W := ⟨by omega, h1⟩
        have h3 : j - (n - 1) < W - (n - 1) := by omega
        simp [h1, h2, h3]
      · have h3 : ¬ (j - (n - 1) < W - (n - 1)) := by omega
        simp [h1, h3]
  rw [key]
  have h2 : 2 ^ n = 2 * 2 ^ (n - 1) := by
    conv_lhs => rw [show n = (n - 1) + 1 by omega]
    rw [pow_succ]; ring
  have hWp : 2 ^ W = 2 ^ (n - 1) * 2 ^ (W - (n - 1)) := by
    rw [← pow_add]; congr 1; omega
  have hum : u % 2 ^ (n - 1) = u - 2 ^ (n - 1) := by
    rw [Nat.mod_eq_sub_mod hge]
    apply Nat.mod_eq_of_lt
    omega
  have hpos : 1 ≤ 2 ^ (W - (n - 1)) := Nat.one_le_two_pow
  rw [Nat.mul_sub, hum, ← hWp]
  have hle : 2 ^ n ≤ 2 ^ W := Nat.pow_le_pow_right (by norm_num) hW
  omega

end ilo

namespace ilo

theorem wmask_testBit {l n : Nat} (hl : l ≤ 7) (h1 : 1 ≤ n) (h8 : n ≤ 8) (j : Nat) :
    (u16 (u16 (255 >>> (8 - n)) <<< (16 - l - n))).testBit j
      = decide (16 - l - n ≤ j ∧ j < 16 - l) := by
  simp only [testBit_u16, Nat.testBit_shiftLeft, Nat.testBit_shiftRight, testBit_255]
  by_cases h : 16 - l - n ≤ j ∧ j < 16 - l
  · have a1 : j < 16 := by omega
    have a2 : j ≥ 16 - l - n := h.1
    have a3 : j - (16 - l - n) < 16 := by omega
    have a4 : 8 - n + (j - (16 - l - n)) < 8 := by omega
    simp only [decide_eq_true h, decide_eq_true a1, decide_eq_true a2, decide_eq_true a3,
      decide_eq_true a4, Bool.and_self]
  · rw [decide_eq_false h]
    by_cases a2 : j ≥ 16 - l - n
    · have a4 : ¬ (8 - n + (j - (16 - l - n)) < 8) := by omega
      simp only [decide_eq_false a4, Bool.and_false]
    · simp only [decide_eq_false a2, Bool.and_false, Bool.false_and]

theorem wshift_testBit {l n : Nat} (hl : l ≤ 7) (h1 : 1 ≤ n) (h8 : n ≤ 8) (tw j : Nat) :
    (u16 (u32 ((tw &&& (255 >>> (8 - n))) <<< (16 - l - n)))).testBit j
      = (decide (16 - l - n ≤ j ∧ j < 16 - l) && tw.testBit (j - (16 - l - n))) := by
  simp only [testBit_u16, testBit_u32, Nat.testBit_shiftLeft, Nat.testBit_shiftRight,
    Nat.testBit_and, testBit_255]
  by_cases h : 16 - l - n ≤ j ∧ j < 16 - l
  · have a1 : j < 16 := by omega
    have a1' : j < 32 := by omega
    have a2 : j ≥ 16 - l - n := h.1
    have a4 : 8 - n + (j - (16 - l - n)) < 8 := by omega
    simp only [decide_eq_true h, decide_eq_true a1, decide_eq_true a2, decide_eq_true a1',
      decide_eq_true a4, Bool.and_true, Bool.true_and]
  · rw [decide_eq_false h]
    by_cases a2 : j ≥ 16 - l - n
    · have a4 : ¬ (8 - n + (j - (16 - l - n)) < 8) := by omega
      simp only [decide_eq_false a4, Bool.and_false, Bool.false_and]
    · simp only [decide_eq_false a2, Bool.and_false, Bool.false_and]

/-- First byte of the 16-bit window after `writeIntern`. -/
theorem wbyte0_testBit {l n : Nat} (hl : l ≤ 7) (h1 : 1 ≤ n) (h8 : n ≤ 8) (tw b k : Nat) :
    (u8 (u8 (b &&& ((65535 ^^^ u16 (u16 (255 >>> (8 - n)) <<< (16 - l - n))) >>> 8)) |||
        (u16 (u32 ((tw &&& (255 >>> (8 - n))) <<< (16 - l - n))) >>> 8))).testBit k
      = (decide (k < 8) &&
          if 16 - l - n ≤ 8 + k ∧ 8 + k < 16 - l then tw.testBit (8 + k - (16 - l - n))
          else b.testBit k) := by
  simp only [testBit_u8, Nat.testBit_or, Nat.testBit_and, Nat.testBit_shiftRight,
    Nat.testBit_xor, testBit_65535, wmask_testBit hl h1 h8, wshift_testBit hl h1 h8]
  by_cases hk : k < 8
  · have a : 8 + k < 16 := by omega
    rw [decide_eq_true hk, decide_eq_true a]
    by_cases h : 16 - l - n ≤ 8 + k ∧ 8 + k < 16 - l
    · rw [decide_eq_true h, if_pos h]; simp
    · rw [decide_eq_false h, if_neg h]; simp
  · rw [decide_eq_false hk]; simp

/-- Second byte of the 16-bit window after `writeIntern`. -/
theorem wbyte1_testBit {l n : Nat} (hl : l ≤ 7) (h1 : 1 ≤ n) (h8 : n ≤ 8) (tw b k : Nat) :
    (u8 (u8 (b &&& ((65535 ^^^ u16 (u16 (255 >>> (8 - n)) <<< (16 - l - n))) &&& 255)) |||
        (u16 (u32 ((tw &&& (255 >>> (8 - n))) <<< (16 - l - n))) &&& 255))).testBit k
      = (decide (k < 8) &&
          if 16 - l - n ≤ k ∧ k < 16 - l then tw.testBit (k - (16 - l - n))
          else b.testBit k) := by
  simp only [testBit_u8, Nat.testBit_or, Nat.testBit_and,
    Nat.testBit_xor, testBit_65535, testBit_255, wmask_testBit hl h1 h8,
    wshift_testBit hl h1 h8]
  by_cases hk : k < 8
  · have a : k < 16 := by omega
    rw [decide_eq_true hk, decide_eq_true a]
    by_cases h : 16 - l - n ≤ k ∧ k < 16 - l
    · rw [decide_eq_true h, if_pos h]; simp
    · rw [decide_eq_false h, if_neg h]; simp
  · rw [decide_eq_false hk]; simp

/-- The test `~mask & 0xFFu` of `writeIntern` holds exactly when the field reaches into the
second byte. -/
theorem wcond_iff {l n : Nat} (hl : l ≤ 7) (h1 : 1 ≤ n) (h8 : n ≤ 8) :
    ((65535 ^^^ (65535 ^^^ u16 (u16 (255 >>> (8 - n)) <<< (16 - l - n)))) &&& 255) ≠ 0
      ↔ 8 < l + n := by
  rw [← Nat.xor_assoc, Nat.xor_self, Nat.zero_xor]
  constructor
  · intro h
    by_contra hle
    apply h
    apply Nat.eq_of_testBit_eq
    intro j
    rw [Nat.testBit_and, wmask_testBit hl h1 h8, testBit_255, Nat.zero_testBit]
    by_cases hj : j < 8
    · have : ¬ (16 - l - n ≤ j ∧ j < 16 - l) := by omega
      rw [decide_eq_false this]; rfl
    · rw [decide_eq_false hj]; simp only [Bool.and_false]
  · intro hgt h
    have : ((u16 (u16 (255 >>> (8 - n)) <<< (16 - l - n))) &&& 255).testBit (16 - l - n)
        = true := by
      rw [Nat.testBit_and, wmask_testBit hl h1 h8, testBit_255]
      have a1 : 16 - l - n < 8 := by omega
      have a2 : 16 - l - n ≤ 16 - l - n ∧ 16 - l - n < 16 - l := ⟨le_refl _, by omega⟩
      rw [decide_eq_true a1, decide_eq_true a2]; rfl
    rw [h] at this
    simp at this

end ilo

namespace ilo

theorem getD_set_eq {buf : List Nat} {i : Nat} (h : i < buf.length) (v d : Nat) :
    (buf.set i v).getD i d = v := by
  rw [List.getD_eq_getElem?_getD, List.getElem?_set, if_pos rfl, if_pos h]
  rfl

theorem getD_set_ne {buf : List Nat} {i j : Nat} (h : i ≠ j) (v d : Nat) :
    (buf.set i v).getD j d = buf.getD j d := by
  rw [List.getD_eq_getElem?_getD, List.getElem?_set, if_neg h, ← List.getD_eq_getElem?_getD]

theorem bitAt_set {buf : List Nat} {w : Nat} (h : w < buf.length) (v i : Nat) :
    bitAt (buf.set w v) i = if i / 8 = w then v.testBit (7 - i % 8) else bitAt buf i := by
  unfold bitAt
  by_cases hi : i / 8 = w
  · rw [if_pos hi, hi, getD_set_eq h]
  · rw [if_neg hi, getD_set_ne (Ne.symm hi)]

theorem length_vecResize (buf : List Nat) (m : Nat) : (vecResize buf m).length = m := by
  simp only [vecResize, List.length_append, List.length_take, List.length_replicate]
  omega

theorem getD_vecResize_grow {buf : List Nat} {m : Nat} (h : buf.length ≤ m) (i : Nat) :
    (vecResize buf m).getD i 0 = buf.getD i 0 := by
  simp only [vecResize, List.getD_eq_getElem?_getD, List.take_of_length_le h,
    List.getElem?_append, List.getElem?_replicate]
  by_cases h1 : i < buf.length
  · rw [if_pos h1]
  · rw [if_neg h1, List.getElem?_eq_none (by omega)]
    by_cases h2 : i - buf.length < m - buf.length
    · rw [if_pos h2]; rfl
    · rw [if_neg h2]

theorem bitAt_vecResize_grow {buf : List Nat} {m : Nat} (h : buf.length ≤ m) (i : Nat) :
    bitAt (vecResize buf m) i = bitAt buf i := by
  unfold bitAt
  rw [getD_vecResize_grow h]

theorem bytes_vecResize {buf : List Nat} (hb : ∀ b ∈ buf, b < 256) (m : Nat) :
    ∀ b ∈ vecResize buf m, b < 256 := by
  intro b hmem
  simp only [vecResize, List.mem_append, List.mem_replicate] at hmem
  rcases hmem with h | h
  · exact hb b (List.mem_of_mem_take h)
  · rw [h.2]; norm_num

theorem bytes_set {buf : List Nat} (hb : ∀ b ∈ buf, b < 256) (i : Nat) {v : Nat} (hv : v < 256) :
    ∀ b ∈ buf.set i v, b < 256 := by
  intro b hmem
  rcases List.mem_or_eq_of_mem_set hmem with h | h
  · exact hb b h
  · rw [h]; exact hv

theorem u8_lt (x : Nat) : u8 x < 256 := Nat.mod_lt _ (by norm_num)

theorem bitAt_out_of_range {buf : List Nat} {i : Nat} (h : 8 * buf.length ≤ i) :
    bitAt buf i = false := by
  unfold bitAt
  rw [List.getD_eq_getElem?_getD, List.getElem?_eq_none (by omega)]
  simp

end ilo

namespace ilo

theorem bit_eq (buf : List Nat) (i : Nat) : bit buf i = (bitAt buf i).toNat := by
  unfold bit bitAt
  rw [Nat.and_one_is_mod, Nat.shiftRight_eq_div_pow, Nat.toNat_testBit]

theorem msbValue_eq_bitsVal (buf : List Nat) (c n : Nat) : msbValue buf c n = bitsVal buf c n := by
  induction n with
  | zero => simp [msbValue, bitsVal]
  | succ n ih =>
    unfold msbValue at ih ⊢
    rw [Finset.sum_range_succ, bitsVal, ← ih, Finset.mul_sum, bit_eq buf (c + n)]
    have e : n + 1 - 1 - n = 0 := by omega
    rw [e, pow_zero, mul_one]
    congr 1
    apply Finset.sum_congr rfl
    intro k hk
    have hk' := Finset.mem_range.mp hk
    have e2 : n + 1 - 1 - k = (n - 1 - k) + 1 := by omega
    rw [e2, pow_succ]
    ring


end ilo

namespace ilo

theorem and_seven (n : Nat) : n &&& 7 = n % 8 := Nat.and_pow_two_sub_one_eq_mod n 3

end ilo

namespace ilo

/-! ## Reader lemmas -/

theorem getD_lt_of_bytes {buf : List Nat} (hb : ∀ b ∈ buf, b < 256) (i : Nat) :
    buf.getD i 0 < 256 := by
  rw [List.getD_eq_getElem?_getD]
  by_cases h : i < buf.length
  · rw [List.getElem?_eq_getElem h]
    exact hb _ (List.getElem_mem h)
  · rw [List.getElem?_eq_none (by omega)]
    simp

namespace CBitParser

/-- The instance `read<uint8_t>` used inside `unsigned_read` is `read<T>` at width 8. -/
theorem read_uint8_eq (p : CBitParser) (n : Nat) : p.read_uint8 n = p.read_unsigned 8 n := by
  unfold read_uint8 read_unsigned unsigned_read
  simp

theorem tell_eq {p : CBitParser} (h : p.wf) :
    p.tell = p.m_readIter * 8 + p.m_localReadBits := by
  have h1 := h.cursor_le
  have h2 := h.valid_lt
  simp only [tell, nofReadBits, u32, Nat.shiftLeft_eq]
  norm_num
  omega

theorem nofBitsLeft_eq {p : CBitParser} (h : p.wf) :
    p.nofBitsLeft = p.m_nofValidBits - p.tell := by
  have h0 := tell_eq h
  have h1 := h.cursor_le
  have h2 := h.valid_lt
  simp only [nofBitsLeft, nofBits, sub32]
  show (p.m_nofValidBits + 4294967296 - p.tell) % 4294967296 = _
  omega

theorem readUint8_spec {p : CBitParser} (hwf : p.wf) {n : Nat} (h1 : 1 ≤ n) (h8 : n ≤ 8)
    (hle : p.tell + n ≤ p.m_nofValidBits) :
    ∃ p1, p.readUint8 n = (.ok (bitsVal p.m_buffer p.tell n), p1) ∧ p1.wf ∧
      p1.m_buffer = p.m_buffer ∧ p1.m_nofValidBits = p.m_nofValidBits ∧
      p1.tell = p.tell + n := by
  have ht := tell_eq hwf
  have hl := hwf.local_le
  have hv := hwf.valid_le
  have hv2 := hwf.valid_lt
  rw [ht] at hle
  have hc1 : (n ≤ 8 ∧ n > 0) := ⟨h8, h1⟩
  have hc2 : p.m_nofValidBits ≥
      u32 (u32 (u32 (p.m_readIter <<< 3) + p.m_localReadBits) + n) := by
    simp only [u32, Nat.shiftLeft_eq]
    norm_num
    omega
  have hlen0 : p.m_readIter < p.m_buffer.length := by omega
  have hsum : u32 (p.m_localReadBits + n) = p.m_localReadBits + n := by
    simp only [u32]; omega
  unfold readUint8
  rw [if_neg (not_not.mpr hc1), if_neg (not_not.mpr hc2), hsum]
  by_cases hb : p.m_localReadBits + n ≤ 8
  · rw [if_pos hb]
    have hnot : ¬ (p.m_localReadBits + n > 8) := by omega
    simp only [getByte, if_pos hlen0, hnot, if_false, bind, Except.bind, pure, Except.pure]
    refine ⟨{ p with m_localReadBits := p.m_localReadBits + n }, ?_, ?_, rfl, rfl, ?_⟩
    · congr 2
      apply Nat.eq_of_testBit_eq
      intro j
      rw [read_branch1 _ _ _ _ hb, bitsVal_testBit, ht]
      by_cases hj : j < n
      · simp only [hj, decide_True, Bool.true_and, bitAt]
        have e1 : (p.m_readIter * 8 + p.m_localReadBits + (n - 1 - j)) / 8 = p.m_readIter := by
          omega
        have e2 : 7 - (p.m_readIter * 8 + p.m_localReadBits + (n - 1 - j)) % 8
            = 8 - p.m_localReadBits - n + j := by omega
        rw [e1, e2]
      · simp [hj]
    · exact ⟨by show p.m_localReadBits + n ≤ 8; omega,
        by show p.m_readIter * 8 + (p.m_localReadBits + n) ≤ p.m_nofValidBits; omega,
        hv, hv2, hwf.bytes⟩
    · simp only [tell, nofReadBits, u32, Nat.shiftLeft_eq]
      norm_num
      omega
  · rw [if_neg hb]
    have hgt : p.m_localReadBits + n > 8 := by omega
    have hlen1 : p.m_readIter + 1 < p.m_buffer.length := by omega
    simp only [getByte, if_pos hlen0, if_pos hlen1, hgt, if_true, bind, Except.bind, pure,
      Except.pure]
    refine ⟨{ p with m_localReadBits := sub32 (p.m_localReadBits + n) 8,
                     m_readIter := u32 (p.m_readIter + 1) }, ?_, ?_, rfl, rfl, ?_⟩
    · congr 2
      have hb0 := getD_lt_of_bytes hwf.bytes p.m_readIter
      have hb1 := getD_lt_of_bytes hwf.bytes (p.m_readIter + 1)
      apply Nat.eq_of_testBit_eq
      intro j
      rw [read_branch2 _ _ _ _ _ (by omega) hl h8 hb1, bitsVal_testBit, ht]
      by_cases hj : j < n
      · simp only [hj, decide_True, Bool.true_and, bitAt]
        by_cases h5 : 16 - p.m_localReadBits - n + j < 8
        · rw [if_pos h5]
          have e1 : (p.m_readIter * 8 + p.m_localReadBits + (n - 1 - j)) / 8
              = p.m_readIter + 1 := by omega
          have e2 : 7 - (p.m_readIter * 8 + p.m_localReadBits + (n - 1 - j)) % 8
              = 16 - p.m_localReadBits - n + j := by omega
          rw [e1, e2]
        · rw [if_neg h5]
          have e1 : (p.m_readIter * 8 + p.m_localReadBits + (n - 1 - j)) / 8
              = p.m_readIter := by omega
          have e2 : 7 - (p.m_readIter * 8 + p.m_localReadBits + (n - 1 - j)) % 8
              = 16 - p.m_localReadBits - n + j - 8 := by omega
          rw [e1, e2]
      · simp [hj]
    · have e : sub32 (p.m_localReadBits + n) 8 = p.m_localReadBits + n - 8 := by
        simp only [sub32]; omega
      have e2 : u32 (p.m_readIter + 1) = p.m_readIter + 1 := by
        simp only [u32]; omega
      exact ⟨by show sub32 (p.m_localReadBits + n) 8 ≤ 8; omega,
        by show u32 (p.m_readIter + 1) * 8 + sub32 (p.m_localReadBits + n) 8 ≤ p.m_nofValidBits
           omega,
        hv, hv2, hwf.bytes⟩
    · have e : sub32 (p.m_localReadBits + n) 8 = p.m_localReadBits + n - 8 := by
        simp only [sub32]; omega
      have e2 : u32 (p.m_readIter + 1) = p.m_readIter + 1 := by
        simp only [u32]; omega
      simp only [tell, nofReadBits, e, e2]
      simp only [u32, Nat.shiftLeft_eq]
      norm_num
      omega

end CBitParser
end ilo

namespace ilo

theorem bitsVal_append (buf : List Nat) (c n m : Nat) :
    bitsVal buf c (n + m) = bitsVal buf c n * 2 ^ m + bitsVal buf (c + n) m := by
  induction m with
  | zero => simp [bitsVal]
  | succ m ih =>
    rw [← Nat.add_assoc]
    simp only [bitsVal, ih, pow_succ, Nat.add_assoc]
    ring

namespace CBitParser

theorem read_uint8_spec {p : CBitParser} (hwf : p.wf) {n : Nat} (h8 : n ≤ 8)
    (hle : p.tell + n ≤ p.m_nofValidBits) :
    ∃ p1, p.read_uint8 n = (.ok (bitsVal p.m_buffer p.tell n), p1) ∧ p1.wf ∧
      p1.m_buffer = p.m_buffer ∧ p1.m_nofValidBits = p.m_nofValidBits ∧
      p1.tell = p.tell + n := by
  have hleft := nofBitsLeft_eq hwf
  have hc : n ≤ p.nofBitsLeft := by omega
  unfold read_uint8
  rw [if_neg (not_not.mpr hc)]
  by_cases h0 : n = 0
  · subst h0
    exact ⟨p, by simp [bitsVal], hwf, rfl, rfl, rfl⟩
  · rw [if_neg h0]
    exact readUint8_spec hwf (by omega) h8 hle

theorem unsigned_read_loop_spec (W : Nat) (k : Nat) :
    ∀ (p : CBitParser) (result r : Nat), p.wf → result < 2 ^ r → r + 8 * k ≤ W →
      p.tell + 8 * k ≤ p.m_nofValidBits →
      ∃ p1, unsigned_read_loop W (8 * k) result p
          = (.ok (result * 2 ^ (8 * k) + bitsVal p.m_buffer p.tell (8 * k)), p1) ∧ p1.wf ∧
        p1.m_buffer = p.m_buffer ∧ p1.m_nofValidBits = p.m_nofValidBits ∧
        p1.tell = p.tell + 8 * k := by
  induction k with
  | zero =>
    intro p result r hwf _ _ _
    exact ⟨p, by simp [unsigned_read_loop, bitsVal], hwf, rfl, rfl, rfl⟩
  | succ k ih =>
    intro p result r hwf hres hW hle
    obtain ⟨p1, hrd, hwf1, hbuf1, hval1, htell1⟩ :=
      read_uint8_spec hwf (n := 8) (le_refl 8) (by omega)
    have hb : bitsVal p.m_buffer p.tell 8 < 2 ^ 8 := bitsVal_lt _ _ _
    have hstep : ((result <<< 8) ||| bitsVal p.m_buffer p.tell 8) % 2 ^ W
        = result * 2 ^ 8 + bitsVal p.m_buffer p.tell 8 := by
      rw [Nat.shiftLeft_eq, Nat.mul_comm result, ← Nat.mul_add_lt_is_or hb, Nat.mul_comm]
      apply Nat.mod_eq_of_lt
      calc result * 2 ^ 8 + bitsVal p.m_buffer p.tell 8
          < (result + 1) * 2 ^ 8 := by omega
        _ ≤ 2 ^ r * 2 ^ 8 := Nat.mul_le_mul_right _ hres
        _ = 2 ^ (r + 8) := by rw [pow_add]
        _ ≤ 2 ^ W := Nat.pow_le_pow_right (by norm_num) (by omega)
    have hres1 : result * 2 ^ 8 + bitsVal p.m_buffer p.tell 8 < 2 ^ (r + 8) := by
      calc result * 2 ^ 8 + bitsVal p.m_buffer p.tell 8
          < (result + 1) * 2 ^ 8 := by omega
        _ ≤ 2 ^ r * 2 ^ 8 := Nat.mul_le_mul_right _ hres
        _ = 2 ^ (r + 8) := by rw [pow_add]
    obtain ⟨p2, hrd2, hwf2, hbuf2, hval2, htell2⟩ :=
      ih p1 (result * 2 ^ 8 + bitsVal p.m_buffer p.tell 8) (r + 8) hwf1 hres1 (by omega)
        (by omega)
    refine ⟨p2, ?_, hwf2, by rw [hbuf2, hbuf1], by rw [hval2, hval1], by omega⟩
    have e : 8 * (k + 1) = 8 * k + 8 := by ring
    rw [e]
    simp only [unsigned_read_loop, hrd, bind, Except.bind, hstep, hrd2]
    congr 2
    rw [hbuf1, htell1]
    have e2 : 8 * k + 8 = 8 + 8 * k := by ring
    rw [e2, bitsVal_append, pow_add]
    ring

end CBitParser
end ilo

namespace ilo
namespace CBitParser

theorem unsigned_read_spec (W : Nat) {p : CBitParser} (hwf : p.wf) {n : Nat} (h1 : 1 ≤ n)
    (hW : n ≤ W) (hle : p.tell + n ≤ p.m_nofValidBits) :
    ∃ p1, p.unsigned_read W n = (.ok (bitsVal p.m_buffer p.tell n), p1) ∧ p1.wf ∧
      p1.m_buffer = p.m_buffer ∧ p1.m_nofValidBits = p.m_nofValidBits ∧
      p1.tell = p.tell + n := by
  unfold unsigned_read
  by_cases h8 : W = 8
  · rw [if_pos h8]
    exact readUint8_spec hwf h1 (by omega) hle
  · rw [if_neg h8, if_neg (not_not.mpr hW)]
    obtain ⟨p1, hrd, hwf1, hbuf1, hval1, htell1⟩ :=
      read_uint8_spec hwf (n := n % 8) (by omega) (by omega)
    have hk : n - n % 8 = 8 * (n / 8) := by omega
    obtain ⟨p2, hrd2, hwf2, hbuf2, hval2, htell2⟩ :=
      unsigned_read_loop_spec W (n / 8) p1 (bitsVal p.m_buffer p.tell (n % 8)) (n % 8) hwf1
        (bitsVal_lt _ _ _) (by omega) (by omega)
    refine ⟨p2, ?_, hwf2, by rw [hbuf2, hbuf1], by rw [hval2, hval1], by omega⟩
    simp only [hrd, bind, Except.bind, hk, hrd2]
    congr 2
    rw [hbuf1, htell1, ← bitsVal_append]
    congr 1
    omega

theorem read_unsigned_spec (W : Nat) {p : CBitParser} (hwf : p.wf) {n : Nat}
    (hW : n ≤ W) (hle : n ≤ p.nofBitsLeft) :
    ∃ p1, p.read_unsigned W n = (.ok (bitsVal p.m_buffer p.tell n), p1) ∧ p1.wf ∧
      p1.m_buffer = p.m_buffer ∧ p1.m_nofValidBits = p.m_nofValidBits ∧
      p1.tell = p.tell + n := by
  have hleft := nofBitsLeft_eq hwf
  have ht := tell_eq hwf
  have hc := hwf.cursor_le
  unfold read_unsigned
  rw [if_neg (not_not.mpr hle)]
  by_cases h0 : n = 0
  · subst h0
    exact ⟨p, by simp [bitsVal], hwf, rfl, rfl, rfl⟩
  · rw [if_neg h0]
    exact unsigned_read_spec W hwf (by omega) hW (by omega)

end CBitParser
end ilo

namespace ilo
namespace CBitParser

theorem toSigned_low {W n u : Nat} (hn : 1 ≤ n) (hW : n ≤ W) (hlt : u < 2 ^ (n - 1)) :
    toSigned W u = (u : Int) := by
  have h1 : 2 ^ (n - 1) ≤ 2 ^ (W - 1) := Nat.pow_le_pow_right (by norm_num) (by omega)
  have h2 : 2 ^ (W - 1) < 2 ^ W := Nat.pow_lt_pow_right (by norm_num) (by omega)
  have h3 : u % 2 ^ W = u := Nat.mod_eq_of_lt (by omega)
  unfold toSigned
  rw [h3, if_pos (by omega)]

theorem toSigned_high {W n u : Nat} (hn : 1 ≤ n) (hW : n ≤ W) (hu : u < 2 ^ n)
    (hge : 2 ^ (n - 1) ≤ u) :
    toSigned W (u + 2 ^ W - 2 ^ n) = (u : Int) - 2 ^ n := by
  have h2 : 2 ^ n = 2 * 2 ^ (n - 1) := by
    conv_lhs => rw [show n = (n - 1) + 1 by omega]
    rw [pow_succ]; ring
  have h2W : 2 ^ W = 2 * 2 ^ (W - 1) := by
    conv_lhs => rw [show W = (W - 1) + 1 by omega]
    rw [pow_succ]; ring
  have h1 : 2 ^ (n - 1) ≤ 2 ^ (W - 1) := Nat.pow_le_pow_right (by norm_num) (by omega)
  have h3 : (u + 2 ^ W - 2 ^ n) % 2 ^ W = u + 2 ^ W - 2 ^ n := Nat.mod_eq_of_lt (by omega)
  unfold toSigned
  rw [h3, if_neg (by omega)]
  have hle : 2 ^ n ≤ u + 2 ^ W := by omega
  push_cast [Nat.cast_sub hle]
  ring

theorem read_signed_spec (W : Nat) (hW64 : W ≤ 64) {p : CBitParser} (hwf : p.wf) {n : Nat}
    (h1 : 1 ≤ n) (hW : n ≤ W) (hle : n ≤ p.nofBitsLeft) :
    ∃ p1, p.read_signed W n = (.ok (signExtend n (bitsVal p.m_buffer p.tell n)), p1) ∧ p1.wf ∧
      p1.m_buffer = p.m_buffer ∧ p1.m_nofValidBits = p.m_nofValidBits ∧
      p1.tell = p.tell + n := by
  obtain ⟨p1, hrd, hwf1, hbuf1, hval1, htell1⟩ := read_unsigned_spec W hwf hW hle
  have hu := bitsVal_lt p.m_buffer p.tell n
  refine ⟨p1, ?_, hwf1, hbuf1, hval1, htell1⟩
  unfold read_signed
  rw [if_neg (not_not.mpr hle), if_neg (by omega)]
  unfold signed_read
  rw [if_neg (by omega)]
  simp only [hrd, bind, Except.bind]
  by_cases hge : 2 ^ (n - 1) ≤ bitsVal p.m_buffer p.tell n
  · have hc := (signExt_cond h1 hW hW64 hu).mpr hge
    rw [if_pos hc]
    simp only [pure, Except.pure, signExt_val h1 hW hW64 hu hge, toSigned_high h1 hW hu hge]
    simp only [signExtend, if_neg (not_lt.mpr hge)]
  · have hc : ¬ _ := fun h => hge ((signExt_cond h1 hW hW64 hu).mp h)
    rw [if_neg hc]
    simp only [pure, Except.pure, toSigned_low h1 hW (not_le.mp hge)]
    simp only [signExtend, if_pos (not_le.mp hge)]

end CBitParser
end ilo

namespace ilo

/-! ## Writer lemmas -/
namespace CBitBuffer

theorem writeIntern_spec {s : CBitBuffer} (hl : s.m_localWriteBits ≤ 7) {n : Nat} (h1 : 1 ≤ n)
    (h8 : n ≤ 8) (tw : Nat)
    (hrange : s.m_writeIterBytes * 8 + s.m_localWriteBits + n + 7 < 4294967296)
    (hext : s.m_useExtBuffer = true → s.m_buffer.length = s.m_extBufferSizeBytes ∧
      s.m_writeIterBytes * 8 + s.m_localWriteBits + n ≤ s.m_extBufferSizeBytes * 8) :
    ∃ s1, s.writeIntern tw n = (.ok (), s1) ∧
      s1.m_useExtBuffer = s.m_useExtBuffer ∧
      s1.m_extBufferSizeBytes = s.m_extBufferSizeBytes ∧
      s1.m_localWriteBits ≤ 7 ∧
      s1.m_writeIterBytes * 8 + s1.m_localWriteBits
        = s.m_writeIterBytes * 8 + s.m_localWriteBits + n ∧
      s1.m_nofvalidBits
        = max (s.m_writeIterBytes * 8 + s.m_localWriteBits + n) s.m_nofvalidBits ∧
      s1.m_buffer.length
        = (if s.m_useExtBuffer = false ∧
              s.m_buffer.length * 8 < s.m_writeIterBytes * 8 + s.m_localWriteBits + n
           then (s.m_writeIterBytes * 8 + s.m_localWriteBits + n + 7) / 8
           else s.m_buffer.length) ∧
      (∀ i, bitAt s1.m_buffer i
        = if s.m_writeIterBytes * 8 + s.m_localWriteBits ≤ i ∧
              i < s.m_writeIterBytes * 8 + s.m_localWriteBits + n
          then tw.testBit (n - 1 - (i - (s.m_writeIterBytes * 8 + s.m_localWriteBits)))
          else bitAt s.m_buffer i) ∧
      ((∀ b ∈ s.m_buffer, b < 256) → ∀ b ∈ s1.m_buffer, b < 256) := by
  obtain ⟨ext, buf, esz, w, l, nv⟩ := s
  simp only at hl hrange hext ⊢
  have hsv : sub32 (sub32 16 l) n = 16 - l - n := by simp only [sub32]; omega
  have htell : tell ⟨ext, buf, esz, w, l, nv⟩ = w * 8 + l := by simp only [tell, u32]; omega
  have hneed : u32 (w * 8 + l + n) = w * 8 + l + n := by simp only [u32]; omega
  have hneed7 : u32 (w * 8 + l + n + 7) = w * 8 + l + n + 7 := by simp only [u32]; omega
  have hsum : u32 (l + n) = l + n := by simp only [u32]; omega
  have hw1 : u32 (w + (l + n) / 8) = w + (l + n) / 8 := by simp only [u32]; omega
  have hc1 : ¬ (ext = true ∧ ¬ (esz * 8 ≥ w * 8 + l + n)) := by
    intro h; have := (hext h.1).2; omega
  -- the storage after the capacity adjustment
  obtain ⟨buf0, hbuf0, hlen0, hbit0, hbytes0⟩ :
      ∃ buf0, (if ¬ ext = true ∧ buf.length * 8 < w * 8 + l + n
                then vecResize buf ((w * 8 + l + n + 7) / 8) else buf) = buf0 ∧
        buf0.length = (if ext = false ∧ buf.length * 8 < w * 8 + l + n
                        then (w * 8 + l + n + 7) / 8 else buf.length) ∧
        (∀ i, bitAt buf0 i = bitAt buf i) ∧
        ((∀ b ∈ buf, b < 256) → ∀ b ∈ buf0, b < 256) := by
    by_cases hc : ¬ ext = true ∧ buf.length * 8 < w * 8 + l + n
    · have hc' : ext = false ∧ buf.length * 8 < w * 8 + l + n :=
        ⟨by simpa using hc.1, hc.2⟩
      refine ⟨_, rfl, ?_, ?_, ?_⟩
      · rw [if_pos hc, if_pos hc', length_vecResize]
      · intro i; rw [if_pos hc]; exact bitAt_vecResize_grow (by omega) i
      · intro hb; rw [if_pos hc]; exact bytes_vecResize hb _
    · have hc' : ¬ (ext = false ∧ buf.length * 8 < w * 8 + l + n) := by
        intro h; apply hc; exact ⟨by simp [h.1], h.2⟩
      refine ⟨_, rfl, ?_, ?_, ?_⟩
      · rw [if_neg hc, if_neg hc']
      · intro i; rw [if_neg hc]
      · intro hb; rw [if_neg hc]; exact hb
  have hcap : w * 8 + l + n ≤ buf0.length * 8 := by
    rw [hlen0]
    by_cases hc : ext = false ∧ buf.length * 8 < w * 8 + l + n
    · rw [if_pos hc]; omega
    · rw [if_neg hc]
      cases ext with
      | true => have := hext rfl; omega
      | false => simp at hc; omega
  have hw : w < buf0.length := by omega
  unfold writeIntern
  rw [if_neg (not_not.mpr h8), if_neg (by omega)]
  simp only [htell, hneed, hneed7, hsv, hsum, hw1, if_neg hc1, hbuf0]
  simp only [getByte, setByte, List.length_set, if_pos hw, bind, Except.bind, pure,
    Except.pure, getD_set_eq hw]
  by_cases hgt : 8 < l + n
  · have hw2 : w + 1 < buf0.length := by omega
    rw [if_pos ((wcond_iff hl h1 h8).mpr hgt)]
    simp only [List.length_set, if_pos hw2, getD_set_eq (show w + 1 < ((buf0.set w _).set w _).length by simpa using hw2),
      getD_set_ne (show w ≠ w + 1 by omega)]
    refine ⟨_, rfl, rfl, rfl, ?_, ?_, ?_, ?_, ?_, ?_⟩
    · show (l + n) % 8 ≤ 7
      omega
    · show (w + (l + n) / 8) * 8 + (l + n) % 8 = w * 8 + l + n
      omega
    · show max (tell _) nv = _
      simp only [tell, u32]
      congr 1
      omega
    · simp only [List.length_set]; exact hlen0
    · intro i
      simp only [bitAt_set (show w + 1 < ((buf0.set w _).set w _).length by simpa using hw2),
        bitAt_set (show w + 1 < (((buf0.set w _).set w _).set (w + 1) _).length by simpa using hw2),
        bitAt_set (show w < (buf0.set w _).length by simpa using hw),
        bitAt_set hw, wbyte0_testBit hl h1 h8, wbyte1_testBit hl h1 h8]
      have hk : 7 - i % 8 < 8 := by omega
      rw [decide_eq_true hk, Bool.true_and, Bool.true_and]
      by_cases hi1 : i / 8 = w + 1
      · rw [if_pos hi1]
        have hb : (buf0.getD (w + 1) 0).testBit (7 - i % 8) = bitAt buf i := by
          rw [← hbit0 i, bitAt, hi1]
        rw [hb]
        by_cases hin : w * 8 + l ≤ i ∧ i < w * 8 + l + n
        · rw [if_pos hin, if_pos (by omega)]
          congr 1
          omega
        · rw [if_neg hin, if_neg (by omega)]
      · rw [if_neg hi1, if_neg hi1]
        by_cases hi0 : i / 8 = w
        · rw [if_pos hi0]
          have hb : (buf0.getD w 0).testBit (7 - i % 8) = bitAt buf i := by
            rw [← hbit0 i, bitAt, hi0]
          rw [hb]
          by_cases hin : w * 8 + l ≤ i ∧ i < w * 8 + l + n
          · rw [if_pos hin, if_pos (by omega)]
            congr 1
            omega
          · rw [if_neg hin, if_neg (by omega)]
        · rw [if_neg hi0, if_neg hi0, hbit0, if_neg (by omega)]
    · intro hb
      exact bytes_set (bytes_set (bytes_set (bytes_set (hbytes0 hb) _ (u8_lt _)) _ (u8_lt _)) _
        (u8_lt _)) _ (u8_lt _)
  · have hle : l + n ≤ 8 := by omega
    rw [if_neg (fun h => hgt ((wcond_iff hl h1 h8).mp h))]
    refine ⟨_, rfl, rfl, rfl, ?_, ?_, ?_, ?_, ?_, ?_⟩
    · show (l + n) % 8 ≤ 7
      omega
    · show (w + (l + n) / 8) * 8 + (l + n) % 8 = w * 8 + l + n
      omega
    · show max (tell _) nv = _
      simp only [tell, u32]
      congr 1
      omega
    · simp only [List.length_set]; exact hlen0
    · intro i
      simp only [bitAt_set (show w < (buf0.set w _).length by simpa using hw),
        bitAt_set hw, wbyte0_testBit hl h1 h8]
      have hk : 7 - i % 8 < 8 := by omega
      rw [decide_eq_true hk, Bool.true_and]
      by_cases hi0 : i / 8 = w
      · rw [if_pos hi0]
        have hb : (buf0.getD w 0).testBit (7 - i % 8) = bitAt buf i := by
          rw [← hbit0 i, bitAt, hi0]
        rw [hb]
        by_cases hin : w * 8 + l ≤ i ∧ i < w * 8 + l + n
        · rw [if_pos hin, if_pos (by omega)]
          congr 1
          omega
        · rw [if_neg hin, if_neg (by omega)]
      · rw [if_neg hi0, if_neg hi0, hbit0, if_neg (by omega)]
    · intro hb
      exact bytes_set (bytes_set (hbytes0 hb) _ (u8_lt _)) _ (u8_lt _)

theorem write_loop_spec (v : Nat) (k : Nat) :
    ∀ (s : CBitBuffer), s.m_localWriteBits ≤ 7 →
      s.m_writeIterBytes * 8 + s.m_localWriteBits + 8 * k + 7 < 4294967296 →
      s.m_writeIterBytes * 8 + s.m_localWriteBits ≤ s.m_nofvalidBits →
      s.m_writeIterBytes * 8 + s.m_localWriteBits ≤ 8 * s.m_buffer.length →
      (s.m_useExtBuffer = true → s.m_buffer.length = s.m_extBufferSizeBytes ∧
        s.m_writeIterBytes * 8 + s.m_localWriteBits + 8 * k ≤ s.m_extBufferSizeBytes * 8) →
      ∃ s1, write_loop v (8 * k) s = (.ok (), s1) ∧
        s1.m_useExtBuffer = s.m_useExtBuffer ∧
        s1.m_extBufferSizeBytes = s.m_extBufferSizeBytes ∧
        s1.m_localWriteBits ≤ 7 ∧
        s1.m_writeIterBytes * 8 + s1.m_localWriteBits
          = s.m_writeIterBytes * 8 + s.m_localWriteBits + 8 * k ∧
        s1.m_nofvalidBits
          = max (s.m_writeIterBytes * 8 + s.m_localWriteBits + 8 * k) s.m_nofvalidBits ∧
        s1.m_buffer.length
          = (if s.m_useExtBuffer = false ∧
                s.m_buffer.length * 8 < s.m_writeIterBytes * 8 + s.m_localWriteBits + 8 * k
             then (s.m_writeIterBytes * 8 + s.m_localWriteBits + 8 * k + 7) / 8
             else s.m_buffer.length) ∧
        (∀ i, bitAt s1.m_buffer i
          = if s.m_writeIterBytes * 8 + s.m_localWriteBits ≤ i ∧
                i < s.m_writeIterBytes * 8 + s.m_localWriteBits + 8 * k
            then v.testBit (8 * k - 1 - (i - (s.m_writeIterBytes * 8 + s.m_localWriteBits)))
            else bitAt s.m_buffer i) ∧
        ((∀ b ∈ s.m_buffer, b < 256) → ∀ b ∈ s1.m_buffer, b < 256) := by
  induction k with
  | zero =>
    intro s hl _ hcur hcap _
    refine ⟨s, by simp [write_loop], rfl, rfl, hl, by omega, by omega, ?_, ?_, fun h => h⟩
    · rw [if_neg (by omega)]
    · intro i; rw [if_neg (by omega)]
  | succ k ih =>
    intro s hl hrange hcur hcap hext
    obtain ⟨s1, hw1, hext1, hesz1, hl1, hpos1, hnv1, hlen1, hbit1, hbytes1⟩ :=
      writeIntern_spec hl (n := 8) (by norm_num) (le_refl 8) (u8 (0xFF &&& (v >>> (8 * k))))
        (by omega) (fun h => ⟨(hext h).1, by have := (hext h).2; omega⟩)
    have hcap1 : s1.m_writeIterBytes * 8 + s1.m_localWriteBits ≤ 8 * s1.m_buffer.length := by
      rw [hpos1, hlen1]
      by_cases hc : s.m_useExtBuffer = false ∧
          s.m_buffer.length * 8 < s.m_writeIterBytes * 8 + s.m_localWriteBits + 8
      · rw [if_pos hc]; omega
      · rw [if_neg hc]
        cases hx : s.m_useExtBuffer with
        | true => have := hext hx; omega
        | false => rw [hx] at hc; simp at hc; omega
    obtain ⟨s2, hw2, hext2, hesz2, hl2, hpos2, hnv2, hlen2, hbit2, hbytes2⟩ :=
      ih s1 hl1 (by omega) (by rw [hnv1]; omega) hcap1
        (fun h => by
          rw [hext1] at h
          have := hext h
          rw [hesz1, hpos1, hlen1, if_neg (by rw [h]; simp)]
          exact ⟨this.1, by omega⟩)
    refine ⟨s2, ?_, by rw [hext2, hext1], by rw [hesz2, hesz1], hl2, by omega, ?_, ?_, ?_,
      fun h => hbytes2 (hbytes1 h)⟩
    · have e : 8 * (k + 1) = 8 * k + 8 := by ring
      rw [e]
      simp only [write_loop, hw1, bind, Except.bind, hw2]
    · rw [hnv2, hnv1, hpos1]; omega
    · rw [hlen2, hlen1, hext1, hpos1]
      by_cases hx : s.m_useExtBuffer = false
      · simp only [hx, true_and]
        split_ifs <;> omega
      · have hx1 : s.m_useExtBuffer = true := by simpa using hx
        simp [hx1]
    · intro i
      rw [hbit2, hbit1, hpos1]
      by_cases hA : s.m_writeIterBytes * 8 + s.m_localWriteBits ≤ i ∧
          i < s.m_writeIterBytes * 8 + s.m_localWriteBits + 8
      · rw [if_neg (by omega), if_pos hA, if_pos (by omega)]
        simp only [testBit_u8, Nat.testBit_and, testBit_255, Nat.testBit_shiftRight]
        have a : 8 - 1 - (i - (s.m_writeIterBytes * 8 + s.m_localWriteBits)) < 8 := by omega
        rw [decide_eq_true a, Bool.true_and, Bool.true_and]
        congr 1
        omega
      · rw [if_neg hA]
        by_cases hB : s.m_writeIterBytes * 8 + s.m_localWriteBits + 8 ≤ i ∧
            i < s.m_writeIterBytes * 8 + s.m_localWriteBits + 8 + 8 * k
        · rw [if_pos hB, if_pos (by omega)]
          congr 1
          omega
        · rw [if_neg hB, if_neg (by omega)]


end CBitBuffer
end ilo

namespace ilo
namespace CBitBuffer

theorem write_spec (W : Nat) (hW8 : W % 8 = 0) {s : CBitBuffer} (hl : s.m_localWriteBits ≤ 7)
    {n : Nat} (hn : n ≤ W) (v : Nat)
    (hrange : s.m_writeIterBytes * 8 + s.m_localWriteBits + n + 7 < 4294967296)
    (hcur : s.m_writeIterBytes * 8 + s.m_localWriteBits ≤ s.m_nofvalidBits)
    (hcap : s.m_writeIterBytes * 8 + s.m_localWriteBits ≤ 8 * s.m_buffer.length)
    (hext : s.m_useExtBuffer = true → s.m_buffer.length = s.m_extBufferSizeBytes ∧
      s.m_writeIterBytes * 8 + s.m_localWriteBits + n ≤ s.m_extBufferSizeBytes * 8) :
    ∃ s1, s.write W v n = (.ok (), s1) ∧
      s1.m_useExtBuffer = s.m_useExtBuffer ∧
      s1.m_extBufferSizeBytes = s.m_extBufferSizeBytes ∧
      s1.m_localWriteBits ≤ 7 ∧
      s1.m_writeIterBytes * 8 + s1.m_localWriteBits
        = s.m_writeIterBytes * 8 + s.m_localWriteBits + n ∧
      s1.m_nofvalidBits
        = max (s.m_writeIterBytes * 8 + s.m_localWriteBits + n) s.m_nofvalidBits ∧
      s1.m_buffer.length
        = (if s.m_useExtBuffer = false ∧
              s.m_buffer.length * 8 < s.m_writeIterBytes * 8 + s.m_localWriteBits + n
           then (s.m_writeIterBytes * 8 + s.m_localWriteBits + n + 7) / 8
           else s.m_buffer.length) ∧
      (∀ i, bitAt s1.m_buffer i
        = if s.m_writeIterBytes * 8 + s.m_localWriteBits ≤ i ∧
              i < s.m_writeIterBytes * 8 + s.m_localWriteBits + n
          then v.testBit (n - 1 - (i - (s.m_writeIterBytes * 8 + s.m_localWriteBits)))
          else bitAt s.m_buffer i) ∧
      ((∀ b ∈ s.m_buffer, b < 256) → ∀ b ∈ s1.m_buffer, b < 256) := by
  have htell : s.tell = s.m_writeIterBytes * 8 + s.m_localWriteBits := by
    simp only [tell, u32]; omega
  have hneed : u32 (s.m_writeIterBytes * 8 + s.m_localWriteBits + n)
      = s.m_writeIterBytes * 8 + s.m_localWriteBits + n := by simp only [u32]; omega
  have hc1 : ¬ (s.m_useExtBuffer = true ∧ ¬ (s.m_extBufferSizeBytes * 8
      ≥ s.m_writeIterBytes * 8 + s.m_localWriteBits + n)) := by
    intro h; have := (hext h.1).2; omega
  have hk : n - n % 8 = 8 * (n / 8) := by omega
  unfold write
  rw [htell, hneed, if_neg hc1, if_neg (not_not.mpr hn)]
  simp only [and_seven, hk]
  -- the leading partial byte
  obtain ⟨s1, hw1, hext1, hesz1, hl1, hpos1, hnv1, hlen1, hbit1, hbytes1⟩ :
      ∃ s1, s.writeIntern (if n = W then 0 else u8 (v >>> (8 * (n / 8)))) (n % 8) = (.ok (), s1) ∧
        s1.m_useExtBuffer = s.m_useExtBuffer ∧
        s1.m_extBufferSizeBytes = s.m_extBufferSizeBytes ∧
        s1.m_localWriteBits ≤ 7 ∧
        s1.m_writeIterBytes * 8 + s1.m_localWriteBits
          = s.m_writeIterBytes * 8 + s.m_localWriteBits + n % 8 ∧
        s1.m_nofvalidBits
          = max (s.m_writeIterBytes * 8 + s.m_localWriteBits + n % 8) s.m_nofvalidBits ∧
        s1.m_buffer.length
          = (if s.m_useExtBuffer = false ∧
                s.m_buffer.length * 8 < s.m_writeIterBytes * 8 + s.m_localWriteBits + n % 8
             then (s.m_writeIterBytes * 8 + s.m_localWriteBits + n % 8 + 7) / 8
             else s.m_buffer.length) ∧
        (∀ i, bitAt s1.m_buffer i
          = if s.m_writeIterBytes * 8 + s.m_localWriteBits ≤ i ∧
                i < s.m_writeIterBytes * 8 + s.m_localWriteBits + n % 8
            then v.testBit (n - 1 - (i - (s.m_writeIterBytes * 8 + s.m_localWriteBits)))
            else bitAt s.m_buffer i) ∧
        ((∀ b ∈ s.m_buffer, b < 256) → ∀ b ∈ s1.m_buffer, b < 256) := by
    by_cases hr : n % 8 = 0
    · refine ⟨s, ?_, rfl, rfl, hl, by omega, by omega, ?_, ?_, fun h => h⟩
      · unfold writeIntern
        rw [if_neg (by omega), if_pos hr]
      · rw [if_neg (by omega)]
      · intro i; rw [if_neg (by omega)]
    · have hnW : n ≠ W := by intro h; rw [h] at hr; exact hr hW8
      rw [if_neg hnW]
      obtain ⟨s1, hw1, hext1, hesz1, hl1, hpos1, hnv1, hlen1, hbit1, hbytes1⟩ :=
        writeIntern_spec hl (n := n % 8) (by omega) (by omega) (u8 (v >>> (8 * (n / 8))))
          (by omega) (fun h => ⟨(hext h).1, by have := (hext h).2; omega⟩)
      refine ⟨s1, hw1, hext1, hesz1, hl1, hpos1, hnv1, hlen1, ?_, hbytes1⟩
      intro i
      rw [hbit1]
      by_cases hA : s.m_writeIterBytes * 8 + s.m_localWriteBits ≤ i ∧
          i < s.m_writeIterBytes * 8 + s.m_localWriteBits + n % 8
      · rw [if_pos hA, if_pos hA]
        simp only [testBit_u8, Nat.testBit_shiftRight]
        have a : n % 8 - 1 - (i - (s.m_writeIterBytes * 8 + s.m_localWriteBits)) < 8 := by
          omega
        rw [decide_eq_true a, Bool.true_and]
        congr 1
        omega
      · rw [if_neg hA, if_neg hA]
  have hcap1 : s1.m_writeIterBytes * 8 + s1.m_localWriteBits ≤ 8 * s1.m_buffer.length := by
    rw [hpos1, hlen1]
    by_cases hc : s.m_useExtBuffer = false ∧
        s.m_buffer.length * 8 < s.m_writeIterBytes * 8 + s.m_localWriteBits + n % 8
    · rw [if_pos hc]; omega
    · rw [if_neg hc]
      cases hx : s.m_useExtBuffer with
      | true => have := hext hx; omega
      | false => rw [hx] at hc; simp at hc; omega
  obtain ⟨s2, hw2, hext2, hesz2, hl2, hpos2, hnv2, hlen2, hbit2, hbytes2⟩ :=
    write_loop_spec v (n / 8) s1 hl1 (by omega) (by rw [hnv1]; omega) hcap1
      (fun h => by
        rw [hext1] at h
        have := hext h
        rw [hesz1, hpos1, hlen1, if_neg (by rw [h]; simp)]
        exact ⟨this.1, by omega⟩)
  refine ⟨s2, ?_, by rw [hext2, hext1], by rw [hesz2, hesz1], hl2, by omega, ?_, ?_, ?_,
    fun h => hbytes2 (hbytes1 h)⟩
  · simp only [hw1, bind, Except.bind, hw2]
  · rw [hnv2, hnv1, hpos1]; omega
  · rw [hlen2, hlen1, hext1, hpos1]
    by_cases hx : s.m_useExtBuffer = false
    · simp only [hx, true_and]
      split_ifs <;> omega
    · have hx1 : s.m_useExtBuffer = true := by simpa using hx
      simp [hx1]
  · intro i
    rw [hbit2, hbit1, hpos1]
    by_cases hA : s.m_writeIterBytes * 8 + s.m_localWriteBits ≤ i ∧
        i < s.m_writeIterBytes * 8 + s.m_localWriteBits + n % 8
    · rw [if_neg (by omega), if_pos hA, if_pos (by omega)]
    · rw [if_neg hA]
      by_cases hB : s.m_writeIterBytes * 8 + s.m_localWriteBits + n % 8 ≤ i ∧
          i < s.m_writeIterBytes * 8 + s.m_localWriteBits + n % 8 + 8 * (n / 8)
      · rw [if_pos hB, if_pos (by omega)]
        congr 1
        omega
      · rw [if_neg hB, if_neg (by omega)]

end CBitBuffer
end ilo

namespace ilo

theorem toInt32_eq {x : Nat} (h : x < 2147483648) : toInt32 x = (x : Int) := by
  unfold toInt32
  have e : x % 4294967296 = x := Nat.mod_eq_of_lt (by omega)
  rw [e, if_pos h]

theorem wrapInt32_eq {z : Int} (h : inInt32 z) : wrapInt32 z = z := by
  unfold wrapInt32
  unfold inInt32 at h
  omega

namespace CBitParser

theorem read_unsigned_fail (W : Nat) {p : CBitParser} {n : Nat}
    (h : ¬ (n ≤ p.nofBitsLeft ∧ n ≤ W)) :
    p.read_unsigned W n = (.error Exc.ReadException, p) := by
  unfold read_unsigned
  by_cases h1 : n ≤ p.nofBitsLeft
  · have h2 : ¬ n ≤ W := fun h2 => h ⟨h1, h2⟩
    rw [if_neg (not_not.mpr h1), if_neg (by omega)]
    unfold unsigned_read
    by_cases h8 : W = 8
    · rw [if_pos h8]
      unfold readUint8
      rw [if_pos (by omega)]
    · rw [if_neg h8, if_pos h2]
  · rw [if_pos h1]

theorem read_signed_fail (W : Nat) {p : CBitParser} {n : Nat}
    (h : ¬ (n ≤ p.nofBitsLeft ∧ n ≤ W)) :
    p.read_signed W n = (.error Exc.ReadException, p) := by
  unfold read_signed
  by_cases h1 : n ≤ p.nofBitsLeft
  · have h2 : ¬ n ≤ W := fun h2 => h ⟨h1, h2⟩
    rw [if_neg (not_not.mpr h1), if_neg (by omega)]
    unfold signed_read
    rw [if_neg (by omega)]
    simp only [read_unsigned_fail W h]
  · rw [if_pos h1]

theorem seek_total {p : CBitParser} (hl : p.m_localReadBits ≤ 8)
    (hc : p.m_readIter * 8 + p.m_localReadBits ≤ p.m_nofValidBits)
    (hv : p.m_nofValidBits < 2147483648)
    (offset : Int) (origin : EPosType) (ho : inInt32 offset)
    (ht : inInt32 (seekTarget (p.m_readIter * 8 + p.m_localReadBits) p.m_nofValidBits offset origin)) :
    (0 ≤ seekTarget (p.m_readIter * 8 + p.m_localReadBits) p.m_nofValidBits offset origin ∧
      seekTarget (p.m_readIter * 8 + p.m_localReadBits) p.m_nofValidBits offset origin
        ≤ p.m_nofValidBits →
      ∃ p1, p.seek offset origin = (.ok (), p1) ∧
        ((p1.m_readIter * 8 + p1.m_localReadBits : Nat) : Int)
          = seekTarget (p.m_readIter * 8 + p.m_localReadBits) p.m_nofValidBits offset origin ∧
        p1.m_localReadBits ≤ 7 ∧
        p1.m_buffer = p.m_buffer ∧ p1.m_nofValidBits = p.m_nofValidBits) ∧
    (¬ (0 ≤ seekTarget (p.m_readIter * 8 + p.m_localReadBits) p.m_nofValidBits offset origin ∧
      seekTarget (p.m_readIter * 8 + p.m_localReadBits) p.m_nofValidBits offset origin
        ≤ p.m_nofValidBits) →
      p.seek offset origin = (.error Exc.SeekException, p)) := by
  have key : ∀ t : Int,
      (0 ≤ t ∧ t ≤ p.m_nofValidBits →
        ∃ p1, (if ¬ (t ≥ 0) then (Except.error Exc.SeekException, p)
            else if ¬ (t.toNat ≤ p.m_nofValidBits) then (Except.error Exc.SeekException, p)
            else (Except.ok (),
              CBitParser.mk p.m_buffer (t.toNat >>> 3) (t.toNat &&& 0x07) p.m_nofValidBits))
            = (Except.ok (), p1) ∧
          ((p1.m_readIter * 8 + p1.m_localReadBits : Nat) : Int) = t ∧
          p1.m_localReadBits ≤ 7 ∧
          p1.m_buffer = p.m_buffer ∧ p1.m_nofValidBits = p.m_nofValidBits) ∧
      (¬ (0 ≤ t ∧ t ≤ p.m_nofValidBits) →
        (if ¬ (t ≥ 0) then (Except.error Exc.SeekException, p)
            else if ¬ (t.toNat ≤ p.m_nofValidBits) then (Except.error Exc.SeekException, p)
            else (Except.ok (),
              CBitParser.mk p.m_buffer (t.toNat >>> 3) (t.toNat &&& 0x07) p.m_nofValidBits))
          = (Except.error Exc.SeekException, p)) := by
    intro t
    constructor
    · intro ⟨h0, h1⟩
      have h1' : t.toNat ≤ p.m_nofValidBits := by omega
      rw [if_neg (not_not.mpr h0), if_neg (not_not.mpr h1')]
      refine ⟨_, rfl, ?_, ?_, rfl, rfl⟩
      · show (((t.toNat >>> 3) * 8 + (t.toNat &&& 7) : Nat) : Int) = t
        rw [Nat.shiftRight_eq_div_pow, and_seven]
        have : t.toNat / 2 ^ 3 * 8 + t.toNat % 8 = t.toNat := by norm_num; omega
        rw [this]
        omega
      · show t.toNat &&& 7 ≤ 7
        rw [and_seven]; omega
    · intro h
      by_cases h0 : 0 ≤ t
      · have h1' : ¬ t.toNat ≤ p.m_nofValidBits := by
          intro h1; apply h; exact ⟨h0, by omega⟩
        rw [if_neg (not_not.mpr h0), if_pos h1']
      · rw [if_pos h0]
  unfold inInt32 at ho
  cases origin with
  | begin => exact key offset
  | end_ =>
    simp only [seekTarget] at ht ⊢
    have e : wrapInt32 (toInt32 p.m_nofValidBits + offset) = (p.m_nofValidBits : Int) + offset := by
      rw [toInt32_eq hv, wrapInt32_eq ht]
    unfold seek
    simp only [e]
    exact key _
  | cur =>
    simp only [seekTarget] at ht ⊢
    have e1 : u32 (p.m_readIter <<< 3) = p.m_readIter * 8 := by
      simp only [u32, Nat.shiftLeft_eq]; norm_num; omega
    unfold inInt32 at ht
    have e2 : wrapInt32 (toInt32 p.m_localReadBits + offset) = (p.m_localReadBits : Int) + offset := by
      rw [toInt32_eq (by omega)]
      exact wrapInt32_eq (by unfold inInt32; push_cast at ht ⊢; omega)
    have e3 : wrapInt32 (wrapInt32 (toInt32 p.m_localReadBits + offset) +
        toInt32 (u32 (p.m_readIter <<< 3)))
        = ((p.m_readIter * 8 + p.m_localReadBits : Nat) : Int) + offset := by
      rw [e2, e1, toInt32_eq (by omega)]
      rw [wrapInt32_eq (by unfold inInt32; push_cast at ht ⊢; omega)]
      push_cast
      ring
    unfold seek
    simp only [e3]
    exact key _

end CBitParser
end ilo

namespace ilo

theorem isWidth_le {W : Nat} (h : isWidth W) : W ≤ 64 := by
  unfold isWidth at h; omega

theorem isWidth_mod {W : Nat} (h : isWidth W) : W % 8 = 0 := by
  unfold isWidth at h; omega

namespace CBitParser

theorem seek_wf_aux {p : CBitParser} (hwf : p.wf) (t : Int) :
    (if ¬ (t ≥ 0) then (Except.error Exc.SeekException, p)
      else if ¬ (t.toNat ≤ p.m_nofValidBits) then (Except.error Exc.SeekException, p)
      else ((Except.ok () : Except Exc Unit),
        CBitParser.mk p.m_buffer (t.toNat >>> 3) (t.toNat &&& 0x07) p.m_nofValidBits)).2.wf := by
  by_cases h0 : ¬ (t ≥ 0)
  · rw [if_pos h0]; exact hwf
  · rw [if_neg h0]
    by_cases h1 : ¬ (t.toNat ≤ p.m_nofValidBits)
    · rw [if_pos h1]; exact hwf
    · rw [if_neg h1]
      simp only [not_not] at h1
      refine ⟨?_, ?_, hwf.valid_le, hwf.valid_lt, hwf.bytes⟩
      · show t.toNat &&& 7 ≤ 8
        rw [and_seven]; omega
      · show (t.toNat >>> 3) * 8 + (t.toNat &&& 7) ≤ p.m_nofValidBits
        rw [and_seven, Nat.shiftRight_eq_div_pow]
        have e : t.toNat / 2 ^ 3 * 8 + t.toNat % 8 = t.toNat := by norm_num; omega
        rw [e]
        exact h1

theorem seek_wf {p : CBitParser} (hwf : p.wf) (offset : Int) (origin : EPosType) :
    (p.seek offset origin).2.wf := by
  cases origin with
  | begin => exact seek_wf_aux hwf _
  | end_ => exact seek_wf_aux hwf _
  | cur => exact seek_wf_aux hwf _

theorem read_unsigned_wf (W : Nat) {p : CBitParser} (hwf : p.wf) (n : Nat) :
    (p.read_unsigned W n).2.wf := by
  by_cases h : n ≤ p.nofBitsLeft ∧ n ≤ W
  · obtain ⟨p1, hrd, hwf1, _⟩ := read_unsigned_spec W hwf h.2 h.1
    rw [hrd]; exact hwf1
  · rw [read_unsigned_fail W h]; exact hwf

theorem read_signed_wf (W : Nat) (hW : W ≤ 64) {p : CBitParser} (hwf : p.wf) (n : Nat) :
    (p.read_signed W n).2.wf := by
  by_cases h : n ≤ p.nofBitsLeft ∧ n ≤ W
  · by_cases h0 : n = 0
    · subst h0
      unfold read_signed
      rw [if_neg (by omega), if_pos rfl]
      exact hwf
    · obtain ⟨p1, hrd, hwf1, _⟩ := read_signed_spec W hW hwf (by omega) h.2 h.1
      rw [hrd]; exact hwf1
  · rw [read_signed_fail W h]; exact hwf

theorem mk_ptr_wf {buffer : List Nat} {nofValidBits : Nat} (hb : ∀ b ∈ buffer, b < 256)
    (hk : nofValidBits ≤ 8 * buffer.length) (hlt : nofValidBits < 4294967296) :
    (mk_ptr buffer nofValidBits).wf :=
  ⟨by simp [mk_ptr], by simp [mk_ptr], hk, hlt, hb⟩

theorem Reachable.to_wf {p : CBitParser} (h : Reachable p) : p.wf := by
  induction h with
  | init buffer nofValidBits hb hk hlt => exact mk_ptr_wf hb hk hlt
  | read_unsigned W n _ _ ih => exact read_unsigned_wf W ih n
  | read_signed W n hW _ ih => exact read_signed_wf W (isWidth_le hW) ih n
  | seek bitposition fromPosition _ _ _ ih => exact seek_wf ih _ _

end CBitParser

namespace CBitBuffer

theorem writer_tell_eq {s : CBitBuffer} (h : s.wf) :
    s.tell = s.m_writeIterBytes * 8 + s.m_localWriteBits := by
  have h1 := h.cursor_le
  have h2 := h.valid_lt
  simp only [tell, u32]
  omega

theorem writer_seek_total {s : CBitBuffer} (hl : s.m_localWriteBits ≤ 7)
    (hc : s.m_writeIterBytes * 8 + s.m_localWriteBits ≤ s.m_nofvalidBits)
    (hv : s.m_nofvalidBits < 2147483648)
    (offset : Int) (origin : EPosType) (ho : inInt32 offset)
    (ht : inInt32 (seekTarget (s.m_writeIterBytes * 8 + s.m_localWriteBits) s.m_nofvalidBits
      offset origin)) :
    (0 ≤ seekTarget (s.m_writeIterBytes * 8 + s.m_localWriteBits) s.m_nofvalidBits offset origin ∧
      seekTarget (s.m_writeIterBytes * 8 + s.m_localWriteBits) s.m_nofvalidBits offset origin
        ≤ s.m_nofvalidBits →
      ∃ s1, s.seek offset origin = (.ok (), s1) ∧
        ((s1.m_writeIterBytes * 8 + s1.m_localWriteBits : Nat) : Int)
          = seekTarget (s.m_writeIterBytes * 8 + s.m_localWriteBits) s.m_nofvalidBits offset
              origin ∧
        s1.m_localWriteBits ≤ 7 ∧
        s1.m_buffer = s.m_buffer ∧ s1.m_nofvalidBits = s.m_nofvalidBits ∧
        s1.m_useExtBuffer = s.m_useExtBuffer ∧
        s1.m_extBufferSizeBytes = s.m_extBufferSizeBytes) ∧
    (¬ (0 ≤ seekTarget (s.m_writeIterBytes * 8 + s.m_localWriteBits) s.m_nofvalidBits offset
          origin ∧
      seekTarget (s.m_writeIterBytes * 8 + s.m_localWriteBits) s.m_nofvalidBits offset origin
        ≤ s.m_nofvalidBits) →
      s.seek offset origin = (.error Exc.SeekException, s)) := by
  have key : ∀ t : Int,
      (0 ≤ t ∧ t ≤ s.m_nofvalidBits →
        ∃ s1, (if ¬ (t ≥ 0) then (Except.error Exc.SeekException, s)
            else if ¬ (t.toNat ≤ s.nofBits) then (Except.error Exc.SeekException, s)
            else (Except.ok (),
              CBitBuffer.mk s.m_useExtBuffer s.m_buffer s.m_extBufferSizeBytes (t.toNat >>> 3)
                (t.toNat &&& 0x07) s.m_nofvalidBits))
            = (Except.ok (), s1) ∧
          ((s1.m_writeIterBytes * 8 + s1.m_localWriteBits : Nat) : Int) = t ∧
          s1.m_localWriteBits ≤ 7 ∧
          s1.m_buffer = s.m_buffer ∧ s1.m_nofvalidBits = s.m_nofvalidBits ∧
          s1.m_useExtBuffer = s.m_useExtBuffer ∧
          s1.m_extBufferSizeBytes = s.m_extBufferSizeBytes) ∧
      (¬ (0 ≤ t ∧ t ≤ s.m_nofvalidBits) →
        (if ¬ (t ≥ 0) then (Except.error Exc.SeekException, s)
            else if ¬ (t.toNat ≤ s.nofBits) then (Except.error Exc.SeekException, s)
            else (Except.ok (),
              CBitBuffer.mk s.m_useExtBuffer s.m_buffer s.m_extBufferSizeBytes (t.toNat >>> 3)
                (t.toNat &&& 0x07) s.m_nofvalidBits))
          = (Except.error Exc.SeekException, s)) := by
    intro t
    constructor
    · intro ⟨h0, h1⟩
      have h1' : t.toNat ≤ s.nofBits := by unfold nofBits; omega
      rw [if_neg (not_not.mpr h0), if_neg (not_not.mpr h1')]
      refine ⟨_, rfl, ?_, ?_, rfl, rfl, rfl, rfl⟩
      · show (((t.toNat >>> 3) * 8 + (t.toNat &&& 7) : Nat) : Int) = t
        rw [Nat.shiftRight_eq_div_pow, and_seven]
        have : t.toNat / 2 ^ 3 * 8 + t.toNat % 8 = t.toNat := by norm_num; omega
        rw [this]
        omega
      · show t.toNat &&& 7 ≤ 7
        rw [and_seven]; omega
    · intro h
      by_cases h0 : 0 ≤ t
      · have h1' : ¬ t.toNat ≤ s.nofBits := by
          unfold nofBits
          intro h1; apply h; exact ⟨h0, by omega⟩
        rw [if_neg (not_not.mpr h0), if_pos h1']
      · rw [if_pos h0]
  unfold inInt32 at ho
  cases origin with
  | begin => exact key offset
  | end_ =>
    simp only [seekTarget] at ht ⊢
    have e : wrapInt32 (toInt32 s.nofBits + offset) = (s.m_nofvalidBits : Int) + offset := by
      unfold nofBits
      rw [toInt32_eq hv, wrapInt32_eq ht]
    unfold seek
    simp only [e]
    exact key _
  | cur =>
    simp only [seekTarget] at ht ⊢
    have e1 : u32 (s.m_writeIterBytes <<< 3) = s.m_writeIterBytes * 8 := by
      simp only [u32, Nat.shiftLeft_eq]; norm_num; omega
    unfold inInt32 at ht
    have e2 : wrapInt32 (toInt32 s.m_localWriteBits + offset)
        = (s.m_localWriteBits : Int) + offset := by
      rw [toInt32_eq (by omega)]
      exact wrapInt32_eq (by unfold inInt32; push_cast at ht ⊢; omega)
    have e3 : wrapInt32 (wrapInt32 (toInt32 s.m_localWriteBits + offset) +
        toInt32 (u32 (s.m_writeIterBytes <<< 3)))
        = ((s.m_writeIterBytes * 8 + s.m_localWriteBits : Nat) : Int) + offset := by
      rw [e2, e1, toInt32_eq (by omega)]
      rw [wrapInt32_eq (by unfold inInt32; push_cast at ht ⊢; omega)]
      push_cast
      ring
    unfold seek
    simp only [e3]
    exact key _

/-- A call of `write<T>` that violates the width or the capacity constraint throws before
any member is changed. -/
theorem write_fail (W : Nat) {s : CBitBuffer} (v : Nat) {n : Nat}
    (hrange : n ≤ W → s.m_writeIterBytes * 8 + s.m_localWriteBits + n < 4294967296)
    (h : W < n ∨ (s.m_useExtBuffer = true ∧
      s.m_extBufferSizeBytes * 8 < s.m_writeIterBytes * 8 + s.m_localWriteBits + n)) :
    s.write W v n = (.error Exc.WriteException, s) := by
  unfold write
  by_cases hW : W < n
  · by_cases hc : s.m_useExtBuffer = true ∧ ¬ (s.m_extBufferSizeBytes * 8 ≥ u32 (s.tell + n))
    · rw [if_pos hc]
    · rw [if_neg hc, if_pos (by omega)]
  · have hW' : n ≤ W := by omega
    have hr := hrange hW'
    rcases h with h | h
    · exact absurd h hW
    · have htell : s.tell = s.m_writeIterBytes * 8 + s.m_localWriteBits := by
        simp only [tell, u32]; omega
      have hneed : u32 (s.m_writeIterBytes * 8 + s.m_localWriteBits + n)
          = s.m_writeIterBytes * 8 + s.m_localWriteBits + n := by simp only [u32]; omega
      rw [htell, hneed, if_pos ⟨h.1, by omega⟩]

end CBitBuffer
end ilo

namespace ilo
namespace CBitParser

/-- A seek from the beginning to a position inside the valid bits. -/
theorem seek_begin {p : CBitParser} {c : Nat} (hc : c ≤ p.m_nofValidBits)
    (hv : p.m_nofValidBits < 4294967296) :
    ∃ p1, p.seek (c : Int) EPosType.begin = (.ok (), p1) ∧ p1.tell = c ∧
      p1.m_localReadBits ≤ 7 ∧ p1.m_readIter * 8 + p1.m_localReadBits = c ∧
      p1.m_buffer = p.m_buffer ∧ p1.m_nofValidBits = p.m_nofValidBits := by
  unfold seek
  simp only []
  have h0 : (c : Int) ≥ 0 := by omega
  have h1 : (c : Int).toNat ≤ p.m_nofValidBits := by omega
  rw [if_neg (not_not.mpr h0), if_neg (not_not.mpr h1)]
  have e : (c : Int).toNat = c := by omega
  have e3 : (c >>> 3) * 8 + (c &&& 7) = c := by
    rw [Nat.shiftRight_eq_div_pow, and_seven]; norm_num; omega
  refine ⟨_, rfl, ?_, ?_, ?_, rfl, rfl⟩
  · simp only [tell, nofReadBits, e, u32, Nat.shiftLeft_eq]
    rw [Nat.shiftRight_eq_div_pow, and_seven]
    norm_num
    omega
  · show (c : Int).toNat &&& 7 ≤ 7
    rw [and_seven]; omega
  · show ((c : Int).toNat >>> 3) * 8 + ((c : Int).toNat &&& 7) = c
    rw [e, e3]

end CBitParser
end ilo

namespace ilo

theorem mk_internal_wf (initLengthInBytes : Nat) : (CBitBuffer.mk_internal initLengthInBytes).wf := by
  refine ⟨by simp [CBitBuffer.mk_internal], by simp [CBitBuffer.mk_internal],
    by simp [CBitBuffer.mk_internal], by simp [CBitBuffer.mk_internal], ?_,
    by simp [CBitBuffer.mk_internal]⟩
  intro b hb
  simp only [CBitBuffer.mk_internal, List.mem_replicate] at hb
  rw [hb.2]; norm_num

/-- Effect of a successful `write<T>` on a well-formed writer, in terms of the accessors. -/
theorem write_ok (W : Nat) (hW : isWidth W) {s : CBitBuffer} (hwf : s.wf) {n : Nat}
    (hn : n ≤ W) (v : Nat) (hrange : s.tell + n + 7 < 4294967296)
    (hcap : s.m_useExtBuffer = true → s.tell + n ≤ 8 * s.m_extBufferSizeBytes) :
    ∃ s1, s.write W v n = (.ok (), s1) ∧ s1.wf ∧
      s1.m_useExtBuffer = s.m_useExtBuffer ∧
      s1.m_extBufferSizeBytes = s.m_extBufferSizeBytes ∧
      s1.tell = s.tell + n ∧
      s1.nofBits = max s.nofBits (s.tell + n) ∧
      s1.m_buffer.length
        = (if s.m_useExtBuffer = false ∧ s.m_buffer.length * 8 < s.tell + n
           then (s.tell + n + 7) / 8 else s.m_buffer.length) ∧
      (∀ i, bitAt s1.m_buffer i
        = if s.tell ≤ i ∧ i < s.tell + n then v.testBit (n - 1 - (i - s.tell))
          else bitAt s.m_buffer i) := by
  have ht := CBitBuffer.writer_tell_eq hwf
  rw [ht] at hrange hcap ⊢
  have hc := hwf.cursor_le
  have hv := hwf.valid_le
  obtain ⟨s1, hw, hext1, hesz1, hl1, hpos1, hnv1, hlen1, hbit1, hbytes1⟩ :=
    CBitBuffer.write_spec W (isWidth_mod hW) hwf.local_le hn v hrange hc (by omega)
      (fun h => ⟨hwf.ext_size h, by have := hcap h; omega⟩)
  have hcapl : s.m_writeIterBytes * 8 + s.m_localWriteBits + n ≤ 8 * s1.m_buffer.length := by
    rw [hlen1]
    by_cases hcnd : s.m_useExtBuffer = false ∧
        s.m_buffer.length * 8 < s.m_writeIterBytes * 8 + s.m_localWriteBits + n
    · rw [if_pos hcnd]; omega
    · rw [if_neg hcnd]
      cases hx : s.m_useExtBuffer with
      | true => have := hcap hx; have := hwf.ext_size hx; omega
      | false => rw [hx] at hcnd; simp at hcnd; omega
  have hlenge : s.m_buffer.length ≤ s1.m_buffer.length := by
    rw [hlen1]; split_ifs with h
    · omega
    · exact le_refl _
  have hwf1 : s1.wf := by
    refine ⟨hl1, by rw [hpos1, hnv1]; omega, ?_, ?_, hbytes1 hwf.bytes, ?_⟩
    · rw [hnv1]
      have := hwf.valid_le
      omega
    · rw [hnv1]
      have := hwf.valid_lt
      omega
    · intro h
      rw [hext1] at h
      rw [hesz1, hlen1, if_neg (by rw [h]; simp)]
      exact hwf.ext_size h
  refine ⟨s1, hw, hwf1, hext1, hesz1, ?_, ?_, hlen1, hbit1⟩
  · rw [CBitBuffer.writer_tell_eq hwf1, hpos1]
  · show s1.m_nofvalidBits = max s.m_nofvalidBits _
    rw [hnv1, max_comm]

end ilo

namespace ilo

theorem mk_external_wf {buffer : List Nat} {sizeBytes nofValidBits : Nat}
    (hb : ∀ b ∈ buffer, b < 256) (hs : buffer.length = sizeBytes)
    (hk : nofValidBits ≤ 8 * sizeBytes) (hlt : nofValidBits < 4294967296) :
    (CBitBuffer.mk_external buffer sizeBytes nofValidBits).wf :=
  ⟨by simp [CBitBuffer.mk_external], by simp [CBitBuffer.mk_external],
    by show nofValidBits ≤ 8 * buffer.length; rw [hs]; exact hk, hlt, hb, fun _ => hs⟩

theorem writer_seek_wf_aux {s : CBitBuffer} (hwf : s.wf) (t : Int) :
    (if ¬ (t ≥ 0) then (Except.error Exc.SeekException, s)
      else if ¬ (t.toNat ≤ s.nofBits) then (Except.error Exc.SeekException, s)
      else ((Except.ok () : Except Exc Unit),
        CBitBuffer.mk s.m_useExtBuffer s.m_buffer s.m_extBufferSizeBytes (t.toNat >>> 3)
          (t.toNat &&& 0x07) s.m_nofvalidBits)).2.wf := by
  by_cases h0 : ¬ (t ≥ 0)
  · rw [if_pos h0]; exact hwf
  · rw [if_neg h0]
    by_cases h1 : ¬ (t.toNat ≤ s.nofBits)
    · rw [if_pos h1]; exact hwf
    · rw [if_neg h1]
      simp only [not_not] at h1
      refine ⟨?_, ?_, hwf.valid_le, hwf.valid_lt, hwf.bytes, hwf.ext_size⟩
      · show t.toNat &&& 7 ≤ 7
        rw [and_seven]; omega
      · show (t.toNat >>> 3) * 8 + (t.toNat &&& 7) ≤ s.m_nofvalidBits
        rw [and_seven, Nat.shiftRight_eq_div_pow]
        have e : t.toNat / 2 ^ 3 * 8 + t.toNat % 8 = t.toNat := by norm_num; omega
        rw [e]
        exact h1

/-- The writer's `seek` keeps the representation invariant, whether it succeeds or throws. -/
theorem writer_seek_wf {s : CBitBuffer} (hwf : s.wf) (offset : Int) (origin : EPosType) :
    (s.seek offset origin).2.wf := by
  cases origin with
  | begin => exact writer_seek_wf_aux hwf _
  | end_ => exact writer_seek_wf_aux hwf _
  | cur => exact writer_seek_wf_aux hwf _

end ilo

namespace ilo

/-- The value read back over freshly written bits is the written value reduced to `n` bits. -/
theorem bitsVal_of_written {buf : List Nat} {c n v : Nat}
    (h : ∀ i, c ≤ i ∧ i < c + n → bitAt buf i = v.testBit (n - 1 - (i - c))) :
    bitsVal buf c n = v % 2 ^ n := by
  apply Nat.eq_of_testBit_eq
  intro j
  rw [bitsVal_testBit, Nat.testBit_mod_two_pow]
  by_cases hj : j < n
  · rw [decide_eq_true hj, Bool.true_and, Bool.true_and, h _ (by omega)]
    congr 1
    omega
  · rw [decide_eq_false hj, Bool.false_and, Bool.false_and]

/-- Writing `n` bits of `v` and positioning a reader over the result at the same place. -/
theorem roundtrip_setup (W : Nat) (hW : isWidth W) {s : CBitBuffer} (hwf : s.wf) {n : Nat}
    (hn : n ≤ W) (v : Nat) (hc : s.tell < 2147483648)
    (hcap : s.m_useExtBuffer = true → s.tell + n ≤ 8 * s.m_extBufferSizeBytes) :
    ∃ s1 p, s.write W v n = (.ok (), s1) ∧
      (CBitParser.mk_ptr s1.m_buffer s1.nofBits).seek (s.tell : Int) EPosType.begin = (.ok (), p) ∧
      p.wf ∧ n ≤ p.nofBitsLeft ∧ bitsVal p.m_buffer p.tell n = v % 2 ^ n := by
  have hW64 := isWidth_le hW
  obtain ⟨s1, hw, hwf1, hext1, hesz1, htell1, hnb1, hlen1, hbit1⟩ :=
    write_ok W hW hwf hn v (by omega) hcap
  have hnb1' : s1.m_nofvalidBits = max s.m_nofvalidBits (s.tell + n) := hnb1
  obtain ⟨p, hsk, hpt, hpl, hpc, hpb, hpv⟩ :=
    CBitParser.seek_begin (p := CBitParser.mk_ptr s1.m_buffer s1.nofBits) (c := s.tell)
      (by show s.tell ≤ s1.m_nofvalidBits; omega) hwf1.valid_lt
  have hpb' : p.m_buffer = s1.m_buffer := hpb
  have hpv' : p.m_nofValidBits = s1.m_nofvalidBits := hpv
  have hpwf : p.wf :=
    ⟨by omega, by rw [hpc, hpv']; omega, by rw [hpv', hpb']; exact hwf1.valid_le,
      by rw [hpv']; exact hwf1.valid_lt, by rw [hpb']; exact hwf1.bytes⟩
  refine ⟨s1, p, hw, hsk, hpwf, ?_, ?_⟩
  · rw [CBitParser.nofBitsLeft_eq hpwf, hpt, hpv']; omega
  · rw [hpb', hpt]
    apply bitsVal_of_written
    intro i hi
    rw [hbit1, if_pos hi]

end ilo

namespace ilo

theorem signExtend_pattern {W n : Nat} (h1 : 1 ≤ n) (hn : n ≤ W) (v : Int)
    (hlo : -(2 : Int) ^ (n - 1) ≤ v) (hhi : v ≤ (2 : Int) ^ (n - 1) - 1) :
    CBitParser.signExtend n ((v % 2 ^ W).toNat % 2 ^ n) = v := by
  have h2n : (2 : Int) ^ n = 2 * 2 ^ (n - 1) := by
    conv_lhs => rw [show n = (n - 1) + 1 by omega]
    rw [pow_succ]; ring
  have hpos : (0 : Int) < 2 ^ (n - 1) := by positivity
  have hposW : (0 : Int) < 2 ^ W := by positivity
  have hdvd : ((2 : Int) ^ n) ∣ 2 ^ W := pow_dvd_pow 2 hn
  have hu : (((v % 2 ^ W).toNat % 2 ^ n : Nat) : Int) = v % 2 ^ n := by
    push_cast
    rw [Int.toNat_of_nonneg (Int.emod_nonneg _ (ne_of_gt hposW)), Int.emod_emod_of_dvd _ hdvd]
  unfold CBitParser.signExtend
  by_cases hv0 : 0 ≤ v
  · have hm : v % 2 ^ n = v := Int.emod_eq_of_lt hv0 (by omega)
    have hlt : (v % 2 ^ W).toNat % 2 ^ n < 2 ^ (n - 1) := by
      have : (((v % 2 ^ W).toNat % 2 ^ n : Nat) : Int) < ((2 ^ (n - 1) : Nat) : Int) := by
        rw [hu, hm]; push_cast; omega
      exact_mod_cast this
    rw [if_pos hlt, hu, hm]
  · have hm : v % 2 ^ n = v + 2 ^ n := by
      rw [← Int.add_emod_self]
      exact Int.emod_eq_of_lt (by omega) (by omega)
    have hge : ¬ ((v % 2 ^ W).toNat % 2 ^ n < 2 ^ (n - 1)) := by
      intro hlt
      have : (((v % 2 ^ W).toNat % 2 ^ n : Nat) : Int) < ((2 ^ (n - 1) : Nat) : Int) := by
        exact_mod_cast hlt
      rw [hu, hm] at this
      push_cast at this
      omega
    rw [if_neg hge, hu, hm]
    ring

end ilo

namespace ilo

/-! ## Outcome of a call: failure without effect, or success -/

/-- A call of `write<T>` on a well-formed writer either throws `WriteException` and
leaves the writer unchanged, or succeeds with the effect described by `write_ok`. -/
theorem write_cases (W : Nat) (hW : isWidth W) {s : CBitBuffer} (hwf : s.wf) (v n : Nat)
    (hrange : n ≤ W → s.tell + n + 7 < 4294967296) :
    ((W < n ∨ (s.m_useExtBuffer = true ∧ 8 * s.m_extBufferSizeBytes < s.tell + n)) ∧
      s.write W v n = (.error Exc.WriteException, s)) ∨
    (¬ (W < n ∨ (s.m_useExtBuffer = true ∧ 8 * s.m_extBufferSizeBytes < s.tell + n)) ∧
      ∃ s1, s.write W v n = (.ok (), s1) ∧ s1.wf ∧ s1.tell = s.tell + n) := by
  have ht := CBitBuffer.writer_tell_eq hwf
  by_cases h : W < n ∨ (s.m_useExtBuffer = true ∧ 8 * s.m_extBufferSizeBytes < s.tell + n)
  · left
    refine ⟨h, CBitBuffer.write_fail W v (fun hn => by have := hrange hn; omega) ?_⟩
    rcases h with h | h
    · exact Or.inl h
    · exact Or.inr ⟨h.1, by rw [← ht]; omega⟩
  · right
    have hn : n ≤ W := by
      by_contra hc; exact h (Or.inl (by omega))
    obtain ⟨s1, hw, hwf1, _, _, htell1, _⟩ := write_ok W hW hwf hn v (hrange hn)
      (fun hx => by
        by_contra hc
        exact h (Or.inr ⟨hx, by omega⟩))
    exact ⟨h, s1, hw, hwf1, htell1⟩

/-- A call of `read<T>`, unsigned `T`, on a well-formed reader either throws `ReadException`
and leaves the reader unchanged, or succeeds and advances the cursor. -/
theorem read_unsigned_cases (W : Nat) {p : CBitParser} (hwf : p.wf) (n : Nat) :
    ((p.nofBitsLeft < n ∨ W < n) ∧ p.read_unsigned W n = (.error Exc.ReadException, p)) ∨
    (¬ (p.nofBitsLeft < n ∨ W < n) ∧
      ∃ r p1, p.read_unsigned W n = (.ok r, p1) ∧ p1.wf ∧ p1.tell = p.tell + n ∧
        p1.nofBitsLeft + n = p.nofBitsLeft) := by
  by_cases h : p.nofBitsLeft < n ∨ W < n
  · left
    exact ⟨h, CBitParser.read_unsigned_fail W (by omega)⟩
  · right
    obtain ⟨p1, hrd, hwf1, _, hv1, ht1⟩ :=
      CBitParser.read_unsigned_spec W hwf (n := n) (by omega) (by omega)
    refine ⟨h, _, p1, hrd, hwf1, ht1, ?_⟩
    have hl := CBitParser.nofBitsLeft_eq hwf
    have hl1 := CBitParser.nofBitsLeft_eq hwf1
    rw [hl1, hl, hv1, ht1]
    rw [hl] at h
    omega

/-- A call of `read<T>`, signed `T`, on a well-formed reader either throws `ReadException`
and leaves the reader unchanged, or succeeds and advances the cursor. -/
theorem read_signed_cases (W : Nat) (hW : W ≤ 64) {p : CBitParser} (hwf : p.wf) (n : Nat) :
    ((p.nofBitsLeft < n ∨ W < n) ∧ p.read_signed W n = (.error Exc.ReadException, p)) ∨
    (¬ (p.nofBitsLeft < n ∨ W < n) ∧
      ∃ r p1, p.read_signed W n = (.ok r, p1) ∧ p1.wf ∧ p1.tell = p.tell + n ∧
        p1.nofBitsLeft + n = p.nofBitsLeft) := by
  by_cases h : p.nofBitsLeft < n ∨ W < n
  · left
    exact ⟨h, CBitParser.read_signed_fail W (by omega)⟩
  · right
    by_cases h0 : n = 0
    · subst h0
      refine ⟨h, 0, p, ?_, hwf, rfl, rfl⟩
      unfold CBitParser.read_signed
      rw [if_neg (by omega), if_pos rfl]
    · obtain ⟨p1, hrd, hwf1, _, hv1, ht1⟩ :=
        CBitParser.read_signed_spec W hW hwf (n := n) (by omega) (by omega) (by omega)
      refine ⟨h, _, p1, hrd, hwf1, ht1, ?_⟩
      have hl := CBitParser.nofBitsLeft_eq hwf
      have hl1 := CBitParser.nofBitsLeft_eq hwf1
      rw [hl1, hl, hv1, ht1]
      rw [hl] at h
      omega

end ilo

namespace ilo

/-- A call of `write<T>` keeps the representation invariant, whether it succeeds or throws. -/
theorem write_wf (W : Nat) (hW : isWidth W) {s : CBitBuffer} (hwf : s.wf) (v n : Nat)
    (hrange : n ≤ W → s.tell + n + 7 < 4294967296) : (s.write W v n).2.wf := by
  rcases write_cases W hW hwf v n hrange with ⟨_, hf⟩ | ⟨_, s1, hw, hwf1, _⟩
  · rw [hf]; exact hwf
  · rw [hw]; exact hwf1

end ilo

namespace ilo

/-! ## Copy loop, seek and storage lemmas for the structural edits -/

end ilo

namespace ilo

/-- The length of the storage after a successful `write<T>`, in closed form. -/
theorem write_ok_length (W : Nat) (hW : isWidth W) {s : CBitBuffer} (hwf : s.wf) {n : Nat}
    (hn : n ≤ W) (v : Nat) (hrange : s.tell + n + 7 < 4294967296)
    (hcap : s.m_useExtBuffer = true → s.tell + n ≤ 8 * s.m_extBufferSizeBytes) :
    (s.write W v n).2.m_buffer.length
      = if s.m_useExtBuffer = true then s.m_buffer.length
        else max s.m_buffer.length ((s.tell + n + 7) / 8) := by
  obtain ⟨s1, hw, _, _, _, _, _, hlen, _⟩ := write_ok W hW hwf hn v hrange hcap
  have ht := CBitBuffer.writer_tell_eq hwf
  have h1 := hwf.cursor_le
  have h2 := hwf.valid_le
  rw [hw]
  show s1.m_buffer.length = _
  rw [hlen]
  cases hx : s.m_useExtBuffer with
  | true => simp
  | false =>
    simp only [true_and, Bool.false_eq_true, if_false]
    by_cases hc : s.m_buffer.length * 8 < s.tell + n
    · rw [if_pos hc]; omega
    · rw [if_neg hc]; omega

/-- One chunk of the copy loop: `c ≤ 8` bits are read and written. -/
theorem copy_chunk_spec {p : CBitParser} {w : CBitBuffer} (hp : p.wf) (hw : w.wf) {c : Nat}
    (hc : c ≤ 8) (hleft : p.tell + c ≤ p.m_nofValidBits)
    (hrange : w.tell + c + 7 < 4294967296)
    (hcap : w.m_useExtBuffer = true → w.tell + c ≤ 8 * w.m_extBufferSizeBytes) :
    ∃ r p1 w1, p.read_unsigned 8 c = (.ok r, p1) ∧ w.write 8 r c = (.ok (), w1) ∧
      p1.wf ∧ w1.wf ∧
      p1.m_buffer = p.m_buffer ∧ p1.m_nofValidBits = p.m_nofValidBits ∧ p1.tell = p.tell + c ∧
      w1.m_useExtBuffer = w.m_useExtBuffer ∧
      w1.m_extBufferSizeBytes = w.m_extBufferSizeBytes ∧
      w1.tell = w.tell + c ∧ w1.nofBits = max w.nofBits (w.tell + c) ∧
      w1.m_buffer.length
        = (if w.m_useExtBuffer = true then w.m_buffer.length
           else max w.m_buffer.length ((w.tell + c + 7) / 8)) ∧
      (∀ i, bitAt w1.m_buffer i
        = if w.tell ≤ i ∧ i < w.tell + c then bitAt p.m_buffer (p.tell + (i - w.tell))
          else bitAt w.m_buffer i) := by
  have hl := CBitParser.nofBitsLeft_eq hp
  obtain ⟨p1, hrd, hp1, hpb, hpv, hpt⟩ := CBitParser.read_unsigned_spec 8 hp hc (by omega)
  have hlen := write_ok_length 8 (by decide) hw hc (bitsVal p.m_buffer p.tell c) hrange hcap
  obtain ⟨w1, hwr, hw1, hx1, he1, ht1, hn1, _, hbit⟩ :=
    write_ok 8 (by decide) hw hc (bitsVal p.m_buffer p.tell c) hrange hcap
  rw [hwr] at hlen
  refine ⟨_, p1, w1, hrd, hwr, hp1, hw1, hpb, hpv, hpt, hx1, he1, ht1, hn1, hlen, ?_⟩
  intro i
  rw [hbit]
  by_cases hi : w.tell ≤ i ∧ i < w.tell + c
  · rw [if_pos hi, if_pos hi, bitsVal_testBit]
    have hj : c - 1 - (i - w.tell) < c := by omega
    rw [decide_eq_true hj, Bool.true_and]
    congr 2
    omega
  · rw [if_neg hi, if_neg hi]

end ilo

namespace ilo

theorem copy_loop_small {t : Nat} (ht : t < 8) (p : CBitParser) (w : CBitBuffer) :
    copy_loop t p w =
      if t > 0 then
        match p.read_unsigned 8 (min 8 t) with
        | (.error e, parser1) => (.error e, parser1, w)
        | (.ok reader, parser1) =>
          match w.write 8 reader (min 8 t) with
          | (.error e, writer1) => (.error e, parser1, writer1)
          | (.ok _, writer1) => (.ok (), parser1, writer1)
      else (.ok (), p, w) := by
  interval_cases t <;> rfl

theorem copy_loop_step (t : Nat) (p : CBitParser) (w : CBitBuffer) :
    copy_loop (t + 8) p w =
      match p.read_unsigned 8 8 with
      | (.error e, parser1) => (.error e, parser1, w)
      | (.ok reader, parser1) =>
        match w.write 8 reader 8 with
        | (.error e, writer1) => (.error e, parser1, writer1)
        | (.ok _, writer1) => copy_loop t parser1 writer1 := by
  rw [copy_loop]

/-- The copy loop moves `t` bits from the cursor of the parser to the cursor of the writer. -/
theorem copy_loop_spec (r : Nat) (hr : r < 8) (k : Nat) :
    ∀ (p : CBitParser) (w : CBitBuffer), p.wf → w.wf →
      p.tell + (8 * k + r) ≤ p.m_nofValidBits →
      w.tell + (8 * k + r) + 7 < 4294967296 →
      (w.m_useExtBuffer = true → w.tell + (8 * k + r) ≤ 8 * w.m_extBufferSizeBytes) →
      ∃ p1 w1, copy_loop (8 * k + r) p w = (.ok (), p1, w1) ∧ p1.wf ∧ w1.wf ∧
        p1.m_buffer = p.m_buffer ∧ p1.m_nofValidBits = p.m_nofValidBits ∧
        p1.tell = p.tell + (8 * k + r) ∧
        w1.m_useExtBuffer = w.m_useExtBuffer ∧
        w1.m_extBufferSizeBytes = w.m_extBufferSizeBytes ∧
        w1.tell = w.tell + (8 * k + r) ∧ w1.nofBits = max w.nofBits (w.tell + (8 * k + r)) ∧
        w1.m_buffer.length
          = (if w.m_useExtBuffer = true then w.m_buffer.length
             else max w.m_buffer.length ((w.tell + (8 * k + r) + 7) / 8)) ∧
        (∀ i, bitAt w1.m_buffer i
          = if w.tell ≤ i ∧ i < w.tell + (8 * k + r)
            then bitAt p.m_buffer (p.tell + (i - w.tell))
            else bitAt w.m_buffer i) := by
  induction k with
  | zero =>
    intro p w hp hw hleft hrange hcap
    simp only [Nat.mul_zero, Nat.zero_add] at hleft hrange hcap ⊢
    rw [copy_loop_small hr]
    by_cases h0 : r > 0
    · rw [if_pos h0]
      have hmin : min 8 r = r := by omega
      rw [hmin]
      obtain ⟨rd, p1, w1, hrd, hwr, hp1, hw1, hpb, hpv, hpt, hx1, he1, ht1, hn1, hlen, hbit⟩ :=
        copy_chunk_spec hp hw (c := r) (by omega) hleft hrange hcap
      refine ⟨p1, w1, ?_, hp1, hw1, hpb, hpv, hpt, hx1, he1, ht1, hn1, hlen, hbit⟩
      simp only [hrd, hwr]
    · rw [if_neg h0]
      have hr0 : r = 0 := by omega
      subst hr0
      have h1 := hw.cursor_le
      have h2 := hw.valid_le
      have h3 := CBitBuffer.writer_tell_eq hw
      refine ⟨p, w, rfl, hp, hw, rfl, rfl, rfl, rfl, rfl, rfl, ?_, ?_, ?_⟩
      · show w.m_nofvalidBits = max w.m_nofvalidBits (w.tell + 0)
        omega
      · split_ifs
        · rfl
        · omega
      · intro i
        rw [if_neg (by omega)]
  | succ k ih =>
    intro p w hp hw hleft hrange hcap
    have e : 8 * (k + 1) + r = (8 * k + r) + 8 := by ring
    rw [e] at hleft hrange hcap ⊢
    rw [copy_loop_step]
    obtain ⟨rd, p1, w1, hrd, hwr, hp1, hw1, hpb, hpv, hpt, hx1, he1, ht1, hn1, hlen, hbit⟩ :=
      copy_chunk_spec hp hw (c := 8) (le_refl 8) (by omega) (by omega)
        (fun h => by have := hcap h; omega)
    obtain ⟨p2, w2, hcl, hp2, hw2, hpb2, hpv2, hpt2, hx2, he2, ht2, hn2, hlen2, hbit2⟩ :=
      ih p1 w1 hp1 hw1 (by rw [hpv, hpt]; omega) (by rw [ht1]; omega)
        (fun h => by
          rw [hx1] at h
          have := hcap h
          rw [he1, ht1]; omega)
    refine ⟨p2, w2, ?_, hp2, hw2, by rw [hpb2, hpb], by rw [hpv2, hpv], by rw [hpt2, hpt]; omega,
      by rw [hx2, hx1], by rw [he2, he1], by rw [ht2, ht1]; omega, ?_, ?_, ?_⟩
    · simp only [hrd, hwr, hcl]
    · rw [hn2, hn1, ht1]
      omega
    · rw [hlen2, hlen, hx1, ht1]
      cases hx : w.m_useExtBuffer with
      | true => simp
      | false =>
        simp only [Bool.false_eq_true, if_false]
        omega
    · intro i
      rw [hbit2, hbit, ht1, hpb, hpt]
      by_cases hA : w.tell ≤ i ∧ i < w.tell + 8
      · rw [if_neg (by omega), if_pos hA, if_pos (by omega)]
      · rw [if_neg hA]
        by_cases hB : w.tell + 8 ≤ i ∧ i < w.tell + 8 + (8 * k + r)
        · rw [if_pos hB, if_pos (by omega)]
          congr 1
          omega
        · rw [if_neg hB, if_neg (by omega)]

end ilo

namespace ilo

/-- The copy loop for an arbitrary number of bits. -/
theorem copy_loop_ok (t : Nat) {p : CBitParser} {w : CBitBuffer} (hp : p.wf) (hw : w.wf)
    (hleft : p.tell + t ≤ p.m_nofValidBits) (hrange : w.tell + t + 7 < 4294967296)
    (hcap : w.m_useExtBuffer = true → w.tell + t ≤ 8 * w.m_extBufferSizeBytes) :
    ∃ p1 w1, copy_loop t p w = (.ok (), p1, w1) ∧ p1.wf ∧ w1.wf ∧
      p1.m_buffer = p.m_buffer ∧ p1.m_nofValidBits = p.m_nofValidBits ∧
      p1.tell = p.tell + t ∧
      w1.m_useExtBuffer = w.m_useExtBuffer ∧
      w1.m_extBufferSizeBytes = w.m_extBufferSizeBytes ∧
      w1.tell = w.tell + t ∧ w1.nofBits = max w.nofBits (w.tell + t) ∧
      w1.m_buffer.length
        = (if w.m_useExtBuffer = true then w.m_buffer.length
           else max w.m_buffer.length ((w.tell + t + 7) / 8)) ∧
      (∀ i, bitAt w1.m_buffer i
        = if w.tell ≤ i ∧ i < w.tell + t then bitAt p.m_buffer (p.tell + (i - w.tell))
          else bitAt w.m_buffer i) := by
  have e : 8 * (t / 8) + t % 8 = t := by omega
  have h := copy_loop_spec (t % 8) (by omega) (t / 8) p w hp hw (by rw [e]; exact hleft)
    (by rw [e]; exact hrange) (by rw [e]; exact hcap)
  rw [e] at h
  exact h

/-- A seek of the writer from the beginning to a position inside the valid bits; the
cursor of the state before the seek is arbitrary. -/
theorem writer_seek_begin {s : CBitBuffer} {c : Nat} (hc : c ≤ s.m_nofvalidBits)
    (hc31 : c < 2147483648) :
    ∃ s1, s.seek (toInt32 c) EPosType.begin = (.ok (), s1) ∧
      s1.m_writeIterBytes * 8 + s1.m_localWriteBits = c ∧ s1.m_localWriteBits ≤ 7 ∧
      s1.m_buffer = s.m_buffer ∧ s1.m_nofvalidBits = s.m_nofvalidBits ∧
      s1.m_useExtBuffer = s.m_useExtBuffer ∧
      s1.m_extBufferSizeBytes = s.m_extBufferSizeBytes := by
  rw [toInt32_eq hc31]
  unfold CBitBuffer.seek
  simp only []
  have h0 : (c : Int) ≥ 0 := by omega
  have h1 : (c : Int).toNat ≤ s.nofBits := by unfold CBitBuffer.nofBits; omega
  rw [if_neg (not_not.mpr h0), if_neg (not_not.mpr h1)]
  have e : (c : Int).toNat = c := by omega
  have e3 : (c >>> 3) * 8 + (c &&& 7) = c := by
    rw [Nat.shiftRight_eq_div_pow, and_seven]; norm_num; omega
  refine ⟨_, rfl, ?_, ?_, rfl, rfl, rfl, rfl⟩
  · show ((c : Int).toNat >>> 3) * 8 + ((c : Int).toNat &&& 7) = c
    rw [e, e3]
  · show (c : Int).toNat &&& 7 ≤ 7
    rw [and_seven]; omega

/-- A seek of the writer to the end of the valid bits. -/
theorem writer_seek_end {s : CBitBuffer} (hv : s.m_nofvalidBits < 2147483648) :
    ∃ s1, s.seek 0 EPosType.end_ = (.ok (), s1) ∧
      s1.m_writeIterBytes * 8 + s1.m_localWriteBits = s.m_nofvalidBits ∧
      s1.m_localWriteBits ≤ 7 ∧
      s1.m_buffer = s.m_buffer ∧ s1.m_nofvalidBits = s.m_nofvalidBits ∧
      s1.m_useExtBuffer = s.m_useExtBuffer ∧
      s1.m_extBufferSizeBytes = s.m_extBufferSizeBytes := by
  obtain ⟨s1, hs, h⟩ := writer_seek_begin (s := s) (c := s.m_nofvalidBits) (le_refl _) hv
  refine ⟨s1, ?_, h⟩
  rw [← hs]
  have e : wrapInt32 (toInt32 s.nofBits + 0) = toInt32 s.m_nofvalidBits := by
    unfold CBitBuffer.nofBits
    rw [toInt32_eq hv]
    exact wrapInt32_eq (by unfold inInt32; omega)
  unfold CBitBuffer.seek
  simp only [e]

/-- The representation invariant of a writer from its parts. -/
theorem writer_wf_of {s s1 : CBitBuffer} (hwf : s.wf) (hl : s1.m_localWriteBits ≤ 7)
    (hc : s1.m_writeIterBytes * 8 + s1.m_localWriteBits ≤ s1.m_nofvalidBits)
    (hb : s1.m_buffer = s.m_buffer) (hn : s1.m_nofvalidBits ≤ s.m_nofvalidBits)
    (hx : s1.m_useExtBuffer = s.m_useExtBuffer)
    (he : s1.m_extBufferSizeBytes = s.m_extBufferSizeBytes) : s1.wf := by
  have h1 := hwf.valid_le
  have h2 := hwf.valid_lt
  exact ⟨hl, hc, by rw [hb]; omega, by omega, by rw [hb]; exact hwf.bytes,
    by rw [hx, hb, he]; exact hwf.ext_size⟩

theorem getD_vecResize (buf : List Nat) (m i : Nat) :
    (vecResize buf m).getD i 0 = if i < m then buf.getD i 0 else 0 := by
  simp only [vecResize, List.getD_eq_getElem?_getD, List.getElem?_append, List.length_take,
    List.getElem?_take, List.getElem?_replicate]
  by_cases h1 : i < m
  · by_cases h2 : i < buf.length
    · have h3 : i < min m buf.length := by omega
      simp only [h1, h3, if_true]
    · have h3 : ¬ i < min m buf.length := by omega
      have h4 : i - min m buf.length < m - buf.length := by omega
      simp only [h1, h3, h4, if_true, if_false, List.getElem?_eq_none (not_lt.mp h2)]
      rfl
  · have h3 : ¬ i < min m buf.length := by omega
    have h4 : ¬ i - min m buf.length < m - buf.length := by omega
    simp only [h1, h3, h4, if_false]
    rfl

theorem getD_zeroed (buf : List Nat) (a e i : Nat) (ha : a ≤ e) (he : e ≤ buf.length) :
    (buf.take a ++ List.replicate (e - a) 0 ++ buf.drop e).getD i 0
      = if a ≤ i ∧ i < e then 0 else buf.getD i 0 := by
  simp only [List.getD_eq_getElem?_getD, List.getElem?_append, List.length_take,
    List.length_append, List.length_replicate, List.getElem?_take, List.getElem?_replicate,
    List.getElem?_drop]
  have hmin : min a buf.length = a := by omega
  rw [hmin]
  by_cases h1 : i < a
  · rw [if_pos (by omega), if_pos h1, if_pos h1, if_neg (by omega)]
  · by_cases h2 : i < e
    · rw [if_pos (by omega), if_neg h1, if_pos (by omega), if_pos ⟨by omega, h2⟩]
      rfl
    · rw [if_neg (by omega), if_neg (by omega)]
      congr 2
      omega

end ilo

/-! ## Shrinking a writer -/

namespace ilo

theorem mask_high_testBit (k j : Nat) :
    (u8 (0xFF <<< (8 - k % 8))).testBit j = decide (8 - k % 8 ≤ j ∧ j < 8) := by
  simp only [testBit_u8, Nat.testBit_shiftLeft, testBit_255]
  by_cases h : 8 - k % 8 ≤ j ∧ j < 8
  · have a1 : j < 8 := h.2
    have a2 : j ≥ 8 - k % 8 := h.1
    have a3 : j - (8 - k % 8) < 8 := by omega
    simp only [decide_eq_true h, decide_eq_true a1, decide_eq_true a2, decide_eq_true a3,
      Bool.and_self]
  · rw [decide_eq_false h]
    by_cases a1 : j < 8
    · have a2 : ¬ j ≥ 8 - k % 8 := by omega
      simp only [decide_eq_false a2, Bool.false_and, Bool.and_false]
    · simp only [decide_eq_false a1, Bool.false_and]

/-- The storage after the shrinking branch of `resize`: bits below the new size are kept,
all other bits are 0. -/
theorem resize_shrink_bits {buf buf1 : List Nat} {k : Nat}
    (h : ∀ j, buf1.getD j 0 =
      if j < (k + 7) / 8 then
        (if k % 8 ≠ 0 ∧ j = k / 8 then buf.getD j 0 &&& u8 (0xFF <<< (8 - k % 8))
         else buf.getD j 0)
      else 0) (i : Nat) :
    bitAt buf1 i = if i < k then bitAt buf i else false := by
  unfold bitAt
  rw [h]
  by_cases hi : i < k
  · rw [if_pos hi, if_pos (by omega)]
    by_cases hm : k % 8 ≠ 0 ∧ i / 8 = k / 8
    · rw [if_pos hm, Nat.testBit_and, mask_high_testBit k _]
      have : 8 - k % 8 ≤ 7 - i % 8 ∧ 7 - i % 8 < 8 := by omega
      rw [decide_eq_true this, Bool.and_true]
    · rw [if_neg hm]
  · rw [if_neg hi]
    by_cases hj : i / 8 < (k + 7) / 8
    · rw [if_pos hj]
      have hm : k % 8 ≠ 0 ∧ i / 8 = k / 8 := by omega
      rw [if_pos hm, Nat.testBit_and, mask_high_testBit k _]
      have : ¬ (8 - k % 8 ≤ 7 - i % 8 ∧ 7 - i % 8 < 8) := by omega
      rw [decide_eq_false this, Bool.and_false]
    · rw [if_neg hj]
      simp

end ilo

namespace ilo

/-- The last two statements of `resize` on a writer whose storage holds `k` bits. -/
theorem resize_finish_spec {s w : CBitBuffer} (hwf : s.wf) {k c : Nat}
    (hb : ∀ b ∈ w.m_buffer, b < 256) (hlen : k ≤ 8 * w.m_buffer.length)
    (hk : k < 2147483648)
    (hx : w.m_useExtBuffer = s.m_useExtBuffer)
    (he : w.m_extBufferSizeBytes = s.m_extBufferSizeBytes)
    (hes : w.m_useExtBuffer = true → w.m_buffer.length = w.m_extBufferSizeBytes) :
    ∃ s1, w.resize_finish c k = (.ok (), s1) ∧ s1.wf ∧
      s1.m_useExtBuffer = s.m_useExtBuffer ∧
      s1.m_extBufferSizeBytes = s.m_extBufferSizeBytes ∧
      s1.nofBits = k ∧ s1.tell = min c k ∧ s1.m_buffer = w.m_buffer := by
  have _ := hwf
  unfold CBitBuffer.resize_finish
  simp only []
  obtain ⟨s1, hs, hpos, hl, hb1, hn1, hx1, he1⟩ :=
    writer_seek_begin
      (s := { w with m_nofvalidBits := k }) (c := min c k) (min_le_right _ _)
      (lt_of_le_of_lt (min_le_right _ _) hk)
  have hb1' : s1.m_buffer = w.m_buffer := hb1
  have hn1' : s1.m_nofvalidBits = k := hn1
  have hx1' : s1.m_useExtBuffer = w.m_useExtBuffer := hx1
  have he1' : s1.m_extBufferSizeBytes = w.m_extBufferSizeBytes := he1
  have hwf1 : s1.wf :=
    ⟨hl, by rw [hpos, hn1']; exact min_le_right _ _, by rw [hn1', hb1']; exact hlen,
      by rw [hn1']; omega, by rw [hb1']; exact hb, by rw [hx1', hb1', he1']; exact hes⟩
  exact ⟨s1, hs, hwf1, by rw [hx1', hx], by rw [he1', he], hn1',
    by rw [CBitBuffer.writer_tell_eq hwf1, hpos], hb1'⟩

/-- Member `resize` with a new size not above the number of valid bits: the first
`k` bits are kept, the valid length becomes `k`, the cursor is clamped. -/
theorem resize_le_spec {s : CBitBuffer} (hwf : s.wf) {k : Nat} (hk : k ≤ s.nofBits)
    (hv : s.nofBits < 2147483648) :
    ∃ s1, s.resize k = (.ok (), s1) ∧ s1.wf ∧
      s1.m_useExtBuffer = s.m_useExtBuffer ∧
      s1.m_extBufferSizeBytes = s.m_extBufferSizeBytes ∧
      s1.nofBits = k ∧ s1.tell = min s.tell k ∧
      (∀ i, i < k → bitAt s1.m_buffer i = bitAt s.m_buffer i) ∧
      (k < s.nofBits → ∀ i, k ≤ i → bitAt s1.m_buffer i = false) ∧
      s1.m_buffer.length
        = (if s.m_useExtBuffer = true ∨ k = s.nofBits then s.m_buffer.length
           else (k + 7) / 8) := by
  have hnb : s.nofBits = s.m_nofvalidBits := rfl
  rw [hnb] at hk hv
  have hvl := hwf.valid_le
  unfold CBitBuffer.resize
  simp only [hnb]
  rw [if_neg (by omega)]
  by_cases hlt : k < s.m_nofvalidBits
  · rw [if_pos hlt]
    have e7 : u32 (k + 7) >>> 3 = (k + 7) / 8 := by
      simp only [u32, Nat.shiftRight_eq_div_pow]; norm_num; omega
    have e3 : k >>> 3 = k / 8 := by
      simp only [Nat.shiftRight_eq_div_pow]
    rw [e7, e3]
    -- the storage after masking the last retained byte
    obtain ⟨buf, hmask, hbl, hbb, hbg⟩ :
        ∃ buf, (if k % 8 ≠ 0 then do
              let overhead := 8 - k % 8
              let mask := u8 (0xFF <<< overhead)
              let b ← getByte s.m_buffer (k / 8)
              let buf ← setByte s.m_buffer (k / 8) (b &&& mask)
              pure (buf, u32 (k / 8 + 1))
            else (pure (s.m_buffer, k / 8) : Except Exc (List Nat × Nat)))
            = .ok (buf, (k + 7) / 8) ∧
          buf.length = s.m_buffer.length ∧ (∀ b ∈ buf, b < 256) ∧
          (∀ j, buf.getD j 0 =
            if k % 8 ≠ 0 ∧ j = k / 8 then s.m_buffer.getD j 0 &&& u8 (0xFF <<< (8 - k % 8))
            else s.m_buffer.getD j 0) := by
      by_cases hm : k % 8 ≠ 0
      · have hin : k / 8 < s.m_buffer.length := by omega
        have e1 : u32 (k / 8 + 1) = (k + 7) / 8 := by simp only [u32]; omega
        refine ⟨s.m_buffer.set (k / 8) (s.m_buffer.getD (k / 8) 0 &&& u8 (0xFF <<< (8 - k % 8))),
          ?_, by simp, ?_, ?_⟩
        · rw [if_pos hm]
          simp only [getByte, setByte, if_pos hin, bind, Except.bind, pure, Except.pure, e1]
        · apply bytes_set hwf.bytes
          exact lt_of_le_of_lt Nat.and_le_right (u8_lt _)
        · intro j
          by_cases hj : j = k / 8
          · rw [if_pos ⟨hm, hj⟩, hj, getD_set_eq hin]
          · rw [if_neg (by tauto), getD_set_ne (Ne.symm hj)]
      · have e1 : k / 8 = (k + 7) / 8 := by omega
        refine ⟨s.m_buffer, ?_, rfl, hwf.bytes, ?_⟩
        · rw [if_neg hm, ← e1]; rfl
        · intro j
          rw [if_neg (by tauto)]
    rw [hmask]
    simp only []
    by_cases hx : s.m_useExtBuffer = true
    · have hes := hwf.ext_size hx
      rw [if_pos hx]
      -- all bytes behind the retained ones become 0
      obtain ⟨buf1, hz, hl1, hb1, hg1⟩ :
          ∃ buf1, zeroBytes buf ((k + 7) / 8) s.m_extBufferSizeBytes = .ok buf1 ∧
            buf1.length = s.m_buffer.length ∧ (∀ b ∈ buf1, b < 256) ∧
            (∀ j, buf1.getD j 0 = if j < (k + 7) / 8 then buf.getD j 0 else 0) := by
        unfold zeroBytes
        by_cases hc : (k + 7) / 8 < s.m_extBufferSizeBytes
        · rw [if_pos hc, if_pos (by omega)]
          refine ⟨_, rfl, ?_, ?_, ?_⟩
          · simp only [List.length_append, List.length_take, List.length_replicate,
              List.length_drop]
            omega
          · intro b hb
            simp only [List.mem_append, List.mem_replicate] at hb
            rcases hb with (hb | hb) | hb
            · exact hbb b (List.mem_of_mem_take hb)
            · rw [hb.2]; norm_num
            · exact hbb b (List.mem_of_mem_drop hb)
          · intro j
            rw [getD_zeroed buf _ _ j (by omega) (by omega)]
            by_cases hj : j < (k + 7) / 8
            · rw [if_neg (by omega), if_pos hj]
            · rw [if_neg hj]
              by_cases hj2 : j < s.m_extBufferSizeBytes
              · rw [if_pos ⟨by omega, hj2⟩]
              · rw [if_neg (by omega), List.getD_eq_getElem?_getD,
                  List.getElem?_eq_none (by omega)]
                rfl
        · rw [if_neg hc]
          refine ⟨buf, rfl, hbl, hbb, ?_⟩
          intro j
          by_cases hj : j < (k + 7) / 8
          · rw [if_pos hj]
          · rw [if_neg hj, List.getD_eq_getElem?_getD, List.getElem?_eq_none (by omega)]
            rfl
      rw [hz]
      simp only []
      obtain ⟨s1, hs, hwf1, hx1, he1, hn1, ht1, hbuf1⟩ :=
        resize_finish_spec (s := s) (w := { s with m_buffer := buf1 }) hwf (k := k)
          (c := s.tell) hb1 (by show k ≤ 8 * buf1.length; omega) (by omega) rfl rfl
          (fun _ => by show buf1.length = s.m_extBufferSizeBytes; omega)
      have hbuf1' : s1.m_buffer = buf1 := hbuf1
      have hbits : ∀ i, bitAt s1.m_buffer i = if i < k then bitAt s.m_buffer i else false := by
        rw [hbuf1']
        apply resize_shrink_bits
        intro j
        rw [hg1, hbg]
      refine ⟨s1, hs, hwf1, hx1, he1, hn1, ht1, ?_, ?_, ?_⟩
      · intro i hi; rw [hbits, if_pos hi]
      · intro _ i hi; rw [hbits, if_neg (by omega)]
      · rw [hbuf1', hl1, if_pos (Or.inl hx)]
    · rw [if_neg hx]
      obtain ⟨buf1, hz, hl1, hb1, hg1⟩ :
          ∃ buf1, (if buf.length ≠ (k + 7) / 8 then vecResize buf ((k + 7) / 8) else buf) = buf1 ∧
            buf1.length = (k + 7) / 8 ∧ (∀ b ∈ buf1, b < 256) ∧
            (∀ j, buf1.getD j 0 = if j < (k + 7) / 8 then buf.getD j 0 else 0) := by
        by_cases hc : buf.length ≠ (k + 7) / 8
        · rw [if_pos hc]
          exact ⟨_, rfl, length_vecResize _ _, bytes_vecResize hbb _, fun j => getD_vecResize _ _ _⟩
        · rw [if_neg hc]
          simp only [ne_eq, not_not] at hc
          refine ⟨buf, rfl, hc, hbb, ?_⟩
          intro j
          by_cases hj : j < (k + 7) / 8
          · rw [if_pos hj]
          · rw [if_neg hj, List.getD_eq_getElem?_getD, List.getElem?_eq_none (by omega)]
            rfl
      have hgoal : (if buf.length ≠ (k + 7) / 8 then
            CBitBuffer.resize_finish { s with m_buffer := vecResize buf ((k + 7) / 8) } s.tell k
          else CBitBuffer.resize_finish { s with m_buffer := buf } s.tell k)
          = CBitBuffer.resize_finish { s with m_buffer := buf1 } s.tell k := by
        rw [← hz]
        split_ifs <;> rfl
      rw [hgoal]
      obtain ⟨s1, hs, hwf1, hx1, he1, hn1, ht1, hbuf1⟩ :=
        resize_finish_spec (s := s) (w := { s with m_buffer := buf1 }) hwf (k := k)
          (c := s.tell) hb1 (by show k ≤ 8 * buf1.length; omega) (by omega) rfl rfl
          (fun h => absurd h hx)
      have hbuf1' : s1.m_buffer = buf1 := hbuf1
      have hbits : ∀ i, bitAt s1.m_buffer i = if i < k then bitAt s.m_buffer i else false := by
        rw [hbuf1']
        apply resize_shrink_bits
        intro j
        rw [hg1, hbg]
      refine ⟨s1, hs, hwf1, hx1, he1, hn1, ht1, ?_, ?_, ?_⟩
      · intro i hi; rw [hbits, if_pos hi]
      · intro _ i hi; rw [hbits, if_neg (by omega)]
      · rw [hbuf1', hl1, if_neg (by
          intro h
          rcases h with h | h
          · exact hx h
          · omega)]
  · rw [if_neg hlt]
    have hk' : k = s.m_nofvalidBits := by omega
    obtain ⟨s1, hs, hwf1, hx1, he1, hn1, ht1, hbuf1⟩ :=
      resize_finish_spec (s := s) (w := s) hwf (k := k) (c := s.tell) hwf.bytes (by omega)
        (by omega) rfl rfl hwf.ext_size
    refine ⟨s1, hs, hwf1, hx1, he1, hn1, ht1, ?_, ?_, ?_⟩
    · intro i _; rw [hbuf1]
    · intro h; omega
    · rw [hbuf1, if_pos (Or.inr hk')]

end ilo

namespace ilo

/-! ## Building blocks of insert, erase and append -/

theorem bitAt_drop (buf : List Nat) (k i : Nat) :
    bitAt (buf.drop k) i = bitAt buf (8 * k + i) := by
  unfold bitAt
  have e1 : (8 * k + i) / 8 = k + i / 8 := by omega
  have e2 : (8 * k + i) % 8 = i % 8 := by omega
  rw [e1, e2, List.getD_eq_getElem?_getD, List.getD_eq_getElem?_getD, List.getElem?_drop]

theorem writer_tell_le {s : CBitBuffer} (hwf : s.wf) : s.tell ≤ s.nofBits := by
  rw [CBitBuffer.writer_tell_eq hwf]
  exact hwf.cursor_le

theorem writer_nofBits_le {s : CBitBuffer} (hwf : s.wf) : s.nofBits ≤ 8 * s.m_buffer.length :=
  hwf.valid_le

/-- A writer `seek(c, begin)` to a position inside the valid bits. -/
theorem wseek_begin_wf {s : CBitBuffer} (hwf : s.wf) {c : Nat} (hc : c ≤ s.nofBits)
    (hc31 : c < 2147483648) :
    ∃ s1, s.seek (toInt32 c) EPosType.begin = (.ok (), s1) ∧ s1.wf ∧ s1.tell = c ∧
      s1.nofBits = s.nofBits ∧ s1.m_buffer = s.m_buffer ∧
      s1.m_useExtBuffer = s.m_useExtBuffer ∧
      s1.m_extBufferSizeBytes = s.m_extBufferSizeBytes := by
  obtain ⟨s1, hs, hpos, hl, hb, hn, hx, he⟩ := writer_seek_begin (s := s) hc hc31
  have hwf1 : s1.wf := writer_wf_of hwf hl (by rw [hpos, hn]; exact hc) hb (le_of_eq hn) hx he
  exact ⟨s1, hs, hwf1, by rw [CBitBuffer.writer_tell_eq hwf1, hpos], hn, hb, hx, he⟩

/-- A writer `seek(0, end)`. -/
theorem wseek_end_wf {s : CBitBuffer} (hwf : s.wf) (hv : s.nofBits < 2147483648) :
    ∃ s1, s.seek 0 EPosType.end_ = (.ok (), s1) ∧ s1.wf ∧ s1.tell = s.nofBits ∧
      s1.nofBits = s.nofBits ∧ s1.m_buffer = s.m_buffer ∧
      s1.m_useExtBuffer = s.m_useExtBuffer ∧
      s1.m_extBufferSizeBytes = s.m_extBufferSizeBytes := by
  obtain ⟨s1, hs, hpos, hl, hb, hn, hx, he⟩ := writer_seek_end (s := s) hv
  have hwf1 : s1.wf := writer_wf_of hwf hl (by rw [hpos, hn]) hb (le_of_eq hn) hx he
  exact ⟨s1, hs, hwf1, by rw [CBitBuffer.writer_tell_eq hwf1, hpos]; rfl, hn, hb, hx, he⟩

/-- A reader `seek(c, begin)` to a position inside the valid bits. -/
theorem pseek_begin_wf {p : CBitParser} (hwf : p.wf) {c : Nat} (hc : c ≤ p.m_nofValidBits)
    (hc31 : c < 2147483648) :
    ∃ p1, p.seek (toInt32 c) EPosType.begin = (.ok (), p1) ∧ p1.wf ∧ p1.tell = c ∧
      p1.m_buffer = p.m_buffer ∧ p1.m_nofValidBits = p.m_nofValidBits := by
  obtain ⟨p1, hs, ht, hl, hpos, hb, hn⟩ := CBitParser.seek_begin (p := p) hc hwf.valid_lt
  rw [toInt32_eq hc31]
  refine ⟨p1, hs, ⟨by omega, by rw [hpos, hn]; exact hc, by rw [hn, hb]; exact hwf.valid_le,
    by rw [hn]; exact hwf.valid_lt, by rw [hb]; exact hwf.bytes⟩, ht, hb, hn⟩

/-- The first copy loop of insert and erase: `t` bits from the cursor of the reader into a
fresh self-owned writer. -/
theorem copy_to_tmp {p : CBitParser} (hp : p.wf) {t : Nat}
    (hleft : p.tell + t ≤ p.m_nofValidBits) (ht7 : t + 7 < 4294967296) :
    ∃ p1 tmp, copy_loop t p (CBitBuffer.mk_internal 0) = (.ok (), p1, tmp) ∧ tmp.wf ∧
      tmp.tell = t ∧ tmp.nofBits = t ∧
      (∀ i, i < t → bitAt tmp.m_buffer i = bitAt p.m_buffer (p.tell + i)) := by
  have h0 : (CBitBuffer.mk_internal 0).tell = 0 := rfl
  have h1 : (CBitBuffer.mk_internal 0).nofBits = 0 := rfl
  obtain ⟨p1, w1, hc, _, hw1, _, _, _, _, _, ht, hn, _, hbits⟩ :=
    copy_loop_ok t hp (mk_internal_wf 0) hleft (by rw [h0]; omega)
      (fun h => by exact absurd h (by simp [CBitBuffer.mk_internal]))
  rw [h0] at ht hbits
  rw [h0, h1] at hn
  refine ⟨p1, w1, hc, hw1, by omega, by rw [hn]; simp, ?_⟩
  intro i hi
  rw [hbits i, if_pos ⟨by omega, by omega⟩]
  simp

/-- The second copy loop of insert and erase: all `t` bits of the temporary writer, read
from its first bit, are written at the cursor of the writer. -/
theorem copy_from_tmp {tmp w : CBitBuffer} (htmp : tmp.wf) (hw : w.wf) {t : Nat}
    (ht : tmp.nofBits = t) (hrange : w.tell + t + 7 < 4294967296)
    (hcap : w.m_useExtBuffer = true → w.tell + t ≤ 8 * w.m_extBufferSizeBytes) :
    ∃ p1 w1, copy_loop t (CBitParser.mk_ptr tmp.bufferPtr t) w = (.ok (), p1, w1) ∧ w1.wf ∧
      w1.m_useExtBuffer = w.m_useExtBuffer ∧
      w1.m_extBufferSizeBytes = w.m_extBufferSizeBytes ∧
      w1.tell = w.tell + t ∧ w1.nofBits = max w.nofBits (w.tell + t) ∧
      (∀ i, bitAt w1.m_buffer i
        = if w.tell ≤ i ∧ i < w.tell + t then bitAt tmp.m_buffer (i - w.tell)
          else bitAt w.m_buffer i) := by
  have hpwf : (CBitParser.mk_ptr tmp.bufferPtr t).wf :=
    CBitParser.mk_ptr_wf htmp.bytes (by rw [← ht]; exact htmp.valid_le)
      (by rw [← ht]; exact htmp.valid_lt)
  have h0 : (CBitParser.mk_ptr tmp.bufferPtr t).tell = 0 := rfl
  obtain ⟨p1, w1, hc, _, hw1, _, _, _, hx, he, htl, hn, _, hbits⟩ :=
    copy_loop_ok t hpwf hw (by rw [h0]; exact le_of_eq (Nat.zero_add t)) hrange hcap
  refine ⟨p1, w1, hc, hw1, hx, he, htl, hn, ?_⟩
  intro i
  rw [hbits i, h0, Nat.zero_add]
  rfl

end ilo

namespace ilo

/-! ## insert -/

/-- The first part of `insert<T>`: the bits from `before` on are copied to a temporary
writer. -/
theorem insert_extract {s : CBitBuffer} (hwf : s.wf) {before : Nat} (hb : before ≤ s.nofBits)
    (hrange : s.nofBits < 2147483648) :
    ∃ p1 p2 tmp,
      (CBitParser.mk_ptr (s.m_buffer.drop (before / 8))
        (s.nofBits - before + before % 8)).seek (toInt32 (before % 8)) EPosType.begin
        = (.ok (), p1) ∧
      copy_loop (s.nofBits - before) p1 (CBitBuffer.mk_internal 0) = (.ok (), p2, tmp) ∧
      tmp.wf ∧ tmp.tell = s.nofBits - before ∧ tmp.nofBits = s.nofBits - before ∧
      (∀ i, i < s.nofBits - before → bitAt tmp.m_buffer i = bitAt s.m_buffer (before + i)) := by
  have hlen := writer_nofBits_le hwf
  have hp0 : (CBitParser.mk_ptr (s.m_buffer.drop (before / 8))
      (s.nofBits - before + before % 8)).wf := by
    apply CBitParser.mk_ptr_wf
    · intro b hb'
      exact hwf.bytes b (List.mem_of_mem_drop hb')
    · rw [List.length_drop]; omega
    · omega
  have h1 : before % 8 ≤ (CBitParser.mk_ptr (s.m_buffer.drop (before / 8))
      (s.nofBits - before + before % 8)).m_nofValidBits := by
    show before % 8 ≤ s.nofBits - before + before % 8
    omega
  have h2 : before % 8 < 2147483648 := by omega
  obtain ⟨p1, hp1, hp1wf, hp1t, hp1b, hp1n⟩ := pseek_begin_wf hp0 h1 h2
  have hp1n' : p1.m_nofValidBits = s.nofBits - before + before % 8 := hp1n
  have hp1b' : p1.m_buffer = s.m_buffer.drop (before / 8) := hp1b
  have h3 : p1.tell + (s.nofBits - before) ≤ p1.m_nofValidBits := by
    rw [hp1t, hp1n']; omega
  have h4 : s.nofBits - before + 7 < 4294967296 := by omega
  obtain ⟨p2, tmp, hcp, htmpwf, htmpt, htmpn, htmpbits⟩ := copy_to_tmp hp1wf h3 h4
  refine ⟨p1, p2, tmp, hp1, hcp, htmpwf, htmpt, htmpn, ?_⟩
  intro i hi
  rw [htmpbits i hi, hp1b', bitAt_drop, hp1t]
  congr 1
  omega

/-- The truncation in `insert<T>` and `erase`: `resize(k)` followed by `seek(0, end)`. -/
theorem resize_seek_end {s : CBitBuffer} (hwf : s.wf) {k : Nat} (hk : k ≤ s.nofBits)
    (hv : s.nofBits < 2147483648) :
    ∃ s1 s2, s.resize k = (.ok (), s1) ∧ s1.seek 0 EPosType.end_ = (.ok (), s2) ∧ s2.wf ∧
      s2.m_useExtBuffer = s.m_useExtBuffer ∧
      s2.m_extBufferSizeBytes = s.m_extBufferSizeBytes ∧
      s2.nofBits = k ∧ s2.tell = k ∧
      (∀ i, i < k → bitAt s2.m_buffer i = bitAt s.m_buffer i) := by
  obtain ⟨s1, hr, hs1wf, hs1x, hs1e, hs1n, _, hs1bits, _, _⟩ := resize_le_spec hwf hk hv
  have h1 : s1.nofBits < 2147483648 := by omega
  obtain ⟨s2, hs2, hs2wf, hs2t, hs2n, hs2b, hs2x, hs2e⟩ := wseek_end_wf hs1wf h1
  refine ⟨s1, s2, hr, hs2, hs2wf, by rw [hs2x, hs1x], by rw [hs2e, hs1e], by rw [hs2n, hs1n],
    by rw [hs2t, hs1n], ?_⟩
  intro i hi
  rw [hs2b, hs1bits i hi]

end ilo

namespace ilo

/-- Effect of a successful `insert<T>`. -/
theorem insert_spec (W : Nat) (hW : isWidth W) {s : CBitBuffer} (hwf : s.wf) (v : Nat)
    {before n : Nat} (hb : before ≤ s.nofBits) (hn : n ≤ W)
    (hrange : s.nofBits + n < 2147483648)
    (hcap : s.m_useExtBuffer = true → s.nofBits + n ≤ 8 * s.m_extBufferSizeBytes) :
    ∃ s1, CBitBuffer.insert W s v before n = (.ok (), s1) ∧ s1.wf ∧
      s1.m_useExtBuffer = s.m_useExtBuffer ∧
      s1.m_extBufferSizeBytes = s.m_extBufferSizeBytes ∧
      s1.nofBits = s.nofBits + n ∧
      s1.tell = (if s.tell < before then s.tell else s.tell + n) ∧
      (∀ i, i < s.nofBits + n → bitAt s1.m_buffer i =
        if i < before then bitAt s.m_buffer i
        else if i < before + n then v.testBit (n - 1 - (i - before))
        else bitAt s.m_buffer (i - n)) := by
  have htle := writer_tell_le hwf
  have e0 : u32 (s.nofBits + n) = s.nofBits + n := by simp only [u32]; omega
  have e1 : sub32 s.nofBits before = s.nofBits - before := by simp only [sub32]; omega
  have e2 : u32 (s.nofBits - before + before % 8) = s.nofBits - before + before % 8 := by
    simp only [u32]; omega
  have e3 : before >>> 3 = before / 8 := by simp only [Nat.shiftRight_eq_div_pow]
  have hv : s.nofBits < 2147483648 := by omega
  obtain ⟨p1, p2, tmp, hp1, hcp, htmpwf, htmpt, htmpn, htmpbits⟩ := insert_extract hwf hb hv
  obtain ⟨s1, s2, hr, hs2, hs2wf, hs2x, hs2e, hs2n, hs2t, hs2bits⟩ :=
    resize_seek_end hwf hb hv
  have h1 : s2.tell + n + 7 < 4294967296 := by omega
  have h2 : s2.m_useExtBuffer = true → s2.tell + n ≤ 8 * s2.m_extBufferSizeBytes := by
    intro h
    rw [hs2x] at h
    have := hcap h
    rw [hs2e]
    omega
  obtain ⟨s3, hw3, hs3wf, hs3x, hs3e, hs3t, hs3n, _, hs3bits⟩ :=
    write_ok W hW hs2wf hn v h1 h2
  have h3 : s3.tell + (s.nofBits - before) + 7 < 4294967296 := by omega
  have h4 : s3.m_useExtBuffer = true →
      s3.tell + (s.nofBits - before) ≤ 8 * s3.m_extBufferSizeBytes := by
    intro h
    rw [hs3x, hs2x] at h
    have := hcap h
    rw [hs3e, hs2e]
    omega
  obtain ⟨p3, s4, hc4, hs4wf, hs4x, hs4e, hs4t, hs4n, hs4bits⟩ :=
    copy_from_tmp htmpwf hs3wf htmpn h3 h4
  have hs4n' : s4.nofBits = s.nofBits + n := by rw [hs4n, hs3n]; omega
  have hs4x' : s4.m_useExtBuffer = s.m_useExtBuffer := by rw [hs4x, hs3x, hs2x]
  have hs4e' : s4.m_extBufferSizeBytes = s.m_extBufferSizeBytes := by
    rw [hs4e, hs3e, hs2e]
  -- the content after the second copy loop
  have hbits : ∀ i, i < s.nofBits + n → bitAt s4.m_buffer i =
      if i < before then bitAt s.m_buffer i
      else if i < before + n then v.testBit (n - 1 - (i - before))
      else bitAt s.m_buffer (i - n) := by
    intro i hi
    rw [hs4bits i]
    by_cases h1 : i < before
    · rw [if_neg (by omega), if_pos h1, hs3bits i, if_neg (by omega), hs2bits i h1]
    · rw [if_neg h1]
      by_cases h2 : i < before + n
      · rw [if_neg (by omega), if_pos h2, hs3bits i, if_pos ⟨by omega, by omega⟩, hs2t]
      · rw [if_pos ⟨by omega, by omega⟩, if_neg h2, htmpbits _ (by omega)]
        congr 1
        omega
  -- the call up to the final seek
  have key : CBitBuffer.insert W s v before n =
      if s.tell < before then s4.seek (toInt32 s.tell) EPosType.begin
      else if s.tell ≥ before then s4.seek (toInt32 (u32 (s.tell + n))) EPosType.begin
      else (.ok (), s4) := by
    unfold CBitBuffer.insert
    rw [if_neg (not_not.mpr hb),
      if_neg (by rw [e0]; intro h; have := hcap h.1; exact h.2 (by omega))]
    simp only [e1, e2, e3, hp1, hcp, hr, hs2, hw3, htmpn, hc4]
  rw [key]
  by_cases hlt : s.tell < before
  · rw [if_pos hlt, if_pos hlt]
    have h5 : s.tell ≤ s4.nofBits := by omega
    have h6 : s.tell < 2147483648 := by omega
    obtain ⟨s5, hs5, hs5wf, hs5t, hs5n, hs5b, hs5x, hs5e⟩ := wseek_begin_wf hs4wf h5 h6
    refine ⟨s5, hs5, hs5wf, by rw [hs5x, hs4x'], by rw [hs5e, hs4e'], by rw [hs5n, hs4n'],
      hs5t, ?_⟩
    rw [hs5b]
    exact hbits
  · rw [if_neg hlt, if_neg hlt, if_pos (not_lt.mp hlt)]
    have e4 : u32 (s.tell + n) = s.tell + n := by simp only [u32]; omega
    rw [e4]
    have h5 : s.tell + n ≤ s4.nofBits := by omega
    have h6 : s.tell + n < 2147483648 := by omega
    obtain ⟨s5, hs5, hs5wf, hs5t, hs5n, hs5b, hs5x, hs5e⟩ := wseek_begin_wf hs4wf h5 h6
    refine ⟨s5, hs5, hs5wf, by rw [hs5x, hs4x'], by rw [hs5e, hs4e'], by rw [hs5n, hs4n'],
      hs5t, ?_⟩
    rw [hs5b]
    exact hbits

end ilo

namespace ilo

/-! ## erase -/

/-- The first part of `erase`: the bits behind the erased range are copied to a temporary
writer. -/
theorem erase_extract {s : CBitBuffer} (hwf : s.wf) {lastBit : Nat} (hle : lastBit ≤ s.nofBits)
    (hrange : s.nofBits < 2147483648) :
    ∃ p1 p2 tmp,
      (CBitParser.mk_ptr s.m_buffer s.nofBits).seek (toInt32 lastBit) EPosType.begin
        = (.ok (), p1) ∧
      copy_loop (s.nofBits - lastBit) p1 (CBitBuffer.mk_internal 0) = (.ok (), p2, tmp) ∧
      tmp.wf ∧ tmp.tell = s.nofBits - lastBit ∧ tmp.nofBits = s.nofBits - lastBit ∧
      (∀ i, i < s.nofBits - lastBit → bitAt tmp.m_buffer i = bitAt s.m_buffer (lastBit + i)) := by
  have hp0 : (CBitParser.mk_ptr s.m_buffer s.nofBits).wf :=
    CBitParser.mk_ptr_wf hwf.bytes hwf.valid_le hwf.valid_lt
  have h2 : lastBit < 2147483648 := by omega
  obtain ⟨p1, hp1, hp1wf, hp1t, hp1b, hp1n⟩ := pseek_begin_wf hp0 hle h2
  have hp1n' : p1.m_nofValidBits = s.nofBits := hp1n
  have hp1b' : p1.m_buffer = s.m_buffer := hp1b
  have h3 : p1.tell + (s.nofBits - lastBit) ≤ p1.m_nofValidBits := by
    rw [hp1t, hp1n']; omega
  have h4 : s.nofBits - lastBit + 7 < 4294967296 := by omega
  obtain ⟨p2, tmp, hcp, htmpwf, htmpt, htmpn, htmpbits⟩ := copy_to_tmp hp1wf h3 h4
  refine ⟨p1, p2, tmp, hp1, hcp, htmpwf, htmpt, htmpn, ?_⟩
  intro i hi
  rw [htmpbits i hi, hp1b', hp1t]

/-- Effect of a successful `erase`. -/
theorem erase_spec {s : CBitBuffer} (hwf : s.wf) {firstBit n : Nat}
    (hle : firstBit + n ≤ s.nofBits) (hrange : s.nofBits < 2147483648) :
    ∃ s1, s.erase firstBit n = (.ok (), s1) ∧ s1.wf ∧
      s1.m_useExtBuffer = s.m_useExtBuffer ∧
      s1.m_extBufferSizeBytes = s.m_extBufferSizeBytes ∧
      s1.nofBits = s.nofBits - n ∧
      s1.tell = (if s.tell < firstBit then s.tell
                 else if s.tell ≥ firstBit + n then s.tell - n else firstBit) ∧
      (∀ i, i < s.nofBits - n → bitAt s1.m_buffer i =
        if i < firstBit then bitAt s.m_buffer i else bitAt s.m_buffer (i + n)) := by
  have htle := writer_tell_le hwf
  have hlen := writer_nofBits_le hwf
  have e0 : u32 (firstBit + n) = firstBit + n := by simp only [u32]; omega
  have e1 : sub32 s.nofBits (firstBit + n) = s.nofBits - (firstBit + n) := by
    simp only [sub32]; omega
  obtain ⟨p1, p2, tmp, hp1, hcp, htmpwf, htmpt, htmpn, htmpbits⟩ :=
    erase_extract hwf hle hrange
  have hk : firstBit ≤ s.nofBits := by omega
  obtain ⟨s1, s2, hr, hs2, hs2wf, hs2x, hs2e, hs2n, hs2t, hs2bits⟩ :=
    resize_seek_end hwf hk hrange
  have h3 : s2.tell + (s.nofBits - (firstBit + n)) + 7 < 4294967296 := by omega
  have h4 : s2.m_useExtBuffer = true →
      s2.tell + (s.nofBits - (firstBit + n)) ≤ 8 * s2.m_extBufferSizeBytes := by
    intro h
    rw [hs2x] at h
    have := hwf.ext_size h
    rw [hs2e]
    omega
  obtain ⟨p3, s3, hc3, hs3wf, hs3x, hs3e, hs3t, hs3n, hs3bits⟩ :=
    copy_from_tmp htmpwf hs2wf htmpn h3 h4
  have hs3n' : s3.nofBits = s.nofBits - n := by rw [hs3n]; omega
  have hs3x' : s3.m_useExtBuffer = s.m_useExtBuffer := by rw [hs3x, hs2x]
  have hs3e' : s3.m_extBufferSizeBytes = s.m_extBufferSizeBytes := by rw [hs3e, hs2e]
  have hbits : ∀ i, i < s.nofBits - n → bitAt s3.m_buffer i =
      if i < firstBit then bitAt s.m_buffer i else bitAt s.m_buffer (i + n) := by
    intro i hi
    rw [hs3bits i]
    by_cases h1 : i < firstBit
    · rw [if_neg (by omega), if_pos h1, hs2bits i h1]
    · rw [if_pos ⟨by omega, by omega⟩, if_neg h1, htmpbits _ (by omega)]
      congr 1
      omega
  -- the call up to the final seek
  have key : s.erase firstBit n =
      if s.tell < firstBit then s3.seek (toInt32 s.tell) EPosType.begin
      else if s.tell ≥ firstBit + n then s3.seek (toInt32 (sub32 s.tell n)) EPosType.begin
      else s3.seek (toInt32 firstBit) EPosType.begin := by
    unfold CBitBuffer.erase
    simp only [e0, e1, hp1, hcp, hr, hs2, htmpn, htmpt, hc3, if_neg (not_not.mpr hle)]
  rw [key]
  by_cases hlt : s.tell < firstBit
  · rw [if_pos hlt, if_pos hlt]
    have h5 : s.tell ≤ s3.nofBits := by omega
    have h6 : s.tell < 2147483648 := by omega
    obtain ⟨s5, hs5, hs5wf, hs5t, hs5n, hs5b, hs5x, hs5e⟩ := wseek_begin_wf hs3wf h5 h6
    refine ⟨s5, hs5, hs5wf, by rw [hs5x, hs3x'], by rw [hs5e, hs3e'], by rw [hs5n, hs3n'],
      hs5t, ?_⟩
    rw [hs5b]
    exact hbits
  · rw [if_neg hlt, if_neg hlt]
    by_cases hge : s.tell ≥ firstBit + n
    · rw [if_pos hge, if_pos hge]
      have e4 : sub32 s.tell n = s.tell - n := by simp only [sub32]; omega
      rw [e4]
      have h5 : s.tell - n ≤ s3.nofBits := by omega
      have h6 : s.tell - n < 2147483648 := by omega
      obtain ⟨s5, hs5, hs5wf, hs5t, hs5n, hs5b, hs5x, hs5e⟩ := wseek_begin_wf hs3wf h5 h6
      refine ⟨s5, hs5, hs5wf, by rw [hs5x, hs3x'], by rw [hs5e, hs3e'], by rw [hs5n, hs3n'],
        hs5t, ?_⟩
      rw [hs5b]
      exact hbits
    · rw [if_neg hge, if_neg hge]
      have h5 : firstBit ≤ s3.nofBits := by omega
      have h6 : firstBit < 2147483648 := by omega
      obtain ⟨s5, hs5, hs5wf, hs5t, hs5n, hs5b, hs5x, hs5e⟩ := wseek_begin_wf hs3wf h5 h6
      refine ⟨s5, hs5, hs5wf, by rw [hs5x, hs3x'], by rw [hs5e, hs3e'], by rw [hs5n, hs3n'],
        hs5t, ?_⟩
      rw [hs5b]
      exact hbits

end ilo

namespace ilo

/-! ## append -/

theorem bitAt_cons_lt (b : Nat) (rest : List Nat) {j : Nat} (hj : j < 8) :
    bitAt (b :: rest) j = b.testBit (7 - j) := by
  unfold bitAt
  have e1 : j / 8 = 0 := by omega
  have e2 : j % 8 = j := by omega
  rw [e1, e2]
  rfl

theorem bitAt_cons_ge (b : Nat) (rest : List Nat) {j : Nat} (hj : 8 ≤ j) :
    bitAt (b :: rest) j = bitAt rest (j - 8) := by
  unfold bitAt
  have e1 : j / 8 = (j - 8) / 8 + 1 := by omega
  have e2 : j % 8 = (j - 8) % 8 := by omega
  rw [e1, e2]
  rfl

/-- The loop of `append`: the bytes are written one after the other at the cursor. -/
theorem append_loop_spec (bytes : List Nat) :
    ∀ {s : CBitBuffer}, s.wf → s.tell + 8 * bytes.length + 7 < 4294967296 →
      (s.m_useExtBuffer = true → s.tell + 8 * bytes.length ≤ 8 * s.m_extBufferSizeBytes) →
      ∃ s1, CBitBuffer.append_loop bytes s = (.ok (), s1) ∧ s1.wf ∧
        s1.m_useExtBuffer = s.m_useExtBuffer ∧
        s1.m_extBufferSizeBytes = s.m_extBufferSizeBytes ∧
        s1.tell = s.tell + 8 * bytes.length ∧
        s1.nofBits = max s.nofBits (s.tell + 8 * bytes.length) ∧
        (∀ i, bitAt s1.m_buffer i
          = if s.tell ≤ i ∧ i < s.tell + 8 * bytes.length then bitAt bytes (i - s.tell)
            else bitAt s.m_buffer i) := by
  induction bytes with
  | nil =>
    intro s hwf _ _
    refine ⟨s, rfl, hwf, rfl, rfl, rfl, ?_, ?_⟩
    · simp only [List.length_nil, Nat.mul_zero, Nat.add_zero]
      exact (max_eq_left (writer_tell_le hwf)).symm
    · intro i
      rw [if_neg (by simp only [List.length_nil]; omega)]
  | cons b rest ih =>
    intro s hwf hrange hcap
    have hlen : (b :: rest).length = rest.length + 1 := rfl
    rw [hlen] at hrange hcap ⊢
    have h1 : s.tell + 8 + 7 < 4294967296 := by omega
    have h2 : s.m_useExtBuffer = true → s.tell + 8 ≤ 8 * s.m_extBufferSizeBytes := by
      intro h
      have := hcap h
      omega
    obtain ⟨s1, hw1, hs1wf, hs1x, hs1e, hs1t, hs1n, _, hs1bits⟩ :=
      write_ok 8 (Or.inl rfl) hwf (le_refl 8) b h1 h2
    have h3 : s1.tell + 8 * rest.length + 7 < 4294967296 := by omega
    have h4 : s1.m_useExtBuffer = true →
        s1.tell + 8 * rest.length ≤ 8 * s1.m_extBufferSizeBytes := by
      intro h
      rw [hs1x] at h
      have := hcap h
      rw [hs1e]
      omega
    obtain ⟨s2, hl2, hs2wf, hs2x, hs2e, hs2t, hs2n, hs2bits⟩ := ih hs1wf h3 h4
    have key : CBitBuffer.append_loop (b :: rest) s = (.ok (), s2) := by
      rw [CBitBuffer.append_loop, hw1]
      exact hl2
    have htle := writer_tell_le hwf
    refine ⟨s2, key, hs2wf, by rw [hs2x, hs1x], by rw [hs2e, hs1e], by omega, ?_, ?_⟩
    · rw [hs2n, hs1n, hs1t]
      omega
    · intro i
      rw [hs2bits i]
      by_cases ha : s.tell ≤ i ∧ i < s.tell + 8
      · rw [if_neg (by omega), hs1bits i, if_pos ha, if_pos ⟨by omega, by omega⟩,
          bitAt_cons_lt b rest (by omega)]
      · by_cases hb : s.tell + 8 ≤ i ∧ i < s.tell + 8 * (rest.length + 1)
        · rw [if_pos ⟨by omega, by omega⟩, if_pos ⟨by omega, by omega⟩,
            bitAt_cons_ge b rest (by omega)]
          congr 1
          omega
        · rw [if_neg (by omega), hs1bits i, if_neg ha, if_neg (by omega)]

/-- Effect of a successful `append`. -/
theorem append_spec {s : CBitBuffer} (hwf : s.wf) (bytes : List Nat)
    (hrange : s.nofBits + 8 * bytes.length < 2147483648)
    (hcap : s.m_useExtBuffer = true →
      s.nofBits + 8 * bytes.length ≤ 8 * s.m_extBufferSizeBytes) :
    ∃ s1, s.append bytes = (.ok (), s1) ∧ s1.wf ∧
      s1.m_useExtBuffer = s.m_useExtBuffer ∧
      s1.m_extBufferSizeBytes = s.m_extBufferSizeBytes ∧
      s1.nofBits = s.nofBits + 8 * bytes.length ∧
      s1.tell = (if s.tell = s.nofBits then s.tell + 8 * (bytes.length % 256) else s.tell) ∧
      (∀ i, bitAt s1.m_buffer i
        = if s.nofBits ≤ i ∧ i < s.nofBits + 8 * bytes.length then bitAt bytes (i - s.nofBits)
          else bitAt s.m_buffer i) := by
  have htle := writer_tell_le hwf
  have hv : s.nofBits < 2147483648 := by omega
  obtain ⟨s1, hs1, hs1wf, hs1t, hs1n, hs1b, hs1x, hs1e⟩ := wseek_end_wf hwf hv
  have h1 : s1.tell + 8 * bytes.length + 7 < 4294967296 := by omega
  have h2 : s1.m_useExtBuffer = true →
      s1.tell + 8 * bytes.length ≤ 8 * s1.m_extBufferSizeBytes := by
    intro h
    rw [hs1x] at h
    have := hcap h
    rw [hs1e]
    omega
  obtain ⟨s2, hl2, hs2wf, hs2x, hs2e, hs2t, hs2n, hs2bits⟩ :=
    append_loop_spec bytes hs1wf h1 h2
  have hs2n' : s2.nofBits = s.nofBits + 8 * bytes.length := by rw [hs2n]; omega
  have hmod : bytes.length % 256 ≤ bytes.length := Nat.mod_le _ _
  have e1 : u32 (s.tell + u8 bytes.length * 8) = s.tell + 8 * (bytes.length % 256) := by
    simp only [u32, u8]
    omega
  have key : s.append bytes =
      s2.seek (toInt32 (if s.tell = s.nofBits then s.tell + 8 * (bytes.length % 256)
        else s.tell)) EPosType.begin := by
    unfold CBitBuffer.append
    rw [if_neg (by intro h; have := hcap h.1; exact h.2 (by omega))]
    simp only [e1, hs1, hl2]
  rw [key]
  have h5 : (if s.tell = s.nofBits then s.tell + 8 * (bytes.length % 256) else s.tell)
      ≤ s2.nofBits := by
    split_ifs <;> omega
  have h6 : (if s.tell = s.nofBits then s.tell + 8 * (bytes.length % 256) else s.tell)
      < 2147483648 := by
    split_ifs <;> omega
  obtain ⟨s3, hs3, hs3wf, hs3t, hs3n, hs3b, hs3x, hs3e⟩ := wseek_begin_wf hs2wf h5 h6
  refine ⟨s3, hs3, hs3wf, by rw [hs3x, hs2x, hs1x], by rw [hs3e, hs2e, hs1e],
    by rw [hs3n, hs2n'], hs3t, ?_⟩
  intro i
  rw [hs3b, hs2bits i, hs1t, hs1b]

/-- A failing `append`: external storage too small for the appended bytes. -/
theorem append_fail {s : CBitBuffer} (bytes : List Nat) (hx : s.m_useExtBuffer = true)
    (hcap : 8 * s.m_extBufferSizeBytes < s.nofBits + 8 * bytes.length) :
    s.append bytes = (.error Exc.AppendException, s) := by
  unfold CBitBuffer.append
  rw [if_pos ⟨hx, by omega⟩]

end ilo

namespace ilo

/-! ## Bit sequences as lists -/
theorem getElem?_map_range (f : Nat → Bool) (n i : Nat) :
    ((List.range n).map f)[i]? = if i < n then some (f i) else none := by
  by_cases h : i < n
  · rw [if_pos h, List.getElem?_map, List.getElem?_range h]
    rfl
  · rw [if_neg h, List.getElem?_eq_none (by simp only [List.length_map, List.length_range]; omega)]

theorem splice_bits (F f h : Nat → Bool) {L n before : Nat} (hb : before ≤ L)
    (hF : ∀ i, i < L + n → F i =
      if i < before then f i else if i < before + n then h (i - before) else f (i - n)) :
    (List.range (L + n)).map F
      = ((List.range L).map f).take before ++ (List.range n).map h
          ++ ((List.range L).map f).drop before := by
  apply List.ext_getElem?
  intro i
  have hl1 : (((List.range L).map f).take before).length = before := by
    simp only [List.length_take, List.length_map, List.length_range]; omega
  have hl2 : (((List.range L).map f).take before ++ (List.range n).map h).length
      = before + n := by
    rw [List.length_append, hl1, List.length_map, List.length_range]
  rw [getElem?_map_range]
  by_cases h1 : i < before
  · rw [List.getElem?_append_left (by rw [hl2]; omega),
      List.getElem?_append_left (by rw [hl1]; exact h1), List.getElem?_take,
      if_pos h1, getElem?_map_range, if_pos (by omega), if_pos (by omega), hF i (by omega),
      if_pos h1]
  · by_cases h2 : i < before + n
    · rw [List.getElem?_append_left (by rw [hl2]; omega),
        List.getElem?_append_right (by rw [hl1]; omega), hl1, getElem?_map_range,
        if_pos (by omega), if_pos (by omega), hF i (by omega), if_neg h1, if_pos h2]
    · rw [List.getElem?_append_right (by rw [hl2]; omega), hl2, List.getElem?_drop,
        getElem?_map_range]
      by_cases h3 : i < L + n
      · rw [if_pos h3, if_pos (by omega), hF i h3, if_neg h1, if_neg h2]
        congr 2
        omega
      · rw [if_neg h3, if_neg (by omega)]

theorem cut_bits (F f : Nat → Bool) {L n first : Nat} (hle : first + n ≤ L)
    (hF : ∀ i, i < L - n → F i = if i < first then f i else f (i + n)) :
    (List.range (L - n)).map F
      = ((List.range L).map f).take first ++ ((List.range L).map f).drop (first + n) := by
  apply List.ext_getElem?
  intro i
  have hl1 : (((List.range L).map f).take first).length = first := by
    simp only [List.length_take, List.length_map, List.length_range]; omega
  rw [getElem?_map_range]
  by_cases h1 : i < first
  · rw [List.getElem?_append_left (by rw [hl1]; exact h1), List.getElem?_take,
      if_pos h1, getElem?_map_range, if_pos (by omega), if_pos (by omega), hF i (by omega),
      if_pos h1]
  · rw [List.getElem?_append_right (by rw [hl1]; omega), hl1, List.getElem?_drop,
      getElem?_map_range]
    by_cases h3 : i < L - n
    · rw [if_pos h3, if_pos (by omega), hF i h3, if_neg h1]
      congr 2
      omega
    · rw [if_neg h3, if_neg (by omega)]

theorem same_bits (F f : Nat → Bool) {L : Nat} (hF : ∀ i, i < L → F i = f i) :
    (List.range L).map F = (List.range L).map f := by
  apply List.map_congr_left
  intro i hi
  exact hF i (List.mem_range.mp hi)

end ilo

namespace ilo

/-! ## Specification properties C1 to C10 -/

/-- C1: write/read round trip. For every writer state `s` with cursor `c = s.tell`
(self-owned, or external with capacity for `c + n` bits), every unsigned type of `W` bits
(`W` one of 8, 16, 32, 64), every `n ≤ W` and every `W`-bit value `v`, `write(v, n)`
succeeds and a reader constructed over the writer's bytes with `nofBits()` valid bits and
positioned by `seek(c, begin)` returns `v mod 2^n` from `read<uintW>(n)`. In particular,
writing `v < 2^n` with width `n` into an empty writer and reading `n` bits gives `v`.
The cursor `c` is passed to `seek`, whose parameter is an `int32_t`. -/
theorem C1_write_read_roundtrip (W : Nat) (hW : isWidth W) (s : CBitBuffer) (hwf : s.wf)
    (n : Nat) (hn : n ≤ W) (v : Nat) (_hv : v < 2 ^ W) (hc : s.tell < 2147483648)
    (hcap : s.m_useExtBuffer = true → s.tell + n ≤ 8 * s.m_extBufferSizeBytes) :
    (∃ s1 p p1, s.write W v n = (.ok (), s1) ∧
      (CBitParser.mk_ptr s1.m_buffer s1.nofBits).seek (s.tell : Int) EPosType.begin
        = (.ok (), p) ∧
      p.read_unsigned W n = (.ok (v % 2 ^ n), p1)) ∧
    (v < 2 ^ n → ∀ initLengthInBytes : Nat, ∃ s1 p1,
      (CBitBuffer.mk_internal initLengthInBytes).write W v n = (.ok (), s1) ∧
      (CBitParser.mk_ptr s1.m_buffer s1.nofBits).read_unsigned W n = (.ok v, p1)) := by
  constructor
  · obtain ⟨s1, p, hw, hsk, hpwf, hleft, hval⟩ := roundtrip_setup W hW hwf hn v hc hcap
    obtain ⟨p1, hrd, _⟩ := CBitParser.read_unsigned_spec W hpwf hn hleft
    exact ⟨s1, p, p1, hw, hsk, by rw [hrd, hval]⟩
  · intro hvn initLengthInBytes
    have hwf0 := mk_internal_wf initLengthInBytes
    have ht0 : (CBitBuffer.mk_internal initLengthInBytes).tell = 0 := by
      rw [CBitBuffer.writer_tell_eq hwf0]; rfl
    obtain ⟨s1, hw, hwf1, _, _, htell1, hnb1, _, hbit1⟩ :=
      write_ok W hW hwf0 hn v (by rw [ht0]; have := isWidth_le hW; omega)
        (fun h => by simp [CBitBuffer.mk_internal] at h)
    rw [ht0] at hnb1 hbit1
    have hnb1' : s1.m_nofvalidBits = max (CBitBuffer.mk_internal initLengthInBytes).nofBits (0 + n) :=
      hnb1
    have hpwf : (CBitParser.mk_ptr s1.m_buffer s1.nofBits).wf :=
      CBitParser.mk_ptr_wf hwf1.bytes hwf1.valid_le hwf1.valid_lt
    have hpt : (CBitParser.mk_ptr s1.m_buffer s1.nofBits).tell = 0 := by
      rw [CBitParser.tell_eq hpwf]; rfl
    obtain ⟨p1, hrd, _⟩ := CBitParser.read_unsigned_spec W hpwf hn
      (by
        rw [CBitParser.nofBitsLeft_eq hpwf, hpt]
        show n ≤ s1.m_nofvalidBits - 0
        rw [hnb1']
        have : (CBitBuffer.mk_internal initLengthInBytes).nofBits = 0 := rfl
        omega)
    refine ⟨s1, p1, hw, ?_⟩
    rw [hrd, hpt]
    have hb : bitsVal s1.m_buffer 0 n = v % 2 ^ n := by
      apply bitsVal_of_written
      intro i hi
      rw [hbit1, if_pos hi]
    show (Except.ok (bitsVal s1.m_buffer 0 n), p1) = _
    rw [hb, Nat.mod_eq_of_lt hvn]

/-- Witness of C1: 5 bits of the value 21 written with `write<uint8_t>` into an empty
self-owned writer. -/
theorem C1_write_read_roundtrip_witness :
    (∃ s1 p p1, (CBitBuffer.mk_internal 0).write 8 21 5 = (.ok (), s1) ∧
      (CBitParser.mk_ptr s1.m_buffer s1.nofBits).seek
          ((CBitBuffer.mk_internal 0).tell : Int) EPosType.begin = (.ok (), p) ∧
      p.read_unsigned 8 5 = (.ok (21 % 2 ^ 5), p1)) ∧
    (21 < 2 ^ 5 → ∀ initLengthInBytes : Nat, ∃ s1 p1,
      (CBitBuffer.mk_internal initLengthInBytes).write 8 21 5 = (.ok (), s1) ∧
      (CBitParser.mk_ptr s1.m_buffer s1.nofBits).read_unsigned 8 5 = (.ok 21, p1)) :=
  C1_write_read_roundtrip 8 (by decide) (CBitBuffer.mk_internal 0) (mk_internal_wf 0) 5
    (by decide) 21 (by decide) (by decide) (by decide)

/-- C2: signed round trip. For every signed type of `W` bits (`W` one of 8, 16, 32, 64),
every `n` with `1 ≤ n ≤ W` and every signed `v` with `-2^(n-1) ≤ v ≤ 2^(n-1) - 1`, writing
the two's-complement pattern of `v` (`v` cast to the unsigned `W`-bit type) with width `n`
into an empty writer and calling `read<intW>(n)` on a reader over the resulting bytes
returns `v`. -/
theorem C2_signed_roundtrip (W : Nat) (hW : isWidth W) (n : Nat) (h1 : 1 ≤ n) (hn : n ≤ W)
    (v : Int) (hlo : -(2 : Int) ^ (n - 1) ≤ v) (hhi : v ≤ (2 : Int) ^ (n - 1) - 1)
    (initLengthInBytes : Nat) :
    ∃ s1 p1,
      (CBitBuffer.mk_internal initLengthInBytes).write W (v % 2 ^ W).toNat n = (.ok (), s1) ∧
      (CBitParser.mk_ptr s1.m_buffer s1.nofBits).read_signed W n = (.ok v, p1) := by
  have hwf0 := mk_internal_wf initLengthInBytes
  have ht0 : (CBitBuffer.mk_internal initLengthInBytes).tell = 0 := by
    rw [CBitBuffer.writer_tell_eq hwf0]; rfl
  obtain ⟨s1, hw, hwf1, _, _, htell1, hnb1, _, hbit1⟩ :=
    write_ok W hW hwf0 hn (v % 2 ^ W).toNat (by rw [ht0]; have := isWidth_le hW; omega)
      (fun h => by simp [CBitBuffer.mk_internal] at h)
  rw [ht0] at hnb1 hbit1
  have hnb1' : s1.m_nofvalidBits = max (CBitBuffer.mk_internal initLengthInBytes).nofBits (0 + n) :=
    hnb1
  have hpwf : (CBitParser.mk_ptr s1.m_buffer s1.nofBits).wf :=
    CBitParser.mk_ptr_wf hwf1.bytes hwf1.valid_le hwf1.valid_lt
  have hpt : (CBitParser.mk_ptr s1.m_buffer s1.nofBits).tell = 0 := by
    rw [CBitParser.tell_eq hpwf]; rfl
  obtain ⟨p1, hrd, _⟩ := CBitParser.read_signed_spec W (isWidth_le hW) hpwf h1 hn
    (by
      rw [CBitParser.nofBitsLeft_eq hpwf, hpt]
      show n ≤ s1.m_nofvalidBits - 0
      rw [hnb1']
      have : (CBitBuffer.mk_internal initLengthInBytes).nofBits = 0 := rfl
      omega)
  refine ⟨s1, p1, hw, ?_⟩
  rw [hrd, hpt]
  have hb : bitsVal s1.m_buffer 0 n = (v % 2 ^ W).toNat % 2 ^ n := by
    apply bitsVal_of_written
    intro i hi
    rw [hbit1, if_pos hi]
  show (Except.ok (CBitParser.signExtend n (bitsVal s1.m_buffer 0 n)), p1) = _
  rw [hb, signExtend_pattern h1 hn v hlo hhi]

/-- Witness of C2: the value -3 written in 4 bits as `uint16_t` and read as `int16_t`. -/
theorem C2_signed_roundtrip_witness :
    ∃ s1 p1,
      (CBitBuffer.mk_internal 0).write 16 ((-3 : Int) % 2 ^ 16).toNat 4 = (.ok (), s1) ∧
      (CBitParser.mk_ptr s1.m_buffer s1.nofBits).read_signed 16 4 = (.ok (-3), p1) :=
  C2_signed_roundtrip 16 (by decide) 4 (by decide) (by decide) (-3) (by decide) (by decide) 0

end ilo

namespace ilo

/-- C3: content and frame of `write<T>(v, n)`. For every writer state `s` with cursor
`c = s.tell`, every `n` not above the bit width `W` of `T` (external mode: with
`c + n ≤ 8 * capacityBytes`) the call succeeds, and afterwards for every `k < n` the buffer
bit at index `c + k` (bit 0 is the MSB of byte 0) is bit `n - 1 - k` of `v`, every other bit
that was in storage before the call is unchanged, every other bit of newly grown storage
is 0, and `nofBits()` is `max (previous nofBits()) (c + n)`. The end of the written range,
rounded up to a byte, is a `uint32_t` value. Scenario: `write(uint32_t{0}, 32)` at position
0 on an all-ones external 5-byte buffer with 40 valid bits gives the bytes 0, 0, 0, 0, 0xFF. -/
theorem C3_write_content_frame (W : Nat) (hW : isWidth W) (s : CBitBuffer) (hwf : s.wf)
    (n : Nat) (hn : n ≤ W) (v : Nat) (hrange : s.tell + n + 7 < 4294967296)
    (hcap : s.m_useExtBuffer = true → s.tell + n ≤ 8 * s.m_extBufferSizeBytes) :
    (∃ s1, s.write W v n = (.ok (), s1) ∧
      (∀ k, k < n → bitAt s1.m_buffer (s.tell + k) = v.testBit (n - 1 - k)) ∧
      (∀ i, i < 8 * s.m_buffer.length → ¬ (s.tell ≤ i ∧ i < s.tell + n) →
        bitAt s1.m_buffer i = bitAt s.m_buffer i) ∧
      (∀ i, 8 * s.m_buffer.length ≤ i → ¬ (s.tell ≤ i ∧ i < s.tell + n) →
        bitAt s1.m_buffer i = false) ∧
      s1.nofBits = max s.nofBits (s.tell + n)) ∧
    (CBitBuffer.mk_external [0xFF, 0xFF, 0xFF, 0xFF, 0xFF] 5 40).write 32 0 32
      = (.ok (), { m_useExtBuffer := true, m_buffer := [0x00, 0x00, 0x00, 0x00, 0xFF],
                   m_extBufferSizeBytes := 5, m_writeIterBytes := 4, m_localWriteBits := 0,
                   m_nofvalidBits := 40 }) := by
  refine ⟨?_, rfl⟩
  obtain ⟨s1, hw, _, _, _, _, hnb1, _, hbit1⟩ := write_ok W hW hwf hn v hrange hcap
  refine ⟨s1, hw, ?_, ?_, ?_, hnb1⟩
  · intro k hk
    rw [hbit1, if_pos ⟨by omega, by omega⟩]
    congr 1
    omega
  · intro i _ hi
    rw [hbit1, if_neg hi]
  · intro i hlen hi
    rw [hbit1, if_neg hi]
    exact bitAt_out_of_range hlen

/-- Witness of C3: 17 bits written at position 5 of an all-ones external 5-byte buffer. -/
theorem C3_write_content_frame_witness :
    (∃ s1, (CBitBuffer.mk true [0xFF, 0xFF, 0xFF, 0xFF, 0xFF] 5 0 5 40).write 32 0x15555 17
        = (.ok (), s1) ∧
      (∀ k, k < 17 → bitAt s1.m_buffer
        ((CBitBuffer.mk true [0xFF, 0xFF, 0xFF, 0xFF, 0xFF] 5 0 5 40).tell + k)
          = Nat.testBit 0x15555 (17 - 1 - k)) ∧
      (∀ i, i < 8 * (CBitBuffer.mk true [0xFF, 0xFF, 0xFF, 0xFF, 0xFF] 5 0 5 40).m_buffer.length →
        ¬ ((CBitBuffer.mk true [0xFF, 0xFF, 0xFF, 0xFF, 0xFF] 5 0 5 40).tell ≤ i ∧
          i < (CBitBuffer.mk true [0xFF, 0xFF, 0xFF, 0xFF, 0xFF] 5 0 5 40).tell + 17) →
        bitAt s1.m_buffer i
          = bitAt (CBitBuffer.mk true [0xFF, 0xFF, 0xFF, 0xFF, 0xFF] 5 0 5 40).m_buffer i) ∧
      (∀ i, 8 * (CBitBuffer.mk true [0xFF, 0xFF, 0xFF, 0xFF, 0xFF] 5 0 5 40).m_buffer.length ≤ i →
        ¬ ((CBitBuffer.mk true [0xFF, 0xFF, 0xFF, 0xFF, 0xFF] 5 0 5 40).tell ≤ i ∧
          i < (CBitBuffer.mk true [0xFF, 0xFF, 0xFF, 0xFF, 0xFF] 5 0 5 40).tell + 17) →
        bitAt s1.m_buffer i = false) ∧
      s1.nofBits = max (CBitBuffer.mk true [0xFF, 0xFF, 0xFF, 0xFF, 0xFF] 5 0 5 40).nofBits
        ((CBitBuffer.mk true [0xFF, 0xFF, 0xFF, 0xFF, 0xFF] 5 0 5 40).tell + 17)) ∧
    (CBitBuffer.mk_external [0xFF, 0xFF, 0xFF, 0xFF, 0xFF] 5 40).write 32 0 32
      = (.ok (), { m_useExtBuffer := true, m_buffer := [0x00, 0x00, 0x00, 0x00, 0xFF],
                   m_extBufferSizeBytes := 5, m_writeIterBytes := 4, m_localWriteBits := 0,
                   m_nofvalidBits := 40 }) :=
  C3_write_content_frame 32 (by decide) (CBitBuffer.mk true [0xFF, 0xFF, 0xFF, 0xFF, 0xFF] 5 0 5 40)
    ⟨by decide, by decide, by decide, by decide, by decide, by decide⟩
    17 (by decide) 0x15555 (by decide) (by decide)

end ilo

namespace ilo

/-- C4: reference value of `read<T>` for unsigned `T`. In every reader state `p` reachable
by reads and seeks, with cursor `c = p.tell`, for an unsigned type of `W` bits and every `n`
with `1 ≤ n ≤ min W (nofBitsLeft())`, `read<T>(n)` returns the sum over `k < n` of
`bit (c + k) * 2 ^ (n - 1 - k)` with `bit i = (byte[i / 8] >> (7 - i mod 8)) & 1`.
Header example: over the bits 01110001 10110001 1011, `seek(5, begin)` followed by
`read<uint8_t>(8)` returns `0b00110110`. -/
theorem C4_read_unsigned_value (p : CBitParser) (hp : p.Reachable) (W : Nat) (_hW : isWidth W)
    (n : Nat) (_h1 : 1 ≤ n) (hn : n ≤ min W p.nofBitsLeft) :
    (∃ p1, p.read_unsigned W n = (.ok (msbValue p.m_buffer p.tell n), p1)) ∧
    (((CBitParser.mk_ptr [0x71, 0xB1, 0xB0] 20).seek 5 EPosType.begin).2.read_unsigned 8 8).1
      = .ok 0b00110110 := by
  refine ⟨?_, rfl⟩
  obtain ⟨p1, hrd, _⟩ := CBitParser.read_unsigned_spec W hp.to_wf
    (le_trans hn (min_le_left _ _)) (le_trans hn (min_le_right _ _))
  exact ⟨p1, by rw [hrd, msbValue_eq_bitsVal]⟩

/-- Witness of C4: 12 bits read as `uint16_t` at bit 5 of a 20-bit reader. -/
theorem C4_read_unsigned_value_witness :
    (∃ p1, ((CBitParser.mk_ptr [0x71, 0xB1, 0xB0] 20).seek 5 EPosType.begin).2.read_unsigned 16 12
      = (.ok (msbValue ((CBitParser.mk_ptr [0x71, 0xB1, 0xB0] 20).seek 5 EPosType.begin).2.m_buffer
          ((CBitParser.mk_ptr [0x71, 0xB1, 0xB0] 20).seek 5 EPosType.begin).2.tell 12), p1)) ∧
    (((CBitParser.mk_ptr [0x71, 0xB1, 0xB0] 20).seek 5 EPosType.begin).2.read_unsigned 8 8).1
      = .ok 0b00110110 :=
  C4_read_unsigned_value ((CBitParser.mk_ptr [0x71, 0xB1, 0xB0] 20).seek 5 EPosType.begin).2
    (CBitParser.Reachable.seek 5 EPosType.begin (by decide) (by decide)
      (CBitParser.Reachable.init [0x71, 0xB1, 0xB0] 20 (by decide) (by decide) (by decide)))
    16 (by decide) 12 (by decide) (by decide)

/-- C5: sign extension in `read<T>` for signed `T` of `W` bits. In every reachable reader
state and for every `n` with `1 ≤ n ≤ min W (nofBitsLeft())`, if `u` is the unsigned value of
the `n` bits at the cursor (MSB first), `read<T>(n)` returns `u` when `u < 2 ^ (n - 1)` and
`u - 2 ^ n` otherwise. -/
theorem C5_read_signed_value (p : CBitParser) (hp : p.Reachable) (W : Nat) (hW : isWidth W)
    (n : Nat) (h1 : 1 ≤ n) (hn : n ≤ min W p.nofBitsLeft) :
    ∃ p1, p.read_signed W n
      = (.ok (if msbValue p.m_buffer p.tell n < 2 ^ (n - 1)
              then (msbValue p.m_buffer p.tell n : Int)
              else (msbValue p.m_buffer p.tell n : Int) - 2 ^ n), p1) := by
  obtain ⟨p1, hrd, _⟩ := CBitParser.read_signed_spec W (isWidth_le hW) hp.to_wf h1
    (le_trans hn (min_le_left _ _)) (le_trans hn (min_le_right _ _))
  exact ⟨p1, by rw [hrd, msbValue_eq_bitsVal]; rfl⟩

/-- Witness of C5: 3 bits `110` read as `int8_t` give -2. -/
theorem C5_read_signed_value_witness :
    ∃ p1, (CBitParser.mk_ptr [0xC0] 8).read_signed 8 3
      = (.ok (if msbValue (CBitParser.mk_ptr [0xC0] 8).m_buffer (CBitParser.mk_ptr [0xC0] 8).tell 3
                < 2 ^ (3 - 1)
              then (msbValue (CBitParser.mk_ptr [0xC0] 8).m_buffer
                (CBitParser.mk_ptr [0xC0] 8).tell 3 : Int)
              else (msbValue (CBitParser.mk_ptr [0xC0] 8).m_buffer
                (CBitParser.mk_ptr [0xC0] 8).tell 3 : Int) - 2 ^ 3), p1) :=
  C5_read_signed_value (CBitParser.mk_ptr [0xC0] 8)
    (CBitParser.Reachable.init [0xC0] 8 (by decide) (by decide) (by decide))
    8 (by decide) 3 (by decide) (by decide)

end ilo

namespace ilo

/-- C6: cursor advance. After every successful `write(v, n)` on a writer, `tell()` is the
previous `tell()` plus `n` (the positions up to the byte-rounded end of the write being
`uint32_t` values); after every successful `read<T>(n)` on a reachable reader, `tell()` is
the previous `tell()` plus `n` and `nofBitsLeft()` has decreased by `n`; `read<T>(0)` returns
0 and leaves the reader as it is. -/
theorem C6_cursor_advance (W : Nat) (hW : isWidth W) :
    (∀ (s : CBitBuffer) (v n : Nat) (s1 : CBitBuffer), s.wf → s.tell + n + 7 < 4294967296 →
      s.write W v n = (.ok (), s1) → s1.tell = s.tell + n) ∧
    (∀ (p : CBitParser) (n r : Nat) (p1 : CBitParser), p.Reachable →
      p.read_unsigned W n = (.ok r, p1) →
      p1.tell = p.tell + n ∧ p1.nofBitsLeft + n = p.nofBitsLeft) ∧
    (∀ (p : CBitParser) (n : Nat) (r : Int) (p1 : CBitParser), p.Reachable →
      p.read_signed W n = (.ok r, p1) →
      p1.tell = p.tell + n ∧ p1.nofBitsLeft + n = p.nofBitsLeft) ∧
    (∀ p : CBitParser, p.Reachable →
      p.read_unsigned W 0 = (.ok 0, p) ∧ p.read_signed W 0 = (.ok 0, p)) := by
  refine ⟨?_, ?_, ?_, ?_⟩
  · intro s v n s1 hwf hrange hs
    rcases write_cases W hW hwf v n (fun _ => hrange) with ⟨_, hf⟩ | ⟨_, s2, hw, _, ht⟩
    · rw [hf] at hs
      exact absurd (congrArg Prod.fst hs) (by simp)
    · rw [hw] at hs
      have e : s2 = s1 := congrArg Prod.snd hs
      rw [← e]; exact ht
  · intro p n r p1 hp hs
    rcases read_unsigned_cases W hp.to_wf n with ⟨_, hf⟩ | ⟨_, r2, p2, hrd, _, ht, hl⟩
    · rw [hf] at hs
      exact absurd (congrArg Prod.fst hs) (by simp)
    · rw [hrd] at hs
      have e : p2 = p1 := congrArg Prod.snd hs
      rw [← e]; exact ⟨ht, hl⟩
  · intro p n r p1 hp hs
    rcases read_signed_cases W (isWidth_le hW) hp.to_wf n with
      ⟨_, hf⟩ | ⟨_, r2, p2, hrd, _, ht, hl⟩
    · rw [hf] at hs
      exact absurd (congrArg Prod.fst hs) (by simp)
    · rw [hrd] at hs
      have e : p2 = p1 := congrArg Prod.snd hs
      rw [← e]; exact ⟨ht, hl⟩
  · intro p _
    constructor
    · unfold CBitParser.read_unsigned
      rw [if_neg (by omega), if_pos rfl]
    · unfold CBitParser.read_signed
      rw [if_neg (by omega), if_pos rfl]

/-- Witness of C6: a 12-bit write into an empty writer, 12-bit reads over two bytes and a
half, and zero-width reads. -/
theorem C6_cursor_advance_witness :
    ((CBitBuffer.mk_internal 0).write 16 0xABC 12).2.tell = (CBitBuffer.mk_internal 0).tell + 12 ∧
    (((CBitParser.mk_ptr [0x71, 0xB1, 0xB0] 20).read_unsigned 16 12).2.tell
        = (CBitParser.mk_ptr [0x71, 0xB1, 0xB0] 20).tell + 12 ∧
      ((CBitParser.mk_ptr [0x71, 0xB1, 0xB0] 20).read_unsigned 16 12).2.nofBitsLeft + 12
        = (CBitParser.mk_ptr [0x71, 0xB1, 0xB0] 20).nofBitsLeft) ∧
    (((CBitParser.mk_ptr [0x71, 0xB1, 0xB0] 20).read_signed 16 12).2.tell
        = (CBitParser.mk_ptr [0x71, 0xB1, 0xB0] 20).tell + 12 ∧
      ((CBitParser.mk_ptr [0x71, 0xB1, 0xB0] 20).read_signed 16 12).2.nofBitsLeft + 12
        = (CBitParser.mk_ptr [0x71, 0xB1, 0xB0] 20).nofBitsLeft) ∧
    ((CBitParser.mk_ptr [0x71, 0xB1, 0xB0] 20).read_unsigned 16 0
        = (.ok 0, CBitParser.mk_ptr [0x71, 0xB1, 0xB0] 20) ∧
      (CBitParser.mk_ptr [0x71, 0xB1, 0xB0] 20).read_signed 16 0
        = (.ok 0, CBitParser.mk_ptr [0x71, 0xB1, 0xB0] 20)) :=
  have h := C6_cursor_advance 16 (by decide)
  have hr : (CBitParser.mk_ptr [0x71, 0xB1, 0xB0] 20).Reachable :=
    CBitParser.Reachable.init [0x71, 0xB1, 0xB0] 20 (by decide) (by decide) (by decide)
  ⟨h.1 (CBitBuffer.mk_internal 0) 0xABC 12 _ (mk_internal_wf 0) (by decide) rfl,
    h.2.1 (CBitParser.mk_ptr [0x71, 0xB1, 0xB0] 20) 12 _ _ hr rfl,
    h.2.2.1 (CBitParser.mk_ptr [0x71, 0xB1, 0xB0] 20) 12 _ _ hr rfl,
    h.2.2.2 (CBitParser.mk_ptr [0x71, 0xB1, 0xB0] 20) hr⟩

/-- C7: failure condition of `read<T>(n)`. In every reachable reader state and for every
integer result type of `W` bits, signed or unsigned, `read<T>(n)` fails if and only if
`n > nofBitsLeft()` or `n > W`; every such failure is a `ReadException` and leaves the
reader, in particular `tell()`, unchanged; otherwise a value is returned. -/
theorem C7_read_failure (W : Nat) (hW : isWidth W) (p : CBitParser) (hp : p.Reachable)
    (n : Nat) :
    ((∃ e, (p.read_unsigned W n).1 = .error e) ↔ (p.nofBitsLeft < n ∨ W < n)) ∧
    ((∃ e, (p.read_signed W n).1 = .error e) ↔ (p.nofBitsLeft < n ∨ W < n)) ∧
    ((p.nofBitsLeft < n ∨ W < n) →
      p.read_unsigned W n = (.error Exc.ReadException, p) ∧
      p.read_signed W n = (.error Exc.ReadException, p) ∧
      (p.read_unsigned W n).2.tell = p.tell ∧ (p.read_signed W n).2.tell = p.tell) ∧
    (¬ (p.nofBitsLeft < n ∨ W < n) →
      (∃ r p1, p.read_unsigned W n = (.ok r, p1)) ∧ (∃ r p1, p.read_signed W n = (.ok r, p1))) := by
  have hu := read_unsigned_cases W hp.to_wf n
  have hs := read_signed_cases W (isWidth_le hW) hp.to_wf n
  refine ⟨?_, ?_, ?_, ?_⟩
  · constructor
    · intro ⟨e, he⟩
      rcases hu with ⟨h, _⟩ | ⟨_, r, p1, hrd, _⟩
      · exact h
      · rw [hrd] at he; exact absurd he (by simp)
    · intro h
      rcases hu with ⟨_, hf⟩ | ⟨hn, _⟩
      · exact ⟨_, by rw [hf]⟩
      · exact absurd h hn
  · constructor
    · intro ⟨e, he⟩
      rcases hs with ⟨h, _⟩ | ⟨_, r, p1, hrd, _⟩
      · exact h
      · rw [hrd] at he; exact absurd he (by simp)
    · intro h
      rcases hs with ⟨_, hf⟩ | ⟨hn, _⟩
      · exact ⟨_, by rw [hf]⟩
      · exact absurd h hn
  · intro h
    rcases hu with ⟨_, hf⟩ | ⟨hn, _⟩
    · rcases hs with ⟨_, hf2⟩ | ⟨hn2, _⟩
      · exact ⟨hf, hf2, by rw [hf], by rw [hf2]⟩
      · exact absurd h hn2
    · exact absurd h hn
  · intro h
    rcases hu with ⟨hy, _⟩ | ⟨_, r, p1, hrd, _⟩
    · exact absurd hy h
    · rcases hs with ⟨hy, _⟩ | ⟨_, r2, p2, hrd2, _⟩
      · exact absurd hy h
      · exact ⟨⟨r, p1, hrd⟩, ⟨r2, p2, hrd2⟩⟩

/-- Witness of C7: a 9-bit read into an 8-bit type at bit 5 of a 20-bit reader. -/
theorem C7_read_failure_witness :
    ((∃ e, (((CBitParser.mk_ptr [0x71, 0xB1, 0xB0] 20).seek 5 EPosType.begin).2.read_unsigned
        8 9).1 = .error e) ↔
      (((CBitParser.mk_ptr [0x71, 0xB1, 0xB0] 20).seek 5 EPosType.begin).2.nofBitsLeft < 9
        ∨ 8 < 9)) ∧
    ((∃ e, (((CBitParser.mk_ptr [0x71, 0xB1, 0xB0] 20).seek 5 EPosType.begin).2.read_signed
        8 9).1 = .error e) ↔
      (((CBitParser.mk_ptr [0x71, 0xB1, 0xB0] 20).seek 5 EPosType.begin).2.nofBitsLeft < 9
        ∨ 8 < 9)) ∧
    ((((CBitParser.mk_ptr [0x71, 0xB1, 0xB0] 20).seek 5 EPosType.begin).2.nofBitsLeft < 9
        ∨ 8 < 9) →
      ((CBitParser.mk_ptr [0x71, 0xB1, 0xB0] 20).seek 5 EPosType.begin).2.read_unsigned 8 9
        = (.error Exc.ReadException,
            ((CBitParser.mk_ptr [0x71, 0xB1, 0xB0] 20).seek 5 EPosType.begin).2) ∧
      ((CBitParser.mk_ptr [0x71, 0xB1, 0xB0] 20).seek 5 EPosType.begin).2.read_signed 8 9
        = (.error Exc.ReadException,
            ((CBitParser.mk_ptr [0x71, 0xB1, 0xB0] 20).seek 5 EPosType.begin).2) ∧
      (((CBitParser.mk_ptr [0x71, 0xB1, 0xB0] 20).seek 5 EPosType.begin).2.read_unsigned
          8 9).2.tell
        = ((CBitParser.mk_ptr [0x71, 0xB1, 0xB0] 20).seek 5 EPosType.begin).2.tell ∧
      (((CBitParser.mk_ptr [0x71, 0xB1, 0xB0] 20).seek 5 EPosType.begin).2.read_signed
          8 9).2.tell
        = ((CBitParser.mk_ptr [0x71, 0xB1, 0xB0] 20).seek 5 EPosType.begin).2.tell) ∧
    (¬ (((CBitParser.mk_ptr [0x71, 0xB1, 0xB0] 20).seek 5 EPosType.begin).2.nofBitsLeft < 9
        ∨ 8 < 9) →
      (∃ r p1, ((CBitParser.mk_ptr [0x71, 0xB1, 0xB0] 20).seek 5 EPosType.begin).2.read_unsigned
        8 9 = (.ok r, p1)) ∧
      (∃ r p1, ((CBitParser.mk_ptr [0x71, 0xB1, 0xB0] 20).seek 5 EPosType.begin).2.read_signed
        8 9 = (.ok r, p1))) :=
  C7_read_failure 8 (by decide)
    ((CBitParser.mk_ptr [0x71, 0xB1, 0xB0] 20).seek 5 EPosType.begin).2
    (CBitParser.Reachable.seek 5 EPosType.begin (by decide) (by decide)
      (CBitParser.Reachable.init [0x71, 0xB1, 0xB0] 20 (by decide) (by decide) (by decide)))
    9

end ilo

namespace ilo

/-- C8: failure condition of `write<T>(v, n)`. For every writer state with cursor
`c = s.tell` and an unsigned type of `W` bits, the call fails if and only if `n > W`, or the
writer is in external mode and `c + n > 8 * capacityBytes`; every such failure is a
`WriteException` and leaves the buffer bytes, `nofBits()` and `tell()` unchanged; in
self-owned mode a call with `n ≤ W` does not fail. For `n ≤ W` the positions up to the
byte-rounded end of the write are `uint32_t` values. -/
theorem C8_write_failure (W : Nat) (hW : isWidth W) (s : CBitBuffer) (hwf : s.wf) (v n : Nat)
    (hrange : n ≤ W → s.tell + n + 7 < 4294967296) :
    ((∃ e, (s.write W v n).1 = .error e) ↔
      (W < n ∨ (s.m_useExtBuffer = true ∧ 8 * s.m_extBufferSizeBytes < s.tell + n))) ∧
    ((W < n ∨ (s.m_useExtBuffer = true ∧ 8 * s.m_extBufferSizeBytes < s.tell + n)) →
      s.write W v n = (.error Exc.WriteException, s) ∧
      (s.write W v n).2.m_buffer = s.m_buffer ∧ (s.write W v n).2.nofBits = s.nofBits ∧
      (s.write W v n).2.tell = s.tell) ∧
    (s.m_useExtBuffer = false → n ≤ W → ∃ s1, s.write W v n = (.ok (), s1)) := by
  have hc := write_cases W hW hwf v n hrange
  refine ⟨?_, ?_, ?_⟩
  · constructor
    · intro ⟨e, he⟩
      rcases hc with ⟨h, _⟩ | ⟨_, s1, hw, _⟩
      · exact h
      · rw [hw] at he; exact absurd he (by simp)
    · intro h
      rcases hc with ⟨_, hf⟩ | ⟨hn, _⟩
      · exact ⟨_, by rw [hf]⟩
      · exact absurd h hn
  · intro h
    rcases hc with ⟨_, hf⟩ | ⟨hn, _⟩
    · exact ⟨hf, by rw [hf], by rw [hf], by rw [hf]⟩
    · exact absurd h hn
  · intro hint hn
    rcases hc with ⟨h, _⟩ | ⟨_, s1, hw, _⟩
    · rcases h with h | h
      · omega
      · rw [hint] at h; exact absurd h.1 (by simp)
    · exact ⟨s1, hw⟩

/-- Witness of C8: 16 bits written at bit 32 of an external 5-byte buffer. -/
theorem C8_write_failure_witness :
    ((∃ e, ((CBitBuffer.mk true [0xFF, 0xFF, 0xFF, 0xFF, 0xFF] 5 4 0 40).write 16 0 16).1
        = .error e) ↔
      (16 < 16 ∨ ((CBitBuffer.mk true [0xFF, 0xFF, 0xFF, 0xFF, 0xFF] 5 4 0 40).m_useExtBuffer = true ∧
        8 * (CBitBuffer.mk true [0xFF, 0xFF, 0xFF, 0xFF, 0xFF] 5 4 0 40).m_extBufferSizeBytes
          < (CBitBuffer.mk true [0xFF, 0xFF, 0xFF, 0xFF, 0xFF] 5 4 0 40).tell + 16))) ∧
    ((16 < 16 ∨ ((CBitBuffer.mk true [0xFF, 0xFF, 0xFF, 0xFF, 0xFF] 5 4 0 40).m_useExtBuffer = true ∧
        8 * (CBitBuffer.mk true [0xFF, 0xFF, 0xFF, 0xFF, 0xFF] 5 4 0 40).m_extBufferSizeBytes
          < (CBitBuffer.mk true [0xFF, 0xFF, 0xFF, 0xFF, 0xFF] 5 4 0 40).tell + 16)) →
      (CBitBuffer.mk true [0xFF, 0xFF, 0xFF, 0xFF, 0xFF] 5 4 0 40).write 16 0 16
        = (.error Exc.WriteException, CBitBuffer.mk true [0xFF, 0xFF, 0xFF, 0xFF, 0xFF] 5 4 0 40) ∧
      ((CBitBuffer.mk true [0xFF, 0xFF, 0xFF, 0xFF, 0xFF] 5 4 0 40).write 16 0 16).2.m_buffer
        = (CBitBuffer.mk true [0xFF, 0xFF, 0xFF, 0xFF, 0xFF] 5 4 0 40).m_buffer ∧
      ((CBitBuffer.mk true [0xFF, 0xFF, 0xFF, 0xFF, 0xFF] 5 4 0 40).write 16 0 16).2.nofBits
        = (CBitBuffer.mk true [0xFF, 0xFF, 0xFF, 0xFF, 0xFF] 5 4 0 40).nofBits ∧
      ((CBitBuffer.mk true [0xFF, 0xFF, 0xFF, 0xFF, 0xFF] 5 4 0 40).write 16 0 16).2.tell
        = (CBitBuffer.mk true [0xFF, 0xFF, 0xFF, 0xFF, 0xFF] 5 4 0 40).tell) ∧
    ((CBitBuffer.mk true [0xFF, 0xFF, 0xFF, 0xFF, 0xFF] 5 4 0 40).m_useExtBuffer = false →
      16 ≤ 16 →
      ∃ s1, (CBitBuffer.mk true [0xFF, 0xFF, 0xFF, 0xFF, 0xFF] 5 4 0 40).write 16 0 16
        = (.ok (), s1)) :=
  C8_write_failure 16 (by decide) (CBitBuffer.mk true [0xFF, 0xFF, 0xFF, 0xFF, 0xFF] 5 4 0 40)
    ⟨by decide, by decide, by decide, by decide, by decide, by decide⟩ 0 16 (by decide)

/-- C9: `CBitBuffer::seek(offset, origin)`. With `target = offset` for origin `begin`,
`tell() + offset` for `cur` and `nofBits() + offset` for `end`, all values within the
`int32_t` range, the call succeeds if and only if `0 ≤ target ≤ nofBits()`, and then
`tell() = target` with buffer contents and `nofBits()` unchanged; otherwise it fails with
`SeekException` and the writer, in particular the cursor, is unchanged. -/
theorem C9_writer_seek (s : CBitBuffer) (hwf : s.wf) (offset : Int) (origin : EPosType)
    (ho : inInt32 offset) (hv : inInt32 (s.nofBits : Int))
    (ht : inInt32 (seekTarget s.tell s.nofBits offset origin)) :
    ((s.seek offset origin).1 = .ok () ↔
      (0 ≤ seekTarget s.tell s.nofBits offset origin ∧
        seekTarget s.tell s.nofBits offset origin ≤ s.nofBits)) ∧
    ((0 ≤ seekTarget s.tell s.nofBits offset origin ∧
        seekTarget s.tell s.nofBits offset origin ≤ s.nofBits) →
      ∃ s1, s.seek offset origin = (.ok (), s1) ∧
        (s1.tell : Int) = seekTarget s.tell s.nofBits offset origin ∧
        s1.m_buffer = s.m_buffer ∧ s1.nofBits = s.nofBits) ∧
    (¬ (0 ≤ seekTarget s.tell s.nofBits offset origin ∧
        seekTarget s.tell s.nofBits offset origin ≤ s.nofBits) →
      s.seek offset origin = (.error Exc.SeekException, s) ∧
      (s.seek offset origin).2.tell = s.tell) := by
  have htl := CBitBuffer.writer_tell_eq hwf
  have hnb : s.nofBits = s.m_nofvalidBits := rfl
  rw [hnb] at hv ht ⊢
  have hv' : s.m_nofvalidBits < 2147483648 := by
    have := hv.2
    omega
  rw [htl] at ht ⊢
  obtain ⟨hok, hfail⟩ := CBitBuffer.writer_seek_total hwf.local_le hwf.cursor_le hv' offset origin ho ht
  have hok' : (0 ≤ seekTarget (s.m_writeIterBytes * 8 + s.m_localWriteBits) s.m_nofvalidBits
          offset origin ∧
        seekTarget (s.m_writeIterBytes * 8 + s.m_localWriteBits) s.m_nofvalidBits offset origin
          ≤ s.m_nofvalidBits) →
      ∃ s1, s.seek offset origin = (.ok (), s1) ∧
        (s1.tell : Int)
          = seekTarget (s.m_writeIterBytes * 8 + s.m_localWriteBits) s.m_nofvalidBits offset
              origin ∧
        s1.m_buffer = s.m_buffer ∧ s1.nofBits = s.m_nofvalidBits := by
    intro h
    obtain ⟨s1, hs, hpos, hl1, hb1, hn1, hx1, he1⟩ := hok h
    have hwf1 : s1.wf := by
      refine ⟨hl1, ?_, by rw [hn1, hb1]; exact hwf.valid_le, by rw [hn1]; exact hwf.valid_lt,
        by rw [hb1]; exact hwf.bytes, by rw [hx1, hb1, he1]; exact hwf.ext_size⟩
      have h2 := h.2
      rw [← hpos] at h2
      rw [hn1]
      exact_mod_cast h2
    exact ⟨s1, hs, by rw [CBitBuffer.writer_tell_eq hwf1]; exact hpos, hb1, hn1⟩
  refine ⟨?_, hok', ?_⟩
  · constructor
    · intro h
      by_contra hc
      rw [hfail hc] at h
      exact absurd h (by simp)
    · intro h
      obtain ⟨s1, hs, _⟩ := hok' h
      rw [hs]
  · intro h
    exact ⟨hfail h, by rw [hfail h]; exact htl⟩

/-- Witness of C9: a seek three bits back from the end of a 40-bit external writer. -/
theorem C9_writer_seek_witness :
    (((CBitBuffer.mk_external [0xFF, 0xFF, 0xFF, 0xFF, 0xFF] 5 40).seek (-3) EPosType.end_).1
        = .ok () ↔
      (0 ≤ seekTarget (CBitBuffer.mk_external [0xFF, 0xFF, 0xFF, 0xFF, 0xFF] 5 40).tell
          (CBitBuffer.mk_external [0xFF, 0xFF, 0xFF, 0xFF, 0xFF] 5 40).nofBits (-3) EPosType.end_ ∧
        seekTarget (CBitBuffer.mk_external [0xFF, 0xFF, 0xFF, 0xFF, 0xFF] 5 40).tell
          (CBitBuffer.mk_external [0xFF, 0xFF, 0xFF, 0xFF, 0xFF] 5 40).nofBits (-3) EPosType.end_
          ≤ (CBitBuffer.mk_external [0xFF, 0xFF, 0xFF, 0xFF, 0xFF] 5 40).nofBits)) ∧
    ((0 ≤ seekTarget (CBitBuffer.mk_external [0xFF, 0xFF, 0xFF, 0xFF, 0xFF] 5 40).tell
          (CBitBuffer.mk_external [0xFF, 0xFF, 0xFF, 0xFF, 0xFF] 5 40).nofBits (-3) EPosType.end_ ∧
        seekTarget (CBitBuffer.mk_external [0xFF, 0xFF, 0xFF, 0xFF, 0xFF] 5 40).tell
          (CBitBuffer.mk_external [0xFF, 0xFF, 0xFF, 0xFF, 0xFF] 5 40).nofBits (-3) EPosType.end_
          ≤ (CBitBuffer.mk_external [0xFF, 0xFF, 0xFF, 0xFF, 0xFF] 5 40).nofBits) →
      ∃ s1, (CBitBuffer.mk_external [0xFF, 0xFF, 0xFF, 0xFF, 0xFF] 5 40).seek (-3) EPosType.end_
          = (.ok (), s1) ∧
        (s1.tell : Int) = seekTarget (CBitBuffer.mk_external [0xFF, 0xFF, 0xFF, 0xFF, 0xFF] 5 40).tell
          (CBitBuffer.mk_external [0xFF, 0xFF, 0xFF, 0xFF, 0xFF] 5 40).nofBits (-3) EPosType.end_ ∧
        s1.m_buffer = (CBitBuffer.mk_external [0xFF, 0xFF, 0xFF, 0xFF, 0xFF] 5 40).m_buffer ∧
        s1.nofBits = (CBitBuffer.mk_external [0xFF, 0xFF, 0xFF, 0xFF, 0xFF] 5 40).nofBits) ∧
    (¬ (0 ≤ seekTarget (CBitBuffer.mk_external [0xFF, 0xFF, 0xFF, 0xFF, 0xFF] 5 40).tell
          (CBitBuffer.mk_external [0xFF, 0xFF, 0xFF, 0xFF, 0xFF] 5 40).nofBits (-3) EPosType.end_ ∧
        seekTarget (CBitBuffer.mk_external [0xFF, 0xFF, 0xFF, 0xFF, 0xFF] 5 40).tell
          (CBitBuffer.mk_external [0xFF, 0xFF, 0xFF, 0xFF, 0xFF] 5 40).nofBits (-3) EPosType.end_
          ≤ (CBitBuffer.mk_external [0xFF, 0xFF, 0xFF, 0xFF, 0xFF] 5 40).nofBits) →
      (CBitBuffer.mk_external [0xFF, 0xFF, 0xFF, 0xFF, 0xFF] 5 40).seek (-3) EPosType.end_
        = (.error Exc.SeekException, CBitBuffer.mk_external [0xFF, 0xFF, 0xFF, 0xFF, 0xFF] 5 40) ∧
      ((CBitBuffer.mk_external [0xFF, 0xFF, 0xFF, 0xFF, 0xFF] 5 40).seek (-3) EPosType.end_).2.tell
        = (CBitBuffer.mk_external [0xFF, 0xFF, 0xFF, 0xFF, 0xFF] 5 40).tell) :=
  C9_writer_seek (CBitBuffer.mk_external [0xFF, 0xFF, 0xFF, 0xFF, 0xFF] 5 40)
    ⟨by decide, by decide, by decide, by decide, by decide, by decide⟩ (-3) EPosType.end_
    (by unfold inInt32; decide) (by unfold inInt32; decide) (by unfold inInt32; decide)

end ilo

namespace ilo

/-- C10: `CBitParser::seek(offset, origin)` has the writer's seek semantics on the read
cursor, from every reachable reader state, also one reached by a read that ended on a byte
boundary. With `target = offset` (`begin`), `tell() + offset` (`cur`) or
`nofBits() + offset` (`end`), all values within the `int32_t` range as for the writer, the
call succeeds if and only if `0 ≤ target ≤ nofBits()`, and then `tell() = target` with
bytes and `nofBits()` unchanged; otherwise it fails with `SeekException` and the reader,
in particular `tell()`, is unchanged. -/
theorem C10_reader_seek (p : CBitParser) (hp : p.Reachable) (offset : Int) (origin : EPosType)
    (ho : inInt32 offset) (hv : inInt32 (p.nofBits : Int))
    (ht : inInt32 (seekTarget p.tell p.nofBits offset origin)) :
    ((p.seek offset origin).1 = .ok () ↔
      (0 ≤ seekTarget p.tell p.nofBits offset origin ∧
        seekTarget p.tell p.nofBits offset origin ≤ p.nofBits)) ∧
    ((0 ≤ seekTarget p.tell p.nofBits offset origin ∧
        seekTarget p.tell p.nofBits offset origin ≤ p.nofBits) →
      ∃ p1, p.seek offset origin = (.ok (), p1) ∧
        (p1.tell : Int) = seekTarget p.tell p.nofBits offset origin ∧
        p1.m_buffer = p.m_buffer ∧ p1.nofBits = p.nofBits) ∧
    (¬ (0 ≤ seekTarget p.tell p.nofBits offset origin ∧
        seekTarget p.tell p.nofBits offset origin ≤ p.nofBits) →
      p.seek offset origin = (.error Exc.SeekException, p) ∧
      (p.seek offset origin).2.tell = p.tell) := by
  have hwf := hp.to_wf
  have htl := CBitParser.tell_eq hwf
  have hnb : p.nofBits = p.m_nofValidBits := rfl
  rw [hnb] at hv ht ⊢
  have hv' : p.m_nofValidBits < 2147483648 := by
    have := hv.2
    omega
  rw [htl] at ht ⊢
  obtain ⟨hok, hfail⟩ := CBitParser.seek_total hwf.local_le hwf.cursor_le hv' offset origin ho ht
  have hok' : (0 ≤ seekTarget (p.m_readIter * 8 + p.m_localReadBits) p.m_nofValidBits
          offset origin ∧
        seekTarget (p.m_readIter * 8 + p.m_localReadBits) p.m_nofValidBits offset origin
          ≤ p.m_nofValidBits) →
      ∃ p1, p.seek offset origin = (.ok (), p1) ∧
        (p1.tell : Int)
          = seekTarget (p.m_readIter * 8 + p.m_localReadBits) p.m_nofValidBits offset origin ∧
        p1.m_buffer = p.m_buffer ∧ p1.nofBits = p.m_nofValidBits := by
    intro h
    obtain ⟨p1, hs, hpos, hl1, hb1, hn1⟩ := hok h
    have hwf1 : p1.wf := by
      refine ⟨by omega, ?_, by rw [hn1, hb1]; exact hwf.valid_le, by rw [hn1]; exact hwf.valid_lt,
        by rw [hb1]; exact hwf.bytes⟩
      have h2 := h.2
      rw [← hpos] at h2
      rw [hn1]
      exact_mod_cast h2
    exact ⟨p1, hs, by rw [CBitParser.tell_eq hwf1]; exact hpos, hb1, hn1⟩
  refine ⟨?_, hok', ?_⟩
  · constructor
    · intro h
      by_contra hc
      rw [hfail hc] at h
      exact absurd h (by simp)
    · intro h
      obtain ⟨p1, hs, _⟩ := hok' h
      rw [hs]
  · intro h
    exact ⟨hfail h, by rw [hfail h]; exact htl⟩

/-- Witness of C10: after an 8-bit read from bit 0, which ends on a byte boundary, a seek
three bits back from the current position. -/
theorem C10_reader_seek_witness :
    ((((CBitParser.mk_ptr [0x71, 0xB1, 0xB0] 20).read_unsigned 8 8).2.seek (-3) EPosType.cur).1
        = .ok () ↔
      (0 ≤ seekTarget ((CBitParser.mk_ptr [0x71, 0xB1, 0xB0] 20).read_unsigned 8 8).2.tell
          ((CBitParser.mk_ptr [0x71, 0xB1, 0xB0] 20).read_unsigned 8 8).2.nofBits (-3)
          EPosType.cur ∧
        seekTarget ((CBitParser.mk_ptr [0x71, 0xB1, 0xB0] 20).read_unsigned 8 8).2.tell
          ((CBitParser.mk_ptr [0x71, 0xB1, 0xB0] 20).read_unsigned 8 8).2.nofBits (-3)
          EPosType.cur
          ≤ ((CBitParser.mk_ptr [0x71, 0xB1, 0xB0] 20).read_unsigned 8 8).2.nofBits)) ∧
    ((0 ≤ seekTarget ((CBitParser.mk_ptr [0x71, 0xB1, 0xB0] 20).read_unsigned 8 8).2.tell
          ((CBitParser.mk_ptr [0x71, 0xB1, 0xB0] 20).read_unsigned 8 8).2.nofBits (-3)
          EPosType.cur ∧
        seekTarget ((CBitParser.mk_ptr [0x71, 0xB1, 0xB0] 20).read_unsigned 8 8).2.tell
          ((CBitParser.mk_ptr [0x71, 0xB1, 0xB0] 20).read_unsigned 8 8).2.nofBits (-3)
          EPosType.cur
          ≤ ((CBitParser.mk_ptr [0x71, 0xB1, 0xB0] 20).read_unsigned 8 8).2.nofBits) →
      ∃ p1, ((CBitParser.mk_ptr [0x71, 0xB1, 0xB0] 20).read_unsigned 8 8).2.seek (-3) EPosType.cur
          = (.ok (), p1) ∧
        (p1.tell : Int)
          = seekTarget ((CBitParser.mk_ptr [0x71, 0xB1, 0xB0] 20).read_unsigned 8 8).2.tell
              ((CBitParser.mk_ptr [0x71, 0xB1, 0xB0] 20).read_unsigned 8 8).2.nofBits (-3)
              EPosType.cur ∧
        p1.m_buffer = ((CBitParser.mk_ptr [0x71, 0xB1, 0xB0] 20).read_unsigned 8 8).2.m_buffer ∧
        p1.nofBits = ((CBitParser.mk_ptr [0x71, 0xB1, 0xB0] 20).read_unsigned 8 8).2.nofBits) ∧
    (¬ (0 ≤ seekTarget ((CBitParser.mk_ptr [0x71, 0xB1, 0xB0] 20).read_unsigned 8 8).2.tell
          ((CBitParser.mk_ptr [0x71, 0xB1, 0xB0] 20).read_unsigned 8 8).2.nofBits (-3)
          EPosType.cur ∧
        seekTarget ((CBitParser.mk_ptr [0x71, 0xB1, 0xB0] 20).read_unsigned 8 8).2.tell
          ((CBitParser.mk_ptr [0x71, 0xB1, 0xB0] 20).read_unsigned 8 8).2.nofBits (-3)
          EPosType.cur
          ≤ ((CBitParser.mk_ptr [0x71, 0xB1, 0xB0] 20).read_unsigned 8 8).2.nofBits) →
      ((CBitParser.mk_ptr [0x71, 0xB1, 0xB0] 20).read_unsigned 8 8).2.seek (-3) EPosType.cur
        = (.error Exc.SeekException, ((CBitParser.mk_ptr [0x71, 0xB1, 0xB0] 20).read_unsigned 8 8).2) ∧
      (((CBitParser.mk_ptr [0x71, 0xB1, 0xB0] 20).read_unsigned 8 8).2.seek (-3) EPosType.cur).2.tell
        = ((CBitParser.mk_ptr [0x71, 0xB1, 0xB0] 20).read_unsigned 8 8).2.tell) :=
  C10_reader_seek ((CBitParser.mk_ptr [0x71, 0xB1, 0xB0] 20).read_unsigned 8 8).2
    (CBitParser.Reachable.read_unsigned 8 8 (by decide)
      (CBitParser.Reachable.init [0x71, 0xB1, 0xB0] 20 (by decide) (by decide) (by decide)))
    (-3) EPosType.cur
    (by unfold inInt32; decide) (by unfold inInt32; decide) (by unfold inInt32; decide)

end ilo

namespace ilo

/-! ## Specification properties C11 to C20 -/

/-- C11: content of `insert<T>(value, before, n)`. For every writer with valid bit sequence
`B` of length `L`, every `before ≤ L` and every `n` not above the bit width `W` of `T`
(external mode: `L + n ≤ 8 * capacityBytes`; `L + n` below `2^31`), the call returns,
afterwards `nofBits()` is `L + n` and the valid bit sequence is `B[0..before)` followed by the
low `n` bits of the value, most significant first, followed by `B[before..L)`. Scenario:
`insert(0b101, 5, 3)` into the 8-bit buffer `0b11110000` gives 11 valid bits in the bytes
0xF5, 0x00. -/
theorem C11_insert_content (W : Nat) (hW : isWidth W) (s : CBitBuffer) (hwf : s.wf)
    (value before n : Nat) (hb : before ≤ s.nofBits) (hn : n ≤ W)
    (hrange : s.nofBits + n < 2147483648)
    (hcap : s.m_useExtBuffer = true → s.nofBits + n ≤ 8 * s.m_extBufferSizeBytes) :
    (∃ s1, CBitBuffer.insert W s value before n = (.ok (), s1) ∧
      s1.nofBits = s.nofBits + n ∧
      s1.validBits = s.validBits.take before ++ lowBits value n ++ s.validBits.drop before) ∧
    CBitBuffer.insert 8 (CBitBuffer.mk false [0xF0] 0 1 0 8) 0b101 5 3
      = (.ok (), CBitBuffer.mk false [0xF5, 0x00] 0 1 3 11) := by
  refine ⟨?_, rfl⟩
  obtain ⟨s1, hi, _, _, _, hn1, _, hbits⟩ := insert_spec W hW hwf value hb hn hrange hcap
  refine ⟨s1, hi, hn1, ?_⟩
  unfold CBitBuffer.validBits lowBits
  rw [hn1]
  exact splice_bits _ _ _ hb hbits

/-- Witness of C11: 3 bits inserted before bit 5 of the 8-bit buffer `0b11110000`. -/
theorem C11_insert_content_witness :
    (∃ s1, CBitBuffer.insert 8 (CBitBuffer.mk false [0xF0] 0 1 0 8) 0b101 5 3 = (.ok (), s1) ∧
      s1.nofBits = (CBitBuffer.mk false [0xF0] 0 1 0 8).nofBits + 3 ∧
      s1.validBits = (CBitBuffer.mk false [0xF0] 0 1 0 8).validBits.take 5 ++ lowBits 0b101 3
        ++ (CBitBuffer.mk false [0xF0] 0 1 0 8).validBits.drop 5) ∧
    CBitBuffer.insert 8 (CBitBuffer.mk false [0xF0] 0 1 0 8) 0b101 5 3
      = (.ok (), CBitBuffer.mk false [0xF5, 0x00] 0 1 3 11) :=
  C11_insert_content 8 (by decide) (CBitBuffer.mk false [0xF0] 0 1 0 8)
    ⟨by decide, by decide, by decide, by decide, by decide, by decide⟩
    0b101 5 3 (by decide) (by decide) (by decide) (by decide)

/-- C12: cursor rule of `insert<T>(value, before, n)`. A call with cursor position `p`,
`before ≤ nofBits()`, `n` not above the bit width of `T` (external mode:
`nofBits() + n ≤ 8 * capacityBytes`; `nofBits() + n` below `2^31`) returns, and afterwards
`tell()` is `p` if `p < before` and `p + n` if `p ≥ before`. -/
theorem C12_insert_cursor (W : Nat) (hW : isWidth W) (s : CBitBuffer) (hwf : s.wf)
    (value before n : Nat) (hb : before ≤ s.nofBits) (hn : n ≤ W)
    (hrange : s.nofBits + n < 2147483648)
    (hcap : s.m_useExtBuffer = true → s.nofBits + n ≤ 8 * s.m_extBufferSizeBytes) :
    ∃ s1, CBitBuffer.insert W s value before n = (.ok (), s1) ∧
      (s.tell < before → s1.tell = s.tell) ∧ (before ≤ s.tell → s1.tell = s.tell + n) := by
  obtain ⟨s1, hi, _, _, _, _, ht, _⟩ := insert_spec W hW hwf value hb hn hrange hcap
  refine ⟨s1, hi, ?_, ?_⟩
  · intro h
    rw [ht, if_pos h]
  · intro h
    rw [ht, if_neg (by omega)]

/-- Witness of C12: 4 bits inserted before bit 8 of a 16-bit writer with the cursor at 11. -/
theorem C12_insert_cursor_witness :
    ∃ s1, CBitBuffer.insert 16 (CBitBuffer.mk false [0xAB, 0xCD] 0 1 3 16) 0x9 8 4
        = (.ok (), s1) ∧
      ((CBitBuffer.mk false [0xAB, 0xCD] 0 1 3 16).tell < 8 →
        s1.tell = (CBitBuffer.mk false [0xAB, 0xCD] 0 1 3 16).tell) ∧
      (8 ≤ (CBitBuffer.mk false [0xAB, 0xCD] 0 1 3 16).tell →
        s1.tell = (CBitBuffer.mk false [0xAB, 0xCD] 0 1 3 16).tell + 4) :=
  C12_insert_cursor 16 (by decide) (CBitBuffer.mk false [0xAB, 0xCD] 0 1 3 16)
    ⟨by decide, by decide, by decide, by decide, by decide, by decide⟩
    0x9 8 4 (by decide) (by decide) (by decide) (by decide)

/-- Failure of `insert<T>(value, before, n)` while `nofBits() + n` is a `uint32_t` value.
When `before > nofBits()`, or the writer is in external mode and
`nofBits() + n > 8 * capacityBytes`, the call throws `InsertException` and the writer is
left as it was: buffer bytes, `nofBits()` and `tell()` are unchanged. -/
theorem insert_failure_in_range (W : Nat) (s : CBitBuffer) (value before n : Nat)
    (hfail : s.nofBits < before ∨
      (s.m_useExtBuffer = true ∧ 8 * s.m_extBufferSizeBytes < s.nofBits + n ∧
        s.nofBits + n < 4294967296)) :
    (CBitBuffer.insert W s value before n).1 = .error Exc.InsertException ∧
    (CBitBuffer.insert W s value before n).2 = s ∧
    (CBitBuffer.insert W s value before n).2.m_buffer = s.m_buffer ∧
    (CBitBuffer.insert W s value before n).2.nofBits = s.nofBits ∧
    (CBitBuffer.insert W s value before n).2.tell = s.tell := by
  have key : CBitBuffer.insert W s value before n = (.error Exc.InsertException, s) := by
    unfold CBitBuffer.insert
    by_cases hb : before ≤ s.nofBits
    · rw [if_neg (not_not.mpr hb)]
      rcases hfail with h | h
      · omega
      · have e0 : u32 (s.nofBits + n) = s.nofBits + n := by simp only [u32]; omega
        rw [if_pos ⟨h.1, by rw [e0]; omega⟩]
    · rw [if_pos hb]
  rw [key]
  exact ⟨rfl, rfl, rfl, rfl, rfl⟩

/-- C14: content of `erase(firstBit, n)`. For every writer with valid bit sequence `B` of
length `L` (below `2^31`) and every `firstBit`, `n` with `firstBit + n ≤ L`, the call
returns, afterwards `nofBits()` is `L - n` and the valid bit sequence is `B[0..firstBit)`
followed by `B[firstBit+n..L)`. Scenario: `erase(2, 3)` on the 8-bit buffer `0b11111111`
gives the 5-bit buffer `0b11111`. -/
theorem C14_erase_content (s : CBitBuffer) (hwf : s.wf) (firstBit n : Nat)
    (hle : firstBit + n ≤ s.nofBits) (hrange : s.nofBits < 2147483648) :
    (∃ s1, s.erase firstBit n = (.ok (), s1) ∧ s1.nofBits = s.nofBits - n ∧
      s1.validBits = s.validBits.take firstBit ++ s.validBits.drop (firstBit + n)) ∧
    (CBitBuffer.mk false [0xFF] 0 1 0 8).erase 2 3
      = (.ok (), CBitBuffer.mk false [0xF8] 0 0 5 5) := by
  refine ⟨?_, rfl⟩
  obtain ⟨s1, he, _, _, _, hn1, _, hbits⟩ := erase_spec hwf hle hrange
  refine ⟨s1, he, hn1, ?_⟩
  unfold CBitBuffer.validBits
  rw [hn1]
  exact cut_bits _ _ hle hbits

/-- Witness of C14: bits 2 to 4 erased from the 8-bit buffer `0b11111111`. -/
theorem C14_erase_content_witness :
    (∃ s1, (CBitBuffer.mk false [0xFF] 0 1 0 8).erase 2 3 = (.ok (), s1) ∧
      s1.nofBits = (CBitBuffer.mk false [0xFF] 0 1 0 8).nofBits - 3 ∧
      s1.validBits = (CBitBuffer.mk false [0xFF] 0 1 0 8).validBits.take 2
        ++ (CBitBuffer.mk false [0xFF] 0 1 0 8).validBits.drop (2 + 3)) ∧
    (CBitBuffer.mk false [0xFF] 0 1 0 8).erase 2 3
      = (.ok (), CBitBuffer.mk false [0xF8] 0 0 5 5) :=
  C14_erase_content (CBitBuffer.mk false [0xFF] 0 1 0 8)
    ⟨by decide, by decide, by decide, by decide, by decide, by decide⟩
    2 3 (by decide) (by decide)

/-- C16: `erase(firstBit, n)` with a wrapping sum. On a self-owned writer holding the 8
valid bits `0xFF` with the cursor at 0, `erase(4, 4294967294)` has `firstBit + n` above
`nofBits()`, but the sum computed in `uint32_t` is 2: the call throws nothing and leaves a
writer with 10 valid bits in the bytes 0xFF, 0xC0. -/
theorem C16_erase_wrapping_sum :
    (CBitBuffer.mk false [0xFF] 0 0 0 8).nofBits < 4 + 4294967294 ∧
    (CBitBuffer.mk false [0xFF] 0 0 0 8).erase 4 4294967294
      = (.ok (), CBitBuffer.mk false [0xFF, 0xC0] 0 0 0 10) :=
  ⟨by decide, rfl⟩

/-- C17: insert/erase inverse. For every writer, every `pos ≤ nofBits()`, every `n` not
above the bit width `W` of `T` and every value `x` (external mode:
`nofBits() + n ≤ 8 * capacityBytes`; `nofBits() + n` below `2^31`), `insert<T>(x, pos, n)`
followed by `erase(pos, n)` returns a writer with the same `nofBits()`, the same valid bit
sequence and the same `tell()`. -/
theorem C17_insert_erase_inverse (W : Nat) (hW : isWidth W) (s : CBitBuffer) (hwf : s.wf)
    (x pos n : Nat) (hb : pos ≤ s.nofBits) (hn : n ≤ W)
    (hrange : s.nofBits + n < 2147483648)
    (hcap : s.m_useExtBuffer = true → s.nofBits + n ≤ 8 * s.m_extBufferSizeBytes) :
    ∃ s1 s2, CBitBuffer.insert W s x pos n = (.ok (), s1) ∧
      s1.erase pos n = (.ok (), s2) ∧
      s2.nofBits = s.nofBits ∧ s2.validBits = s.validBits ∧ s2.tell = s.tell := by
  obtain ⟨s1, hi, hwf1, _, _, hn1, ht1, hbits1⟩ :=
    insert_spec W hW hwf x hb hn hrange hcap
  have h1 : pos + n ≤ s1.nofBits := by omega
  have h2 : s1.nofBits < 2147483648 := by omega
  obtain ⟨s2, he, _, _, _, hn2, ht2, hbits2⟩ := erase_spec hwf1 h1 h2
  have hn2' : s2.nofBits = s.nofBits := by omega
  refine ⟨s1, s2, hi, he, hn2', ?_, ?_⟩
  · unfold CBitBuffer.validBits
    rw [hn2']
    apply same_bits
    intro i hi'
    rw [hbits2 i (by omega)]
    by_cases h3 : i < pos
    · rw [if_pos h3, hbits1 i (by omega), if_pos h3]
    · rw [if_neg h3, hbits1 (i + n) (by omega), if_neg (by omega), if_neg (by omega)]
      congr 1
      omega
  · rw [ht2, ht1]
    by_cases h3 : s.tell < pos
    · rw [if_pos h3, if_pos h3]
    · rw [if_neg h3, if_neg (by omega), if_pos (by omega)]
      omega

/-- Witness of C17: 4 bits inserted before bit 8 of a 16-bit writer and erased again. -/
theorem C17_insert_erase_inverse_witness :
    ∃ s1 s2, CBitBuffer.insert 16 (CBitBuffer.mk false [0xAB, 0xCD] 0 1 3 16) 0x9 8 4
        = (.ok (), s1) ∧
      s1.erase 8 4 = (.ok (), s2) ∧
      s2.nofBits = (CBitBuffer.mk false [0xAB, 0xCD] 0 1 3 16).nofBits ∧
      s2.validBits = (CBitBuffer.mk false [0xAB, 0xCD] 0 1 3 16).validBits ∧
      s2.tell = (CBitBuffer.mk false [0xAB, 0xCD] 0 1 3 16).tell :=
  C17_insert_erase_inverse 16 (by decide) (CBitBuffer.mk false [0xAB, 0xCD] 0 1 3 16)
    ⟨by decide, by decide, by decide, by decide, by decide, by decide⟩
    0x9 8 4 (by decide) (by decide) (by decide) (by decide)

/-- C18: `append(bytes)` with the cursor before the end. On a self-owned writer holding 16
valid zero bits with the cursor at 0, `append` of the byte 0xFF returns; the bytes are then
0x00, 0x00, 0xFF with 24 valid bits and the cursor at 0: the byte is written behind the last
valid bit, and the bit at the cursor position 0 is 0 while bit 0 of the appended sequence
is 1. -/
theorem C18_append_writes_at_end :
    (CBitBuffer.mk false [0x00, 0x00] 0 0 0 16).tell = 0 ∧
    (CBitBuffer.mk false [0x00, 0x00] 0 0 0 16).append [0xFF]
      = (.ok (), CBitBuffer.mk false [0x00, 0x00, 0xFF] 0 0 0 24) ∧
    bitAt ((CBitBuffer.mk false [0x00, 0x00] 0 0 0 16).append [0xFF]).2.m_buffer (0 + 0)
      = false ∧
    bitAt [0xFF] 0 = true :=
  ⟨rfl, rfl, rfl, rfl⟩

/-- C19: cursor of `append(bytes)` for 256 bytes. On an empty self-owned writer, whose
cursor is at the end, `append` of 256 bytes returns and leaves 2048 valid bits, but
`tell()` is 0 and not `0 + 8 * 256`: the cursor advance is computed from the length reduced
to `uint8_t`. -/
theorem C19_append_cursor_256 :
    (CBitBuffer.mk_internal 0).tell = (CBitBuffer.mk_internal 0).nofBits ∧
    ∃ s1, (CBitBuffer.mk_internal 0).append (List.replicate 256 0xFF) = (.ok (), s1) ∧
      s1.nofBits = 2048 ∧ s1.tell = 0 ∧
      s1.tell ≠ (CBitBuffer.mk_internal 0).tell + 8 * (List.replicate 256 0xFF).length := by
  refine ⟨rfl, ?_⟩
  have h0 : (CBitBuffer.mk_internal 0).tell = 0 := rfl
  have h1 : (CBitBuffer.mk_internal 0).nofBits = 0 := rfl
  have hl : (List.replicate 256 0xFF).length = 256 := List.length_replicate _ _
  obtain ⟨s1, ha, _, _, _, hn1, ht1, _⟩ :=
    append_spec (mk_internal_wf 0) (List.replicate 256 0xFF) (by rw [h1, hl]; decide)
      (fun h => absurd h (by decide))
  rw [h0, h1, hl] at ht1
  rw [h1, hl] at hn1
  have ht1' : s1.tell = 0 := by rw [ht1]; rfl
  refine ⟨s1, ha, by omega, ht1', ?_⟩
  rw [ht1', h0, hl]
  decide

/-- C20: failure of `append(bytes)`. For every writer and byte sequence with
`nofBits() + 8 * |bytes|` below `2^31`, the call throws if and only if the writer is in
external mode and `nofBits() + 8 * |bytes| > 8 * capacityBytes`; then it throws
`AppendException` and leaves the writer as it was (buffer bytes, `nofBits()`, `tell()`);
otherwise it returns, in particular always in self-owned mode. -/
theorem C20_append_failure (s : CBitBuffer) (hwf : s.wf) (bytes : List Nat)
    (hrange : s.nofBits + 8 * bytes.length < 2147483648) :
    ((∃ e s1, s.append bytes = (.error e, s1)) ↔
      (s.m_useExtBuffer = true ∧ 8 * s.m_extBufferSizeBytes < s.nofBits + 8 * bytes.length)) ∧
    (s.m_useExtBuffer = true ∧ 8 * s.m_extBufferSizeBytes < s.nofBits + 8 * bytes.length →
      s.append bytes = (.error Exc.AppendException, s)) ∧
    (s.m_useExtBuffer = false → ∃ s1, s.append bytes = (.ok (), s1)) := by
  have hok : ¬ (s.m_useExtBuffer = true ∧
      8 * s.m_extBufferSizeBytes < s.nofBits + 8 * bytes.length) →
      ∃ s1, s.append bytes = (.ok (), s1) := by
    intro h
    obtain ⟨s1, ha, _⟩ := append_spec hwf bytes hrange (fun hx => by
      by_contra hc
      exact h ⟨hx, by omega⟩)
    exact ⟨s1, ha⟩
  refine ⟨⟨?_, ?_⟩, ?_, ?_⟩
  · rintro ⟨e, s1, he⟩
    by_contra hc
    obtain ⟨s2, ha⟩ := hok hc
    rw [ha] at he
    cases he
  · intro h
    exact ⟨Exc.AppendException, s, append_fail bytes h.1 h.2⟩
  · intro h
    exact append_fail bytes h.1 h.2
  · intro h
    apply hok
    intro hc
    rw [h] at hc
    exact absurd hc.1 (by decide)

/-- Witness of C20: one byte appended to a full external one-byte writer. -/
theorem C20_append_failure_witness :
    ((∃ e s1, (CBitBuffer.mk true [0xFF] 1 1 0 8).append [0xAB] = (.error e, s1)) ↔
      ((CBitBuffer.mk true [0xFF] 1 1 0 8).m_useExtBuffer = true ∧
        8 * (CBitBuffer.mk true [0xFF] 1 1 0 8).m_extBufferSizeBytes
          < (CBitBuffer.mk true [0xFF] 1 1 0 8).nofBits + 8 * [0xAB].length)) ∧
    ((CBitBuffer.mk true [0xFF] 1 1 0 8).m_useExtBuffer = true ∧
        8 * (CBitBuffer.mk true [0xFF] 1 1 0 8).m_extBufferSizeBytes
          < (CBitBuffer.mk true [0xFF] 1 1 0 8).nofBits + 8 * [0xAB].length →
      (CBitBuffer.mk true [0xFF] 1 1 0 8).append [0xAB]
        = (.error Exc.AppendException, CBitBuffer.mk true [0xFF] 1 1 0 8)) ∧
    ((CBitBuffer.mk true [0xFF] 1 1 0 8).m_useExtBuffer = false →
      ∃ s1, (CBitBuffer.mk true [0xFF] 1 1 0 8).append [0xAB] = (.ok (), s1)) :=
  C20_append_failure (CBitBuffer.mk true [0xFF] 1 1 0 8)
    ⟨by decide, by decide, by decide, by decide, by decide, by decide⟩
    [0xAB] (by decide)

end ilo

namespace ilo

/-! ## Growing a writer -/

theorem resize_loop_small {t : Nat} (ht : t < 8) (s : CBitBuffer) :
    CBitBuffer.resize_loop t s =
      if t > 0 then s.write 8 0 (min 8 t) else (.ok (), s) := by
  interval_cases t <;> rfl

theorem resize_loop_step (t : Nat) (s : CBitBuffer) :
    CBitBuffer.resize_loop (t + 8) s =
      match s.write 8 0 8 with
      | (.error e, s1) => (.error e, s1)
      | (.ok _, s1) => CBitBuffer.resize_loop t s1 := by
  rfl

/-- The loop of `resize` writes `8 * k + r` zero bits at the cursor. -/
theorem resize_loop_spec (r : Nat) (hr : r < 8) (k : Nat) :
    ∀ (s : CBitBuffer), s.wf →
      s.tell + (8 * k + r) + 7 < 4294967296 →
      (s.m_useExtBuffer = true → s.tell + (8 * k + r) ≤ 8 * s.m_extBufferSizeBytes) →
      ∃ s1, CBitBuffer.resize_loop (8 * k + r) s = (.ok (), s1) ∧ s1.wf ∧
        s1.m_useExtBuffer = s.m_useExtBuffer ∧
        s1.m_extBufferSizeBytes = s.m_extBufferSizeBytes ∧
        s1.tell = s.tell + (8 * k + r) ∧ s1.nofBits = max s.nofBits (s.tell + (8 * k + r)) ∧
        (∀ i, bitAt s1.m_buffer i
          = if s.tell ≤ i ∧ i < s.tell + (8 * k + r) then false else bitAt s.m_buffer i) := by
  induction k with
  | zero =>
    intro s hwf hrange hcap
    simp only [Nat.mul_zero, Nat.zero_add] at hrange hcap ⊢
    rw [resize_loop_small hr]
    by_cases h0 : r > 0
    · rw [if_pos h0]
      have hmin : min 8 r = r := by omega
      rw [hmin]
      have hr8 : r ≤ 8 := by omega
      obtain ⟨s1, hw, hwf1, hx1, he1, ht1, hn1, _, hbit⟩ :=
        write_ok 8 (Or.inl rfl) hwf hr8 0 hrange hcap
      refine ⟨s1, hw, hwf1, hx1, he1, ht1, hn1, ?_⟩
      intro i
      rw [hbit i]
      by_cases hi : s.tell ≤ i ∧ i < s.tell + r
      · rw [if_pos hi, if_pos hi, Nat.zero_testBit]
      · rw [if_neg hi, if_neg hi]
    · rw [if_neg h0]
      have hr0 : r = 0 := by omega
      subst hr0
      have h1 := writer_tell_le hwf
      refine ⟨s, rfl, hwf, rfl, rfl, rfl, ?_, ?_⟩
      · omega
      · intro i
        rw [if_neg (by omega)]
  | succ k ih =>
    intro s hwf hrange hcap
    have e : 8 * (k + 1) + r = (8 * k + r) + 8 := by ring
    rw [e] at hrange hcap ⊢
    rw [resize_loop_step]
    have h1 : s.tell + 8 + 7 < 4294967296 := by omega
    have h2 : s.m_useExtBuffer = true → s.tell + 8 ≤ 8 * s.m_extBufferSizeBytes := by
      intro h
      have := hcap h
      omega
    obtain ⟨s1, hw, hwf1, hx1, he1, ht1, hn1, _, hbit1⟩ :=
      write_ok 8 (Or.inl rfl) hwf (le_refl 8) 0 h1 h2
    have h3 : s1.tell + (8 * k + r) + 7 < 4294967296 := by omega
    have h4 : s1.m_useExtBuffer = true →
        s1.tell + (8 * k + r) ≤ 8 * s1.m_extBufferSizeBytes := by
      intro h
      rw [hx1] at h
      have := hcap h
      rw [he1]
      omega
    obtain ⟨s2, hl2, hwf2, hx2, he2, ht2, hn2, hbit2⟩ := ih s1 hwf1 h3 h4
    refine ⟨s2, ?_, hwf2, by rw [hx2, hx1], by rw [he2, he1], by omega, ?_, ?_⟩
    · simp only [hw, hl2]
    · rw [hn2, hn1, ht1]
      omega
    · intro i
      rw [hbit2 i, hbit1 i, ht1]
      by_cases hA : s.tell ≤ i ∧ i < s.tell + 8
      · rw [if_neg (by omega), if_pos hA, if_pos (by omega), Nat.zero_testBit]
      · rw [if_neg hA]
        by_cases hB : s.tell + 8 ≤ i ∧ i < s.tell + 8 + (8 * k + r)
        · rw [if_pos hB, if_pos (by omega)]
        · rw [if_neg hB, if_neg (by omega)]

/-- The loop of `resize` for an arbitrary number of bits. -/
theorem resize_loop_ok (t : Nat) {s : CBitBuffer} (hwf : s.wf)
    (hrange : s.tell + t + 7 < 4294967296)
    (hcap : s.m_useExtBuffer = true → s.tell + t ≤ 8 * s.m_extBufferSizeBytes) :
    ∃ s1, CBitBuffer.resize_loop t s = (.ok (), s1) ∧ s1.wf ∧
      s1.m_useExtBuffer = s.m_useExtBuffer ∧
      s1.m_extBufferSizeBytes = s.m_extBufferSizeBytes ∧
      s1.tell = s.tell + t ∧ s1.nofBits = max s.nofBits (s.tell + t) ∧
      (∀ i, bitAt s1.m_buffer i
        = if s.tell ≤ i ∧ i < s.tell + t then false else bitAt s.m_buffer i) := by
  have e : 8 * (t / 8) + t % 8 = t := by omega
  have h := resize_loop_spec (t % 8) (by omega) (t / 8) s hwf (by rw [e]; exact hrange)
    (by rw [e]; exact hcap)
  rw [e] at h
  exact h

theorem bitAt_vecResize (buf : List Nat) (m i : Nat) :
    bitAt (vecResize buf m) i = if i < 8 * m then bitAt buf i else false := by
  unfold bitAt
  rw [getD_vecResize]
  by_cases h : i < 8 * m
  · rw [if_pos h, if_pos (by omega)]
  · rw [if_neg h, if_neg (by omega), Nat.zero_testBit]

/-- The storage adjustment in the growing branch of `resize`. -/
theorem resize_storage_wf {s : CBitBuffer} (hwf : s.wf) {m : Nat}
    (hm : s.m_nofvalidBits ≤ 8 * m) :
    (if s.m_useExtBuffer = true then s
      else { s with m_buffer := vecResize s.m_buffer m }).wf := by
  by_cases hx : s.m_useExtBuffer = true
  · rw [if_pos hx]
    exact hwf
  · rw [if_neg hx]
    exact ⟨hwf.local_le, hwf.cursor_le, by rw [length_vecResize]; exact hm, hwf.valid_lt,
      bytes_vecResize hwf.bytes m, fun h => absurd h hx⟩

/-- Member `resize` with a new size above the number of valid bits: the valid bits are
kept, the bits up to the new size are 0, the cursor is kept. -/
theorem resize_grow_spec {s : CBitBuffer} (hwf : s.wf) {k : Nat} (hk : s.nofBits < k)
    (hv : s.nofBits < 2147483648) (hk7 : k + 7 < 4294967296)
    (hcap : s.m_useExtBuffer = true → k ≤ 8 * s.m_extBufferSizeBytes) :
    ∃ s1, s.resize k = (.ok (), s1) ∧ s1.wf ∧
      s1.m_useExtBuffer = s.m_useExtBuffer ∧
      s1.m_extBufferSizeBytes = s.m_extBufferSizeBytes ∧
      s1.nofBits = k ∧ s1.tell = s.tell ∧
      (∀ i, i < s.nofBits → bitAt s1.m_buffer i = bitAt s.m_buffer i) ∧
      (∀ i, s.nofBits ≤ i → i < k → bitAt s1.m_buffer i = false) := by
  have htle := writer_tell_le hwf
  obtain ⟨s1, hs1, hs1wf, hs1t, hs1n, hs1b, hs1x, hs1e⟩ := wseek_end_wf hwf hv
  have e7 : u32 (k + 7) / 8 = (k + 7) / 8 := by simp only [u32]; omega
  have hm : s1.m_nofvalidBits ≤ 8 * ((k + 7) / 8) := by
    have : s1.m_nofvalidBits = s.nofBits := hs1n
    omega
  have hs2wf := resize_storage_wf hs1wf hm
  -- the state before the loop
  obtain ⟨s2, hs2, hs2t, hs2n, hs2x, hs2e, hs2bits⟩ :
      ∃ s2, (if s1.m_useExtBuffer = true then s1
          else { s1 with m_buffer := vecResize s1.m_buffer ((k + 7) / 8) }) = s2 ∧
        s2.tell = s.nofBits ∧ s2.nofBits = s.nofBits ∧
        s2.m_useExtBuffer = s.m_useExtBuffer ∧
        s2.m_extBufferSizeBytes = s.m_extBufferSizeBytes ∧
        (∀ i, i < s.nofBits → bitAt s2.m_buffer i = bitAt s.m_buffer i) := by
    by_cases hx : s1.m_useExtBuffer = true
    · rw [if_pos hx]
      exact ⟨s1, rfl, hs1t, hs1n, hs1x, hs1e, fun i _ => by rw [hs1b]⟩
    · rw [if_neg hx]
      refine ⟨_, rfl, hs1t, hs1n, hs1x, hs1e, ?_⟩
      intro i hi
      show bitAt (vecResize s1.m_buffer ((k + 7) / 8)) i = bitAt s.m_buffer i
      rw [bitAt_vecResize, if_pos (by omega), hs1b]
  rw [hs2] at hs2wf
  have e1 : sub32 k s2.nofBits = k - s.nofBits := by
    rw [hs2n]; simp only [sub32]; omega
  have h1 : s2.tell + (k - s.nofBits) + 7 < 4294967296 := by omega
  have h2 : s2.m_useExtBuffer = true →
      s2.tell + (k - s.nofBits) ≤ 8 * s2.m_extBufferSizeBytes := by
    intro h
    rw [hs2x] at h
    have := hcap h
    rw [hs2e]
    omega
  obtain ⟨s3, hl3, hs3wf, hs3x, hs3e, hs3t, hs3n, hs3bits⟩ :=
    resize_loop_ok (k - s.nofBits) hs2wf h1 h2
  have hs3n' : s3.m_nofvalidBits = k := by
    have : s3.m_nofvalidBits = max s2.nofBits (s2.tell + (k - s.nofBits)) := hs3n
    omega
  have hfin : (CBitBuffer.mk s3.m_useExtBuffer s3.m_buffer s3.m_extBufferSizeBytes
      s3.m_writeIterBytes s3.m_localWriteBits k) = s3 := by
    rw [← hs3n']
  have h5 : min s.tell k ≤ s3.nofBits := by
    have : s3.nofBits = k := hs3n'
    omega
  have h6 : min s.tell k < 2147483648 := by omega
  obtain ⟨s4, hs4, hs4wf, hs4t, hs4n, hs4b, hs4x, hs4e⟩ := wseek_begin_wf hs3wf h5 h6
  have key : s.resize k = (.ok (), s4) := by
    unfold CBitBuffer.resize
    rw [if_pos hk]
    simp only [hs1]
    rw [if_neg (by
      intro h
      rw [hs1x, hs1e] at h
      have := hcap h.1
      exact h.2 (by omega))]
    simp only [e7, hs2, e1, hl3, CBitBuffer.resize_finish, hfin]
    exact hs4
  refine ⟨s4, key, hs4wf, by rw [hs4x, hs3x, hs2x], by rw [hs4e, hs3e, hs2e],
    by rw [hs4n]; exact hs3n', by rw [hs4t]; omega, ?_, ?_⟩
  · intro i hi
    rw [hs4b, hs3bits i, if_neg (by omega), hs2bits i hi]
  · intro i hi1 hi2
    rw [hs4b, hs3bits i, if_pos ⟨by omega, by omega⟩]

/-- Member `resize` in external mode with a new size above the capacity: the plain
assertion fails after the cursor has been moved to the end. -/
theorem resize_grow_fail {s : CBitBuffer} (hwf : s.wf) {k : Nat} (hk : s.nofBits < k)
    (hv : s.nofBits < 2147483648) (hx : s.m_useExtBuffer = true)
    (hcap : 8 * s.m_extBufferSizeBytes < k) :
    ∃ s1, s.resize k = (.error Exc.RuntimeError, s1) ∧ s1.wf ∧
      s1.m_useExtBuffer = s.m_useExtBuffer ∧
      s1.m_extBufferSizeBytes = s.m_extBufferSizeBytes ∧
      s1.nofBits = s.nofBits ∧ s1.tell = s.nofBits ∧ s1.m_buffer = s.m_buffer := by
  obtain ⟨s1, hs1, hs1wf, hs1t, hs1n, hs1b, hs1x, hs1e⟩ := wseek_end_wf hwf hv
  have key : s.resize k = (.error Exc.RuntimeError, s1) := by
    unfold CBitBuffer.resize
    rw [if_pos hk]
    simp only [hs1]
    rw [if_pos ⟨by rw [hs1x]; exact hx, by rw [hs1e]; omega⟩]
  exact ⟨s1, key, hs1wf, hs1x, hs1e, hs1n, hs1t, hs1b⟩

/-- Member `resize`, both directions. -/
theorem resize_spec {s : CBitBuffer} (hwf : s.wf) (k : Nat)
    (hv : s.nofBits < 2147483648) (hk7 : k + 7 < 4294967296)
    (hcap : s.m_useExtBuffer = true → k ≤ 8 * s.m_extBufferSizeBytes) :
    ∃ s1, s.resize k = (.ok (), s1) ∧ s1.wf ∧
      s1.m_useExtBuffer = s.m_useExtBuffer ∧
      s1.m_extBufferSizeBytes = s.m_extBufferSizeBytes ∧
      s1.nofBits = k ∧ s1.tell = min s.tell k ∧
      (∀ i, i < min s.nofBits k → bitAt s1.m_buffer i = bitAt s.m_buffer i) ∧
      (∀ i, s.nofBits ≤ i → i < k → bitAt s1.m_buffer i = false) := by
  have htle := writer_tell_le hwf
  by_cases hk : s.nofBits < k
  · obtain ⟨s1, hr, hwf1, hx1, he1, hn1, ht1, hb1, hz1⟩ := resize_grow_spec hwf hk hv hk7 hcap
    refine ⟨s1, hr, hwf1, hx1, he1, hn1, by rw [ht1]; omega, ?_, hz1⟩
    intro i hi
    exact hb1 i (by omega)
  · have hk' : k ≤ s.nofBits := by omega
    obtain ⟨s1, hr, hwf1, hx1, he1, hn1, ht1, hb1, _, _⟩ := resize_le_spec hwf hk' hv
    refine ⟨s1, hr, hwf1, hx1, he1, hn1, ht1, ?_, ?_⟩
    · intro i hi
      exact hb1 i (by omega)
    · intro i h1 h2
      omega

end ilo

namespace ilo

/-! ## byteAlign -/

/-- Effect of `byteAlign()`. -/
theorem byteAlign_spec {s : CBitBuffer} (hwf : s.wf) (hrange : s.tell + 15 < 4294967296) :
    ∃ s1, s.byteAlign = (.ok (), s1) ∧ s1.wf ∧
      s1.m_useExtBuffer = s.m_useExtBuffer ∧
      s1.m_extBufferSizeBytes = s.m_extBufferSizeBytes ∧
      s1.tell = 8 * ((s.tell + 7) / 8) ∧
      s1.nofBits = max s.nofBits (8 * ((s.tell + 7) / 8)) ∧
      (∀ i, bitAt s1.m_buffer i
        = if s.tell ≤ i ∧ i < 8 * ((s.tell + 7) / 8) then false else bitAt s.m_buffer i) ∧
      (s.tell % 8 = 0 → s1 = s) := by
  have ht := CBitBuffer.writer_tell_eq hwf
  have hl := hwf.local_le
  have hc := hwf.cursor_le
  have hvl := hwf.valid_le
  have htle := writer_tell_le hwf
  unfold CBitBuffer.byteAlign
  by_cases h0 : s.m_localWriteBits % 8 ≠ 0
  · rw [if_pos h0]
    have e1 : sub32 8 s.m_localWriteBits = 8 - s.m_localWriteBits := by
      simp only [sub32]; omega
    rw [e1]
    have hn : 8 - s.m_localWriteBits ≤ 8 := by omega
    have h1 : s.tell + (8 - s.m_localWriteBits) + 7 < 4294967296 := by omega
    have h2 : s.m_useExtBuffer = true →
        s.tell + (8 - s.m_localWriteBits) ≤ 8 * s.m_extBufferSizeBytes := by
      intro h
      have := hwf.ext_size h
      omega
    obtain ⟨s1, hw, hwf1, hx1, he1, ht1, hn1, _, hbit1⟩ :=
      write_ok 8 (Or.inl rfl) hwf hn 0 h1 h2
    have e2 : s.tell + (8 - s.m_localWriteBits) = 8 * ((s.tell + 7) / 8) := by omega
    rw [e2] at ht1 hn1 hbit1
    refine ⟨s1, hw, hwf1, hx1, he1, ht1, hn1, ?_, ?_⟩
    · intro i
      rw [hbit1 i]
      by_cases hi : s.tell ≤ i ∧ i < 8 * ((s.tell + 7) / 8)
      · rw [if_pos hi, if_pos hi, Nat.zero_testBit]
      · rw [if_neg hi, if_neg hi]
    · intro h
      omega
  · rw [if_neg h0]
    have e2 : 8 * ((s.tell + 7) / 8) = s.tell := by omega
    refine ⟨s, rfl, hwf, rfl, rfl, e2.symm, ?_, ?_, fun _ => rfl⟩
    · rw [e2]; omega
    · intro i
      rw [if_neg (by omega)]

/-! ## Calls that throw -/

/-- A call of `insert<T>` that fails one of its two checks. -/
theorem insert_fail_early (W : Nat) (s : CBitBuffer) (v before n : Nat)
    (hfail : s.nofBits < before ∨
      (s.m_useExtBuffer = true ∧ 8 * s.m_extBufferSizeBytes < s.nofBits + n ∧
        s.nofBits + n < 4294967296)) :
    CBitBuffer.insert W s v before n = (.error Exc.InsertException, s) := by
  unfold CBitBuffer.insert
  by_cases hb : before ≤ s.nofBits
  · rw [if_neg (not_not.mpr hb)]
    rcases hfail with h | h
    · omega
    · have e0 : u32 (s.nofBits + n) = s.nofBits + n := by simp only [u32]; omega
      rw [if_pos ⟨h.1, by rw [e0]; omega⟩]
  · rw [if_pos hb]

/-- A call of `insert<T>` with more bits than `T` has: the checks of `insert` pass, the
writer is truncated to `before` bits, and then `write<T>` throws. -/
theorem insert_fail_width (W : Nat) {s : CBitBuffer} (hwf : s.wf) (v : Nat)
    {before n : Nat} (hb : before ≤ s.nofBits) (hn : W < n)
    (hrange : s.nofBits + n < 2147483648)
    (hcap : s.m_useExtBuffer = true → s.nofBits + n ≤ 8 * s.m_extBufferSizeBytes) :
    ∃ s1, CBitBuffer.insert W s v before n = (.error Exc.WriteException, s1) ∧ s1.wf ∧
      s1.m_useExtBuffer = s.m_useExtBuffer ∧
      s1.m_extBufferSizeBytes = s.m_extBufferSizeBytes ∧
      s1.nofBits = before ∧ s1.tell = before ∧
      (∀ i, i < before → bitAt s1.m_buffer i = bitAt s.m_buffer i) := by
  have e0 : u32 (s.nofBits + n) = s.nofBits + n := by simp only [u32]; omega
  have e1 : sub32 s.nofBits before = s.nofBits - before := by simp only [sub32]; omega
  have e2 : u32 (s.nofBits - before + before % 8) = s.nofBits - before + before % 8 := by
    simp only [u32]; omega
  have e3 : before >>> 3 = before / 8 := by simp only [Nat.shiftRight_eq_div_pow]
  have hv : s.nofBits < 2147483648 := by omega
  obtain ⟨p1, p2, tmp, hp1, hcp, htmpwf, htmpt, htmpn, htmpbits⟩ := insert_extract hwf hb hv
  obtain ⟨s1, s2, hr, hs2, hs2wf, hs2x, hs2e, hs2n, hs2t, hs2bits⟩ :=
    resize_seek_end hwf hb hv
  have hw : s2.write W v n = (.error Exc.WriteException, s2) :=
    CBitBuffer.write_fail W v (fun h => absurd h (by omega)) (Or.inl hn)
  have key : CBitBuffer.insert W s v before n = (.error Exc.WriteException, s2) := by
    unfold CBitBuffer.insert
    rw [if_neg (not_not.mpr hb),
      if_neg (by rw [e0]; intro h; have := hcap h.1; exact h.2 (by omega))]
    simp only [e1, e2, e3, hp1, hcp, hr, hs2, hw]
  exact ⟨s2, key, hs2wf, hs2x, hs2e, hs2n, hs2t, hs2bits⟩

/-- A call of `erase` whose range check fails. -/
theorem erase_fail (s : CBitBuffer) (firstBit n : Nat) (hsum : firstBit + n < 4294967296)
    (hfail : s.nofBits < firstBit + n) :
    s.erase firstBit n = (.error Exc.EraseException, s) := by
  unfold CBitBuffer.erase
  have e0 : u32 (firstBit + n) = firstBit + n := by simp only [u32]; omega
  simp only [e0]
  rw [if_pos (by omega)]

/-! ## Every call keeps the representation invariant and the storage mode -/

theorem write_keeps (W : Nat) (hW : isWidth W) {s : CBitBuffer} (hwf : s.wf) (v n : Nat)
    (hrange : n ≤ W → s.tell + n + 7 < 4294967296) :
    (s.write W v n).2.wf ∧ (s.write W v n).2.m_useExtBuffer = s.m_useExtBuffer ∧
      (s.write W v n).2.m_extBufferSizeBytes = s.m_extBufferSizeBytes := by
  rcases write_cases W hW hwf v n hrange with ⟨_, hf⟩ | ⟨hn, _⟩
  · rw [hf]
    exact ⟨hwf, rfl, rfl⟩
  · have hnW : n ≤ W := by
      by_contra hc
      exact hn (Or.inl (by omega))
    obtain ⟨s1, hw, hwf1, hx1, he1, _⟩ := write_ok W hW hwf hnW v (hrange hnW)
      (fun hx => by
        by_contra hc
        exact hn (Or.inr ⟨hx, by omega⟩))
    rw [hw]
    exact ⟨hwf1, hx1, he1⟩

theorem writer_seek_mode (s : CBitBuffer) (t : Int) :
    (if ¬ (t ≥ 0) then (Except.error Exc.SeekException, s)
      else if ¬ (t.toNat ≤ s.nofBits) then (Except.error Exc.SeekException, s)
      else ((Except.ok () : Except Exc Unit),
        CBitBuffer.mk s.m_useExtBuffer s.m_buffer s.m_extBufferSizeBytes (t.toNat >>> 3)
          (t.toNat &&& 0x07) s.m_nofvalidBits)).2.m_useExtBuffer = s.m_useExtBuffer ∧
    (if ¬ (t ≥ 0) then (Except.error Exc.SeekException, s)
      else if ¬ (t.toNat ≤ s.nofBits) then (Except.error Exc.SeekException, s)
      else ((Except.ok () : Except Exc Unit),
        CBitBuffer.mk s.m_useExtBuffer s.m_buffer s.m_extBufferSizeBytes (t.toNat >>> 3)
          (t.toNat &&& 0x07) s.m_nofvalidBits)).2.m_extBufferSizeBytes
      = s.m_extBufferSizeBytes := by
  split_ifs <;> exact ⟨rfl, rfl⟩

theorem seek_keeps {s : CBitBuffer} (hwf : s.wf) (offset : Int) (origin : EPosType) :
    (s.seek offset origin).2.wf ∧ (s.seek offset origin).2.m_useExtBuffer = s.m_useExtBuffer ∧
      (s.seek offset origin).2.m_extBufferSizeBytes = s.m_extBufferSizeBytes := by
  refine ⟨writer_seek_wf hwf offset origin, ?_⟩
  cases origin with
  | begin => exact writer_seek_mode s _
  | end_ => exact writer_seek_mode s _
  | cur => exact writer_seek_mode s _

theorem append_keeps {s : CBitBuffer} (hwf : s.wf) (bytes : List Nat)
    (hrange : s.nofBits + 8 * bytes.length < 2147483648) :
    (s.append bytes).2.wf ∧ (s.append bytes).2.m_useExtBuffer = s.m_useExtBuffer ∧
      (s.append bytes).2.m_extBufferSizeBytes = s.m_extBufferSizeBytes := by
  by_cases h : s.m_useExtBuffer = true ∧
      8 * s.m_extBufferSizeBytes < s.nofBits + 8 * bytes.length
  · rw [append_fail bytes h.1 h.2]
    exact ⟨hwf, rfl, rfl⟩
  · have hcap : s.m_useExtBuffer = true →
        s.nofBits + 8 * bytes.length ≤ 8 * s.m_extBufferSizeBytes := by
      intro hx
      by_contra hc
      exact h ⟨hx, by omega⟩
    obtain ⟨s1, ha, hwf1, hx1, he1, _⟩ := append_spec hwf bytes hrange hcap
    rw [ha]
    exact ⟨hwf1, hx1, he1⟩

theorem insert_keeps (W : Nat) (hW : isWidth W) {s : CBitBuffer} (hwf : s.wf)
    (v before n : Nat) (hrange : s.nofBits + n < 2147483648) :
    (CBitBuffer.insert W s v before n).2.wf ∧
      (CBitBuffer.insert W s v before n).2.m_useExtBuffer = s.m_useExtBuffer ∧
      (CBitBuffer.insert W s v before n).2.m_extBufferSizeBytes = s.m_extBufferSizeBytes := by
  by_cases h : s.nofBits < before ∨
      (s.m_useExtBuffer = true ∧ 8 * s.m_extBufferSizeBytes < s.nofBits + n ∧
        s.nofBits + n < 4294967296)
  · rw [insert_fail_early W s v before n h]
    exact ⟨hwf, rfl, rfl⟩
  · have hb : before ≤ s.nofBits := by
      by_contra hc
      exact h (Or.inl (by omega))
    have hcap : s.m_useExtBuffer = true → s.nofBits + n ≤ 8 * s.m_extBufferSizeBytes := by
      intro hx
      by_contra hc
      exact h (Or.inr ⟨hx, by omega, by omega⟩)
    by_cases hn : n ≤ W
    · obtain ⟨s1, hi, hwf1, hx1, he1, _⟩ := insert_spec W hW hwf v hb hn hrange hcap
      rw [hi]
      exact ⟨hwf1, hx1, he1⟩
    · have hn' : W < n := by omega
      obtain ⟨s1, hi, hwf1, hx1, he1, _⟩ := insert_fail_width W hwf v hb hn' hrange hcap
      rw [hi]
      exact ⟨hwf1, hx1, he1⟩

theorem erase_keeps {s : CBitBuffer} (hwf : s.wf) (firstBit n : Nat)
    (hrange : s.nofBits < 2147483648) (hsum : firstBit + n < 4294967296) :
    (s.erase firstBit n).2.wf ∧ (s.erase firstBit n).2.m_useExtBuffer = s.m_useExtBuffer ∧
      (s.erase firstBit n).2.m_extBufferSizeBytes = s.m_extBufferSizeBytes := by
  by_cases h : s.nofBits < firstBit + n
  · rw [erase_fail s firstBit n hsum h]
    exact ⟨hwf, rfl, rfl⟩
  · have hle : firstBit + n ≤ s.nofBits := by omega
    obtain ⟨s1, he, hwf1, hx1, he1, _⟩ := erase_spec hwf hle hrange
    rw [he]
    exact ⟨hwf1, hx1, he1⟩

theorem resize_keeps {s : CBitBuffer} (hwf : s.wf) (k : Nat)
    (hrange : s.nofBits < 2147483648) (hk7 : k + 7 < 4294967296) :
    (s.resize k).2.wf ∧ (s.resize k).2.m_useExtBuffer = s.m_useExtBuffer ∧
      (s.resize k).2.m_extBufferSizeBytes = s.m_extBufferSizeBytes := by
  by_cases h : s.m_useExtBuffer = true ∧ 8 * s.m_extBufferSizeBytes < k
  · have hvl := hwf.valid_le
    have hes := hwf.ext_size h.1
    have hk : s.nofBits < k := by
      have : s.nofBits = s.m_nofvalidBits := rfl
      omega
    obtain ⟨s1, hr, hwf1, hx1, he1, _⟩ := resize_grow_fail hwf hk hrange h.1 h.2
    rw [hr]
    exact ⟨hwf1, hx1, he1⟩
  · have hcap : s.m_useExtBuffer = true → k ≤ 8 * s.m_extBufferSizeBytes := by
      intro hx
      by_contra hc
      exact h ⟨hx, by omega⟩
    obtain ⟨s1, hr, hwf1, hx1, he1, _⟩ := resize_spec hwf k hrange hk7 hcap
    rw [hr]
    exact ⟨hwf1, hx1, he1⟩

theorem byteAlign_keeps {s : CBitBuffer} (hwf : s.wf) (hrange : s.tell + 15 < 4294967296) :
    s.byteAlign.2.wf ∧ s.byteAlign.2.m_useExtBuffer = s.m_useExtBuffer ∧
      s.byteAlign.2.m_extBufferSizeBytes = s.m_extBufferSizeBytes := by
  obtain ⟨s1, ha, hwf1, hx1, he1, _⟩ := byteAlign_spec hwf hrange
  rw [ha]
  exact ⟨hwf1, hx1, he1⟩

theorem constructed_wf {s : CBitBuffer} (h : s.Constructed) : s.wf := by
  rcases h with ⟨n, rfl⟩ | ⟨buffer, k, hb, hk, hlt, rfl⟩
  · exact mk_internal_wf n
  · exact mk_external_wf hb rfl hk hlt

/-- The representation invariant, the storage mode and the size of an external region are
the same in every state reached from a well-formed state. -/
theorem reachableFrom_inv {s0 s : CBitBuffer} (h0 : s0.wf) (h : CBitBuffer.ReachableFrom s0 s) :
    s.wf ∧ s.m_useExtBuffer = s0.m_useExtBuffer ∧
      s.m_extBufferSizeBytes = s0.m_extBufferSizeBytes := by
  induction h with
  | init => exact ⟨h0, rfl, rfl⟩
  | write W v n hW hrange _ ih =>
    obtain ⟨h1, h2, h3⟩ := write_keeps W hW ih.1 v n hrange
    exact ⟨h1, by rw [h2, ih.2.1], by rw [h3, ih.2.2]⟩
  | append bytes hrange _ ih =>
    obtain ⟨h1, h2, h3⟩ := append_keeps ih.1 bytes hrange
    exact ⟨h1, by rw [h2, ih.2.1], by rw [h3, ih.2.2]⟩
  | insert W v before n hW hrange _ ih =>
    obtain ⟨h1, h2, h3⟩ := insert_keeps W hW ih.1 v before n hrange
    exact ⟨h1, by rw [h2, ih.2.1], by rw [h3, ih.2.2]⟩
  | erase firstBit n hrange hsum _ ih =>
    obtain ⟨h1, h2, h3⟩ := erase_keeps ih.1 firstBit n hrange hsum
    exact ⟨h1, by rw [h2, ih.2.1], by rw [h3, ih.2.2]⟩
  | resize k hrange hsize _ ih =>
    obtain ⟨h1, h2, h3⟩ := resize_keeps ih.1 k hrange hsize
    exact ⟨h1, by rw [h2, ih.2.1], by rw [h3, ih.2.2]⟩
  | seek offset origin _ ih =>
    obtain ⟨h1, h2, h3⟩ := seek_keeps ih.1 offset origin
    exact ⟨h1, by rw [h2, ih.2.1], by rw [h3, ih.2.2]⟩
  | byteAlign hrange _ ih =>
    obtain ⟨h1, h2, h3⟩ := byteAlign_keeps ih.1 hrange
    exact ⟨h1, by rw [h2, ih.2.1], by rw [h3, ih.2.2]⟩

end ilo

namespace ilo

/-! ## Reader: construction, frame of reads and seeks, accessors -/

namespace CBitParser

theorem mk_buffer_eq (buffer : List Nat) (k : Nat) (hS : 8 * buffer.length < 4294967296) :
    mk_buffer buffer k = mk_ptr buffer (if k = 0 then 8 * buffer.length else k) := by
  unfold mk_buffer mk_ptr
  have e : u32 (u32 buffer.length * 8) = 8 * buffer.length := by
    simp only [u32]; omega
  rw [e]

theorem seek_frame_aux (p : CBitParser) (t : Int) :
    (if ¬ (t ≥ 0) then (Except.error Exc.SeekException, p)
      else if ¬ (t.toNat ≤ p.m_nofValidBits) then (Except.error Exc.SeekException, p)
      else ((Except.ok () : Except Exc Unit),
        CBitParser.mk p.m_buffer (t.toNat >>> 3) (t.toNat &&& 0x07) p.m_nofValidBits)).2.m_buffer
      = p.m_buffer ∧
    (if ¬ (t ≥ 0) then (Except.error Exc.SeekException, p)
      else if ¬ (t.toNat ≤ p.m_nofValidBits) then (Except.error Exc.SeekException, p)
      else ((Except.ok () : Except Exc Unit),
        CBitParser.mk p.m_buffer (t.toNat >>> 3) (t.toNat &&& 0x07)
          p.m_nofValidBits)).2.m_nofValidBits
      = p.m_nofValidBits := by
  split_ifs <;> exact ⟨rfl, rfl⟩

/-- The reader's `seek` changes neither the bytes nor the number of valid bits. -/
theorem seek_frame (p : CBitParser) (offset : Int) (origin : EPosType) :
    (p.seek offset origin).2.m_buffer = p.m_buffer ∧
      (p.seek offset origin).2.m_nofValidBits = p.m_nofValidBits := by
  cases origin with
  | begin => exact seek_frame_aux p _
  | end_ => exact seek_frame_aux p _
  | cur => exact seek_frame_aux p _

/-- A call of `read<T>`, unsigned `T`, changes neither the bytes nor the number of valid
bits. -/
theorem read_unsigned_frame (W : Nat) {p : CBitParser} (hwf : p.wf) (n : Nat) :
    (p.read_unsigned W n).2.m_buffer = p.m_buffer ∧
      (p.read_unsigned W n).2.m_nofValidBits = p.m_nofValidBits := by
  by_cases h : n ≤ p.nofBitsLeft ∧ n ≤ W
  · obtain ⟨p1, hrd, _, hb, hv, _⟩ := read_unsigned_spec W hwf h.2 h.1
    rw [hrd]
    exact ⟨hb, hv⟩
  · rw [read_unsigned_fail W h]
    exact ⟨rfl, rfl⟩

/-- A call of `read<T>`, signed `T`, changes neither the bytes nor the number of valid
bits. -/
theorem read_signed_frame (W : Nat) (hW : W ≤ 64) {p : CBitParser} (hwf : p.wf) (n : Nat) :
    (p.read_signed W n).2.m_buffer = p.m_buffer ∧
      (p.read_signed W n).2.m_nofValidBits = p.m_nofValidBits := by
  by_cases h : n ≤ p.nofBitsLeft ∧ n ≤ W
  · by_cases h0 : n = 0
    · subst h0
      unfold read_signed
      rw [if_neg (by omega), if_pos rfl]
      exact ⟨rfl, rfl⟩
    · obtain ⟨p1, hrd, _, hb, hv, _⟩ := read_signed_spec W hW hwf (by omega) h.2 h.1
      rw [hrd]
      exact ⟨hb, hv⟩
  · rw [read_signed_fail W h]
    exact ⟨rfl, rfl⟩

theorem nofBytes_congr {p p1 : CBitParser} (h : p1.m_nofValidBits = p.m_nofValidBits) :
    p1.nofBytes = p.nofBytes := by
  unfold nofBytes
  rw [h]

/-- The accessors of a well-formed reader. -/
theorem accessors_spec {p : CBitParser} (hwf : p.wf) :
    p.tell = p.nofReadBits ∧ p.tell ≤ p.nofBits ∧ p.tell + p.nofBitsLeft = p.nofBits ∧
      (p.eof = true ↔ p.nofBitsLeft = 0) ∧
      (p.nofBits + 7 < 4294967296 → p.nofBytes = (p.nofBits + 7) / 8) := by
  have ht := tell_eq hwf
  have hl := nofBitsLeft_eq hwf
  have hc := hwf.cursor_le
  have hn : p.nofBits = p.m_nofValidBits := rfl
  have hr : p.nofReadBits = p.tell := rfl
  refine ⟨rfl, by omega, by omega, ?_, ?_⟩
  · unfold eof
    rw [decide_eq_true_iff, hr]
    omega
  · intro h
    unfold nofBytes
    have e : u32 (p.m_nofValidBits + 7) = p.m_nofValidBits + 7 := by
      simp only [u32]; omega
    rw [e, Nat.shiftRight_eq_div_pow, hn]

end CBitParser

end ilo

namespace ilo

/-! ## Byte buffer tools -/

theorem toNat_pos (p k : Nat) : ((p : Int) + (k : Int)).toNat = p + k := by omega

theorem getD_set_if (buf : List Nat) (i j v : Nat) :
    (buf.set i v).getD j 0 = if j = i ∧ i < buf.length then v else buf.getD j 0 := by
  by_cases h : j = i
  · subst h
    by_cases hl : j < buf.length
    · rw [if_pos ⟨rfl, hl⟩, getD_set_eq hl]
    · rw [if_neg (by tauto), List.getD_eq_getElem?_getD, List.getD_eq_getElem?_getD,
        List.getElem?_eq_none (by rw [List.length_set]; omega),
        List.getElem?_eq_none (by omega)]
  · rw [if_neg (by tauto), getD_set_ne (Ne.symm h)]

theorem or_eq_add {a b : Nat} (i : Nat) (hb : b < 2 ^ i) (ha : 2 ^ i ∣ a) : a ||| b = a + b := by
  obtain ⟨c, rfl⟩ := ha
  exact (Nat.mul_add_lt_is_or hb c).symm

theorem and_255 (x : Nat) : x &&& 0xFF = x % 256 := Nat.and_pow_two_sub_one_eq_mod x 8

/-- Two bytes put together most significant first. -/
theorem assemble16 {b0 b1 : Nat} (h1 : b1 < 256) :
    (b0 <<< 8) ||| b1 = b0 * 256 + b1 := by
  rw [Nat.shiftLeft_eq]
  exact or_eq_add 8 h1 (Dvd.intro_left _ rfl)

/-- Three bytes put together most significant first. -/
theorem assemble24 {b0 b1 b2 : Nat} (h1 : b1 < 256) (h2 : b2 < 256) :
    (b0 <<< 16) ||| (b1 <<< 8) ||| b2 = b0 * 65536 + b1 * 256 + b2 := by
  simp only [Nat.shiftLeft_eq]
  have e1 : b0 * 2 ^ 16 ||| b1 * 2 ^ 8 = b0 * 2 ^ 16 + b1 * 2 ^ 8 :=
    or_eq_add 16 (by norm_num; omega) (Dvd.intro_left _ rfl)
  rw [e1]
  have e2 : (b0 * 2 ^ 16 + b1 * 2 ^ 8) ||| b2 = b0 * 2 ^ 16 + b1 * 2 ^ 8 + b2 :=
    or_eq_add 8 h2 (by norm_num; omega)
  rw [e2]
  norm_num

/-- Four bytes put together most significant first. -/
theorem assemble32 {b0 b1 b2 b3 : Nat} (h1 : b1 < 256) (h2 : b2 < 256) (h3 : b3 < 256) :
    (b0 <<< 24) ||| (b1 <<< 16) ||| (b2 <<< 8) ||| b3
      = b0 * 16777216 + b1 * 65536 + b2 * 256 + b3 := by
  simp only [Nat.shiftLeft_eq]
  have e1 : b0 * 2 ^ 24 ||| b1 * 2 ^ 16 = b0 * 2 ^ 24 + b1 * 2 ^ 16 :=
    or_eq_add 24 (by norm_num; omega) (Dvd.intro_left _ rfl)
  rw [e1]
  have e2 : (b0 * 2 ^ 24 + b1 * 2 ^ 16) ||| b2 * 2 ^ 8
      = b0 * 2 ^ 24 + b1 * 2 ^ 16 + b2 * 2 ^ 8 :=
    or_eq_add 16 (by norm_num; omega) (by norm_num; omega)
  rw [e2]
  have e3 : (b0 * 2 ^ 24 + b1 * 2 ^ 16 + b2 * 2 ^ 8) ||| b3
      = b0 * 2 ^ 24 + b1 * 2 ^ 16 + b2 * 2 ^ 8 + b3 :=
    or_eq_add 8 h3 (by norm_num; omega)
  rw [e3]
  norm_num

theorem byteRead8_spec (buffer : List Nat) (p : Nat) (hp : p + 1 ≤ buffer.length) :
    readUint8 buffer (p : Int) = (.ok (buffer.getD p 0), (p : Int) + 1) := by
  unfold readUint8
  rw [if_neg (by omega)]
  simp only [byteAtPos, toNat_pos, Nat.add_zero]

theorem readUint16_spec (buffer : List Nat) (p : Nat) (hp : p + 2 ≤ buffer.length)
    (hb : ∀ j, j < 2 → buffer.getD (p + j) 0 < 256) :
    readUint16 buffer (p : Int)
      = (.ok (buffer.getD p 0 * 256 + buffer.getD (p + 1) 0), (p : Int) + 2) := by
  have h0 := hb 0 (by omega)
  have h1 := hb 1 (by omega)
  rw [Nat.add_zero] at h0
  unfold readUint16
  rw [if_neg (by omega)]
  simp only [byteAtPos, toNat_pos, Nat.add_zero]
  rw [assemble16 h1]
  have e : u16 (buffer.getD p 0 * 256 + buffer.getD (p + 1) 0)
      = buffer.getD p 0 * 256 + buffer.getD (p + 1) 0 := by
    simp only [u16]; omega
  rw [e]

theorem readUint24_spec (buffer : List Nat) (p : Nat) (hp : p + 3 ≤ buffer.length)
    (hb : ∀ j, j < 3 → buffer.getD (p + j) 0 < 256) :
    readUint24 buffer (p : Int)
      = (.ok (buffer.getD p 0 * 65536 + buffer.getD (p + 1) 0 * 256 + buffer.getD (p + 2) 0),
          (p : Int) + 3) := by
  have h0 := hb 0 (by omega)
  have h1 := hb 1 (by omega)
  have h2 := hb 2 (by omega)
  rw [Nat.add_zero] at h0
  unfold readUint24
  rw [if_neg (by omega)]
  simp only [byteAtPos, toNat_pos, Nat.add_zero]
  rw [assemble24 h1 h2]
  have e : u32 (buffer.getD p 0 * 65536 + buffer.getD (p + 1) 0 * 256 + buffer.getD (p + 2) 0)
      = buffer.getD p 0 * 65536 + buffer.getD (p + 1) 0 * 256 + buffer.getD (p + 2) 0 := by
    simp only [u32]; omega
  rw [e]

theorem readUint32_spec (buffer : List Nat) (p : Nat) (hp : p + 4 ≤ buffer.length)
    (hb : ∀ j, j < 4 → buffer.getD (p + j) 0 < 256) :
    readUint32 buffer (p : Int)
      = (.ok (buffer.getD p 0 * 16777216 + buffer.getD (p + 1) 0 * 65536
            + buffer.getD (p + 2) 0 * 256 + buffer.getD (p + 3) 0),
          (p : Int) + 4) := by
  have h0 := hb 0 (by omega)
  have h1 := hb 1 (by omega)
  have h2 := hb 2 (by omega)
  have h3 := hb 3 (by omega)
  rw [Nat.add_zero] at h0
  unfold readUint32
  rw [if_neg (by omega)]
  simp only [byteAtPos, toNat_pos, Nat.add_zero]
  rw [assemble32 h1 h2 h3]
  have e : u32 (buffer.getD p 0 * 16777216 + buffer.getD (p + 1) 0 * 65536
        + buffer.getD (p + 2) 0 * 256 + buffer.getD (p + 3) 0)
      = buffer.getD p 0 * 16777216 + buffer.getD (p + 1) 0 * 65536
        + buffer.getD (p + 2) 0 * 256 + buffer.getD (p + 3) 0 := by
    simp only [u32]; omega
  rw [e]

theorem readUint64_spec (buffer : List Nat) (p : Nat) (hp : p + 8 ≤ buffer.length)
    (hb : ∀ j, j < 8 → buffer.getD (p + j) 0 < 256) :
    readUint64 buffer (p : Int)
      = (.ok ((buffer.getD p 0 * 16777216 + buffer.getD (p + 1) 0 * 65536
              + buffer.getD (p + 2) 0 * 256 + buffer.getD (p + 3) 0) * 4294967296
            + (buffer.getD (p + 4) 0 * 16777216 + buffer.getD (p + 5) 0 * 65536
              + buffer.getD (p + 6) 0 * 256 + buffer.getD (p + 7) 0)),
          (p : Int) + 8) := by
  have hhi := readUint32_spec buffer p (by omega) (fun j hj => hb j (by omega))
  have hlo := readUint32_spec buffer (p + 4) (by omega) (fun j hj => by
    have := hb (4 + j) (by omega)
    rw [Nat.add_assoc]
    exact this)
  have ep : ((p : Int) + 4) = ((p + 4 : Nat) : Int) := by push_cast; rfl
  have e4 : ∀ j, j < 4 → buffer.getD (p + 4 + j) 0 < 256 := fun j hj => by
    have := hb (4 + j) (by omega)
    rw [Nat.add_assoc]
    exact this
  have h4 := e4 0 (by omega)
  have h5 := e4 1 (by omega)
  have h6 := e4 2 (by omega)
  have h7 := e4 3 (by omega)
  rw [Nat.add_zero] at h4
  unfold readUint64
  rw [hhi]
  simp only []
  rw [ep, hlo]
  simp only []
  have e : ((p + 4 : Nat) : Int) + 4 = (p : Int) + 8 := by push_cast; omega
  rw [e, Nat.shiftLeft_eq]
  have e32 : (2 : Nat) ^ 32 = 4294967296 := by norm_num
  have eo : (buffer.getD p 0 * 16777216 + buffer.getD (p + 1) 0 * 65536
        + buffer.getD (p + 2) 0 * 256 + buffer.getD (p + 3) 0) * 2 ^ 32
      ||| (buffer.getD (p + 4) 0 * 16777216 + buffer.getD (p + 4 + 1) 0 * 65536
        + buffer.getD (p + 4 + 2) 0 * 256 + buffer.getD (p + 4 + 3) 0)
      = (buffer.getD p 0 * 16777216 + buffer.getD (p + 1) 0 * 65536
        + buffer.getD (p + 2) 0 * 256 + buffer.getD (p + 3) 0) * 2 ^ 32
      + (buffer.getD (p + 4) 0 * 16777216 + buffer.getD (p + 4 + 1) 0 * 65536
        + buffer.getD (p + 4 + 2) 0 * 256 + buffer.getD (p + 4 + 3) 0) :=
    or_eq_add 32 (by rw [e32]; omega) (Dvd.intro_left _ rfl)
  rw [eo, e32]

/-- The bytes of a written value lie in the byte range. -/
theorem beByte_lt (v k j : Nat) : beByte v k j < 256 := Nat.mod_lt _ (by norm_num)

theorem writeUint8_spec (buffer : List Nat) (p v : Nat) (hv : v < 256)
    (hp : p + 1 ≤ buffer.length) :
    ∃ b1, writeUint8 buffer (p : Int) v = (.ok (), b1, (p : Int) + 1) ∧
      b1.length = buffer.length ∧
      (∀ j, j < 1 → b1.getD (p + j) 0 = beByte v 1 j) ∧
      (∀ i, ¬ (p ≤ i ∧ i < p + 1) → b1.getD i 0 = buffer.getD i 0) := by
  refine ⟨buffer.set p v, ?_, List.length_set _ _ _, ?_, ?_⟩
  · unfold writeUint8
    rw [if_neg (by omega)]
    simp only [setAtPos, toNat_pos, Nat.add_zero]
  · intro j hj
    have hj0 : j = 0 := by omega
    subst hj0
    rw [getD_set_if, if_pos ⟨rfl, by omega⟩]
    simp only [beByte]
    omega
  · intro i hi
    rw [getD_set_if, if_neg (by omega)]

theorem writeUint16_spec (buffer : List Nat) (p v : Nat)
    (hp : p + 2 ≤ buffer.length) :
    ∃ b1, writeUint16 buffer (p : Int) v = (.ok (), b1, (p : Int) + 2) ∧
      b1.length = buffer.length ∧
      (∀ j, j < 2 → b1.getD (p + j) 0 = beByte v 2 j) ∧
      (∀ i, ¬ (p ≤ i ∧ i < p + 2) → b1.getD i 0 = buffer.getD i 0) := by
  have a0 : u8 (v >>> 8) = v / 256 % 256 := by
    simp only [u8, Nat.shiftRight_eq_div_pow]
  have a1 : u8 v = v % 256 := rfl
  refine ⟨(buffer.set p (v / 256 % 256)).set (p + 1) (v % 256), ?_, ?_, ?_, ?_⟩
  · unfold writeUint16
    rw [if_neg (by omega)]
    simp only [setAtPos, toNat_pos, Nat.add_zero, a0, a1]
  · simp only [List.length_set]
  · intro j hj
    simp only [getD_set_if, List.length_set, beByte]
    interval_cases j
    · rw [if_neg (by omega), if_pos ⟨rfl, by omega⟩]
      norm_num
    · rw [if_pos ⟨rfl, by omega⟩]
      norm_num
  · intro i hi
    simp only [getD_set_if, List.length_set]
    rw [if_neg (by omega), if_neg (by omega)]

theorem writeUint24_spec (buffer : List Nat) (p v : Nat)
    (hp : p + 3 ≤ buffer.length) :
    ∃ b1, writeUint24 buffer (p : Int) v = (.ok (), b1, (p : Int) + 3) ∧
      b1.length = buffer.length ∧
      (∀ j, j < 3 → b1.getD (p + j) 0 = beByte v 3 j) ∧
      (∀ i, ¬ (p ≤ i ∧ i < p + 3) → b1.getD i 0 = buffer.getD i 0) := by
  have a0 : u8 (v >>> 16) = v / 65536 % 256 := by
    simp only [u8, Nat.shiftRight_eq_div_pow]
  have a1 : u8 ((v >>> 8) &&& 0xFF) = v / 256 % 256 := by
    simp only [u8, and_255, Nat.shiftRight_eq_div_pow]
    norm_num
  have a2 : u8 (v &&& 0xFF) = v % 256 := by
    simp only [u8, and_255]; omega
  refine ⟨((buffer.set p (v / 65536 % 256)).set (p + 1) (v / 256 % 256)).set (p + 2)
    (v % 256), ?_, ?_, ?_, ?_⟩
  · unfold writeUint24
    rw [if_neg (by omega)]
    simp only [setAtPos, toNat_pos, Nat.add_zero, a0, a1, a2]
  · simp only [List.length_set]
  · intro j hj
    simp only [getD_set_if, List.length_set, beByte]
    interval_cases j
    · rw [if_neg (by omega), if_neg (by omega), if_pos ⟨rfl, by omega⟩]
      norm_num
    · rw [if_neg (by omega), if_pos ⟨rfl, by omega⟩]
      norm_num
    · rw [if_pos ⟨rfl, by omega⟩]
      norm_num
  · intro i hi
    simp only [getD_set_if, List.length_set]
    rw [if_neg (by omega), if_neg (by omega), if_neg (by omega)]

theorem writeUint32_spec (buffer : List Nat) (p v : Nat)
    (hp : p + 4 ≤ buffer.length) :
    ∃ b1, writeUint32 buffer (p : Int) v = (.ok (), b1, (p : Int) + 4) ∧
      b1.length = buffer.length ∧
      (∀ j, j < 4 → b1.getD (p + j) 0 = beByte v 4 j) ∧
      (∀ i, ¬ (p ≤ i ∧ i < p + 4) → b1.getD i 0 = buffer.getD i 0) := by
  have a0 : u8 (v >>> 24) = v / 16777216 % 256 := by
    simp only [u8, Nat.shiftRight_eq_div_pow]
  have a1 : u8 ((v >>> 16) &&& 0xFF) = v / 65536 % 256 := by
    simp only [u8, and_255, Nat.shiftRight_eq_div_pow]
    norm_num
  have a2 : u8 ((v >>> 8) &&& 0xFF) = v / 256 % 256 := by
    simp only [u8, and_255, Nat.shiftRight_eq_div_pow]
    norm_num
  have a3 : u8 (v &&& 0xFF) = v % 256 := by
    simp only [u8, and_255]; omega
  refine ⟨(((buffer.set p (v / 16777216 % 256)).set (p + 1) (v / 65536 % 256)).set (p + 2)
    (v / 256 % 256)).set (p + 3) (v % 256), ?_, ?_, ?_, ?_⟩
  · unfold writeUint32
    rw [if_neg (by omega)]
    simp only [setAtPos, toNat_pos, Nat.add_zero, a0, a1, a2, a3]
  · simp only [List.length_set]
  · intro j hj
    simp only [getD_set_if, List.length_set, beByte]
    interval_cases j
    · rw [if_neg (by omega), if_neg (by omega), if_neg (by omega), if_pos ⟨rfl, by omega⟩]
      norm_num
    · rw [if_neg (by omega), if_neg (by omega), if_pos ⟨rfl, by omega⟩]
      norm_num
    · rw [if_neg (by omega), if_pos ⟨rfl, by omega⟩]
      norm_num
    · rw [if_pos ⟨rfl, by omega⟩]
      norm_num
  · intro i hi
    simp only [getD_set_if, List.length_set]
    rw [if_neg (by omega), if_neg (by omega), if_neg (by omega), if_neg (by omega)]

theorem testBit_high_mask (j : Nat) :
    Nat.testBit 0xFFFFFFFF00000000 j = decide (32 ≤ j ∧ j < 64) := by
  have e : (0xFFFFFFFF00000000 : Nat) = (2 ^ 32 - 1) <<< 32 := rfl
  rw [e, Nat.testBit_shiftLeft, Nat.testBit_two_pow_sub_one]
  by_cases h1 : 32 ≤ j
  · by_cases h2 : j < 64
    · simp only [h1, h2, decide_True, Bool.and_self, ge_iff_le, Bool.true_and, and_self,
        decide_eq_true_eq]
      omega
    · simp only [h1, h2, decide_True, decide_False, and_false, ge_iff_le, Bool.true_and,
        decide_eq_false_iff_not]
      omega
  · simp only [h1, ge_iff_le, decide_False, Bool.false_and, false_and]

/-- The two halves that `writeUint64` passes to `writeUint32`. -/
theorem halves64 (v : Nat) :
    u32 ((v &&& 0xFFFFFFFF00000000) >>> 32) = v / 4294967296 % 4294967296 ∧
      u32 (v &&& 0xFFFFFFFF) = v % 4294967296 := by
  constructor
  · have e : (v &&& 0xFFFFFFFF00000000) >>> 32 = (v >>> 32) % 2 ^ 32 := by
      apply Nat.eq_of_testBit_eq
      intro i
      rw [Nat.testBit_shiftRight, Nat.testBit_and, testBit_high_mask, Nat.testBit_mod_two_pow,
        Nat.testBit_shiftRight]
      by_cases h : i < 32
      · simp only [h, decide_True, Bool.true_and]
        rw [decide_eq_true (by omega), Bool.and_true]
      · simp only [h, decide_False, Bool.false_and]
        rw [decide_eq_false (by omega), Bool.and_false]
    rw [e, Nat.shiftRight_eq_div_pow]
    simp only [u32]
    norm_num
  · have e : v &&& 0xFFFFFFFF = v % 2 ^ 32 := Nat.and_pow_two_sub_one_eq_mod v 32
    rw [e]
    simp only [u32]
    norm_num

theorem writeUint64_spec (buffer : List Nat) (p v : Nat) (hv : v < 18446744073709551616)
    (hp : p + 8 ≤ buffer.length) :
    ∃ b1, writeUint64 buffer (p : Int) v = (.ok (), b1, (p : Int) + 8) ∧
      b1.length = buffer.length ∧
      (∀ j, j < 8 → b1.getD (p + j) 0 = beByte v 8 j) ∧
      (∀ i, ¬ (p ≤ i ∧ i < p + 8) → b1.getD i 0 = buffer.getD i 0) := by
  obtain ⟨hhi, hlo⟩ := halves64 v
  obtain ⟨b1, hw1, hl1, hv1, hf1⟩ :=
    writeUint32_spec buffer p (v / 4294967296 % 4294967296) (by omega)
  obtain ⟨b2, hw2, hl2, hv2, hf2⟩ :=
    writeUint32_spec b1 (p + 4) (v % 4294967296) (by omega)
  have ep : ((p : Int) + 4) = ((p + 4 : Nat) : Int) := by push_cast; rfl
  have e : ((p + 4 : Nat) : Int) + 4 = (p : Int) + 8 := by push_cast; omega
  refine ⟨b2, ?_, by rw [hl2, hl1], ?_, ?_⟩
  · unfold writeUint64
    rw [if_neg (by omega)]
    simp only [hhi, hlo, hw1]
    rw [ep, hw2, e]
  · intro j hj
    by_cases h4 : j < 4
    · rw [hf2 _ (by omega), hv1 j h4]
      simp only [beByte]
      interval_cases j <;> norm_num <;> omega
    · have hj' : p + j = p + 4 + (j - 4) := by omega
      rw [hj', hv2 (j - 4) (by omega)]
      simp only [beByte]
      have : j = 4 ∨ j = 5 ∨ j = 6 ∨ j = 7 := by omega
      rcases this with rfl | rfl | rfl | rfl <;> norm_num <;> omega
  · intro i hi
    rw [hf2 i (by omega), hf1 i (by omega)]

end ilo

namespace ilo

theorem initial_bits (F f : Nat → Bool) {m b : Nat} (hm : m ≤ b)
    (h : ∀ i, i < m → F i = f i) :
    (List.range m).map F = ((List.range b).map f).take m := by
  apply List.ext_getElem?
  intro i
  rw [getElem?_map_range, List.getElem?_take, getElem?_map_range]
  by_cases hi : i < m
  · rw [if_pos hi, if_pos hi, if_pos (by omega), h i hi]
  · rw [if_neg hi, if_neg hi]

end ilo

namespace ilo

/-! ## Specification properties C21 to C30 -/

/-- Postcondition of `resize(L)` while `L + 7` is a `uint32_t` value. For every writer with
valid bit sequence `B` of length `L0` (below `2^31`) and cursor `p`, and every `L` with
`L + 7` a `uint32_t` value (external mode: `L ≤ 8 * capacityBytes`), the call returns,
`nofBits()` is `L`, the first `min(L0, L)` valid bits are those of `B`, every bit at an
index in `[L0, L)` is 0, and `tell()` is `min(p, L)`. -/
theorem resize_postcondition_in_range (s : CBitBuffer) (hwf : s.wf) (L : Nat)
    (hrange : s.nofBits < 2147483648) (hL : L + 7 < 4294967296)
    (hcap : s.m_useExtBuffer = true → L ≤ 8 * s.m_extBufferSizeBytes) :
    ∃ s1, s.resize L = (.ok (), s1) ∧ s1.nofBits = L ∧
      s1.validBits.take (min s.nofBits L) = s.validBits.take (min s.nofBits L) ∧
      (∀ i, s.nofBits ≤ i → i < L → bitAt s1.m_buffer i = false) ∧
      s1.tell = min s.tell L := by
  obtain ⟨s1, hr, _, _, _, hn1, ht1, hb1, hz1⟩ := resize_spec hwf L hrange hL hcap
  refine ⟨s1, hr, hn1, ?_, hz1, ht1⟩
  unfold CBitBuffer.validBits
  rw [hn1, ← initial_bits (bitAt s1.m_buffer) (bitAt s1.m_buffer) (min_le_right _ _)
      (fun _ _ => rfl),
    ← initial_bits (bitAt s.m_buffer) (bitAt s.m_buffer) (min_le_left _ _) (fun _ _ => rfl)]
  exact same_bits _ _ hb1

/-- Growth by `resize` followed by a shrinking `resize`, for sizes below `2^31`. For every
writer with valid length `len`, every
`L0 ≤ len ≤ L1` with `L1` below `2^31` (external mode: `L1 ≤ 8 * capacityBytes`),
`resize(L1)` followed by `resize(L0)` returns a writer with `nofBits() == L0` whose valid
bits are the first `L0` valid bits of the initial writer. -/
theorem resize_grow_shrink_in_range (s : CBitBuffer) (hwf : s.wf) (L0 L1 : Nat)
    (h0 : L0 ≤ s.nofBits) (h1 : s.nofBits ≤ L1) (hrange : L1 < 2147483648)
    (hcap : s.m_useExtBuffer = true → L1 ≤ 8 * s.m_extBufferSizeBytes) :
    ∃ s1 s2, s.resize L1 = (.ok (), s1) ∧ s1.resize L0 = (.ok (), s2) ∧
      s2.nofBits = L0 ∧ s2.validBits = s.validBits.take L0 := by
  obtain ⟨s1, hr1, hwf1, hx1, he1, hn1, _, hb1, _⟩ :=
    resize_spec hwf L1 (by omega) (by omega) hcap
  have hv1 : s1.nofBits < 2147483648 := by omega
  have hcap1 : s1.m_useExtBuffer = true → L0 ≤ 8 * s1.m_extBufferSizeBytes := by
    intro h
    rw [hx1] at h
    have := hcap h
    rw [he1]
    omega
  obtain ⟨s2, hr2, _, _, _, hn2, _, hb2, _⟩ := resize_spec hwf1 L0 hv1 (by omega) hcap1
  refine ⟨s1, s2, hr1, hr2, hn2, ?_⟩
  unfold CBitBuffer.validBits
  rw [hn2]
  apply initial_bits _ _ h0
  intro i hi
  rw [hb2 i (by omega), hb1 i (by omega)]

/-- C23: `byteAlign()`. For every writer with cursor `p` (`p + 15` a `uint32_t` value) the
call returns, `tell()` is then the smallest multiple of 8 not below `p`, every buffer bit
in `[p, tell())` is 0 and every other bit is unchanged; when `p` is a multiple of 8 the
writer is left as it was. -/
theorem C23_byteAlign (s : CBitBuffer) (hwf : s.wf) (hrange : s.tell + 15 < 4294967296) :
    ∃ s1, s.byteAlign = (.ok (), s1) ∧
      s1.tell % 8 = 0 ∧ s.tell ≤ s1.tell ∧ (∀ m, m % 8 = 0 → s.tell ≤ m → s1.tell ≤ m) ∧
      (∀ i, s.tell ≤ i → i < s1.tell → bitAt s1.m_buffer i = false) ∧
      (∀ i, ¬ (s.tell ≤ i ∧ i < s1.tell) → bitAt s1.m_buffer i = bitAt s.m_buffer i) ∧
      (s.tell % 8 = 0 → s1 = s) := by
  obtain ⟨s1, ha, _, _, _, ht1, _, hb1, hsame⟩ := byteAlign_spec hwf hrange
  refine ⟨s1, ha, by omega, by omega, ?_, ?_, ?_, hsame⟩
  · intro m hm hle
    omega
  · intro i h1 h2
    rw [hb1 i, if_pos ⟨h1, by omega⟩]
  · intro i hi
    rw [hb1 i, if_neg (by rw [← ht1]; exact hi)]

/-- Witness of C23: a 16-bit writer with the cursor at 11. -/
theorem C23_byteAlign_witness :
    ∃ s1, (CBitBuffer.mk false [0xAB, 0xCD] 0 1 3 16).byteAlign = (.ok (), s1) ∧
      s1.tell % 8 = 0 ∧ (CBitBuffer.mk false [0xAB, 0xCD] 0 1 3 16).tell ≤ s1.tell ∧
      (∀ m, m % 8 = 0 → (CBitBuffer.mk false [0xAB, 0xCD] 0 1 3 16).tell ≤ m → s1.tell ≤ m) ∧
      (∀ i, (CBitBuffer.mk false [0xAB, 0xCD] 0 1 3 16).tell ≤ i → i < s1.tell →
        bitAt s1.m_buffer i = false) ∧
      (∀ i, ¬ ((CBitBuffer.mk false [0xAB, 0xCD] 0 1 3 16).tell ≤ i ∧ i < s1.tell) →
        bitAt s1.m_buffer i = bitAt (CBitBuffer.mk false [0xAB, 0xCD] 0 1 3 16).m_buffer i) ∧
      ((CBitBuffer.mk false [0xAB, 0xCD] 0 1 3 16).tell % 8 = 0 →
        s1 = CBitBuffer.mk false [0xAB, 0xCD] 0 1 3 16) :=
  C23_byteAlign (CBitBuffer.mk false [0xAB, 0xCD] 0 1 3 16)
    ⟨by decide, by decide, by decide, by decide, by decide, by decide⟩ (by decide)

/-- C24: writer over external storage with `nofValidBits == 0`. The constructors store
`nofValidBits` as it is: for every region and every `nofValidBits`, `nofBits()` is
`nofValidBits` and `tell()` is 0. Over a region of 5 bytes with `nofValidBits == 0` the
writer has `nofBits() == 0`, not 40, and `seek(5, begin)` throws `SeekException`; the
reader constructed with the same arguments has `nofBits() == 40`. -/
theorem C24_external_constructor_zero :
    (∀ (buffer : List Nat) (sizeBytes nofValidBits : Nat),
      (CBitBuffer.mk_external buffer sizeBytes nofValidBits).nofBits = nofValidBits ∧
      (CBitBuffer.mk_external buffer sizeBytes nofValidBits).tell = 0) ∧
    (CBitBuffer.mk_external [0xFF, 0xFF, 0xFF, 0xFF, 0xFF] 5 0).nofBits = 0 ∧
    (CBitBuffer.mk_external [0xFF, 0xFF, 0xFF, 0xFF, 0xFF] 5 0).seek 5 EPosType.begin
      = (.error Exc.SeekException, CBitBuffer.mk_external [0xFF, 0xFF, 0xFF, 0xFF, 0xFF] 5 0) ∧
    (CBitParser.mk_buffer [0xFF, 0xFF, 0xFF, 0xFF, 0xFF] 0).nofBits = 40 :=
  ⟨fun _ _ _ => ⟨rfl, rfl⟩, rfl, rfl, rfl⟩

/-- C25: a failing `insert<T>` with a partial effect. On a self-owned writer holding the 16
valid bits 0xAB, 0xCD with the cursor at 16, `insert<uint8_t>(0xFF, 4, 9)` throws
`WriteException` (9 bits are more than `uint8_t` has) after the writer has been truncated:
it is left with 4 valid bits in the byte 0xA0 and the cursor at 4. -/
theorem C25_insert_failure_truncates :
    (CBitBuffer.mk false [0xAB, 0xCD] 0 2 0 16).nofBits = 16 ∧
    (CBitBuffer.mk false [0xAB, 0xCD] 0 2 0 16).tell = 16 ∧
    CBitBuffer.insert 8 (CBitBuffer.mk false [0xAB, 0xCD] 0 2 0 16) 0xFF 4 9
      = (.error Exc.WriteException, CBitBuffer.mk false [0xA0] 0 0 4 4) ∧
    (CBitBuffer.insert 8 (CBitBuffer.mk false [0xAB, 0xCD] 0 2 0 16) 0xFF 4 9).2.nofBits = 4 ∧
    (CBitBuffer.insert 8 (CBitBuffer.mk false [0xAB, 0xCD] 0 2 0 16) 0xFF 4 9).2.tell = 4 :=
  ⟨rfl, rfl, rfl, rfl, rfl⟩

/-- The writer state invariant in the range without wrap-around. In every state reached
from a constructor state (`nofValidBits` not above 8 times the size of the region) by calls
of `write`, `append`, `insert`, `erase`, `resize`, `seek` and `byteAlign`, returning or
throwing, with positions in the range in which the 32-bit computations do not wrap,
`nofBits()` is at most 8 times the number of bytes of storage and `tell()` is at most
`nofBits()`; a writer over external storage stays one, and the size of its storage is that
at construction. -/
theorem writer_invariant_in_range (s0 s : CBitBuffer) (h0 : s0.Constructed)
    (h : CBitBuffer.ReachableFrom s0 s) :
    s.nofBits ≤ 8 * s.m_buffer.length ∧ s.tell ≤ s.nofBits ∧
      (s0.m_useExtBuffer = true →
        s.m_useExtBuffer = true ∧ s.m_buffer.length = s0.m_buffer.length) := by
  have hwf0 := constructed_wf h0
  obtain ⟨hwf, hx, he⟩ := reachableFrom_inv hwf0 h
  refine ⟨writer_nofBits_le hwf, writer_tell_le hwf, ?_⟩
  intro hx0
  have hxs : s.m_useExtBuffer = true := by rw [hx, hx0]
  exact ⟨hxs, by rw [hwf.ext_size hxs, he, hwf0.ext_size hx0]⟩

/-- C27: reader construction and read-only view. A reader constructed over a byte
sequence of `S` bytes (`8 * S` a `uint32_t` value) with `nofValidBits` `k ≤ 8 * S` has
`nofBits() == 8 * S` for `k == 0` and `nofBits() == k` otherwise, and `tell() == 0`; it is a
reachable reader state, and in every reachable reader state every `read<T>` and every `seek`,
returning or throwing, leaves the bytes, `nofBits()` and `nofBytes()` unchanged. -/
theorem C27_reader_construction_frame (buffer : List Nat) (k : Nat)
    (hb : ∀ b ∈ buffer, b < 256) (hS : 8 * buffer.length < 4294967296)
    (hk : k ≤ 8 * buffer.length) :
    (CBitParser.mk_buffer buffer k).nofBits = (if k = 0 then 8 * buffer.length else k) ∧
    (CBitParser.mk_buffer buffer k).tell = 0 ∧
    (CBitParser.mk_buffer buffer k).Reachable ∧
    ∀ p : CBitParser, p.Reachable →
      (∀ W n, isWidth W →
        ((p.read_unsigned W n).2.m_buffer = p.m_buffer ∧
          (p.read_unsigned W n).2.nofBits = p.nofBits ∧
          (p.read_unsigned W n).2.nofBytes = p.nofBytes) ∧
        ((p.read_signed W n).2.m_buffer = p.m_buffer ∧
          (p.read_signed W n).2.nofBits = p.nofBits ∧
          (p.read_signed W n).2.nofBytes = p.nofBytes)) ∧
      (∀ offset origin,
        (p.seek offset origin).2.m_buffer = p.m_buffer ∧
          (p.seek offset origin).2.nofBits = p.nofBits ∧
          (p.seek offset origin).2.nofBytes = p.nofBytes) := by
  have e := CBitParser.mk_buffer_eq buffer k hS
  refine ⟨?_, ?_, ?_, ?_⟩
  · rw [e]; rfl
  · rw [e]; rfl
  · rw [e]
    apply CBitParser.Reachable.init buffer _ hb
    · split_ifs <;> omega
    · split_ifs <;> omega
  · intro p hp
    have hwf := hp.to_wf
    refine ⟨?_, ?_⟩
    · intro W n hW
      obtain ⟨hu1, hu2⟩ := CBitParser.read_unsigned_frame W hwf n
      obtain ⟨hs1, hs2⟩ := CBitParser.read_signed_frame W (isWidth_le hW) hwf n
      exact ⟨⟨hu1, hu2, CBitParser.nofBytes_congr hu2⟩,
        ⟨hs1, hs2, CBitParser.nofBytes_congr hs2⟩⟩
    · intro offset origin
      obtain ⟨h1, h2⟩ := CBitParser.seek_frame p offset origin
      exact ⟨h1, h2, CBitParser.nofBytes_congr h2⟩

/-- Witness of C27: a reader over three bytes with the default `nofValidBits`. -/
theorem C27_reader_construction_frame_witness :
    (CBitParser.mk_buffer [0x71, 0xB1, 0xB0] 0).nofBits
      = (if 0 = 0 then 8 * [0x71, 0xB1, 0xB0].length else 0) ∧
    (CBitParser.mk_buffer [0x71, 0xB1, 0xB0] 0).tell = 0 ∧
    (CBitParser.mk_buffer [0x71, 0xB1, 0xB0] 0).Reachable ∧
    ∀ p : CBitParser, p.Reachable →
      (∀ W n, isWidth W →
        ((p.read_unsigned W n).2.m_buffer = p.m_buffer ∧
          (p.read_unsigned W n).2.nofBits = p.nofBits ∧
          (p.read_unsigned W n).2.nofBytes = p.nofBytes) ∧
        ((p.read_signed W n).2.m_buffer = p.m_buffer ∧
          (p.read_signed W n).2.nofBits = p.nofBits ∧
          (p.read_signed W n).2.nofBytes = p.nofBytes)) ∧
      (∀ offset origin,
        (p.seek offset origin).2.m_buffer = p.m_buffer ∧
          (p.seek offset origin).2.nofBits = p.nofBits ∧
          (p.seek offset origin).2.nofBytes = p.nofBytes) :=
  C27_reader_construction_frame [0x71, 0xB1, 0xB0] 0 (by decide) (by decide) (by decide)

/-- The accessors of a reader. In every reachable reader state `tell()` is
`nofReadBits()` and at most `nofBits()`, `tell() + nofBitsLeft()` is `nofBits()`, `eof()` is
true exactly when `nofBitsLeft()` is 0, and, `nofBits() + 7` being a `uint32_t` value,
`nofBytes()` is `nofBits()` divided by 8 and rounded up. -/
theorem reader_accessors_in_range (p : CBitParser) (hp : p.Reachable) :
    p.tell = p.nofReadBits ∧ p.nofReadBits ≤ p.nofBits ∧
      p.tell + p.nofBitsLeft = p.nofBits ∧ (p.eof = true ↔ p.nofBitsLeft = 0) ∧
      (p.nofBits + 7 < 4294967296 → p.nofBytes = (p.nofBits + 7) / 8) := by
  obtain ⟨h1, h2, h3, h4, h5⟩ := CBitParser.accessors_spec hp.to_wf
  exact ⟨h1, h2, h3, h4, h5⟩

/-- C30: big-endian integer round trip of the byte buffer tools. For the widths of 8, 16,
24, 32 and 64 bits, `k` bytes, every value `v` below `256 ^ k` and every byte buffer and
position `p` with at least `k` bytes remaining, `writeUintN(buffer, p, v)` returns, stores
the `k` bytes of `v` most significant byte first at `p`, leaves all other bytes and the size
of the buffer unchanged and advances the position by `k`; `readUintN` at `p` on the result
returns `v` and advances the position by `k`. -/
theorem C30_uint_roundtrip (N : UintKind) (buffer : List Nat) (p v : Nat)
    (hv : v < 256 ^ N.bytes) (hp : p + N.bytes ≤ buffer.length) :
    ∃ buffer1, writeUintN N buffer (p : Int) v = (.ok (), buffer1, ((p + N.bytes : Nat) : Int)) ∧
      buffer1.length = buffer.length ∧
      (∀ j, j < N.bytes → buffer1.getD (p + j) 0 = beByte v N.bytes j) ∧
      (∀ i, ¬ (p ≤ i ∧ i < p + N.bytes) → buffer1.getD i 0 = buffer.getD i 0) ∧
      readUintN N buffer1 (p : Int) = (.ok v, ((p + N.bytes : Nat) : Int)) := by
  cases N with
  | bits8 =>
    simp only [UintKind.bytes] at hv hp ⊢
    have e : ((p + 1 : Nat) : Int) = (p : Int) + 1 := by push_cast; rfl
    obtain ⟨b1, hw, hl, hvals, hframe⟩ := writeUint8_spec buffer p v (by omega) hp
    have h0 := hvals 0 (by omega)
    rw [Nat.add_zero] at h0
    refine ⟨b1, by rw [e]; exact hw, hl, hvals, hframe, ?_⟩
    show readUint8 b1 (p : Int) = _
    rw [byteRead8_spec b1 p (by omega), h0, e]
    simp only [beByte]
    congr 2
    omega
  | bits16 =>
    simp only [UintKind.bytes] at hv hp ⊢
    have e : ((p + 2 : Nat) : Int) = (p : Int) + 2 := by push_cast; rfl
    obtain ⟨b1, hw, hl, hvals, hframe⟩ := writeUint16_spec buffer p v hp
    have hb : ∀ j, j < 2 → b1.getD (p + j) 0 < 256 := fun j hj => by
      rw [hvals j hj]; exact beByte_lt _ _ _
    have h0 := hvals 0 (by omega)
    have h1 := hvals 1 (by omega)
    rw [Nat.add_zero] at h0
    refine ⟨b1, by rw [e]; exact hw, hl, hvals, hframe, ?_⟩
    show readUint16 b1 (p : Int) = _
    rw [readUint16_spec b1 p (by omega) hb, h0, h1, e]
    simp only [beByte]
    congr 2
    norm_num
    omega
  | bits24 =>
    simp only [UintKind.bytes] at hv hp ⊢
    have e : ((p + 3 : Nat) : Int) = (p : Int) + 3 := by push_cast; rfl
    obtain ⟨b1, hw, hl, hvals, hframe⟩ := writeUint24_spec buffer p v hp
    have hb : ∀ j, j < 3 → b1.getD (p + j) 0 < 256 := fun j hj => by
      rw [hvals j hj]; exact beByte_lt _ _ _
    have h0 := hvals 0 (by omega)
    have h1 := hvals 1 (by omega)
    have h2 := hvals 2 (by omega)
    rw [Nat.add_zero] at h0
    refine ⟨b1, by rw [e]; exact hw, hl, hvals, hframe, ?_⟩
    show readUint24 b1 (p : Int) = _
    rw [readUint24_spec b1 p (by omega) hb, h0, h1, h2, e]
    simp only [beByte]
    congr 2
    norm_num
    omega
  | bits32 =>
    simp only [UintKind.bytes] at hv hp ⊢
    have e : ((p + 4 : Nat) : Int) = (p : Int) + 4 := by push_cast; rfl
    obtain ⟨b1, hw, hl, hvals, hframe⟩ := writeUint32_spec buffer p v hp
    have hb : ∀ j, j < 4 → b1.getD (p + j) 0 < 256 := fun j hj => by
      rw [hvals j hj]; exact beByte_lt _ _ _
    have h0 := hvals 0 (by omega)
    have h1 := hvals 1 (by omega)
    have h2 := hvals 2 (by omega)
    have h3 := hvals 3 (by omega)
    rw [Nat.add_zero] at h0
    refine ⟨b1, by rw [e]; exact hw, hl, hvals, hframe, ?_⟩
    show readUint32 b1 (p : Int) = _
    rw [readUint32_spec b1 p (by omega) hb, h0, h1, h2, h3, e]
    simp only [beByte]
    congr 2
    norm_num
    omega
  | bits64 =>
    simp only [UintKind.bytes] at hv hp ⊢
    have e : ((p + 8 : Nat) : Int) = (p : Int) + 8 := by push_cast; rfl
    obtain ⟨b1, hw, hl, hvals, hframe⟩ := writeUint64_spec buffer p v (by omega) hp
    have hb : ∀ j, j < 8 → b1.getD (p + j) 0 < 256 := fun j hj => by
      rw [hvals j hj]; exact beByte_lt _ _ _
    have h0 := hvals 0 (by omega)
    have h1 := hvals 1 (by omega)
    have h2 := hvals 2 (by omega)
    have h3 := hvals 3 (by omega)
    have h4 := hvals 4 (by omega)
    have h5 := hvals 5 (by omega)
    have h6 := hvals 6 (by omega)
    have h7 := hvals 7 (by omega)
    rw [Nat.add_zero] at h0
    refine ⟨b1, by rw [e]; exact hw, hl, hvals, hframe, ?_⟩
    show readUint64 b1 (p : Int) = _
    rw [readUint64_spec b1 p (by omega) hb, h0, h1, h2, h3, h4, h5, h6, h7, e]
    simp only [beByte]
    congr 2
    norm_num
    omega

/-- Witness of C30: the 32-bit value 0xDEADBEEF written at position 1 of a 6-byte buffer. -/
theorem C30_uint_roundtrip_witness :
    ∃ buffer1, writeUintN UintKind.bits32 [1, 2, 3, 4, 5, 6] ((1 : Nat) : Int) 0xDEADBEEF
        = (.ok (), buffer1, ((1 + UintKind.bits32.bytes : Nat) : Int)) ∧
      buffer1.length = [1, 2, 3, 4, 5, 6].length ∧
      (∀ j, j < UintKind.bits32.bytes →
        buffer1.getD (1 + j) 0 = beByte 0xDEADBEEF UintKind.bits32.bytes j) ∧
      (∀ i, ¬ (1 ≤ i ∧ i < 1 + UintKind.bits32.bytes) →
        buffer1.getD i 0 = [1, 2, 3, 4, 5, 6].getD i 0) ∧
      readUintN UintKind.bits32 buffer1 ((1 : Nat) : Int)
        = (.ok 0xDEADBEEF, ((1 + UintKind.bits32.bytes : Nat) : Int)) :=
  C30_uint_roundtrip UintKind.bits32 [1, 2, 3, 4, 5, 6] 1 0xDEADBEEF (by decide) (by decide)

end ilo

namespace ilo

/-! ## Bytes and their bits -/

/-- Two bytes with the same 8 bits are equal. -/
theorem byte_ext {a b : Nat} (ha : a < 256) (hb : b < 256)
    (h : ∀ t, t < 8 → a.testBit t = b.testBit t) : a = b := by
  apply Nat.eq_of_testBit_eq
  intro t
  by_cases ht : t < 8
  · exact h t ht
  · have h2 : 256 ≤ 2 ^ t := by
      calc 256 = 2 ^ 8 := by norm_num
        _ ≤ 2 ^ t := Nat.pow_le_pow_right (by norm_num) (by omega)
    rw [Nat.testBit_lt_two_pow (by omega), Nat.testBit_lt_two_pow (by omega)]

/-- Bit `t` of byte `j` of a region is the bit of the region at index `8 * j + (7 - t)`. -/
theorem testBit_getD (buf : List Nat) (j : Nat) {t : Nat} (ht : t < 8) :
    (buf.getD j 0).testBit t = bitAt buf (8 * j + (7 - t)) := by
  unfold bitAt
  have e1 : (8 * j + (7 - t)) / 8 = j := by omega
  have e2 : 7 - (8 * j + (7 - t)) % 8 = t := by omega
  rw [e1, e2]

/-- Byte `j` of two byte regions is the same when their bits `8 * j` to `8 * j + 7` are. -/
theorem getD_ext_bits {b1 b2 : List Nat} (h1 : ∀ b ∈ b1, b < 256) (h2 : ∀ b ∈ b2, b < 256)
    (j : Nat) (h : ∀ i, 8 * j ≤ i → i < 8 * j + 8 → bitAt b1 i = bitAt b2 i) :
    b1.getD j 0 = b2.getD j 0 := by
  apply byte_ext (getD_lt_of_bytes h1 j) (getD_lt_of_bytes h2 j)
  intro t ht
  rw [testBit_getD b1 j ht, testBit_getD b2 j ht]
  exact h _ (by omega) (by omega)

/-- Byte regions of the same length with the same bits are equal. -/
theorem buffer_ext {b1 b2 : List Nat} (h1 : ∀ b ∈ b1, b < 256) (h2 : ∀ b ∈ b2, b < 256)
    (hlen : b1.length = b2.length) (h : ∀ i, bitAt b1 i = bitAt b2 i) : b1 = b2 := by
  apply List.ext_getElem hlen
  intro j hj1 hj2
  have e := getD_ext_bits h1 h2 j (fun i _ _ => h i)
  rw [List.getD_eq_getElem _ _ hj1, List.getD_eq_getElem _ _ hj2] at e
  exact e

/-- A byte whose 8 bits are 0 is 0. -/
theorem getD_zero_of_bits {buf : List Nat} (hb : ∀ b ∈ buf, b < 256) (j : Nat)
    (h : ∀ i, 8 * j ≤ i → i < 8 * j + 8 → bitAt buf i = false) : buf.getD j 0 = 0 := by
  apply byte_ext (getD_lt_of_bytes hb j) (by norm_num)
  intro t ht
  rw [testBit_getD buf j ht, h _ (by omega) (by omega), Nat.zero_testBit]

/-- Writer states with the same mode, capacity, cursor, number of valid bits, region length
and bits are equal. -/
theorem writer_ext {s1 s2 : CBitBuffer} (h1 : s1.wf) (h2 : s2.wf)
    (hx : s1.m_useExtBuffer = s2.m_useExtBuffer)
    (he : s1.m_extBufferSizeBytes = s2.m_extBufferSizeBytes)
    (ht : s1.tell = s2.tell) (hn : s1.nofBits = s2.nofBits)
    (hlen : s1.m_buffer.length = s2.m_buffer.length)
    (hbits : ∀ i, bitAt s1.m_buffer i = bitAt s2.m_buffer i) : s1 = s2 := by
  have hb := buffer_ext h1.bytes h2.bytes hlen hbits
  rw [CBitBuffer.writer_tell_eq h1, CBitBuffer.writer_tell_eq h2] at ht
  have hl1 := h1.local_le
  have hl2 := h2.local_le
  have e1 : s1.m_writeIterBytes = s2.m_writeIterBytes := by omega
  have e2 : s1.m_localWriteBits = s2.m_localWriteBits := by omega
  unfold CBitBuffer.nofBits at hn
  cases s1
  cases s2
  simp only at hx he hb e1 e2 hn
  subst hx he hb e1 e2 hn
  rfl

end ilo

namespace ilo

/-! ## Strings in byte buffers -/

/-- The assignment `*position = v` at offset `p`. -/
theorem setAtPos_zero (buffer : List Nat) (p v : Nat) :
    setAtPos buffer (p : Int) 0 v = buffer.set p v := by
  unfold setAtPos
  have e : ((p : Int) + ((0 : Nat) : Int)).toNat = p := by omega
  rw [e]

/-- The byte `*position` at offset `p`. -/
theorem byteAtPos_zero (buffer : List Nat) (p : Nat) :
    byteAtPos buffer (p : Int) 0 = buffer.getD p 0 := by
  unfold byteAtPos
  have e : ((p : Int) + ((0 : Nat) : Int)).toNat = p := by omega
  rw [e]

/-- The `std::copy` of `writeString` writes the characters at `p`, `p + 1`, ... and returns
the position behind them. -/
theorem copyBytes_spec (str : List Nat) :
    ∀ (buffer : List Nat) (p : Nat), p + str.length ≤ buffer.length →
      ∃ b1, copyBytes str buffer (p : Int) = (b1, ((p + str.length : Nat) : Int)) ∧
        b1.length = buffer.length ∧
        (∀ i, b1.getD i 0
          = if p ≤ i ∧ i < p + str.length then str.getD (i - p) 0 else buffer.getD i 0) := by
  induction str with
  | nil =>
    intro buffer p _
    refine ⟨buffer, rfl, rfl, ?_⟩
    intro i
    rw [if_neg]
    simp only [List.length_nil]
    omega
  | cons c rest ih =>
    intro buffer p hp
    rw [List.length_cons] at hp
    have hl : (buffer.set p c).length = buffer.length := List.length_set _ _ _
    obtain ⟨b1, hc, hlen, hget⟩ := ih (buffer.set p c) (p + 1) (by rw [hl]; omega)
    refine ⟨b1, ?_, by rw [hlen, hl], ?_⟩
    · have e : copyBytes (c :: rest) buffer (p : Int)
          = copyBytes rest (setAtPos buffer (p : Int) 0 c) ((p : Int) + 1) := rfl
      rw [e, setAtPos_zero]
      have e1 : ((p : Int) + 1) = ((p + 1 : Nat) : Int) := by omega
      rw [e1, hc, List.length_cons]
      have e2 : p + 1 + rest.length = p + (rest.length + 1) := by omega
      rw [e2]
    · intro i
      rw [hget i, List.length_cons]
      by_cases h1 : i = p
      · subst h1
        rw [if_neg (by omega), if_pos ⟨le_refl _, by omega⟩, getD_set_eq (by omega),
          Nat.sub_self]
        rfl
      · rw [getD_set_ne (Ne.symm h1)]
        by_cases h2 : p + 1 ≤ i ∧ i < p + 1 + rest.length
        · rw [if_pos h2, if_pos ⟨by omega, by omega⟩]
          have e3 : i - p = (i - (p + 1)) + 1 := by omega
          rw [e3, List.getD_cons_succ]
        · rw [if_neg h2, if_neg (by omega)]

/-- The effect of `writeString` when at least `|str| + 1` bytes remain at offset `p`. -/
theorem writeString_spec (buffer str : List Nat) (p : Nat)
    (hp : p + str.length + 1 ≤ buffer.length) :
    ∃ b1, writeString buffer (p : Int) str = (.ok (), b1, ((p + str.length + 1 : Nat) : Int)) ∧
      b1.length = buffer.length ∧
      (∀ j, j < str.length → b1.getD (p + j) 0 = str.getD j 0) ∧
      b1.getD (p + str.length) 0 = 0 ∧
      (∀ i, ¬ (p ≤ i ∧ i < p + str.length + 1) → b1.getD i 0 = buffer.getD i 0) := by
  obtain ⟨b0, hc, hlen, hget⟩ := copyBytes_spec str buffer p (by omega)
  have hl : (b0.set (p + str.length) 0).length = buffer.length := by
    rw [List.length_set, hlen]
  refine ⟨b0.set (p + str.length) 0, ?_, hl, ?_, ?_, ?_⟩
  · unfold writeString
    rw [if_neg (by omega), hc]
    simp only [setAtPos_zero]
    have e1 : ((p + str.length : Nat) : Int) + 1 = ((p + str.length + 1 : Nat) : Int) := by
      omega
    rw [e1]
  · intro j hj
    rw [getD_set_ne (by omega), hget, if_pos ⟨by omega, by omega⟩, Nat.add_sub_cancel_left]
  · rw [getD_set_eq (by omega)]
  · intro i hi
    rw [getD_set_ne (by omega), hget, if_neg (by omega)]

/-- The loop of `readString` from offset `q` reaches the first 0 byte at offset `z` and
returns the bytes from `begin` to `z`. -/
theorem readString_loop_found (buffer : List Nat) (p z M : Nat) (hz : z < buffer.length)
    (hzero : buffer.getD z 0 = 0) (hM : M = 0 ∨ z ≤ p + M + 1) :
    ∀ (d q fuel : Nat), p ≤ q → q + d = z → d < fuel →
      (∀ i, q ≤ i → i < z → buffer.getD i 0 ≠ 0) →
      readString_loop buffer (p : Int) M fuel (q : Int)
        = some (.ok ((buffer.drop p).take (z - p)), ((z + 1 : Nat) : Int)) := by
  intro d
  induction d with
  | zero =>
    intro q fuel hpq hq hf _
    obtain ⟨f, rfl⟩ : ∃ f, fuel = f + 1 := ⟨fuel - 1, by omega⟩
    have hqz : q = z := by omega
    subst hqz
    have e : readString_loop buffer (p : Int) M (f + 1) (q : Int)
        = if byteAtPos buffer (q : Int) 0 ≠ 0 ∧
              (((q : Int) - (p : Int)).toNat % 18446744073709551616 ≤ M ∨ M = 0) then
            if (q : Int) + 1 = (buffer.length : Int) then
              some (.error StdExc.out_of_range, (q : Int) + 1)
            else readString_loop buffer (p : Int) M f ((q : Int) + 1)
          else
            some (.ok ((buffer.drop (p : Int).toNat).take ((q : Int) - (p : Int)).toNat),
              (q : Int) + 1) := rfl
    rw [e, byteAtPos_zero, if_neg (by rw [hzero]; simp)]
    have e1 : ((q : Int) - (p : Int)).toNat = q - p := by omega
    have e2 : (p : Int).toNat = p := by omega
    have e3 : (q : Int) + 1 = ((q + 1 : Nat) : Int) := by omega
    rw [e1, e2, e3]
  | succ d ih =>
    intro q fuel hpq hq hf hnz
    obtain ⟨f, rfl⟩ : ∃ f, fuel = f + 1 := ⟨fuel - 1, by omega⟩
    have e : readString_loop buffer (p : Int) M (f + 1) (q : Int)
        = if byteAtPos buffer (q : Int) 0 ≠ 0 ∧
              (((q : Int) - (p : Int)).toNat % 18446744073709551616 ≤ M ∨ M = 0) then
            if (q : Int) + 1 = (buffer.length : Int) then
              some (.error StdExc.out_of_range, (q : Int) + 1)
            else readString_loop buffer (p : Int) M f ((q : Int) + 1)
          else
            some (.ok ((buffer.drop (p : Int).toNat).take ((q : Int) - (p : Int)).toNat),
              (q : Int) + 1) := rfl
    have e1 : ((q : Int) - (p : Int)).toNat = q - p := by omega
    have hmod : (q - p) % 18446744073709551616 ≤ q - p := Nat.mod_le _ _
    have hc : (q - p) % 18446744073709551616 ≤ M ∨ M = 0 := by omega
    rw [e, byteAtPos_zero, e1, if_pos ⟨hnz q (le_refl _) (by omega), hc⟩, if_neg (by omega)]
    have e3 : (q : Int) + 1 = ((q + 1 : Nat) : Int) := by omega
    rw [e3]
    exact ih (q + 1) f (by omega) (by omega) (by omega)
      (fun i h1 h2 => hnz i (by omega) h2)

/-- The loop of `readString` from offset `q` throws `std::out_of_range` when it meets no
0 byte up to the end of the buffer. -/
theorem readString_loop_missing (buffer : List Nat) (p M : Nat)
    (hM : M = 0 ∨ buffer.length ≤ p + M + 1) :
    ∀ (d q fuel : Nat), p ≤ q → q + d + 1 = buffer.length → d < fuel →
      (∀ i, q ≤ i → i < buffer.length → buffer.getD i 0 ≠ 0) →
      readString_loop buffer (p : Int) M fuel (q : Int)
        = some (.error StdExc.out_of_range, (buffer.length : Int)) := by
  intro d
  induction d with
  | zero =>
    intro q fuel hpq hq hf hnz
    obtain ⟨f, rfl⟩ : ∃ f, fuel = f + 1 := ⟨fuel - 1, by omega⟩
    have e : readString_loop buffer (p : Int) M (f + 1) (q : Int)
        = if byteAtPos buffer (q : Int) 0 ≠ 0 ∧
              (((q : Int) - (p : Int)).toNat % 18446744073709551616 ≤ M ∨ M = 0) then
            if (q : Int) + 1 = (buffer.length : Int) then
              some (.error StdExc.out_of_range, (q : Int) + 1)
            else readString_loop buffer (p : Int) M f ((q : Int) + 1)
          else
            some (.ok ((buffer.drop (p : Int).toNat).take ((q : Int) - (p : Int)).toNat),
              (q : Int) + 1) := rfl
    have e1 : ((q : Int) - (p : Int)).toNat = q - p := by omega
    have hmod : (q - p) % 18446744073709551616 ≤ q - p := Nat.mod_le _ _
    have hc : (q - p) % 18446744073709551616 ≤ M ∨ M = 0 := by omega
    have e3 : (q : Int) + 1 = (buffer.length : Int) := by omega
    rw [e, byteAtPos_zero, e1, if_pos ⟨hnz q (le_refl _) (by omega), hc⟩, if_pos e3, e3]
  | succ d ih =>
    intro q fuel hpq hq hf hnz
    obtain ⟨f, rfl⟩ : ∃ f, fuel = f + 1 := ⟨fuel - 1, by omega⟩
    have e : readString_loop buffer (p : Int) M (f + 1) (q : Int)
        = if byteAtPos buffer (q : Int) 0 ≠ 0 ∧
              (((q : Int) - (p : Int)).toNat % 18446744073709551616 ≤ M ∨ M = 0) then
            if (q : Int) + 1 = (buffer.length : Int) then
              some (.error StdExc.out_of_range, (q : Int) + 1)
            else readString_loop buffer (p : Int) M f ((q : Int) + 1)
          else
            some (.ok ((buffer.drop (p : Int).toNat).take ((q : Int) - (p : Int)).toNat),
              (q : Int) + 1) := rfl
    have e1 : ((q : Int) - (p : Int)).toNat = q - p := by omega
    have hmod : (q - p) % 18446744073709551616 ≤ q - p := Nat.mod_le _ _
    have hc : (q - p) % 18446744073709551616 ≤ M ∨ M = 0 := by omega
    rw [e, byteAtPos_zero, e1, if_pos ⟨hnz q (le_refl _) (by omega), hc⟩, if_neg (by omega)]
    have e3 : (q : Int) + 1 = ((q + 1 : Nat) : Int) := by omega
    rw [e3]
    exact ih (q + 1) f (by omega) (by omega) (by omega)
      (fun i h1 h2 => hnz i (by omega) h2)

/-- The bytes of a buffer that holds the string `str` at offset `p`. -/
theorem drop_take_eq (b1 str : List Nat) (p : Nat) (hlen : p + str.length ≤ b1.length)
    (h : ∀ j, j < str.length → b1.getD (p + j) 0 = str.getD j 0) :
    (b1.drop p).take str.length = str := by
  apply List.ext_getElem
  · rw [List.length_take, List.length_drop]
    omega
  · intro j h1 h2
    have hj := h j h2
    rw [List.getD_eq_getElem _ _ (by omega), List.getD_eq_getElem _ _ h2] at hj
    rw [List.getElem_take, List.getElem_drop]
    exact hj

end ilo

namespace ilo

/-! ## Bitwise writes -/

/-- Bit 0 of the `uint8_t` value of a `bool`. -/
theorem testBit_bool (b : Bool) : (if b = true then 1 else 0 : Nat).testBit 0 = b := by
  cases b <;> rfl

/-- The effect of `write(bool)`. -/
theorem write_bool_ok {s : CBitBuffer} (hwf : s.wf) (b : Bool)
    (hrange : s.tell + 1 + 7 < 4294967296)
    (hcap : s.m_useExtBuffer = true → s.tell + 1 ≤ 8 * s.m_extBufferSizeBytes) :
    ∃ s1, s.write_bool b = (.ok (), s1) ∧ s1.wf ∧
      s1.m_useExtBuffer = s.m_useExtBuffer ∧
      s1.m_extBufferSizeBytes = s.m_extBufferSizeBytes ∧
      s1.tell = s.tell + 1 ∧
      s1.nofBits = max s.nofBits (s.tell + 1) ∧
      s1.m_buffer.length
        = (if s.m_useExtBuffer = false ∧ s.m_buffer.length * 8 < s.tell + 1
           then (s.tell + 1 + 7) / 8 else s.m_buffer.length) ∧
      (∀ i, bitAt s1.m_buffer i = if i = s.tell then b else bitAt s.m_buffer i) := by
  obtain ⟨s1, hw, hwf1, hx1, he1, ht1, hn1, hl1, hb1⟩ :=
    write_ok 8 (by decide) hwf (n := 1) (by decide) (if b = true then 1 else 0) hrange hcap
  refine ⟨s1, hw, hwf1, hx1, he1, ht1, hn1, hl1, ?_⟩
  intro i
  rw [hb1 i]
  by_cases hi : i = s.tell
  · subst hi
    have e : 1 - 1 - (s.tell - s.tell) = 0 := by omega
    rw [if_pos ⟨le_refl _, by omega⟩, if_pos rfl, e]
    exact testBit_bool b
  · rw [if_neg (by omega), if_neg hi]

/-- The effect of `n` successive calls of `write(bool)` with the bits `n - 1`, ..., `0` of
`v`: the same description as that of `write<T>(v, n)`. -/
theorem writeBitwise_ok (v : Nat) (n : Nat) :
    ∀ {s : CBitBuffer}, s.wf → s.tell + n + 7 < 4294967296 →
      (s.m_useExtBuffer = true → s.tell + n ≤ 8 * s.m_extBufferSizeBytes) →
      ∃ s1, CBitBuffer.writeBitwise v n s = (.ok (), s1) ∧ s1.wf ∧
        s1.m_useExtBuffer = s.m_useExtBuffer ∧
        s1.m_extBufferSizeBytes = s.m_extBufferSizeBytes ∧
        s1.tell = s.tell + n ∧
        s1.nofBits = max s.nofBits (s.tell + n) ∧
        s1.m_buffer.length
          = (if s.m_useExtBuffer = false ∧ s.m_buffer.length * 8 < s.tell + n
             then (s.tell + n + 7) / 8 else s.m_buffer.length) ∧
        (∀ i, bitAt s1.m_buffer i
          = if s.tell ≤ i ∧ i < s.tell + n then v.testBit (n - 1 - (i - s.tell))
            else bitAt s.m_buffer i) := by
  induction n with
  | zero =>
    intro s hwf _ _
    have h1 := writer_tell_le hwf
    have h2 := hwf.valid_le
    have h3 : s.nofBits = s.m_nofvalidBits := rfl
    refine ⟨s, rfl, hwf, rfl, rfl, rfl, ?_, ?_, ?_⟩
    · rw [Nat.add_zero, Nat.max_eq_left h1]
    · rw [if_neg (by omega)]
    · intro i
      rw [if_neg (by omega)]
  | succ n ih =>
    intro s hwf hrange hcap
    have hr1 : s.tell + 1 + 7 < 4294967296 := by omega
    have hc1 : s.m_useExtBuffer = true → s.tell + 1 ≤ 8 * s.m_extBufferSizeBytes := by
      intro h
      have := hcap h
      omega
    obtain ⟨s1, hw, hwf1, hx1, he1, ht1, hn1, hl1, hb1⟩ :=
      write_bool_ok hwf (v.testBit n) hr1 hc1
    have hr2 : s1.tell + n + 7 < 4294967296 := by rw [ht1]; omega
    have hc2 : s1.m_useExtBuffer = true → s1.tell + n ≤ 8 * s1.m_extBufferSizeBytes := by
      intro h
      rw [hx1] at h
      have := hcap h
      rw [ht1, he1]
      omega
    obtain ⟨s2, hw2, hwf2, hx2, he2, ht2, hn2, hl2, hb2⟩ := ih hwf1 hr2 hc2
    have key : CBitBuffer.writeBitwise v (n + 1) s = (.ok (), s2) := by
      have e : CBitBuffer.writeBitwise v (n + 1) s
          = match s.write_bool (v.testBit n) with
            | (.error e, s1) => (.error e, s1)
            | (.ok _, s1) => CBitBuffer.writeBitwise v n s1 := rfl
      rw [e, hw]
      exact hw2
    refine ⟨s2, key, hwf2, by rw [hx2, hx1], by rw [he2, he1], by rw [ht2, ht1]; omega,
      by rw [hn2, hn1, ht1]; omega, ?_, ?_⟩
    · rw [hl2, hl1, hx1, ht1]
      by_cases hx : s.m_useExtBuffer = false
      · simp only [hx, true_and]
        split_ifs <;> omega
      · have hx' : (s.m_useExtBuffer = false) = False := eq_false hx
        simp only [hx', false_and, if_false]
    · intro i
      rw [hb2 i, hb1 i, ht1]
      by_cases h1 : i = s.tell
      · subst h1
        rw [if_neg (by omega), if_pos rfl, if_pos ⟨le_refl _, by omega⟩]
        have e : n + 1 - 1 - (s.tell - s.tell) = n := by omega
        rw [e]
      · by_cases h2 : s.tell + 1 ≤ i ∧ i < s.tell + 1 + n
        · rw [if_pos h2, if_pos ⟨by omega, by omega⟩]
          have e : n + 1 - 1 - (i - s.tell) = n - 1 - (i - (s.tell + 1)) := by omega
          rw [e]
        · rw [if_neg h2, if_neg h1, if_neg (by omega)]

end ilo

namespace ilo

/-! ## Self-owned storage with exactly the bytes of the valid bits -/

theorem writer_seek_frame_aux (s : CBitBuffer) (t : Int) :
    (if ¬ (t ≥ 0) then (Except.error Exc.SeekException, s)
      else if ¬ (t.toNat ≤ s.nofBits) then (Except.error Exc.SeekException, s)
      else ((Except.ok () : Except Exc Unit),
        CBitBuffer.mk s.m_useExtBuffer s.m_buffer s.m_extBufferSizeBytes (t.toNat >>> 3)
          (t.toNat &&& 0x07) s.m_nofvalidBits)).2.m_buffer = s.m_buffer ∧
    (if ¬ (t ≥ 0) then (Except.error Exc.SeekException, s)
      else if ¬ (t.toNat ≤ s.nofBits) then (Except.error Exc.SeekException, s)
      else ((Except.ok () : Except Exc Unit),
        CBitBuffer.mk s.m_useExtBuffer s.m_buffer s.m_extBufferSizeBytes (t.toNat >>> 3)
          (t.toNat &&& 0x07) s.m_nofvalidBits)).2.m_nofvalidBits
      = s.m_nofvalidBits := by
  split_ifs <;> exact ⟨rfl, rfl⟩

/-- A writer `seek` changes neither the bytes nor the number of valid bits. -/
theorem writer_seek_frame (s : CBitBuffer) (offset : Int) (origin : EPosType) :
    (s.seek offset origin).2.m_buffer = s.m_buffer ∧
      (s.seek offset origin).2.m_nofvalidBits = s.m_nofvalidBits := by
  cases origin with
  | begin => exact writer_seek_frame_aux s _
  | end_ => exact writer_seek_frame_aux s _
  | cur => exact writer_seek_frame_aux s _

/-- A writer `seek` keeps the storage invariant. -/
theorem tight_seek {s : CBitBuffer} (ht : s.tight) (offset : Int) (origin : EPosType) :
    (s.seek offset origin).2.tight := by
  obtain ⟨hb, hn⟩ := writer_seek_frame s offset origin
  obtain ⟨hwf, hx, _⟩ := seek_keeps ht.wf offset origin
  have hn' : (s.seek offset origin).2.nofBits = s.nofBits := hn
  refine ⟨hwf, by rw [hx]; exact ht.owned, by rw [hb, hn']; exact ht.length_eq,
    by rw [hn']; exact ht.size_lt, ?_⟩
  intro i hi
  rw [hb]
  exact ht.padding i (by rw [← hn']; exact hi)

/-- A writer `seek` that returns keeps the storage invariant. -/
theorem tight_seek_ok {s s1 : CBitBuffer} (ht : s.tight) {offset : Int} {origin : EPosType}
    (h : s.seek offset origin = (.ok (), s1)) : s1.tight := by
  have := tight_seek ht offset origin
  rw [h] at this
  exact this

/-- A `write<T>` keeps the storage invariant. -/
theorem tight_write (W : Nat) (hW : isWidth W) {s : CBitBuffer} (ht : s.tight) {n : Nat}
    (hn : n ≤ W) (v : Nat) (hrange : s.tell + n + 7 < 4294967296) :
    ∃ s1, s.write W v n = (.ok (), s1) ∧ s1.tight ∧ s1.tell = s.tell + n ∧
      s1.nofBits = max s.nofBits (s.tell + n) := by
  have hx := ht.owned
  have hcap : s.m_useExtBuffer = true → s.tell + n ≤ 8 * s.m_extBufferSizeBytes := by
    intro h
    rw [hx] at h
    cases h
  obtain ⟨s1, hw, hwf1, hx1, _, ht1, hn1, hl1, hb1⟩ := write_ok W hW ht.wf hn v hrange hcap
  have htle := writer_tell_le ht.wf
  have hlen := ht.length_eq
  have hsz := ht.size_lt
  refine ⟨s1, hw, ⟨hwf1, by rw [hx1]; exact hx, ?_, by rw [hn1]; omega, ?_⟩, ht1, hn1⟩
  · rw [hl1, hn1]
    simp only [hx, true_and]
    split_ifs <;> omega
  · intro i hi
    rw [hn1] at hi
    rw [hb1 i, if_neg (by omega)]
    exact ht.padding i (by omega)

/-- The copy loop from a temporary writer keeps the storage invariant of its target. -/
theorem tight_copy {tmp w : CBitBuffer} (htmp : tmp.wf) (ht : w.tight) {t : Nat}
    (hn : tmp.nofBits = t) (hrange : w.tell + t + 7 < 4294967296) :
    ∃ p1 w1, copy_loop t (CBitParser.mk_ptr tmp.bufferPtr t) w = (.ok (), p1, w1) ∧
      w1.tight ∧ w1.tell = w.tell + t ∧ w1.nofBits = max w.nofBits (w.tell + t) := by
  have hx := ht.owned
  have hcap : w.m_useExtBuffer = true → w.tell + t ≤ 8 * w.m_extBufferSizeBytes := by
    intro h
    rw [hx] at h
    cases h
  have hpwf : (CBitParser.mk_ptr tmp.bufferPtr t).wf :=
    CBitParser.mk_ptr_wf htmp.bytes (by rw [← hn]; exact htmp.valid_le)
      (by rw [← hn]; exact htmp.valid_lt)
  have h0 : (CBitParser.mk_ptr tmp.bufferPtr t).tell = 0 := rfl
  obtain ⟨p1, w1, hc, _, hw1, _, _, _, hx1, _, htl, hn1, hl1, hbits⟩ :=
    copy_loop_ok t hpwf ht.wf (by rw [h0]; exact le_of_eq (Nat.zero_add t)) hrange hcap
  have htle := writer_tell_le ht.wf
  have hlen := ht.length_eq
  have hsz := ht.size_lt
  refine ⟨p1, w1, hc, ⟨hw1, by rw [hx1]; exact hx, ?_, by rw [hn1]; omega, ?_⟩, htl, hn1⟩
  · rw [hl1, hn1, if_neg (by rw [hx]; decide)]
    omega
  · intro i hi
    rw [hn1] at hi
    rw [hbits i, if_neg (by omega)]
    exact ht.padding i (by omega)

/-- Member `resize` with the present number of valid bits changes no byte. -/
theorem resize_same {s : CBitBuffer} (hwf : s.wf) (hv : s.nofBits < 2147483648) :
    ∃ s1, s.resize s.nofBits = (.ok (), s1) ∧ s1.wf ∧
      s1.m_useExtBuffer = s.m_useExtBuffer ∧ s1.nofBits = s.nofBits ∧
      s1.tell = s.tell ∧ s1.m_buffer = s.m_buffer := by
  obtain ⟨s1, hf, hwf1, hx1, _, hn1, ht1, hb1⟩ :=
    resize_finish_spec (s := s) (w := s) (k := s.nofBits) (c := s.tell) hwf hwf.bytes
      hwf.valid_le hv rfl rfl hwf.ext_size
  have htle := writer_tell_le hwf
  have key : s.resize s.nofBits = s.resize_finish s.tell s.nofBits := by
    unfold CBitBuffer.resize
    simp only []
    rw [if_neg (lt_irrefl _), if_neg (lt_irrefl _)]
  refine ⟨s1, by rw [key]; exact hf, hwf1, hx1, hn1, by rw [ht1]; omega, hb1⟩

end ilo

namespace ilo

/-! ## The storage invariant under resize, append, insert, erase and byteAlign -/

/-- A `resize` to at most the present number of valid bits keeps the storage invariant. -/
theorem tight_resize_le {s : CBitBuffer} (ht : s.tight) {k : Nat} (hk : k ≤ s.nofBits)
    (hv : s.nofBits < 2147483648) :
    ∃ s1, s.resize k = (.ok (), s1) ∧ s1.tight ∧ s1.nofBits = k ∧ s1.tell = min s.tell k := by
  have hx := ht.owned
  by_cases hlt : k < s.nofBits
  · obtain ⟨s1, hr, hwf1, hx1, _, hn1, ht1, _, hz, hl1⟩ := resize_le_spec ht.wf hk hv
    refine ⟨s1, hr, ⟨hwf1, by rw [hx1]; exact hx, ?_, by rw [hn1]; omega, ?_⟩, hn1, ht1⟩
    · rw [hl1, hn1, if_neg]
      rintro (h | h)
      · rw [hx] at h; cases h
      · omega
    · intro i hi
      rw [hn1] at hi
      exact hz hlt i hi
  · have hkk : k = s.nofBits := by omega
    subst hkk
    obtain ⟨s1, hr, hwf1, hx1, hn1, ht1, hb1⟩ := resize_same ht.wf hv
    have htle := writer_tell_le ht.wf
    refine ⟨s1, hr, ⟨hwf1, by rw [hx1]; exact hx, by rw [hb1, hn1]; exact ht.length_eq,
      by rw [hn1]; exact ht.size_lt, ?_⟩, hn1, by rw [ht1]; omega⟩
    intro i hi
    rw [hb1]
    exact ht.padding i (by rw [← hn1]; exact hi)

/-- Member `erase` keeps the storage invariant. -/
theorem tight_erase {s : CBitBuffer} (ht : s.tight) {firstBit n : Nat}
    (hle : firstBit + n ≤ s.nofBits) (hrange : s.nofBits < 2147483648) :
    (s.erase firstBit n).2.tight := by
  have hwf := ht.wf
  have e0 : u32 (firstBit + n) = firstBit + n := by simp only [u32]; omega
  have e1 : sub32 s.nofBits (firstBit + n) = s.nofBits - (firstBit + n) := by
    simp only [sub32]; omega
  obtain ⟨p1, p2, tmp, hp1, hcp, htmpwf, htmpt, htmpn, _⟩ := erase_extract hwf hle hrange
  have hk : firstBit ≤ s.nofBits := by omega
  obtain ⟨s1, hr, ht1, hs1n, _⟩ := tight_resize_le ht hk hrange
  obtain ⟨s2, hs2, _, hs2t, hs2n, _, _, _⟩ := wseek_end_wf ht1.wf (by rw [hs1n]; omega)
  have ht2 := tight_seek_ok ht1 hs2
  obtain ⟨p3, s3, hc3, ht3, _, _⟩ :=
    tight_copy htmpwf ht2 htmpn (by rw [hs2t, hs1n]; omega)
  have key : s.erase firstBit n =
      if s.tell < firstBit then s3.seek (toInt32 s.tell) EPosType.begin
      else if s.tell ≥ firstBit + n then s3.seek (toInt32 (sub32 s.tell n)) EPosType.begin
      else s3.seek (toInt32 firstBit) EPosType.begin := by
    unfold CBitBuffer.erase
    simp only [e0, e1, hp1, hcp, hr, hs2, htmpn, htmpt, hc3, if_neg (not_not.mpr hle)]
  rw [key]
  split_ifs <;> exact tight_seek ht3 _ _

end ilo

namespace ilo

/-! ## Sizes at which the 32-bit computation of the vector length wraps -/

/-- The call `std::vector<uint8_t>::resize(0)`. -/
theorem vecResize_zero (buf : List Nat) : vecResize buf 0 = [] := by
  simp [vecResize]

/-- A call `writeIntern(toWrite, 0)` returns at once. -/
theorem writeIntern_zero (s : CBitBuffer) (tw : Nat) : s.writeIntern tw 0 = (.ok (), s) := by
  unfold CBitBuffer.writeIntern
  rw [if_neg (by omega), if_pos rfl]

/-- A `writeIntern` on self-owned storage that has to grow the vector while
`neededMemoryBits + 7` is no `uint32_t` value: the new length `(neededMemoryBits + 7u) / 8u`
is computed as 0, the vector is emptied, and the byte at the cursor is outside it. -/
theorem writeIntern_overflow {s : CBitBuffer} (hx : s.m_useExtBuffer = false) {n : Nat}
    (h1 : 1 ≤ n) (h8 : n ≤ 8) (tw : Nat)
    (hlt : s.m_writeIterBytes * 8 + s.m_localWriteBits + n < 4294967296)
    (hov : 4294967296 ≤ s.m_writeIterBytes * 8 + s.m_localWriteBits + n + 7)
    (hgrow : s.m_buffer.length * 8 < s.m_writeIterBytes * 8 + s.m_localWriteBits + n) :
    s.writeIntern tw n = (.error Exc.OutOfBounds, { s with m_buffer := [] }) := by
  obtain ⟨ext, buf, esz, w, l, nv⟩ := s
  simp only at hx hlt hov hgrow ⊢
  subst hx
  have htell : CBitBuffer.tell ⟨false, buf, esz, w, l, nv⟩ = w * 8 + l := by
    simp only [CBitBuffer.tell, u32]; omega
  have hneed : u32 (w * 8 + l + n) = w * 8 + l + n := by simp only [u32]; omega
  have hneed7 : u32 (w * 8 + l + n + 7) / 8 = 0 := by simp only [u32]; omega
  unfold CBitBuffer.writeIntern
  rw [if_neg (not_not.mpr h8), if_neg (by omega)]
  simp only [htell, hneed, hneed7, vecResize_zero, if_pos hgrow, Bool.false_eq_true,
    false_and, if_false, not_false_eq_true, true_and, getByte, List.length_nil,
    Nat.not_lt_zero, bind, Except.bind]

/-- A `write<uint8_t>` of 1 to 8 bits on self-owned storage that has to grow the vector while
`tell() + n + 7` is no `uint32_t` value accesses a byte outside the emptied vector. -/
theorem write_overflow {s : CBitBuffer} (hx : s.m_useExtBuffer = false) {n : Nat}
    (h1 : 1 ≤ n) (h8 : n ≤ 8) (v : Nat)
    (hlt : s.m_writeIterBytes * 8 + s.m_localWriteBits + n < 4294967296)
    (hov : 4294967296 ≤ s.m_writeIterBytes * 8 + s.m_localWriteBits + n + 7)
    (hgrow : s.m_buffer.length * 8 < s.m_writeIterBytes * 8 + s.m_localWriteBits + n) :
    s.write 8 v n = (.error Exc.OutOfBounds, { s with m_buffer := [] }) := by
  unfold CBitBuffer.write
  rw [if_neg (by rw [hx]; intro h; cases h.1), if_neg (not_not.mpr h8)]
  simp only [and_seven]
  by_cases hn : n = 8
  · subst hn
    have e : (8 : Nat) % 8 = 0 := rfl
    simp only [e, if_pos, writeIntern_zero, Nat.sub_zero]
    have e2 : CBitBuffer.write_loop v 8 s
        = match s.writeIntern (u8 (0xFF &&& (v >>> 0))) 8 with
          | (.error e, s1) => (.error e, s1)
          | (.ok _, s1) => CBitBuffer.write_loop v 0 s1 := rfl
    rw [e2, writeIntern_overflow hx (by omega) (by omega) _ hlt hov hgrow]
  · have e : n % 8 = n := by omega
    simp only [e, if_neg hn]
    rw [writeIntern_overflow hx h1 h8 _ hlt hov hgrow]

/-- The first chunk of the loop of `resize` on an emptied self-owned vector with the cursor
at the end of the valid bits: the vector gets the bytes of the valid bits again, all 0. -/
theorem write_fresh {s : CBitBuffer} (hx : s.m_useExtBuffer = false) (hb : s.m_buffer = [])
    (hl : s.m_localWriteBits ≤ 7)
    (hc : s.m_writeIterBytes * 8 + s.m_localWriteBits = s.m_nofvalidBits)
    (hrange : s.m_nofvalidBits + 8 + 7 < 4294967296) :
    ∃ s1, s.write 8 0 8 = (.ok (), s1) ∧ s1.tight ∧ s1.tell = s.m_nofvalidBits + 8 ∧
      s1.nofBits = s.m_nofvalidBits + 8 := by
  obtain ⟨s1, hw, hx1, _, hl1, hpos1, hnv1, hlen1, hbit1, hbytes1⟩ :=
    CBitBuffer.writeIntern_spec hl (n := 8) (by omega) (by omega) (u8 (0xFF &&& (0 >>> 0)))
      (by omega) (fun h => by rw [hx] at h; cases h)
  have hlen0 : s.m_buffer.length = 0 := by rw [hb]; rfl
  rw [hx, hlen0, if_pos ⟨rfl, by omega⟩] at hlen1
  have hn1 : s1.m_nofvalidBits = s.m_nofvalidBits + 8 := by rw [hnv1]; omega
  have hwf1 : s1.wf :=
    ⟨hl1, by rw [hpos1, hn1]; omega, by rw [hn1, hlen1]; omega, by rw [hn1]; omega,
      hbytes1 (by rw [hb]; intro b hb0; cases hb0), fun h => by rw [hx1, hx] at h; cases h⟩
  have key : s.write 8 0 8 = (.ok (), s1) := by
    unfold CBitBuffer.write
    rw [if_neg (by rw [hx]; intro h; cases h.1), if_neg (by omega)]
    simp only [and_seven]
    have e : (8 : Nat) % 8 = 0 := rfl
    simp only [e, if_pos, writeIntern_zero, Nat.sub_zero]
    have e2 : CBitBuffer.write_loop 0 8 s
        = match s.writeIntern (u8 (0xFF &&& (0 >>> 0))) 8 with
          | (.error e, s1) => (.error e, s1)
          | (.ok _, s1) => CBitBuffer.write_loop 0 0 s1 := rfl
    rw [e2, hw]
    rfl
  refine ⟨s1, key, ⟨hwf1, by rw [hx1]; exact hx, ?_, ?_, ?_⟩, ?_, hn1⟩
  · have : s1.nofBits = s.m_nofvalidBits + 8 := hn1
    rw [hlen1, this]
    omega
  · have : s1.nofBits = s.m_nofvalidBits + 8 := hn1
    rw [this]; omega
  · intro i hi
    have : s1.nofBits = s.m_nofvalidBits + 8 := hn1
    rw [this] at hi
    rw [hbit1 i, if_neg (by omega), hb]
    exact bitAt_out_of_range (Nat.zero_le _)
  · rw [CBitBuffer.writer_tell_eq hwf1, hpos1]
    omega

/-- The loop of `resize` keeps the storage invariant. -/
theorem tight_resize_loop (r : Nat) (hr : r < 8) (k : Nat) :
    ∀ (s : CBitBuffer), s.tight → s.tell + (8 * k + r) + 7 < 4294967296 →
      ∃ s1, CBitBuffer.resize_loop (8 * k + r) s = (.ok (), s1) ∧ s1.tight ∧
        s1.tell = s.tell + (8 * k + r) ∧ s1.nofBits = max s.nofBits (s.tell + (8 * k + r)) := by
  induction k with
  | zero =>
    intro s ht hrange
    simp only [Nat.mul_zero, Nat.zero_add] at hrange ⊢
    rw [resize_loop_small hr]
    by_cases h0 : r > 0
    · rw [if_pos h0]
      have hmin : min 8 r = r := by omega
      rw [hmin]
      exact tight_write 8 (Or.inl rfl) ht (by omega) 0 hrange
    · rw [if_neg h0]
      have hr0 : r = 0 := by omega
      subst hr0
      have h1 := writer_tell_le ht.wf
      exact ⟨s, rfl, ht, rfl, by omega⟩
  | succ k ih =>
    intro s ht hrange
    have e : 8 * (k + 1) + r = (8 * k + r) + 8 := by ring
    rw [e] at hrange ⊢
    rw [resize_loop_step]
    obtain ⟨s1, hw, ht1, htl1, hn1⟩ := tight_write 8 (Or.inl rfl) ht (le_refl 8) 0 (by omega)
    obtain ⟨s2, hl2, ht2, htl2, hn2⟩ := ih s1 ht1 (by rw [htl1]; omega)
    refine ⟨s2, ?_, ht2, by rw [htl2, htl1]; omega, by rw [hn2, hn1, htl1]; omega⟩
    simp only [hw, hl2]

/-- The loop of `resize` for `8 * j` bits followed by the loop for the remaining bits. -/
theorem resize_loop_split (j t : Nat) :
    ∀ (s : CBitBuffer), CBitBuffer.resize_loop (8 * j + t) s
      = match CBitBuffer.resize_loop (8 * j) s with
        | (.error e, s1) => (.error e, s1)
        | (.ok _, s1) => CBitBuffer.resize_loop t s1 := by
  induction j with
  | zero =>
    intro s
    simp only [Nat.mul_zero, Nat.zero_add]
    have e : CBitBuffer.resize_loop 0 s = (.ok (), s) := rfl
    rw [e]
  | succ j ih =>
    intro s
    have e1 : 8 * (j + 1) + t = (8 * j + t) + 8 := by ring
    have e2 : 8 * (j + 1) = 8 * j + 8 := by ring
    rw [e1, e2, resize_loop_step, resize_loop_step]
    rcases hw : s.write 8 0 8 with ⟨r, s1⟩
    cases r with
    | error e => rfl
    | ok u => exact ih s1

/-- The loop of `resize` stops at the first chunk that throws. -/
theorem resize_loop_first_fails {t : Nat} (ht : 0 < t) {s s1 : CBitBuffer} {e : Exc}
    (h : s.write 8 0 (min 8 t) = (.error e, s1)) :
    CBitBuffer.resize_loop t s = (.error e, s1) := by
  by_cases h8 : t < 8
  · rw [resize_loop_small h8, if_pos ht]
    exact h
  · obtain ⟨t', rfl⟩ : ∃ t', t = t' + 8 := ⟨t - 8, by omega⟩
    have hmin : min 8 (t' + 8) = 8 := by omega
    rw [hmin] at h
    rw [resize_loop_step, h]

end ilo

namespace ilo

/-- Member `resize` on a self-owned writer with a new size `L` for which `L + 7` is no
`uint32_t` value. The vector is first resized to `(L + 7u) / 8u == 0` bytes, so the bytes
of the writer are lost; the loop then writes zero bits and grows the vector again, and the
chunk that reaches the byte with index `2^29 - 1` resizes the vector to
`(neededMemoryBits + 7u) / 8u == 0` bytes and accesses the byte at the cursor outside it. -/
theorem resize_overflow {s : CBitBuffer} (ht : s.tight) (hv : s.nofBits < 2147483648)
    {k : Nat} (hk : 4294967289 ≤ k) (hk2 : k < 4294967296) :
    ∃ s1, s.resize k = (.error Exc.OutOfBounds, s1) ∧ s1.m_buffer = [] ∧
      4294967280 < s1.nofBits := by
  have hwf := ht.wf
  have hx := ht.owned
  obtain ⟨s1, hs1, hs1wf, hs1t, hs1n, hs1b, hs1x, hs1e⟩ := wseek_end_wf hwf hv
  have hs1x' : s1.m_useExtBuffer = false := by rw [hs1x]; exact hx
  have hs1n' : s1.m_nofvalidBits = s.nofBits := hs1n
  have hpos1 : s1.m_writeIterBytes * 8 + s1.m_localWriteBits = s1.m_nofvalidBits := by
    rw [← CBitBuffer.writer_tell_eq hs1wf, hs1t, hs1n']
  have e7 : u32 (k + 7) / 8 = 0 := by simp only [u32]; omega
  -- the numbers of bits written before and from the failing chunk
  obtain ⟨j, hj⟩ : ∃ j, (4294967288 - s.nofBits) / 8 = j + 1 :=
    ⟨(4294967288 - s.nofBits) / 8 - 1, by omega⟩
  have et : k - s.nofBits = 8 * (j + 1) + (k - s.nofBits - 8 * (j + 1)) := by omega
  have e1 : sub32 k
      ({ s1 with m_buffer := vecResize s1.m_buffer 0 } : CBitBuffer).nofBits
      = 8 * (j + 1) + (k - s.nofBits - 8 * (j + 1)) := by
    have : ({ s1 with m_buffer := vecResize s1.m_buffer 0 } : CBitBuffer).nofBits
        = s.nofBits := hs1n
    rw [this]
    simp only [sub32]
    omega
  -- the first chunk
  obtain ⟨B, hwB, htB, hBt, hBn⟩ :=
    write_fresh (s := { s1 with m_buffer := vecResize s1.m_buffer 0 }) hs1x'
      (vecResize_zero _) hs1wf.local_le hpos1 (by rw [hs1n']; omega)
  -- the chunks up to the last one that needs no byte beyond index `2^29 - 2`
  obtain ⟨S, hlS, htS, hSt, hSn⟩ :=
    tight_resize_loop 0 (by omega) j B htB (by rw [hBt, hs1n']; omega)
  rw [Nat.add_zero] at hlS hSt hSn
  have hSt' : S.tell = s.nofBits + 8 * (j + 1) := by rw [hSt, hBt, hs1n']; omega
  have hSn' : S.nofBits = s.nofBits + 8 * (j + 1) := by rw [hSn, hBn, hBt, hs1n']; omega
  have hSpos : S.m_writeIterBytes * 8 + S.m_localWriteBits = s.nofBits + 8 * (j + 1) := by
    rw [← CBitBuffer.writer_tell_eq htS.wf, hSt']
  have hSlen : S.m_buffer.length = (s.nofBits + 8 * (j + 1) + 7) / 8 := by
    rw [htS.length_eq, hSn']
  have hpre : CBitBuffer.resize_loop (8 * (j + 1))
      ({ s1 with m_buffer := vecResize s1.m_buffer 0 } : CBitBuffer) = (.ok (), S) := by
    have e : 8 * (j + 1) = 8 * j + 8 := by ring
    rw [e, resize_loop_step, hwB]
    exact hlS
  -- the failing chunk
  have hrest : 0 < k - s.nofBits - 8 * (j + 1) := by omega
  have hfail : S.write 8 0 (min 8 (k - s.nofBits - 8 * (j + 1)))
      = (.error Exc.OutOfBounds, { S with m_buffer := [] }) :=
    write_overflow htS.owned (by omega) (by omega) 0 (by rw [hSpos]; omega)
      (by rw [hSpos]; omega) (by rw [hSpos, hSlen]; omega)
  have hloop : CBitBuffer.resize_loop (8 * (j + 1) + (k - s.nofBits - 8 * (j + 1)))
      ({ s1 with m_buffer := vecResize s1.m_buffer 0 } : CBitBuffer)
      = (.error Exc.OutOfBounds, { S with m_buffer := [] }) := by
    rw [resize_loop_split, hpre]
    exact resize_loop_first_fails hrest hfail
  have key : s.resize k = (.error Exc.OutOfBounds, { S with m_buffer := [] }) := by
    unfold CBitBuffer.resize
    rw [if_pos (by omega)]
    simp only [hs1]
    rw [if_neg (by rw [hs1x']; intro h; cases h.1)]
    simp only [e7, if_neg (show ¬ (s1.m_useExtBuffer = true) by rw [hs1x']; decide), e1, hloop]
  refine ⟨_, key, rfl, ?_⟩
  show 4294967280 < S.nofBits
  rw [hSn']
  omega

end ilo

namespace ilo

/-- A call of `insert<T>` with more bits than `T` has, for any bit count: one of the two
checks of `insert` throws `InsertException`, or the writer is truncated to `before` bits and
`write<T>` throws `WriteException`. -/
theorem insert_wide_outcome (W : Nat) {s : CBitBuffer} (hwf : s.wf) (v before : Nat)
    {n : Nat} (hn : W < n) (hv : s.nofBits < 2147483648) :
    CBitBuffer.insert W s v before n = (.error Exc.InsertException, s) ∨
    ∃ s1, CBitBuffer.insert W s v before n = (.error Exc.WriteException, s1) ∧ s1.wf ∧
      s1.m_useExtBuffer = s.m_useExtBuffer ∧
      s1.m_extBufferSizeBytes = s.m_extBufferSizeBytes := by
  by_cases hb : before ≤ s.nofBits
  · by_cases hc : s.m_useExtBuffer = true ∧
        ¬ (s.m_extBufferSizeBytes * 8 ≥ u32 (s.nofBits + n))
    · left
      unfold CBitBuffer.insert
      rw [if_neg (not_not.mpr hb), if_pos hc]
    · right
      have e1 : sub32 s.nofBits before = s.nofBits - before := by simp only [sub32]; omega
      have e2 : u32 (s.nofBits - before + before % 8) = s.nofBits - before + before % 8 := by
        simp only [u32]; omega
      have e3 : before >>> 3 = before / 8 := by simp only [Nat.shiftRight_eq_div_pow]
      obtain ⟨p1, p2, tmp, hp1, hcp, _, _, _, _⟩ := insert_extract hwf hb hv
      obtain ⟨s1, s2, hr, hs2, hs2wf, hs2x, hs2e, _, _, _⟩ := resize_seek_end hwf hb hv
      have hw : s2.write W v n = (.error Exc.WriteException, s2) :=
        CBitBuffer.write_fail W v (fun h => absurd h (by omega)) (Or.inl hn)
      have key : CBitBuffer.insert W s v before n = (.error Exc.WriteException, s2) := by
        unfold CBitBuffer.insert
        rw [if_neg (not_not.mpr hb), if_neg hc]
        simp only [e1, e2, e3, hp1, hcp, hr, hs2, hw]
      exact ⟨s2, key, hs2wf, hs2x, hs2e⟩
  · left
    unfold CBitBuffer.insert
    rw [if_pos hb]

end ilo

namespace ilo

/-! ## Specification properties C31 to C40 -/

/-- A writer `seek` returns or throws `SeekException`. -/
theorem writer_seek_outcome (s : CBitBuffer) (offset : Int) (origin : EPosType) :
    (∃ s1, s.seek offset origin = (.ok (), s1)) ∨
      s.seek offset origin = (.error Exc.SeekException, s) := by
  unfold CBitBuffer.seek
  simp only []
  split_ifs <;> first | exact Or.inr rfl | exact Or.inl ⟨_, rfl⟩

/-- The low 32 bits of a value below `2^32`, converted to `uint32_t`, are the value. -/
theorem low32_eq {v : Nat} (hv : v ≤ 4294967295) : u32 (v &&& 0xFFFFFFFF) = v := by
  have e : v &&& 0xFFFFFFFF = v % 2 ^ 32 := Nat.and_pow_two_sub_one_eq_mod v 32
  rw [e]
  simp only [u32]
  omega

/-- The begin/end overload of `writeUint32` on a range inside the buffer is the
buffer/position overload. -/
theorem writeUint32_range_eq (buffer : List Nat) (p e v : Nat) (hp : p + 4 ≤ e)
    (he : e ≤ buffer.length) :
    writeUint32_range buffer (p : Int) (e : Int) v = writeUint32 buffer (p : Int) v := by
  unfold writeUint32_range writeUint32
  rw [if_neg (by omega), if_neg (by omega)]

/-- C31: `writeUint32_64`. For every value `v`, buffer and position, the buffer/position
overload throws `std::out_of_range` and leaves buffer and position as they were if
`v > 2^32 - 1` or fewer than 4 bytes remain at the position, and is `writeUint32` with the
same arguments otherwise; the begin/end overload does the same with the range from `begin`
to `end`. When 4 bytes remain at position `p` and `v <= 2^32 - 1`, both overloads return,
write the 4 bytes of `v` in big-endian order at `p`, leave the other bytes and advance the
position by 4. -/
theorem C31_writeUint32_64 (buffer : List Nat) (v : Nat) :
    (∀ position : Int, writeUint32_64 buffer position v
      = if v > 4294967295 ∨ 0 > position ∨ (buffer.length : Int) - position < 4
        then (.error StdExc.out_of_range, buffer, position)
        else writeUint32 buffer position v) ∧
    (∀ begin end_ : Int, writeUint32_64_range buffer begin end_ v
      = if v > 4294967295 ∨ end_ - begin < 4
        then (.error StdExc.out_of_range, buffer, begin)
        else writeUint32_range buffer begin end_ v) ∧
    (∀ p e : Nat, v ≤ 4294967295 → p + 4 ≤ e → e ≤ buffer.length →
      ∃ b1, writeUint32_64 buffer (p : Int) v = (.ok (), b1, (p : Int) + 4) ∧
        writeUint32_64_range buffer (p : Int) (e : Int) v = (.ok (), b1, (p : Int) + 4) ∧
        b1.length = buffer.length ∧
        (∀ j, j < 4 → b1.getD (p + j) 0 = beByte v 4 j) ∧
        (∀ i, ¬ (p ≤ i ∧ i < p + 4) → b1.getD i 0 = buffer.getD i 0)) := by
  have h1 : ∀ position : Int, writeUint32_64 buffer position v
      = if v > 4294967295 ∨ 0 > position ∨ (buffer.length : Int) - position < 4
        then (.error StdExc.out_of_range, buffer, position)
        else writeUint32 buffer position v := by
    intro position
    unfold writeUint32_64 writeUint32
    by_cases hb : 0 > position ∨ (buffer.length : Int) - position < 4
    · rw [if_pos hb, if_pos (Or.inr hb)]
    · by_cases hv : v > 4294967295
      · rw [if_neg hb, if_pos hv, if_pos (Or.inl hv)]
      · rw [if_neg hb, if_neg hv, if_neg (by tauto), if_neg hb]
        simp only [low32_eq (Nat.le_of_not_gt hv)]
  have h2 : ∀ begin end_ : Int, writeUint32_64_range buffer begin end_ v
      = if v > 4294967295 ∨ end_ - begin < 4
        then (.error StdExc.out_of_range, buffer, begin)
        else writeUint32_range buffer begin end_ v := by
    intro begin end_
    unfold writeUint32_64_range writeUint32_range
    by_cases hb : end_ - begin ≥ 4
    · by_cases hv : v > 4294967295
      · rw [if_neg (not_not.mpr hb), if_pos hv, if_pos (Or.inl hv)]
      · rw [if_neg (not_not.mpr hb), if_neg hv, if_neg (by omega), if_neg (not_not.mpr hb)]
        simp only [low32_eq (Nat.le_of_not_gt hv)]
    · rw [if_pos hb, if_pos (Or.inr (by omega))]
  refine ⟨h1, h2, ?_⟩
  intro p e hv hp he
  obtain ⟨b1, hw, hlen, hin, hout⟩ := writeUint32_spec buffer p v (by omega)
  refine ⟨b1, ?_, ?_, hlen, hin, hout⟩
  · rw [h1, if_neg (by omega), hw]
  · rw [h2, if_neg (by omega), writeUint32_range_eq buffer p e v hp he, hw]

/-- Witness for C31: the value 0xDEADBEEF written at position 1 of a buffer of 6 bytes. -/
theorem C31_writeUint32_64_witness :
    ∃ b1, writeUint32_64 [1, 2, 3, 4, 5, 6] ((1 : Nat) : Int) 0xDEADBEEF
        = (.ok (), b1, ((1 : Nat) : Int) + 4) ∧
      writeUint32_64_range [1, 2, 3, 4, 5, 6] ((1 : Nat) : Int) ((6 : Nat) : Int) 0xDEADBEEF
        = (.ok (), b1, ((1 : Nat) : Int) + 4) ∧
      b1.length = [1, 2, 3, 4, 5, 6].length ∧
      (∀ j, j < 4 → b1.getD (1 + j) 0 = beByte 0xDEADBEEF 4 j) ∧
      (∀ i, ¬ (1 ≤ i ∧ i < 1 + 4) → b1.getD i 0 = [1, 2, 3, 4, 5, 6].getD i 0) :=
  (C31_writeUint32_64 [1, 2, 3, 4, 5, 6] 0xDEADBEEF).2.2 1 6 (by decide) (by decide)
    (by decide)

/-- C32: string round trip. For every string `str` without a 0 character and every offset
`p` with at least `|str| + 1` bytes remaining, `writeString` returns, writes the characters
of `str` at `p`, a 0 byte behind them, leaves the other bytes and advances the position by
`|str| + 1`; `readString` at `p` with `maxLength == 0` on the result returns `str` and
advances the position by `|str| + 1`. On every buffer that has no 0 byte from offset `q` to
its end, `readString` at `q` throws `std::out_of_range` when `maxLength` is 0 or at
least the number of remaining bytes minus 1. -/
theorem C32_string_round_trip (buffer str : List Nat) (p : Nat)
    (hs : ∀ j, j < str.length → str.getD j 0 ≠ 0)
    (hp : p + str.length + 1 ≤ buffer.length) :
    (∃ b1, writeString buffer (p : Int) str
        = (.ok (), b1, ((p + str.length + 1 : Nat) : Int)) ∧
      b1.length = buffer.length ∧
      (∀ j, j < str.length → b1.getD (p + j) 0 = str.getD j 0) ∧
      b1.getD (p + str.length) 0 = 0 ∧
      (∀ i, ¬ (p ≤ i ∧ i < p + str.length + 1) → b1.getD i 0 = buffer.getD i 0) ∧
      readString b1 (p : Int) 0 = some (.ok str, ((p + str.length + 1 : Nat) : Int))) ∧
    (∀ (b : List Nat) (q M : Nat), (∀ i, q ≤ i → i < b.length → b.getD i 0 ≠ 0) →
      M = 0 ∨ b.length ≤ q + M + 1 →
      ∃ position, readString b (q : Int) M = some (.error StdExc.out_of_range, position)) := by
  constructor
  · obtain ⟨b1, hw, hlen, hin, hz, hout⟩ := writeString_spec buffer str p hp
    refine ⟨b1, hw, hlen, hin, hz, hout, ?_⟩
    unfold readString
    rw [if_neg (by omega)]
    have hnz : ∀ i, p ≤ i → i < p + str.length → b1.getD i 0 ≠ 0 := by
      intro i h1 h2
      have e : i = p + (i - p) := by omega
      rw [e, hin (i - p) (by omega)]
      exact hs _ (by omega)
    have hl := readString_loop_found b1 p (p + str.length) 0 (by omega) hz (Or.inl rfl)
      str.length p b1.length (le_refl _) rfl (by omega) hnz
    rw [hl, Nat.add_sub_cancel_left, drop_take_eq b1 str p (by omega) hin]
  · intro b q M hnz hM
    by_cases hq : q < b.length
    · refine ⟨(b.length : Int), ?_⟩
      unfold readString
      rw [if_neg (by omega)]
      exact readString_loop_missing b q M hM (b.length - q - 1) q b.length (le_refl _)
        (by omega) (by omega) hnz
    · refine ⟨(q : Int), ?_⟩
      unfold readString
      rw [if_pos (by omega)]

/-- Witness for C32: the string of the two characters 104, 105 written at offset 1 of a
buffer of 6 bytes. -/
theorem C32_string_round_trip_witness :
    ∃ b1, writeString [9, 9, 9, 9, 9, 9] ((1 : Nat) : Int) [104, 105]
        = (.ok (), b1, ((1 + [104, 105].length + 1 : Nat) : Int)) ∧
      b1.length = [9, 9, 9, 9, 9, 9].length ∧
      (∀ j, j < [104, 105].length → b1.getD (1 + j) 0 = [104, 105].getD j 0) ∧
      b1.getD (1 + [104, 105].length) 0 = 0 ∧
      (∀ i, ¬ (1 ≤ i ∧ i < 1 + [104, 105].length + 1) →
        b1.getD i 0 = [9, 9, 9, 9, 9, 9].getD i 0) ∧
      readString b1 ((1 : Nat) : Int) 0
        = some (.ok [104, 105], ((1 + [104, 105].length + 1 : Nat) : Int)) :=
  (C32_string_round_trip [9, 9, 9, 9, 9, 9] [104, 105] 1 (by decide) (by decide)).1

/-- Counterexample for C32: on a buffer of 6 bytes, all different from 0, `readString` at
offset 1 with `maxLength == 3` does not throw: its loop ends at the length limit, and it
returns the 4 bytes at the offsets 1 to 4 and the position 6. -/
theorem C32_readString_length_limit :
    (∀ i, i < [9, 9, 9, 9, 9, 9].length → [9, 9, 9, 9, 9, 9].getD i 0 ≠ 0) ∧
    readString [9, 9, 9, 9, 9, 9] 1 3 = some (.ok [9, 9, 9, 9], 6) :=
  ⟨by decide, rfl⟩

/-- C33: shrinking `resize`. For every writer state `s` and `L < nofBits()`, with `nofBits()`
below `2^31`, `resize(L)` returns with `nofBits() == L` and the bits below `L` as before;
every bit of byte `L / 8` from position `L mod 8` on is 0; in self-owned mode the byte
vector then has `(L + 7) / 8` bytes; in external mode the capacity and the region length
are unchanged and every byte with index from `(L + 7) / 8` to `capacityBytes - 1` is 0. -/
theorem C33_resize_shrink_zeroes (s : CBitBuffer) (hwf : s.wf) (L : Nat)
    (hL : L < s.nofBits) (hv : s.nofBits < 2147483648) :
    ∃ s1, s.resize L = (.ok (), s1) ∧ s1.nofBits = L ∧
      (∀ i, i < L → bitAt s1.m_buffer i = bitAt s.m_buffer i) ∧
      (∀ j, L % 8 ≤ j → j < 8 → bitAt s1.m_buffer (8 * (L / 8) + j) = false) ∧
      (s.m_useExtBuffer = false → s1.m_buffer.length = (L + 7) / 8) ∧
      (s.m_useExtBuffer = true →
        s1.m_extBufferSizeBytes = s.m_extBufferSizeBytes ∧
        s1.m_buffer.length = s.m_extBufferSizeBytes ∧
        ∀ j, (L + 7) / 8 ≤ j → j < s.m_extBufferSizeBytes → s1.m_buffer.getD j 0 = 0) := by
  obtain ⟨s1, hr, hwf1, hx1, he1, hn1, _, hkeep, hzero, hlen⟩ :=
    resize_le_spec hwf (k := L) (by omega) hv
  have hz := hzero hL
  refine ⟨s1, hr, hn1, hkeep, ?_, ?_, ?_⟩
  · intro j hj _
    exact hz _ (by omega)
  · intro hx
    rw [hlen, if_neg]
    rintro (h | h)
    · rw [hx] at h; cases h
    · omega
  · intro hx
    rw [if_pos (Or.inl hx)] at hlen
    refine ⟨he1, by rw [hlen]; exact hwf.ext_size hx, ?_⟩
    intro j hj _
    exact getD_zero_of_bits hwf1.bytes j (fun i hi _ => hz i (by omega))

/-- Witness for C33: an external region of three bytes 0xFF with 24 valid bits, shrunk to
12 bits. -/
theorem C33_resize_shrink_zeroes_witness :
    ∃ s1, (CBitBuffer.mk true [0xFF, 0xFF, 0xFF] 3 0 0 24).resize 12 = (.ok (), s1) ∧
      s1.nofBits = 12 ∧
      (∀ i, i < 12 → bitAt s1.m_buffer i = bitAt [0xFF, 0xFF, 0xFF] i) ∧
      (∀ j, 12 % 8 ≤ j → j < 8 → bitAt s1.m_buffer (8 * (12 / 8) + j) = false) ∧
      (true = false → s1.m_buffer.length = (12 + 7) / 8) ∧
      (true = true →
        s1.m_extBufferSizeBytes = 3 ∧ s1.m_buffer.length = 3 ∧
        ∀ j, (12 + 7) / 8 ≤ j → j < 3 → s1.m_buffer.getD j 0 = 0) :=
  C33_resize_shrink_zeroes (CBitBuffer.mk true [0xFF, 0xFF, 0xFF] 3 0 0 24)
    ⟨by decide, by decide, by decide, by decide, by decide, fun _ => rfl⟩ 12
    (by decide) (by decide)

/-- C34: chunked write and bitwise write. For every writer state `s`, unsigned type of
width `W`, `n <= W` and value `v` such that `write<T>(v, n)` returns with state `s1` (the
position `tell() + n + 7` being a `uint32_t` value), the `n` successive calls `write(bool)`
with the bits `n - 1`, `n - 2`, ..., `0` of `v` all return and end in the same state `s1`:
same bytes, `nofBits()`, `tell()` and all other members. Moreover `write(bool b)` is
`write<uint8_t>(b ? 1 : 0, 1)` on every state. -/
theorem C34_chunked_equals_bitwise (W : Nat) (hW : isWidth W) (s s1 : CBitBuffer)
    (hwf : s.wf) (v n : Nat) (hn : n ≤ W) (hrange : s.tell + n + 7 < 4294967296)
    (hok : s.write W v n = (.ok (), s1)) :
    CBitBuffer.writeBitwise v n s = (.ok (), s1) ∧
    ∀ (w : CBitBuffer) (b : Bool), w.write_bool b = w.write 8 (if b = true then 1 else 0) 1 := by
  refine ⟨?_, fun _ _ => rfl⟩
  have hcap : s.m_useExtBuffer = true → s.tell + n ≤ 8 * s.m_extBufferSizeBytes := by
    intro hx
    rcases write_cases W hW hwf v n (fun _ => hrange) with ⟨_, hf⟩ | ⟨hc, _⟩
    · rw [hf] at hok
      cases hok
    · by_contra h
      exact hc (Or.inr ⟨hx, by omega⟩)
  obtain ⟨s2, hw, hwf2, hx2, he2, ht2, hn2, hl2, hb2⟩ := write_ok W hW hwf hn v hrange hcap
  have e : s1 = s2 := by
    rw [hw] at hok
    cases hok
    rfl
  subst e
  obtain ⟨s3, hw3, hwf3, hx3, he3, ht3, hn3, hl3, hb3⟩ := writeBitwise_ok v n hwf hrange hcap
  have e3 : s3 = s1 :=
    writer_ext hwf3 hwf2 (by rw [hx3, hx2]) (by rw [he3, he2]) (by rw [ht3, ht2])
      (by rw [hn3, hn2]) (by rw [hl3, hl2]) (fun i => by rw [hb3 i, hb2 i])
  rw [hw3, e3]

/-- Witness for C34: 12 bits of 0xABC written to an empty self-owned writer. -/
theorem C34_chunked_equals_bitwise_witness :
    CBitBuffer.writeBitwise 0xABC 12 (CBitBuffer.mk_internal 0)
        = (.ok (), CBitBuffer.mk false [0xAB, 0xC0] 0 1 4 12) ∧
    ∀ (w : CBitBuffer) (b : Bool), w.write_bool b = w.write 8 (if b = true then 1 else 0) 1 :=
  C34_chunked_equals_bitwise 16 (by decide) (CBitBuffer.mk_internal 0)
    (CBitBuffer.mk false [0xAB, 0xC0] 0 1 4 12) (mk_internal_wf 0) 0xABC 12 (by decide)
    (by decide) rfl

/-- C35: cursor representation. The property fails for the reader: on a reader over the two
bytes 0xAB, 0xCD with 16 valid bits and the cursor at 0, `read<uint8_t>(8)` returns 0xAB
and leaves the stored byte index at 0 and the stored sub-byte offset at 8, not at 1 and 0;
the state is reachable and `tell()` is 8. -/
theorem C35_reader_offset_eight :
    (CBitParser.mk_ptr [0xAB, 0xCD] 16).Reachable ∧
    (CBitParser.mk_ptr [0xAB, 0xCD] 16).tell = 0 ∧
    (CBitParser.mk_ptr [0xAB, 0xCD] 16).read_unsigned 8 8
      = (.ok 0xAB, CBitParser.mk [0xAB, 0xCD] 0 8 16) ∧
    ((CBitParser.mk_ptr [0xAB, 0xCD] 16).read_unsigned 8 8).2.Reachable ∧
    ((CBitParser.mk_ptr [0xAB, 0xCD] 16).read_unsigned 8 8).2.tell = 8 :=
  ⟨CBitParser.Reachable.init _ _ (by decide) (by decide) (by decide), rfl, rfl,
    CBitParser.Reachable.read_unsigned 8 8 (by decide)
      (CBitParser.Reachable.init _ _ (by decide) (by decide) (by decide)), rfl⟩

/-- C36: stream output of a reader. The property fails: for a reader over the byte 0xA0 with
8 valid bits the operator writes the single character 1 and not the eight characters
10100000, because its loop ends at the first bit that is 0; for a reader over the byte 0xFF
it writes eight characters 1 and the following read throws `ReadException`. The operator
of the writer applied to the same byte 0xA0 writes 10100000. -/
theorem C36_reader_dump_stops_at_zero :
    CBitParser.operator_shl 9 [] (CBitParser.mk_ptr [0xA0] 8) = some (.ok (), ['1']) ∧
    CBitParser.operator_shl 9 [] (CBitParser.mk_ptr [0xFF] 8)
      = some (.error Exc.ReadException, ['1', '1', '1', '1', '1', '1', '1', '1']) ∧
    CBitBuffer.operator_shl [] (CBitBuffer.mk false [0xA0] 0 1 0 8)
      = (.ok (), ['1', '0', '1', '0', '0', '0', '0', '0']) :=
  ⟨rfl, rfl, rfl⟩

/-- C37: `append` extends the end of the valid bits. For every writer state `s` with `L`
valid bits, at any cursor position, and every call `append(bytes)` that returns, with
`L + 8 * |bytes|` below `2^31`: afterwards `nofBits()` is `L + 8 * |bytes|`, the first `L`
bits are those of `s`, and the bit at index `L + k` is bit `k` of the byte sequence, most
significant bit of the first byte first. -/
theorem C37_append_extends_end (s s1 : CBitBuffer) (hwf : s.wf) (bytes : List Nat)
    (hrange : s.nofBits + 8 * bytes.length < 2147483648)
    (hok : s.append bytes = (.ok (), s1)) :
    s1.nofBits = s.nofBits + 8 * bytes.length ∧
    s1.validBits.take s.nofBits = s.validBits ∧
    (∀ i, i < s.nofBits → bitAt s1.m_buffer i = bitAt s.m_buffer i) ∧
    (∀ k, k < 8 * bytes.length → bitAt s1.m_buffer (s.nofBits + k) = bitAt bytes k) := by
  have hcap : s.m_useExtBuffer = true →
      s.nofBits + 8 * bytes.length ≤ 8 * s.m_extBufferSizeBytes := by
    intro hx
    by_contra hc
    have hf := append_fail bytes hx (by omega)
    rw [hf] at hok
    cases hok
  obtain ⟨s2, hs2, _, _, _, hn, _, hbits⟩ := append_spec hwf bytes hrange hcap
  have e : s1 = s2 := by
    rw [hs2] at hok
    cases hok
    rfl
  subst e
  have hkeep : ∀ i, i < s.nofBits → bitAt s1.m_buffer i = bitAt s.m_buffer i := by
    intro i hi
    rw [hbits i, if_neg (by omega)]
  refine ⟨hn, ?_, hkeep, ?_⟩
  · unfold CBitBuffer.validBits
    rw [hn, ← List.map_take, List.take_range, Nat.min_eq_left (by omega)]
    apply List.map_congr_left
    intro i hi
    exact hkeep i (List.mem_range.mp hi)
  · intro k hk
    rw [hbits (s.nofBits + k), if_pos ⟨by omega, by omega⟩, Nat.add_sub_cancel_left]

/-- Witness for C37: the byte 0xFF appended to a writer holding 12 valid bits with the
cursor at 0. -/
theorem C37_append_extends_end_witness :
    (CBitBuffer.mk false [0x12, 0x30] 0 0 0 12).nofBits = 12 ∧
    (CBitBuffer.mk false [0x12, 0x3F, 0xF0] 0 0 0 20).nofBits = 12 + 8 * [0xFF].length ∧
    (∀ k, k < 8 * [0xFF].length →
      bitAt (CBitBuffer.mk false [0x12, 0x3F, 0xF0] 0 0 0 20).m_buffer (12 + k)
        = bitAt [0xFF] k) :=
  ⟨rfl,
    (C37_append_extends_end (CBitBuffer.mk false [0x12, 0x30] 0 0 0 12)
      (CBitBuffer.mk false [0x12, 0x3F, 0xF0] 0 0 0 20)
      ⟨by decide, by decide, by decide, by decide, by decide, by decide⟩
      [0xFF] (by decide) rfl).1,
    (C37_append_extends_end (CBitBuffer.mk false [0x12, 0x30] 0 0 0 12)
      (CBitBuffer.mk false [0x12, 0x3F, 0xF0] 0 0 0 20)
      ⟨by decide, by decide, by decide, by decide, by decide, by decide⟩
      [0xFF] (by decide) rfl).2.2.2⟩

/-- C39: byte accesses of the writer stay inside the byte region. For every writer state in
external mode that satisfies the representation invariant (a region of `capacityBytes`
bytes, `nofBits() <= 8 * capacityBytes`, `tell() <= nofBits()`), the region being smaller
than 256 MiB (`8 * capacityBytes + 64 < 2^31`): no call of `write`, `append`, `insert`,
`erase` (with `firstBit + n` not wrapping), `resize`, `byteAlign` or `seek`, with arbitrary
arguments, returning or throwing, accesses a byte outside the region. -/
theorem C39_writer_in_bounds (s : CBitBuffer) (hwf : s.wf) (hx : s.m_useExtBuffer = true)
    (hsize : 8 * s.m_extBufferSizeBytes + 64 < 2147483648) :
    (∀ W v n, isWidth W → inBounds (s.write W v n).1) ∧
    (∀ bytes : List Nat, inBounds (s.append bytes).1) ∧
    (∀ W v before n, isWidth W → inBounds (CBitBuffer.insert W s v before n).1) ∧
    (∀ firstBit n, firstBit + n < 4294967296 → inBounds (s.erase firstBit n).1) ∧
    (∀ k, inBounds (s.resize k).1) ∧
    inBounds s.byteAlign.1 ∧
    (∀ offset origin, inBounds (s.seek offset origin).1) := by
  have hcapv : s.nofBits ≤ 8 * s.m_extBufferSizeBytes := by
    have h1 := hwf.valid_le
    have h2 := hwf.ext_size hx
    unfold CBitBuffer.nofBits
    omega
  have htle := writer_tell_le hwf
  refine ⟨?_, ?_, ?_, ?_, ?_, ?_, ?_⟩
  · intro W v n hW
    have hW64 := isWidth_le hW
    rcases write_cases W hW hwf v n (fun _ => by omega) with ⟨_, h⟩ | ⟨_, s1, h, _⟩
    · rw [h]; trivial
    · rw [h]; trivial
  · intro bytes
    by_cases hc : 8 * s.m_extBufferSizeBytes < s.nofBits + 8 * bytes.length
    · rw [append_fail bytes hx hc]; trivial
    · obtain ⟨s1, h, _⟩ := append_spec hwf bytes (by omega) (fun _ => by omega)
      rw [h]; trivial
  · intro W v before n hW
    have hW64 := isWidth_le hW
    by_cases hn : n ≤ W
    · by_cases hf : s.nofBits < before ∨
          (s.m_useExtBuffer = true ∧ 8 * s.m_extBufferSizeBytes < s.nofBits + n ∧
            s.nofBits + n < 4294967296)
      · rw [insert_fail_early W s v before n hf]; trivial
      · have hb : before ≤ s.nofBits := by omega
        have hcap : s.m_useExtBuffer = true →
            s.nofBits + n ≤ 8 * s.m_extBufferSizeBytes := by
          intro _
          by_contra hc
          exact hf (Or.inr ⟨hx, by omega, by omega⟩)
        obtain ⟨s1, h, _⟩ := insert_spec W hW hwf v hb hn (by omega) hcap
        rw [h]; trivial
    · rcases insert_wide_outcome W hwf v before (n := n) (by omega) (by omega) with
        h | ⟨s1, h, _⟩
      · rw [h]; trivial
      · rw [h]; trivial
  · intro firstBit n hsum
    by_cases hf : s.nofBits < firstBit + n
    · rw [erase_fail s firstBit n hsum hf]; trivial
    · obtain ⟨s1, h, _⟩ :=
        erase_spec hwf (show firstBit + n ≤ s.nofBits by omega) (by omega)
      rw [h]; trivial
  · intro k
    by_cases hc : 8 * s.m_extBufferSizeBytes < k
    · obtain ⟨s1, h, _⟩ := resize_grow_fail hwf (k := k) (by omega) (by omega) hx hc
      rw [h]; trivial
    · obtain ⟨s1, h, _⟩ := resize_spec hwf k (by omega) (by omega) (fun _ => by omega)
      rw [h]; trivial
  · obtain ⟨s1, h, _⟩ := byteAlign_spec hwf (by omega)
    rw [h]; trivial
  · intro offset origin
    rcases writer_seek_outcome s offset origin with ⟨s1, h⟩ | h
    · rw [h]; trivial
    · rw [h]; trivial

/-- Witness for C39: on an external region of 3 bytes with the cursor at bit 4,
`write<uint16_t>(0xFFFF, 16)` changes the three bytes, the last one in the second byte of
the window of `writeIntern`, and `insert<uint8_t>(1, 0, 4294967295)`, whose capacity check
passes because the sum wraps, throws `WriteException`; neither leaves the region. -/
theorem C39_writer_in_bounds_witness :
    (CBitBuffer.mk true [0xAB, 0xCD, 0xEF] 3 0 4 24).write 16 0xFFFF 16
      = (.ok (), CBitBuffer.mk true [0xAF, 0xFF, 0xFF] 3 2 4 24) ∧
    inBounds ((CBitBuffer.mk true [0xAB, 0xCD, 0xEF] 3 0 4 24).write 16 0xFFFF 16).1 ∧
    inBounds (CBitBuffer.insert 8 (CBitBuffer.mk true [0xAB, 0xCD, 0xEF] 3 0 4 24) 1 0
      4294967295).1 :=
  ⟨rfl,
    (C39_writer_in_bounds (CBitBuffer.mk true [0xAB, 0xCD, 0xEF] 3 0 4 24)
      ⟨by decide, by decide, by decide, by decide, by decide, fun _ => rfl⟩ rfl
      (by decide)).1 16 0xFFFF 16 (by decide),
    (C39_writer_in_bounds (CBitBuffer.mk true [0xAB, 0xCD, 0xEF] 3 0 4 24)
      ⟨by decide, by decide, by decide, by decide, by decide, fun _ => rfl⟩ rfl
      (by decide)).2.2.1 8 1 0 4294967295 (by decide)⟩

/-- C40: byte accesses of the reader stay inside the byte region. In every state reachable
from a reader over `S` bytes with `nofBits() <= 8 * S` by reads and seeks, no call of
`read<T>(n)`, for an unsigned or signed type `T` and any `n`, returning or throwing,
accesses a byte outside the region; this includes the states whose stored sub-byte offset
is 8. -/
theorem C40_reader_in_bounds (p : CBitParser) (h : p.Reachable) (W n : Nat)
    (hW : isWidth W) :
    inBounds (p.read_unsigned W n).1 ∧ inBounds (p.read_signed W n).1 := by
  have hwf := h.to_wf
  have hW64 : W ≤ 64 := by
    rcases hW with h | h | h | h <;> omega
  constructor
  · rcases read_unsigned_cases W hwf n with ⟨_, e⟩ | ⟨_, r, p1, e, _⟩
    · rw [e]; trivial
    · rw [e]; trivial
  · rcases read_signed_cases W hW64 hwf n with ⟨_, e⟩ | ⟨_, r, p1, e, _⟩
    · rw [e]; trivial
    · rw [e]; trivial

/-- Witness for C40: the reader over 0xAB, 0xCD after `read<uint8_t>(8)`, whose stored
sub-byte offset is 8, and a read of 8 further bits, which are the last byte. -/
theorem C40_reader_in_bounds_witness :
    ((CBitParser.mk_ptr [0xAB, 0xCD] 16).read_unsigned 8 8).2.m_localReadBits = 8 ∧
    inBounds ((((CBitParser.mk_ptr [0xAB, 0xCD] 16).read_unsigned 8 8).2).read_unsigned 8 8).1 :=
  ⟨rfl, (C40_reader_in_bounds ((CBitParser.mk_ptr [0xAB, 0xCD] 16).read_unsigned 8 8).2
    (CBitParser.Reachable.read_unsigned 8 8 (by decide)
      (CBitParser.Reachable.init _ _ (by decide) (by decide) (by decide)))
    8 8 (by decide)).1⟩

end ilo

namespace ilo

/-! ## Specification properties that fail where a 32-bit computation wraps -/

/-- C13: the capacity check of `insert<T>` with a wrapping sum. On a writer over an external
region of one byte that holds the 8 valid bits `0xFF`, `insert<uint8_t>(1, 0, 4294967295)`
has `nofBits() + n` above `8 * capacityBytes`, but the sum computed in `uint32_t` is 7: the
check passes, the writer is truncated to 0 bits with the byte set to 0, and `write<T>`
throws `WriteException`, not `InsertException`. -/
theorem C13_insert_wrapping_capacity :
    (CBitBuffer.mk true [0xFF] 1 1 0 8).m_useExtBuffer = true ∧
    8 * (CBitBuffer.mk true [0xFF] 1 1 0 8).m_extBufferSizeBytes
      < (CBitBuffer.mk true [0xFF] 1 1 0 8).nofBits + 4294967295 ∧
    u32 ((CBitBuffer.mk true [0xFF] 1 1 0 8).nofBits + 4294967295) = 7 ∧
    CBitBuffer.insert 8 (CBitBuffer.mk true [0xFF] 1 1 0 8) 1 0 4294967295
      = (.error Exc.WriteException, CBitBuffer.mk true [0x00] 1 0 0 0) :=
  ⟨rfl, by decide, rfl, rfl⟩

/-- C21: `resize(L)` with `L + 7` above the `uint32_t` range. On a self-owned writer holding
the 8 valid bits `0xFF`, `resize(4294967295)` computes the new vector length
`(L + 7u) / 8u` as 0 and empties the vector, so the 8 valid bits are lost. The loop that
writes the zero bits grows the vector again; its last chunk computes the needed length as 0
once more, empties the vector and accesses a byte outside it (`Exc.OutOfBounds`). -/
theorem C21_resize_wrapping_size :
    u32 (4294967295 + 7) / 8 = 0 ∧
    vecResize (CBitBuffer.mk false [0xFF] 0 0 0 8).m_buffer (u32 (4294967295 + 7) / 8) = [] ∧
    ∃ s1, (CBitBuffer.mk false [0xFF] 0 0 0 8).resize 4294967295
        = (.error Exc.OutOfBounds, s1) ∧ s1.m_buffer = [] :=
  ⟨rfl, rfl,
    (resize_overflow (s := CBitBuffer.mk false [0xFF] 0 0 0 8)
      ⟨⟨by decide, by decide, by decide, by decide, by decide, fun h => by cases h⟩, rfl, rfl,
        by decide, fun _ hi => bitAt_out_of_range hi⟩
      (by decide) (k := 4294967295) (by decide) (by decide)).imp
      (fun _ h => ⟨h.1, h.2.1⟩)⟩

/-- C22: `resize(L1)` followed by `resize(L0)` with `L1 + 7` above the `uint32_t` range. On
a self-owned writer holding the 16 valid bits `0xA5, 0x3C`, with `L0 = 4` and
`L1 = 4294967290`, the first call empties the vector, so the first `L0` bits are lost, and
it ends with an access to a byte outside the vector (`Exc.OutOfBounds`); bit 0, which was 1,
is not 1 in the state the call leaves. -/
theorem C22_resize_grow_wrapping :
    4 ≤ (CBitBuffer.mk false [0xA5, 0x3C] 0 0 0 16).nofBits ∧
    (CBitBuffer.mk false [0xA5, 0x3C] 0 0 0 16).nofBits ≤ 4294967290 ∧
    bitAt (CBitBuffer.mk false [0xA5, 0x3C] 0 0 0 16).m_buffer 0 = true ∧
    ∃ s1, (CBitBuffer.mk false [0xA5, 0x3C] 0 0 0 16).resize 4294967290
        = (.error Exc.OutOfBounds, s1) ∧ bitAt s1.m_buffer 0 = false := by
  refine ⟨by decide, by decide, rfl, ?_⟩
  obtain ⟨s1, hr, hb, _⟩ :=
    resize_overflow (s := CBitBuffer.mk false [0xA5, 0x3C] 0 0 0 16)
      ⟨⟨by decide, by decide, by decide, by decide, by decide, fun h => by cases h⟩, rfl, rfl,
        by decide, fun _ hi => bitAt_out_of_range hi⟩
      (by decide) (k := 4294967290) (by decide) (by decide)
  exact ⟨s1, hr, by rw [hb]; rfl⟩

/-- C26: the writer state invariant after `resize` with a size near `2^32`. From the writer
constructed with an internal buffer of length 0, `write<uint8_t>(0xAB, 8)` returns; then
`resize(4294967295)` empties the vector, writes zero bits up to bit `2^32 - 8`, empties the
vector again and accesses a byte outside it. In the state the call leaves, the number of
valid bits is above 8 times the number of bytes of storage, which is 0. -/
theorem C26_invariant_lost_by_resize :
    (CBitBuffer.mk_internal 0).Constructed ∧
    (CBitBuffer.mk_internal 0).write 8 0xAB 8 = (.ok (), CBitBuffer.mk false [0xAB] 0 1 0 8) ∧
    ∃ s1, (CBitBuffer.mk false [0xAB] 0 1 0 8).resize 4294967295
        = (.error Exc.OutOfBounds, s1) ∧
      s1.m_buffer.length = 0 ∧ ¬ (s1.nofBits ≤ 8 * s1.m_buffer.length) := by
  refine ⟨Or.inl ⟨0, rfl⟩, rfl, ?_⟩
  obtain ⟨s1, hr, hb, hn⟩ :=
    resize_overflow (s := CBitBuffer.mk false [0xAB] 0 1 0 8)
      ⟨⟨by decide, by decide, by decide, by decide, by decide, fun h => by cases h⟩, rfl, rfl,
        by decide, fun _ hi => bitAt_out_of_range hi⟩
      (by decide) (k := 4294967295) (by decide) (by decide)
  refine ⟨s1, hr, by rw [hb]; rfl, ?_⟩
  rw [hb]
  simp only [List.length_nil]
  omega

/-- C28: `nofBytes()` of a reader with `nofBits() + 7` above the `uint32_t` range. A reader
constructed from a pointer with `nofValidBits == 4294967295` has `nofBits() == 4294967295`
and `nofBytes() == 0`, while `nofBits()` divided by 8 and rounded up is 536870912; this is
so over a region of one byte and over a region of 536870912 bytes, for which the reader is
a reachable state. -/
theorem C28_nofBytes_wraps :
    (CBitParser.mk_ptr [0xAB] 4294967295).nofBits = 4294967295 ∧
    (CBitParser.mk_ptr [0xAB] 4294967295).nofBytes = 0 ∧
    (4294967295 + 7) / 8 = 536870912 ∧
    (CBitParser.mk_ptr (List.replicate 536870912 0) 4294967295).Reachable ∧
    (CBitParser.mk_ptr (List.replicate 536870912 0) 4294967295).nofBytes = 0 :=
  ⟨rfl, rfl, rfl,
    CBitParser.Reachable.init _ _
      (fun b hb => by rw [List.eq_of_mem_replicate hb]; decide)
      (by rw [List.length_replicate]; decide) (by decide),
    rfl⟩

end ilo
